import Mathlib

/-!
# NotebookLM MCP server: batchexecute codec and credential store

A shallow embedding of the packages `internal/api`, `internal/auth`,
`internal/constants` and `internal/mcp`.

Go `string` and `[]byte` values are byte sequences; both are modelled as
`List Nat` (one number per byte).  The parts of the Go standard library the
program calls (`strings`, `unicode/utf8`, `encoding/json`, `strconv`,
`regexp`) are modelled next to it, following the behaviour of the library
sources: `encoding/json` by its scanner state machine, its string unquoting
and its string quoting, `strconv.ParseFloat` as the correctly rounded
conversion to a `float64`.  The network is a function from the history of requests to
the answer of the next one; the mutex of the credential store is not modelled
(runs are sequential).
-/

namespace NotebookLM

/-- A Go `string` / `[]byte`: a sequence of bytes. -/
abbrev Bytes := List Nat

deriving instance DecidableEq for Except

/-- The bytes of an ASCII literal. -/
def ascii (s : String) : Bytes := s.toList.map Char.toNat

/-! ## Package `strings` -/

namespace Strings

/-- Go `strings.HasPrefix`. -/
def HasPrefix (s pre : Bytes) : Bool := pre.isPrefixOf s

/-- Go `strings.Index(s, "\n")`: byte index of the first newline, if any. -/
def IndexNewline : Bytes → Option Nat
  | [] => none
  | c :: rest => if c = 10 then some 0 else (IndexNewline rest).map (· + 1)

/-- Go `strings.Split(s, "\n")`. -/
def SplitNewline : Bytes → List Bytes
  | [] => [[]]
  | c :: rest =>
    if c = 10 then [] :: SplitNewline rest
    else match SplitNewline rest with
      | [] => [[c]]
      | l :: ls => (c :: l) :: ls

/-- The ASCII white space bytes of `unicode.IsSpace`:
`\t`, `\n`, `\v`, `\f`, `\r` and the blank. -/
def isAsciiSpace (c : Nat) : Bool :=
  c = 9 ∨ c = 10 ∨ c = 11 ∨ c = 12 ∨ c = 13 ∨ c = 32

/-- The two-byte encodings of white space runes: U+0085 and U+00A0. -/
def isSpace2 (a b : Nat) : Bool := a = 0xC2 ∧ (b = 0x85 ∨ b = 0xA0)

/-- The three-byte encodings of white space runes: U+1680, U+2000..U+200A,
U+2028, U+2029, U+202F, U+205F and U+3000. -/
def isSpace3 (a b c : Nat) : Bool :=
  (a = 0xE1 ∧ b = 0x9A ∧ c = 0x80) ∨
  (a = 0xE2 ∧ b = 0x80 ∧ ((0x80 ≤ c ∧ c ≤ 0x8A) ∨ c = 0xA8 ∨ c = 0xA9 ∨ c = 0xAF)) ∨
  (a = 0xE2 ∧ b = 0x81 ∧ c = 0x9F) ∨
  (a = 0xE3 ∧ b = 0x80 ∧ c = 0x80)

/-- Length of the UTF-8 encoding of a Unicode white space rune at the start
of `s` (`unicode.IsSpace` of `utf8.DecodeRuneInString`), or `0` when `s` does
not start with one. -/
def spaceLen : Bytes → Nat
  | a :: b :: c :: _ =>
    if isAsciiSpace a then 1 else if isSpace2 a b then 2
    else if isSpace3 a b c then 3 else 0
  | a :: b :: [] => if isAsciiSpace a then 1 else if isSpace2 a b then 2 else 0
  | a :: [] => if isAsciiSpace a then 1 else 0
  | [] => 0

/-- The same test on the reversed string: length of the encoding of a white
space rune at the end of the string (`utf8.DecodeLastRuneInString`). -/
def spaceLenRev : Bytes → Nat
  | a :: b :: c :: _ =>
    if isAsciiSpace a then 1 else if isSpace2 b a then 2
    else if isSpace3 c b a then 3 else 0
  | a :: b :: [] => if isAsciiSpace a then 1 else if isSpace2 b a then 2 else 0
  | a :: [] => if isAsciiSpace a then 1 else 0
  | [] => 0

/-- Drop white space runes from the front, `len` measuring one rune. -/
def dropSpaces (len : Bytes → Nat) : Nat → Bytes → Bytes
  | 0, s => s
  | fuel + 1, s => if len s = 0 then s else dropSpaces len fuel (s.drop (len s))

/-- Go `strings.TrimLeftFunc(s, unicode.IsSpace)`. -/
def TrimLeftSpace (s : Bytes) : Bytes := dropSpaces spaceLen s.length s

/-- Go `strings.TrimRightFunc(s, unicode.IsSpace)`. -/
def TrimRightSpace (s : Bytes) : Bytes :=
  (dropSpaces spaceLenRev s.length s.reverse).reverse

/-- Go `strings.TrimSpace`. -/
def TrimSpace (s : Bytes) : Bytes := TrimRightSpace (TrimLeftSpace s)

/-- Go `strings.Index(s, sep)` for a separator of one byte `c`
(`strings.IndexByte`): byte index of the first `c`, if any. -/
def IndexByte (c : Nat) : Bytes → Option Nat
  | [] => none
  | d :: rest => if d = c then some 0 else (IndexByte c rest).map (· + 1)

/-- The Go slice expression `s[i:j]` on a string, indices being `int`s: `none`
is the run-time panic for indices out of range. -/
def sliceOf (s : Bytes) (i j : Int) : Option Bytes :=
  if 0 ≤ i ∧ i ≤ j ∧ j ≤ s.length then some ((s.drop i.toNat).take (j - i).toNat) else none

/-- The Go index expression `s[i]` on a string: `none` is the run-time panic
for an index out of range. -/
def byteAt (s : Bytes) (i : Int) : Option Nat :=
  if 0 ≤ i then s.get? i.toNat else none

/-- The lower-case letter of an ASCII byte: `A`..`Z` become `a`..`z`. -/
def toLowerByte (c : Nat) : Nat := if 65 ≤ c ∧ c ≤ 90 then c + 32 else c

/-- Go `strings.ToLower`.  A string of ASCII bytes is returned as it is when
it has no letter `A`..`Z`, and with these letters replaced by `a`..`z`
otherwise; a string with a byte from 0x80 on is handed to
`strings.Map(unicode.ToLower, s)`, which is the parameter `mapLower`. -/
def ToLower (mapLower : Bytes → Bytes) (s : Bytes) : Bytes :=
  if s.all (· < 128) then
    if s.any (fun c => 65 ≤ c ∧ c ≤ 90) then s.map toLowerByte else s
  else mapLower s

end Strings

/-! ## Package `unicode/utf8` and `unicode/utf16` -/

namespace Utf8

/-- The rune `utf8.RuneError` (U+FFFD). -/
def RuneError : Nat := 0xFFFD

/-- A continuation byte `10xxxxxx`. -/
def isCont (c : Nat) : Bool := 0x80 ≤ c ∧ c ≤ 0xBF

/-- The range Go's `acceptRanges` allows for the second byte after the lead
byte `a` of a three-byte encoding. -/
def second3 (a b : Nat) : Bool :=
  if a = 0xE0 then 0xA0 ≤ b ∧ b ≤ 0xBF
  else if a = 0xED then 0x80 ≤ b ∧ b ≤ 0x9F
  else isCont b

/-- The range Go's `acceptRanges` allows for the second byte after the lead
byte `a` of a four-byte encoding. -/
def second4 (a b : Nat) : Bool :=
  if a = 0xF0 then 0x90 ≤ b ∧ b ≤ 0xBF
  else if a = 0xF4 then 0x80 ≤ b ∧ b ≤ 0x8F
  else isCont b

/-- Go `utf8.DecodeRune`: the first rune of `s` and its width in bytes.  An
empty input gives `(RuneError, 0)`, an encoding that is not valid UTF-8 gives
`(RuneError, 1)`. -/
def DecodeRune : Bytes → Nat × Nat
  | [] => (RuneError, 0)
  | a :: rest =>
    if a < 0x80 then (a, 1)
    else if a < 0xC2 then (RuneError, 1)
    else if a < 0xE0 then
      match rest with
      | b :: _ => if isCont b then ((a % 32) * 64 + b % 64, 2) else (RuneError, 1)
      | _ => (RuneError, 1)
    else if a < 0xF0 then
      match rest with
      | b :: c :: _ =>
        if second3 a b ∧ isCont c
        then ((a % 16) * 4096 + (b % 64) * 64 + c % 64, 3) else (RuneError, 1)
      | _ => (RuneError, 1)
    else if a < 0xF5 then
      match rest with
      | b :: c :: d :: _ =>
        if second4 a b ∧ isCont c ∧ isCont d
        then ((a % 8) * 262144 + (b % 64) * 4096 + (c % 64) * 64 + d % 64, 4)
        else (RuneError, 1)
      | _ => (RuneError, 1)
    else (RuneError, 1)

/-- Go `utf8.EncodeRune` (as the bytes written). -/
def EncodeRune (r : Nat) : Bytes :=
  if r ≤ 0x7F then [r]
  else if r ≤ 0x7FF then [0xC0 + r / 64, 0x80 + r % 64]
  else if r > 0x10FFFF ∨ (0xD800 ≤ r ∧ r ≤ 0xDFFF) then [0xEF, 0xBF, 0xBD]
  else if r ≤ 0xFFFF then [0xE0 + r / 4096, 0x80 + (r / 64) % 64, 0x80 + r % 64]
  else [0xF0 + r / 262144, 0x80 + (r / 4096) % 64, 0x80 + (r / 64) % 64, 0x80 + r % 64]

/-- The loop of Go `utf8.Valid`.  Every round consumes at least one byte. -/
def validLoop : Nat → Bytes → Bool
  | _, [] => true
  | 0, _ :: _ => false
  | fuel + 1, a :: rest =>
    if a < 0x80 then validLoop fuel rest
    else if (DecodeRune (a :: rest)).1 = RuneError ∧ (DecodeRune (a :: rest)).2 = 1 then false
    else validLoop fuel ((a :: rest).drop (DecodeRune (a :: rest)).2)

/-- Go `utf8.Valid`: the bytes are well-formed UTF-8. -/
def Valid (s : Bytes) : Bool := validLoop s.length s

/-- Go `utf16.IsSurrogate`. -/
def IsSurrogate (r : Nat) : Bool := 0xD800 ≤ r ∧ r < 0xE000

/-- Go `utf16.DecodeRune`; `none` stands for a second unit that is no rune at
all (`getu4` returned -1).  The result is U+FFFD when the pair is not a valid
surrogate pair. -/
def DecodeSurrogates (r1 : Nat) (r2 : Option Nat) : Nat :=
  match r2 with
  | some r2 =>
    if 0xD800 ≤ r1 ∧ r1 < 0xDC00 ∧ 0xDC00 ≤ r2 ∧ r2 < 0xE000
    then (r1 - 0xD800) * 1024 + (r2 - 0xDC00) + 0x10000 else RuneError
  | none => RuneError

/-- The loop of Go `utf8.RuneCount`: every round counts one rune and consumes
at least one byte. -/
def runeCountLoop : Nat → Bytes → Nat
  | _, [] => 0
  | 0, _ :: _ => 0
  | fuel + 1, a :: rest =>
    1 + runeCountLoop fuel ((a :: rest).drop (DecodeRune (a :: rest)).2)

/-- Go `utf8.RuneCount`: the number of characters (runes) of `s`. -/
def RuneCount (s : Bytes) : Nat := runeCountLoop s.length s

end Utf8

/-! ## Package `encoding/json`: the scanner (`scanner.go`) -/

namespace Json

/-- The scanner's state functions (`scanner.step`). -/
inductive Step where
  | beginValueOrEmpty | beginValue | beginStringOrEmpty | beginString
  | endValue | endTop
  | inString | inStringEsc | inStringEscU | inStringEscU1 | inStringEscU12
  | inStringEscU123
  | neg | one | zero | dot | dot0 | e | eSign | e0
  | t | tr | tru | f | fa | fal | fals | n | nu | nul
  | error
  deriving DecidableEq, Repr

/-- What the scanner is in the middle of (`parseState` entries). -/
inductive ParseKind where
  | objectKey | objectValue | arrayValue
  deriving DecidableEq, Repr

/-- The scanner's result codes. -/
inductive Op where
  | scanContinue | scanBeginLiteral | scanBeginObject | scanObjectKey
  | scanObjectValue | scanEndObject | scanBeginArray | scanArrayValue
  | scanEndArray | scanSkipSpace | scanEnd | scanError
  deriving DecidableEq, Repr

/-- Go `maxNestingDepth`. -/
def maxNestingDepth : Nat := 10000

/-- The scanner.  `parseState` is the stack of open composites, innermost
first.  The Go field `err` is set exactly when `step` is `stateError`. -/
structure Scanner where
  step : Step
  parseState : List ParseKind
  endTop : Bool
  deriving DecidableEq, Repr

/-- Go `scanner.reset`. -/
def Scanner.reset : Scanner := ⟨.beginValue, [], false⟩

/-- Go `isSpace` of the scanner: blank, `\t`, `\r`, `\n`. -/
def isSpace (c : Nat) : Bool := c = 32 ∨ c = 9 ∨ c = 13 ∨ c = 10

/-- A decimal digit. -/
def isDigit (c : Nat) : Bool := 48 ≤ c ∧ c ≤ 57

/-- A hexadecimal digit. -/
def isHex (c : Nat) : Bool :=
  (48 ≤ c ∧ c ≤ 57) ∨ (97 ≤ c ∧ c ≤ 102) ∨ (65 ≤ c ∧ c ≤ 70)

/-- Go `scanner.error`. -/
def Scanner.fail (s : Scanner) : Scanner × Op := ({ s with step := .error }, .scanError)

/-- Move to state `st`, reporting `op`. -/
def Scanner.goto (s : Scanner) (st : Step) (op : Op) : Scanner × Op :=
  ({ s with step := st }, op)

/-- Go `scanner.pushParseState`, after `step` was set to `st`. -/
def Scanner.pushParseState (s : Scanner) (st : Step) (k : ParseKind) (op : Op) :
    Scanner × Op :=
  if s.parseState.length + 1 ≤ maxNestingDepth
  then ({ s with step := st, parseState := k :: s.parseState }, op)
  else ({ s with step := .error, parseState := k :: s.parseState }, .scanError)

/-- Go `scanner.popParseState`. -/
def Scanner.popParseState (s : Scanner) : Scanner :=
  match s.parseState.tail with
  | [] => { step := .endTop, parseState := [], endTop := true }
  | rest => { s with step := .endValue, parseState := rest }

/-- Go `stateEndTop`. -/
def stateEndTop (s : Scanner) (c : Nat) : Scanner × Op :=
  if isSpace c then (s, .scanEnd) else ({ s with step := .error }, .scanEnd)

/-- Go `stateEndValue`. -/
def stateEndValue (s : Scanner) (c : Nat) : Scanner × Op :=
  match s.parseState with
  | [] => stateEndTop { s with step := .endTop, endTop := true } c
  | ps :: rest =>
    if isSpace c then s.goto .endValue .scanSkipSpace
    else match ps with
      | .objectKey =>
        if c = 58 then
          ({ s with step := .beginValue, parseState := .objectValue :: rest }, .scanObjectKey)
        else s.fail
      | .objectValue =>
        if c = 44 then
          ({ s with step := .beginString, parseState := .objectKey :: rest }, .scanObjectValue)
        else if c = 125 then (s.popParseState, .scanEndObject)
        else s.fail
      | .arrayValue =>
        if c = 44 then s.goto .beginValue .scanArrayValue
        else if c = 93 then (s.popParseState, .scanEndArray)
        else s.fail

/-- Go `stateBeginValue`. -/
def stateBeginValue (s : Scanner) (c : Nat) : Scanner × Op :=
  if isSpace c then (s, .scanSkipSpace)
  else if c = 123 then s.pushParseState .beginStringOrEmpty .objectKey .scanBeginObject
  else if c = 91 then s.pushParseState .beginValueOrEmpty .arrayValue .scanBeginArray
  else if c = 34 then s.goto .inString .scanBeginLiteral
  else if c = 45 then s.goto .neg .scanBeginLiteral
  else if c = 48 then s.goto .zero .scanBeginLiteral
  else if c = 116 then s.goto .t .scanBeginLiteral
  else if c = 102 then s.goto .f .scanBeginLiteral
  else if c = 110 then s.goto .n .scanBeginLiteral
  else if 49 ≤ c ∧ c ≤ 57 then s.goto .one .scanBeginLiteral
  else s.fail

/-- Go `stateBeginValueOrEmpty`. -/
def stateBeginValueOrEmpty (s : Scanner) (c : Nat) : Scanner × Op :=
  if isSpace c then (s, .scanSkipSpace)
  else if c = 93 then stateEndValue s c
  else stateBeginValue s c

/-- Go `stateBeginString`. -/
def stateBeginString (s : Scanner) (c : Nat) : Scanner × Op :=
  if isSpace c then (s, .scanSkipSpace)
  else if c = 34 then s.goto .inString .scanBeginLiteral
  else s.fail

/-- Go `stateBeginStringOrEmpty`. -/
def stateBeginStringOrEmpty (s : Scanner) (c : Nat) : Scanner × Op :=
  if isSpace c then (s, .scanSkipSpace)
  else if c = 125 then
    stateEndValue { s with parseState := .objectValue :: s.parseState.tail } c
  else stateBeginString s c

/-- Go `stateInString`. -/
def stateInString (s : Scanner) (c : Nat) : Scanner × Op :=
  if c = 34 then s.goto .endValue .scanContinue
  else if c = 92 then s.goto .inStringEsc .scanContinue
  else if c < 32 then s.fail
  else (s, .scanContinue)

/-- Go `stateInStringEsc`. -/
def stateInStringEsc (s : Scanner) (c : Nat) : Scanner × Op :=
  if c = 98 ∨ c = 102 ∨ c = 110 ∨ c = 114 ∨ c = 116 ∨ c = 92 ∨ c = 47 ∨ c = 34
  then s.goto .inString .scanContinue
  else if c = 117 then s.goto .inStringEscU .scanContinue
  else s.fail

/-- Go `state0`: after a leading zero of a number. -/
def state0 (s : Scanner) (c : Nat) : Scanner × Op :=
  if c = 46 then s.goto .dot .scanContinue
  else if c = 101 ∨ c = 69 then s.goto .e .scanContinue
  else stateEndValue s c

/-- Go `stateESign`. -/
def stateESign (s : Scanner) (c : Nat) : Scanner × Op :=
  if isDigit c then s.goto .e0 .scanContinue else s.fail

/-- One literal character `want` leading to state `next`
(`stateT`, `stateTr`, ..., `stateNul`). -/
def stateLit (s : Scanner) (c want : Nat) (next : Step) : Scanner × Op :=
  if c = want then s.goto next .scanContinue else s.fail

/-- One call `s.step(s, c)`. -/
def Scanner.next (s : Scanner) (c : Nat) : Scanner × Op :=
  match s.step with
  | .beginValueOrEmpty => stateBeginValueOrEmpty s c
  | .beginValue => stateBeginValue s c
  | .beginStringOrEmpty => stateBeginStringOrEmpty s c
  | .beginString => stateBeginString s c
  | .endValue => stateEndValue s c
  | .endTop => stateEndTop s c
  | .inString => stateInString s c
  | .inStringEsc => stateInStringEsc s c
  | .inStringEscU => if isHex c then s.goto .inStringEscU1 .scanContinue else s.fail
  | .inStringEscU1 => if isHex c then s.goto .inStringEscU12 .scanContinue else s.fail
  | .inStringEscU12 => if isHex c then s.goto .inStringEscU123 .scanContinue else s.fail
  | .inStringEscU123 => if isHex c then s.goto .inString .scanContinue else s.fail
  | .neg =>
    if c = 48 then s.goto .zero .scanContinue
    else if 49 ≤ c ∧ c ≤ 57 then s.goto .one .scanContinue
    else s.fail
  | .one => if isDigit c then s.goto .one .scanContinue else state0 s c
  | .zero => state0 s c
  | .dot => if isDigit c then s.goto .dot0 .scanContinue else s.fail
  | .dot0 =>
    if isDigit c then (s, .scanContinue)
    else if c = 101 ∨ c = 69 then s.goto .e .scanContinue
    else stateEndValue s c
  | .e => if c = 43 ∨ c = 45 then s.goto .eSign .scanContinue else stateESign s c
  | .eSign => stateESign s c
  | .e0 => if isDigit c then (s, .scanContinue) else stateEndValue s c
  | .t => stateLit s c 114 .tr
  | .tr => stateLit s c 117 .tru
  | .tru => stateLit s c 101 .endValue
  | .f => stateLit s c 97 .fa
  | .fa => stateLit s c 108 .fal
  | .fal => stateLit s c 115 .fals
  | .fals => stateLit s c 101 .endValue
  | .n => stateLit s c 117 .nu
  | .nu => stateLit s c 108 .nul
  | .nul => stateLit s c 108 .endValue
  | .error => (s, .scanError)

/-- Feed a run of bytes to the scanner. -/
def Scanner.run (s : Scanner) (data : Bytes) : Scanner :=
  data.foldl (fun st c => (st.next c).1) s

/-- Go `scanner.eof`: whether the input seen so far is a complete value. -/
def Scanner.eof (s : Scanner) : Bool :=
  if s.step = .error then false
  else if s.endTop then true
  else (s.next 32).1.endTop

/-- Go `checkValid`: `data` is one JSON value, with optional white space
around it.  (The Go loop stops at the first `scanError`; the error state is
absorbing, so running on gives the same verdict.) -/
def checkValid (data : Bytes) : Bool := (Scanner.reset.run data).eof

/-! ## Package `encoding/json`: the decoder (`decode.go`) -/

/-- State of the walk that cuts a JSON array into its elements: the scanner,
the bytes of the element being read (latest first) and the elements already
complete (latest first). -/
structure Split where
  scan : Scanner
  cur : Bytes
  elems : List Bytes
  deriving DecidableEq, Repr

/-- Close the element being read, if there is one. -/
def Split.flush (st : Split) (s : Scanner) : Split :=
  if st.cur = [] then { st with scan := s }
  else { scan := s, cur := [], elems := st.cur.reverse :: st.elems }

/-- One byte of the walk of `decodeState.array` over a top-level array whose
elements are stored as `json.RawMessage`: an element is the exact text of one
value, from its first byte to its last; the brackets of the top-level array,
the commas between its elements and the white space around them belong to no
element. -/
def Split.next (st : Split) (c : Nat) : Split :=
  let r := st.scan.next c
  let depth := r.1.parseState.length
  if depth = 0 then
    if r.2 = .scanEndArray then st.flush r.1 else { st with scan := r.1 }
  else if depth = 1 ∧ (r.2 = .scanBeginArray ∨ r.2 = .scanSkipSpace) then
    { st with scan := r.1 }
  else if depth = 1 ∧ r.2 = .scanArrayValue then st.flush r.1
  else { st with scan := r.1, cur := c :: st.cur }

/-- The raw elements of the JSON array `data` (which has passed `checkValid`),
in order. -/
def rawElements (data : Bytes) : List Bytes :=
  (data.foldl Split.next ⟨Scanner.reset, [], []⟩).elems.reverse

/-- The first byte of the value in `data`, after `d.scanWhile(scanSkipSpace)`. -/
def firstByte (data : Bytes) : Option Nat := (data.dropWhile isSpace).head?

/-- The value in `data` without the white space around it. -/
def trimValue (data : Bytes) : Bytes :=
  ((data.dropWhile isSpace).reverse.dropWhile isSpace).reverse

/-- Value of a hexadecimal digit. -/
def hexVal (c : Nat) : Option Nat :=
  if 48 ≤ c ∧ c ≤ 57 then some (c - 48)
  else if 97 ≤ c ∧ c ≤ 102 then some (c - 97 + 10)
  else if 65 ≤ c ∧ c ≤ 70 then some (c - 65 + 10)
  else none

/-- Go `getu4`: the rune of a `\uXXXX` escape at the start of `s`; `none` is
Go's -1. -/
def getu4 : Bytes → Option Nat
  | b :: u :: h1 :: h2 :: h3 :: h4 :: _ =>
    if b = 92 ∧ u = 117 then
      match hexVal h1, hexVal h2, hexVal h3, hexVal h4 with
      | some a, some b, some c, some d => some (((a * 16 + b) * 16 + c) * 16 + d)
      | _, _, _, _ => none
    else none
  | _ => none

/-- One round of the loop of Go `unquoteBytes` on the non-empty rest `s` of
the text between the quotes: the bytes written and the text left to read;
`none` is `ok = false`. -/
def unquoteStep : Bytes → Option (Bytes × Bytes)
  | [] => none
  | c :: rest =>
    if c = 92 then
      match rest with
      | [] => none
      | e :: rest1 =>
        if e = 34 ∨ e = 92 ∨ e = 47 ∨ e = 39 then some ([e], rest1)
        else if e = 98 then some ([8], rest1)
        else if e = 102 then some ([12], rest1)
        else if e = 110 then some ([10], rest1)
        else if e = 114 then some ([13], rest1)
        else if e = 116 then some ([9], rest1)
        else if e = 117 then
          match getu4 (c :: rest) with
          | none => none
          | some rr =>
            if Utf8.IsSurrogate rr then
              if Utf8.DecodeSurrogates rr (getu4 (rest.drop 5)) ≠ Utf8.RuneError then
                some (Utf8.EncodeRune (Utf8.DecodeSurrogates rr (getu4 (rest.drop 5))),
                  (rest.drop 5).drop 6)
              else some (Utf8.EncodeRune Utf8.RuneError, rest.drop 5)
            else some (Utf8.EncodeRune rr, rest.drop 5)
        else none
    else if c = 34 ∨ c < 32 then none
    else if c < 128 then some ([c], rest)
    else
      some (Utf8.EncodeRune (Utf8.DecodeRune (c :: rest)).1,
        (c :: rest).drop (Utf8.DecodeRune (c :: rest)).2)

/-- The loop of Go `unquoteBytes` over the text between the quotes; `none` is
`ok = false`.  Every round consumes at least one byte, so `fuel` equal to the
length of the text is enough. -/
def unquoteLoop : Nat → Bytes → Option Bytes
  | _, [] => some []
  | 0, _ :: _ => none
  | fuel + 1, c :: rest =>
    match unquoteStep (c :: rest) with
    | none => none
    | some (out, left) => (unquoteLoop fuel left).map (out ++ ·)

/-- Go `unquoteBytes`: the string a quoted JSON string literal stands for. -/
def unquoteBytes (s : Bytes) : Option Bytes :=
  if s.length < 2 ∨ s.head? ≠ some 34 ∨ s.getLast? ≠ some 34 then none
  else unquoteLoop s.length (s.drop 1).dropLast

/-- Why `json.Unmarshal` failed. -/
inductive UnmarshalError where
  | syntaxError      -- `*json.SyntaxError`: the input is not a JSON value
  | typeError        -- `*json.UnmarshalTypeError`: the value does not fit the target
  deriving DecidableEq, Repr

/-- Go `json.Unmarshal(data, &v)` for `var v []json.RawMessage` (a nil slice):
an array gives its raw elements, `null` leaves `v` nil, any other value is a
type error. -/
def UnmarshalRawSlice (data : Bytes) : Except UnmarshalError (List Bytes) :=
  if checkValid data then
    if firstByte data = some 91 then .ok (rawElements data)
    else if firstByte data = some 110 then .ok []
    else .error .typeError
  else .error .syntaxError

/-- Go `json.Unmarshal(data, &v)` for a `string` variable holding `cur`: a
string literal is unquoted into `v`; `null` has no effect on a string and
produces no error; any other value is a type error. -/
def UnmarshalString (data : Bytes) (cur : Bytes) : Except UnmarshalError Bytes :=
  if checkValid data then
    if firstByte data = some 34 then
      match unquoteBytes (trimValue data) with
      | some s => .ok s
      | none => .error .syntaxError
    else if firstByte data = some 110 then .ok cur
    else .error .typeError
  else .error .syntaxError

/-- Go `json.Unmarshal(data, &v) == nil && v == nil` for `var v interface{}`:
the input is valid JSON and its value is `null`. -/
def UnmarshalsToNil (data : Bytes) : Bool :=
  checkValid data ∧ firstByte data = some 110

/-- Go `strconv.ParseInt(item, 10, 64)` on a JSON number literal: an optional
minus sign and then decimal digits only, the value within the `int64` range;
a literal with a fraction or an exponent is an error (`none`). -/
def parseInt64 (item : Bytes) : Option Int :=
  let neg : Bool := item.head? = some 45
  let digits := if neg then item.drop 1 else item
  if digits ≠ [] ∧ digits.all isDigit then
    let n : Nat := digits.foldl (fun a c => a * 10 + (c - 48)) 0
    let v : Int := if neg then -(n : Int) else (n : Int)
    if -(2 : Int) ^ 63 ≤ v ∧ v < (2 : Int) ^ 63 then some v else none
  else none

/-- Go `json.Unmarshal(data, &v)` for an `int` variable (64 bits) holding
`cur`: a number literal is read with `strconv.ParseInt`, and one that does not
parse is a type error; `null` has no effect and produces no error; any other
value is a type error. -/
def UnmarshalInt (data : Bytes) (cur : Int) : Except UnmarshalError Int :=
  if checkValid data then
    match firstByte data with
    | some c =>
      if c = 45 ∨ isDigit c then
        match parseInt64 (trimValue data) with
        | some n => .ok n
        | none => .error .typeError
      else if c = 110 then .ok cur
      else .error .typeError
    | none => .error .typeError
  else .error .syntaxError

/-! ### The members of an object (`decodeState.object`) -/

/-- State of the walk that cuts a JSON object into its members: the scanner,
the text of the key of the member being read, the bytes of the key or value
being read (latest first) and the members already complete (latest first). -/
structure Members where
  scan : Scanner
  key : Bytes
  cur : Bytes
  members : List (Bytes × Bytes)
  deriving DecidableEq, Repr

/-- Close the member being read, if there is one. -/
def Members.flush (st : Members) (s : Scanner) : Members :=
  if st.cur = [] then { st with scan := s }
  else { scan := s, key := [], cur := [], members := (st.key, st.cur.reverse) :: st.members }

/-- One byte of the walk of `decodeState.object` over a top-level object: a
key is the exact text of the string literal before the colon, a value is the
exact text of one value, from its first byte to its last; the braces of the
top-level object, its colons and commas and the white space around keys and
values belong to neither. -/
def Members.next (st : Members) (c : Nat) : Members :=
  let r := st.scan.next c
  let depth := r.1.parseState.length
  if depth = 0 then
    if r.2 = .scanEndObject then st.flush r.1 else { st with scan := r.1 }
  else if depth = 1 ∧ (r.2 = .scanBeginObject ∨ r.2 = .scanSkipSpace) then
    { st with scan := r.1 }
  else if depth = 1 ∧ r.2 = .scanObjectKey then
    { scan := r.1, key := st.cur.reverse, cur := [], members := st.members }
  else if depth = 1 ∧ r.2 = .scanObjectValue then st.flush r.1
  else { st with scan := r.1, cur := c :: st.cur }

/-- The members of the JSON object `data` (which has passed `checkValid`), in
order: the text of each key literal with the text of its value. -/
def rawMembers (data : Bytes) : List (Bytes × Bytes) :=
  (data.foldl Members.next ⟨Scanner.reset, [], [], []⟩).members.reverse

/-- Go `foldName` (`fold.go`) on an object key, for the comparison with the
folded name of a struct field made of ASCII letters: an ASCII letter becomes
the upper-case letter; the runes U+017F and U+212A, whose fold sets hold `S`
and `K`, become `S` and `K`; any other rune from U+0080 on has a fold set
without ASCII letter and is kept as it is here (Go writes the least rune of
its fold set, which is not ASCII either). -/
def foldNameLoop : Nat → Bytes → Bytes
  | _, [] => []
  | 0, _ :: _ => []
  | fuel + 1, c :: rest =>
    if c < 128 then
      (if 97 ≤ c ∧ c ≤ 122 then c - 32 else c) :: foldNameLoop fuel rest
    else
      let r := Utf8.DecodeRune (c :: rest)
      (if r.1 = 0x17F then [83] else if r.1 = 0x212A then [75] else (c :: rest).take r.2) ++
        foldNameLoop fuel ((c :: rest).drop r.2)

/-- Go `foldName`, see `foldNameLoop`. -/
def foldName (key : Bytes) : Bytes := foldNameLoop key.length key

/-! ## Package `encoding/json`: the encoder (`encode.go`) -/

/-- A Go value passed as `any`: the values the program builds its requests
from (nil, booleans, integers, strings, slices of `any`), and `unsupported`
for a value `json.Marshal` rejects (a channel, a function, ...). -/
inductive GoValue where
  | nil
  | bool (b : Bool)
  | int (n : Int)
  | string (s : Bytes)
  | slice (xs : List GoValue)
  | unsupported
  deriving Repr

/-- Go `htmlSafeSet`: the ASCII bytes `appendString` copies unescaped when
HTML escaping is on. -/
def htmlSafe (b : Nat) : Bool :=
  32 ≤ b ∧ b < 128 ∧ b ≠ 34 ∧ b ≠ 92 ∧ b ≠ 60 ∧ b ≠ 62 ∧ b ≠ 38

/-- The digit `"0123456789abcdef"[n]`. -/
def hexDigit (n : Nat) : Nat := if n < 10 then 48 + n else 97 + (n - 10)

/-- What `appendString` writes for an ASCII byte outside `htmlSafeSet`. -/
def escapeByte (b : Nat) : Bytes :=
  if b = 92 ∨ b = 34 then [92, b]
  else if b = 8 then [92, 98]
  else if b = 12 then [92, 102]
  else if b = 10 then [92, 110]
  else if b = 13 then [92, 114]
  else if b = 9 then [92, 116]
  else [92, 117, 48, 48, hexDigit (b / 16), hexDigit (b % 16)]

/-- One round of the loop of Go `appendString` with `escapeHTML = true` on
the non-empty rest `b :: rest` of the source: the bytes written and the source
left to read. -/
def appendStep (b : Nat) (rest : Bytes) : Bytes × Bytes :=
  if b < 128 then
    if htmlSafe b then ([b], rest) else (escapeByte b, rest)
  else if (Utf8.DecodeRune (b :: rest)).1 = Utf8.RuneError ∧
      (Utf8.DecodeRune (b :: rest)).2 = 1 then
    ([92, 117, 102, 102, 102, 100], rest)
  else if (Utf8.DecodeRune (b :: rest)).1 = 0x2028 ∨
      (Utf8.DecodeRune (b :: rest)).1 = 0x2029 then
    ([92, 117, 50, 48, 50, hexDigit ((Utf8.DecodeRune (b :: rest)).1 % 16)],
      (b :: rest).drop (Utf8.DecodeRune (b :: rest)).2)
  else
    ((b :: rest).take (Utf8.DecodeRune (b :: rest)).2,
      (b :: rest).drop (Utf8.DecodeRune (b :: rest)).2)

/-- The loop of Go `appendString` with `escapeHTML = true`, as the bytes
written between the quotes.  Every round consumes at least one byte. -/
def appendStringLoop : Nat → Bytes → Bytes
  | _, [] => []
  | 0, _ :: _ => []
  | fuel + 1, b :: rest =>
    (appendStep b rest).1 ++ appendStringLoop fuel (appendStep b rest).2

/-- Go `appendString(dst, src, true)`: the JSON string literal for `src`. -/
def appendString (src : Bytes) : Bytes :=
  34 :: appendStringLoop src.length src ++ [34]

/-- The decimal digits of `n` in front of `acc`; `fuel` bounds the number of
digits. -/
def decimalDigits : Nat → Nat → Bytes → Bytes
  | 0, _, acc => acc
  | fuel + 1, n, acc =>
    if n < 10 then (48 + n) :: acc
    else decimalDigits fuel (n / 10) ((48 + n % 10) :: acc)

/-- Go `strconv.AppendInt(dst, n, 10)`. -/
def appendInt (n : Int) : Bytes :=
  match n with
  | .ofNat k => decimalDigits (k + 1) k []
  | .negSucc k => 45 :: decimalDigits (k + 2) (k + 1) []

mutual
/-- Go `json.Marshal(v)`; `none` is an `UnsupportedTypeError`. -/
def Marshal : GoValue → Option Bytes
  | .nil => some (ascii "null")
  | .bool b => some (if b then ascii "true" else ascii "false")
  | .int n => some (appendInt n)
  | .string s => some (appendString s)
  | .slice xs => (MarshalElems xs).map (fun body => 91 :: body ++ [93])
  | .unsupported => none
/-- The elements of a slice, with commas between them. -/
def MarshalElems : List GoValue → Option Bytes
  | [] => some []
  | [x] => Marshal x
  | x :: y :: rest =>
    match Marshal x, MarshalElems (y :: rest) with
    | some a, some b => some (a ++ 44 :: b)
    | _, _ => none
end

/-! ### Vocabulary for statements about marshalled values -/

mutual
/-- The nesting depth of a value: 0 for a scalar, one more than its deepest
element for a slice. -/
def GoValue.depth : GoValue → Nat
  | .slice xs => depthList xs + 1
  | _ => 0
/-- The depth of the deepest value of a list. -/
def depthList : List GoValue → Nat
  | [] => 0
  | x :: xs => max x.depth (depthList xs)
end

/-- The text of every value of a list, in order; `none` when `json.Marshal`
rejects one of them. -/
def marshalAll : List GoValue → Option (List Bytes)
  | [] => some []
  | x :: xs =>
    match Marshal x, marshalAll xs with
    | some t, some ts => some (t :: ts)
    | _, _ => none

/-- The state of the scanner after the last byte of the text of a value: a
number ends only with the byte that follows it. -/
def endStep : GoValue → Step
  | .int n => if n = 0 then .zero else .one
  | _ => .endValue

/-- The states in which the scanner takes the next byte as the one that
follows a complete value. -/
def isEnd (st : Step) : Bool := st = .endValue ∨ st = .one ∨ st = .zero

/-- The flag `endTop` of the scanner is set only at the end of a top-level
value. -/
def ScannerInv (s : Scanner) : Prop :=
  s.endTop = true → (s.step = .endTop ∨ s.step = .error) ∧ s.parseState = []

/-! ### Reading raw values -/

/-- The string a raw value stands for when it is a JSON string literal. -/
def stringOf (raw : Bytes) : Option Bytes :=
  if checkValid raw ∧ firstByte raw = some 34 then unquoteBytes (trimValue raw) else none

/-- Specification side: the integer an integer literal denotes: an optional
minus sign and then decimal digits only; `none` for any other text. -/
def readInt (item : Bytes) : Option Int :=
  let neg : Bool := item.head? = some 45
  let digits := if neg then item.drop 1 else item
  if digits ≠ [] ∧ digits.all isDigit then
    let n : Nat := digits.foldl (fun a c => a * 10 + (c - 48)) 0
    some (if neg then -(n : Int) else (n : Int))
  else none

/-- Specification side: the values of the elements of an array, with `f` for
the value of an element; `none` when an element has none. -/
def readItems (f : Bytes → Option GoValue) : List Bytes → Option (List GoValue)
  | [] => some []
  | item :: rest =>
    match f item, readItems f rest with
    | some a, some b => some (a :: b)
    | _, _ => none

/-- Specification side: the value a JSON text denotes, for the values the
program builds its requests from: `null` is nil, `true` and `false` are the
booleans, a string literal is the string it stands for, an integer literal is
its integer, an array is the slice of the values of its elements; `none` for
any other text (an object, a number with a fraction or an exponent, a text
that is not JSON) and when the bound `fuel` on the depth is reached. -/
def readValueFuel : Nat → Bytes → Option GoValue
  | 0, _ => none
  | fuel + 1, data =>
    if checkValid data then
      if firstByte data = some 110 then some .nil
      else if firstByte data = some 116 then some (.bool true)
      else if firstByte data = some 102 then some (.bool false)
      else if firstByte data = some 34 then (unquoteBytes (trimValue data)).map .string
      else if firstByte data = some 91 then
        (readItems (readValueFuel fuel) (rawElements data)).map .slice
      else if firstByte data = some 123 then none
      else (readInt (trimValue data)).map .int
    else none

/-- Specification side: the value a JSON text denotes, see `readValueFuel`; a
text that passes `checkValid` is nested at most `maxNestingDepth` deep. -/
def readValue (data : Bytes) : Option GoValue := readValueFuel (maxNestingDepth + 1) data

/-! ### Numbers (`strconv.ParseFloat`) -/

/-- A Go `float64`, by its bits (`math.Float64bits`): the sign in bit 63, the
exponent in the bits 52 to 62, the fraction in the bits 0 to 51. -/
abbrev Float64 := Nat

/-- The number the decimal digits `ds` denote. -/
def digitsValue (ds : Bytes) : Nat := ds.foldl (fun a c => a * 10 + (c - 48)) 0

/-- The decimal a JSON number literal denotes: `(neg, m, e)` stands for
`m · 10^e`, negative when `neg`.  The literal is an optional minus sign, the
digits of the integer part, an optional fraction (a point and digits) and an
optional exponent (`e` or `E`, an optional sign and digits); `none` for any
other text. -/
def readNumber (s : Bytes) : Option (Bool × Nat × Int) :=
  let neg : Bool := s.head? = some 45
  let s1 := if neg then s.drop 1 else s
  let ip := s1.takeWhile isDigit
  let r1 := s1.dropWhile isDigit
  let hasFrac : Bool := r1.head? = some 46
  let fp := if hasFrac then (r1.drop 1).takeWhile isDigit else []
  let r2 := if hasFrac then (r1.drop 1).dropWhile isDigit else r1
  let m := digitsValue (ip ++ fp)
  if ip = [] ∨ (hasFrac ∧ fp = []) then none
  else if r2 = [] then some (neg, m, -(fp.length : Int))
  else if r2.head? = some 101 ∨ r2.head? = some 69 then
    let r3 := r2.drop 1
    let eneg : Bool := r3.head? = some 45
    let ed := if r3.head? = some 45 ∨ r3.head? = some 43 then r3.drop 1 else r3
    if ed ≠ [] ∧ ed.all isDigit then
      some (neg, m,
        (if eneg then -(digitsValue ed : Int) else (digitsValue ed : Int)) - (fp.length : Int))
    else none
  else none

/-- The number of halvings that bring `n` below 2; `fuel` bounds them. -/
def log2Loop : Nat → Nat → Nat
  | 0, _ => 0
  | fuel + 1, n => if n < 2 then 0 else log2Loop fuel (n / 2) + 1

/-- The largest `e` with `2^e ≤ n`, for positive `n`. -/
def log2 (n : Nat) : Nat := log2Loop n n

/-- The largest `e` with `2^e ≤ num / den`, for positive `num` and `den`. -/
def floorLog2 (num den : Nat) : Int :=
  let e0 : Int := (log2 num : Int) - (log2 den : Int)
  let reached : Bool :=
    if 0 ≤ e0 then den * 2 ^ e0.toNat ≤ num else den ≤ num * 2 ^ (-e0).toNat
  if reached then e0 else e0 - 1

/-- The integer nearest to `num / den`, the even one of the two when they are
equally near. -/
def roundHalfEven (num den : Nat) : Nat :=
  let q := num / den
  let r := num % den
  if 2 * r < den then q else if den < 2 * r then q + 1 else q + q % 2

/-- The bits of the `float64` nearest to `num / den` (both positive), the one
with the even mantissa when two are equally near (IEEE 754); `none` when that
is infinity.  The last bit of the mantissa stands for `2^k`, with `k = e - 52`
for a number from `2^e` to `2^(e+1)`, and `k = -1074` for a number below
`2^-1022`. -/
def nearestFloat64 (num den : Nat) : Option Float64 :=
  let e := floorLog2 num den
  let k : Int := if e < -1022 then -1074 else e - 52
  let q :=
    if k ≤ 0 then roundHalfEven (num * 2 ^ (-k).toNat) den
    else roundHalfEven num (den * 2 ^ k.toNat)
  let bits := if e < -1022 then q else (e + 1022).toNat * 2 ^ 52 + q
  if bits < 2047 * 2 ^ 52 then some bits else none

/-- Go `strconv.ParseFloat(s, 64)` on a JSON number literal: the nearest
`float64`, rounded as IEEE 754 asks; `none` is the error `ErrRange` of a number
that is out of the range. -/
def ParseFloat (s : Bytes) : Option Float64 :=
  match readNumber s with
  | none => none
  | some (neg, m, e) =>
    let sign : Nat := if neg then 2 ^ 63 else 0
    if m = 0 then some sign
    else
      (if 0 ≤ e then nearestFloat64 (m * 10 ^ e.toNat) 1
       else nearestFloat64 m (10 ^ (-e).toNat)).map (sign + ·)

/-- Specification side: the integer a `float64` stands for, when it is finite
and stands for an integer; `none` otherwise.  The bits stand for
`m · 2^(ex - 1075)` with `m = 2^52 + frac` when the exponent field `ex` is not
0, and for `frac · 2^-1074` when it is; the exponent field 2047 marks the
infinities and the values that are not numbers. -/
def float64Int (b : Float64) : Option Int :=
  let frac : Nat := b % 2 ^ 52
  let ex : Nat := b / 2 ^ 52 % 2048
  let m : Nat := if ex = 0 then frac else 2 ^ 52 + frac
  let sh : Int := (if ex = 0 then 1 else (ex : Int)) - 1075
  let sgn : Int := if b / 2 ^ 63 % 2 = 1 then -1 else 1
  if ex = 2047 then none
  else if m = 0 then some 0
  else if 0 ≤ sh then some (sgn * ((m * 2 ^ sh.toNat : Nat) : Int))
  else if m % 2 ^ (-sh).toNat = 0 then some (sgn * ((m / 2 ^ (-sh).toNat : Nat) : Int))
  else none

end Json

/-! ## The network (`net/http`) -/

namespace Http

/-- An HTTP request, by its parts.  Query parameters and form fields are the
`url.Values` before `Encode`. -/
structure Request where
  method : Bytes
  url : Bytes
  query : List (Bytes × Bytes)
  form : List (Bytes × Bytes)
  header : List (Bytes × Bytes)
  deriving DecidableEq, Repr

/-- What `httpClient.Do` followed by `io.ReadAll` gives: a transport error,
or a response with its status and its body (or the error of reading it). -/
inductive Result where
  | failed (cause : Bytes)
  | response (status : Int) (body : Except Bytes Bytes)
  deriving DecidableEq, Repr

/-- The network as the program sees it in a sequential run: the requests sent
so far (oldest first) and the answer the remote end gives to a request after a
given history. -/
structure World where
  sent : List Request
  respond : List Request → Request → Result

/-- Send one request. -/
def World.send (w : World) (r : Request) : Result × World :=
  (w.respond w.sent r, { w with sent := w.sent ++ [r] })

end Http

/-! ## `internal/auth/auth.go` -/

namespace Auth

open Strings Http

/-- The errors of the credential store. -/
inductive Error where
  | noCookies                     -- `ErrNoCookies`
  | fetchFailed (cause : Bytes)   -- "fetching NotebookLM page: %w"
  | pageStatus (status : Int)     -- "NotebookLM returned HTTP %d ..."
  | readFailed (cause : Bytes)    -- "reading NotebookLM page body: %w"
  | csrfNotFound                  -- "CSRF token (SNlM0e) not found in page ..."
  deriving DecidableEq, Repr

/-- The text of the error (`errors.New`, `fmt.Errorf`); `cause` is the text
of the wrapped error. -/
def Error.message : Error → Bytes
  | .noCookies =>
    ascii "no authentication cookies configured " ++ [0xE2, 0x80, 0x94] ++
      ascii " provide via NOTEBOOKLM_COOKIES environment variable or the save_auth_tokens MCP tool during the conversation"
  | .fetchFailed cause => ascii "fetching NotebookLM page: " ++ cause
  | .pageStatus status =>
    ascii "NotebookLM returned HTTP " ++ Json.appendInt status ++ ascii " " ++
      [0xE2, 0x80, 0x94] ++ ascii " cookies may be expired or invalid"
  | .readFailed cause => ascii "reading NotebookLM page body: " ++ cause
  | .csrfNotFound =>
    ascii "CSRF token (SNlM0e) not found in page " ++ [0xE2, 0x80, 0x94] ++
      ascii " cookies may be expired or for the wrong account"

/-- Go `Store` (without the mutex and the HTTP client). -/
structure Store where
  cookies : Bytes
  csrfToken : Bytes
  sessionID : Bytes
  deriving DecidableEq, Repr

/-- The match of `"KEY":"([^"]+)"` anchored at the start of `s`: the text of
the group. -/
def matchQuotedHere (key : Bytes) (s : Bytes) : Option Bytes :=
  let pat := 34 :: key ++ ascii "\":\""
  if pat.isPrefixOf s then
    let rest := s.drop pat.length
    let v := rest.takeWhile (· ≠ 34)
    if v ≠ [] ∧ (rest.drop v.length).head? = some 34 then some v else none
  else none

/-- Go `regexp.MustCompile(...).FindSubmatch(body)` for the pattern
`"KEY":"([^"]+)"`: the group of the leftmost match. -/
def FindSubmatch (key : Bytes) : Bytes → Option Bytes
  | [] => none
  | c :: rest =>
    match matchQuotedHere key (c :: rest) with
    | some v => some v
    | none => FindSubmatch key rest

/-- Go `New`. -/
def New (cookies : Bytes) : Store := ⟨TrimSpace cookies, [], []⟩

/-- Go `Store.SetCookies`. -/
def Store.SetCookies (_s : Store) (cookies : Bytes) : Store :=
  ⟨TrimSpace cookies, [], []⟩

/-- Go `Store.SetTokens`. -/
def Store.SetTokens (s : Store) (csrf sessionID : Bytes) : Store :=
  let s1 := if csrf ≠ [] then { s with csrfToken := csrf } else s
  if sessionID ≠ [] then { s1 with sessionID := sessionID } else s1

/-- Go `Store.HasCookies`. -/
def Store.HasCookies (s : Store) : Bool := s.cookies ≠ []

/-- Go `Store.Cookies`. -/
def Store.Cookies (s : Store) : Bytes := s.cookies

/-- Go `Store.CSRFToken`. -/
def Store.CSRFToken (s : Store) : Bytes := s.csrfToken

/-- Go `Store.SessionID`. -/
def Store.SessionID (s : Store) : Bytes := s.sessionID

/-- The request `extractTokensLocked` sends. -/
def pageRequest (cookies : Bytes) : Request :=
  { method := ascii "GET"
    url := ascii "https://notebooklm.google.com/"
    query := []
    form := []
    header :=
      [(ascii "Cookie", cookies),
       (ascii "User-Agent",
        ascii "Mozilla/5.0 (Macintosh; Intel Mac OS X 10_15_7) AppleWebKit/537.36 (KHTML, like Gecko)")] }

/-- Go `Store.extractTokensLocked`: the error (`none` is `nil`), the store
and the network afterwards. -/
def Store.extractTokensLocked (s : Store) (w : World) : Option Error × Store × World :=
  let r := w.send (pageRequest s.cookies)
  match r.1 with
  | .failed cause => (some (.fetchFailed cause), s, r.2)
  | .response status body =>
    if status ≠ 200 then (some (.pageStatus status), s, r.2)
    else match body with
      | .error cause => (some (.readFailed cause), s, r.2)
      | .ok page =>
        match FindSubmatch (ascii "SNlM0e") page with
        | none => (some .csrfNotFound, s, r.2)
        | some csrf =>
          let s1 := { s with csrfToken := csrf }
          match FindSubmatch (ascii "FdrFJe") page with
          | some sid => (none, { s1 with sessionID := sid }, r.2)
          | none => (none, s1, r.2)

/-- Go `Store.EnsureTokens`. -/
def Store.EnsureTokens (s : Store) (w : World) : Option Error × Store × World :=
  if s.cookies = [] then (some .noCookies, s, w)
  else if s.csrfToken ≠ [] then (none, s, w)
  else s.extractTokensLocked w

/-- Go `Store.RefreshTokens`. -/
def Store.RefreshTokens (s : Store) (w : World) : Option Error × Store × World :=
  if s.cookies = [] then (some .noCookies, s, w)
  else Store.extractTokensLocked { s with csrfToken := [], sessionID := [] } w

/-- Go `Store.Status`. -/
def Store.Status (s : Store) : Bytes :=
  if s.cookies = [] then ascii "no_cookies"
  else if s.csrfToken = [] then ascii "cookies_set_tokens_pending"
  else ascii "authenticated"

/-- Specification side: an occurrence of `"KEY":"value"` at byte offset `n`
of `body`, the value `v` being non-empty and free of double quotes. -/
def markerAt (key body : Bytes) (n : Nat) (v : Bytes) : Prop :=
  ∃ post, body.drop n = 34 :: key ++ ascii "\":\"" ++ v ++ 34 :: post ∧ v ≠ [] ∧ 34 ∉ v

end Auth

/-! ## `internal/api/parse.go` -/

namespace Api

open Strings Json

/-- The errors `ParseBatchResponse` returns. -/
inductive ParseError where
  | emptyBody (rpcID : Bytes)   -- "empty response body for RPC %s"
  | html                        -- "received HTML instead of API response ..."
  | notFound (rpcID : Bytes)    -- "no response found for RPC %s in batch response"
  deriving DecidableEq, Repr

/-- The text of the error (`fmt.Errorf`). -/
def ParseError.message : ParseError → Bytes
  | .emptyBody rpcID => ascii "empty response body for RPC " ++ rpcID
  | .html =>
    ascii "received HTML instead of API response " ++ [0xE2, 0x80, 0x94] ++
      ascii " cookies may be expired"
  | .notFound rpcID =>
    ascii "no response found for RPC " ++ rpcID ++ ascii " in batch response"

/-- The marker of a response entry. -/
def wrbFr : Bytes := ascii "wrb.fr"

/-- The body of the loop of `extractRPCPayload` for one `item` of the outer
array: `some payload` is `return payload, true`, `none` is `continue`. -/
def matchItem (rpcID : Bytes) (item : Bytes) : Option Bytes :=
  match UnmarshalRawSlice item with
  | .ok (m :: i :: p :: _) =>
    match UnmarshalString m [] with
    | .ok marker =>
      if marker ≠ wrbFr then none
      else match UnmarshalString i [] with
        | .ok id =>
          if id ≠ rpcID then none
          else match UnmarshalString p [] with
            | .ok payloadStr => some payloadStr
            | .error _ => if UnmarshalsToNil p then some (ascii "null") else none
        | .error _ => none
    | .error _ => none
  | _ => none

/-- Go `extractRPCPayload`: the payload of the first `wrb.fr` entry for
`rpcID` in a JSON line; `none` is `(nil, false)`. -/
def extractRPCPayload (line : Bytes) (rpcID : Bytes) : Option Bytes :=
  match UnmarshalRawSlice line with
  | .ok outer => outer.findSome? (matchItem rpcID)
  | .error _ => none

/-- The prefix stripping of `ParseBatchResponse`: drop everything up to and
including the first newline when that newline is at a byte index below 10. -/
def stripPrefix (text : Bytes) : Bytes :=
  match IndexNewline text with
  | some idx => if idx < 10 then text.drop (idx + 1) else text
  | none => text

/-- The loop of `ParseBatchResponse` over the lines. -/
def scanLines (rpcID : Bytes) : List Bytes → Option Bytes
  | [] => none
  | line :: rest =>
    let line := TrimSpace line
    if line = [] ∨ line.head? ≠ some 91 then scanLines rpcID rest
    else match extractRPCPayload line rpcID with
      | some payload => some payload
      | none => scanLines rpcID rest

/-- The HTML test of `ParseBatchResponse` on the trimmed text. -/
def looksLikeHTML (trimmed : Bytes) : Bool :=
  HasPrefix trimmed (ascii "<!") || HasPrefix trimmed (ascii "<html")

/-- Go `ParseBatchResponse`. -/
def ParseBatchResponse (body : Bytes) (rpcID : Bytes) : Except ParseError Bytes :=
  let text := stripPrefix body
  if TrimSpace text = [] then .error (.emptyBody rpcID)
  else if looksLikeHTML (TrimSpace text) then .error .html
  else match scanLines rpcID (SplitNewline text) with
    | some payload => .ok payload
    | none => .error (.notFound rpcID)

/-! ### Vocabulary for statements about batch bodies -/

/-- Lines joined by newlines: the text `strings.Split` cuts back into them. -/
def joinLines : List Bytes → Bytes
  | [] => []
  | [l] => l
  | l :: l2 :: ls => l ++ 10 :: joinLines (l2 :: ls)

/-- The entries of a line of the body: the raw elements of the array on an
array line (a line that starts with `[` once trimmed and is a JSON array);
any other line has none. -/
def lineEntries (line : Bytes) : List Bytes :=
  if (TrimSpace line).head? = some 91 then
    match UnmarshalRawSlice (TrimSpace line) with
    | .ok outer => outer
    | .error _ => []
  else []

/-- A byte-count line: a non-empty run of decimal digits. -/
def isByteCountLine (l : Bytes) : Bool := l ≠ [] ∧ l.all isDigit

/-- An array line: a line that starts with `[` once trimmed. -/
def isArrayLine (l : Bytes) : Bool := (TrimSpace l).head? = some 91

/-- An entry for `rpcID`: an item with at least three elements whose first
element reads as the string `wrb.fr` and whose second element reads as the
string `rpcID`.  Marker and identifier are read as the program reads them, by
`json.Unmarshal` into an empty Go string: a string literal reads as the string
it stands for, and a JSON `null` reads as the empty string. -/
def entryMatches (rpcID : Bytes) (item : Bytes) : Prop :=
  ∃ m i p rest, UnmarshalRawSlice item = .ok (m :: i :: p :: rest) ∧
    UnmarshalString m [] = .ok wrbFr ∧ UnmarshalString i [] = .ok rpcID

/-- A usable entry for `rpcID`: an entry for `rpcID` (marker and identifier
read as in `entryMatches`) whose third element is a JSON string or `null`. -/
def usableEntry (rpcID : Bytes) (item : Bytes) : Prop :=
  ∃ m i p rest, UnmarshalRawSlice item = .ok (m :: i :: p :: rest) ∧
    UnmarshalString m [] = .ok wrbFr ∧ UnmarshalString i [] = .ok rpcID ∧
    ((stringOf p).isSome = true ∨ UnmarshalsToNil p = true)

/-- The items the decoder is to pass over when it looks for `rpcID`: an array
with fewer than three elements, an item with another marker than `wrb.fr`, or
an item with another identifier than `rpcID` (marker and identifier read as
in `entryMatches`). -/
def otherEntry (rpcID : Bytes) (item : Bytes) : Prop :=
  (∃ elems, UnmarshalRawSlice item = .ok elems ∧ elems.length < 3) ∨
  (∃ m i p rest marker, UnmarshalRawSlice item = .ok (m :: i :: p :: rest) ∧
    UnmarshalString m [] = .ok marker ∧ marker ≠ wrbFr) ∨
  (∃ m i p rest id, UnmarshalRawSlice item = .ok (m :: i :: p :: rest) ∧
    UnmarshalString i [] = .ok id ∧ id ≠ rpcID)

/-- An entry for `rpcID` with an unusable payload: an entry for `rpcID`
(marker and identifier read as in `entryMatches`) whose third element is a
JSON value that is neither a string nor `null`: a number, a boolean, an array
or an object. -/
def unusableEntry (rpcID : Bytes) (item : Bytes) : Prop :=
  ∃ m i p rest, UnmarshalRawSlice item = .ok (m :: i :: p :: rest) ∧
    UnmarshalString m [] = .ok wrbFr ∧ UnmarshalString i [] = .ok rpcID ∧
    checkValid p = true ∧ firstByte p ≠ some 34 ∧ firstByte p ≠ some 110

/-! ## `internal/api/rpc.go` and `internal/api/client.go` -/

/-- Go `Client` (without the HTTP client, which is the network). -/
structure Client where
  auth : Auth.Store
  buildLabel : Bytes
  reqID : Int
  deriving DecidableEq, Repr

/-- Go `DefaultBuildLabel`. -/
def DefaultBuildLabel : Bytes := ascii "boq_labs-tailwind-frontend_20260108.06_p0"

/-- Go `BaseURL`. -/
def BaseURL : Bytes := ascii "https://notebooklm.google.com"

/-- Go `BatchExecutePath`. -/
def BatchExecutePath : Bytes := ascii "/_/LabsTailwindUi/data/batchexecute"

/-- Go `NewClient`. -/
def NewClient (authStore : Auth.Store) (buildLabel : Bytes) : Client :=
  ⟨authStore, if buildLabel = [] then DefaultBuildLabel else buildLabel, 0⟩

/-- The errors `Execute` returns. -/
inductive Error where
  | auth (e : Auth.Error)                          -- the error of `EnsureTokens`, unchanged
  | marshalParams                                  -- "marshaling RPC params: %w"
  | marshalRequest                                 -- "marshaling f.req: %w"
  | requestFailed (cause : Bytes)                  -- "HTTP request failed: %w"
  | readFailed (cause : Bytes)                     -- "reading response body: %w"
  | refreshFailed (status : Int) (e : Auth.Error)  -- "API returned %d and token refresh failed: %w"
  | refreshed (status : Int)                       -- "API returned %d ... tokens refreshed, please retry the operation"
  | httpStatus (status : Int) (preview : Bytes)    -- "API returned HTTP %d: %s"
  | parse (e : ParseError)                         -- the error of `ParseBatchResponse`
  deriving DecidableEq, Repr

/-- The text of the error (`fmt.Errorf`).  The text of the `json` error wrapped
by the two marshalling errors is not modelled. -/
def Error.message : Error → Bytes
  | .auth e => e.message
  | .marshalParams => ascii "marshaling RPC params: "
  | .marshalRequest => ascii "marshaling f.req: "
  | .requestFailed cause => ascii "HTTP request failed: " ++ cause
  | .readFailed cause => ascii "reading response body: " ++ cause
  | .refreshFailed status e =>
    ascii "API returned " ++ appendInt status ++ ascii " and token refresh failed: " ++ e.message
  | .refreshed status =>
    ascii "API returned " ++ appendInt status ++ ascii " " ++
      [0xC3, 0xA2, 0xE2, 0x82, 0xAC, 0xE2, 0x80, 0x9D] ++
      ascii " tokens refreshed, please retry the operation"
  | .httpStatus status preview =>
    ascii "API returned HTTP " ++ appendInt status ++ ascii ": " ++ preview
  | .parse e => e.message

/-- Two's complement wrap-around of an `int64`. -/
def wrapInt64 (x : Int) : Int := (x + 2 ^ 63) % 2 ^ 64 - 2 ^ 63

/-- The `f.req` envelope `[[[rpcID, paramsJSON, null, "generic"]]]` as the Go
value `fReqOuter`. -/
def fReqOuter (rpcID paramsJSON : Bytes) : GoValue :=
  .slice [.slice [.slice [.string rpcID, .string paramsJSON, .nil, .string (ascii "generic")]]]

/-- The URL query parameters of `Execute`, the counter value included. -/
def executeQuery (c : Client) (rpcID sourcePath : Bytes) (reqID : Int) :
    List (Bytes × Bytes) :=
  [(ascii "rpcids", rpcID), (ascii "bl", c.buildLabel), (ascii "hl", ascii "en"),
   (ascii "rt", ascii "c")]
  ++ (if sourcePath ≠ [] then [(ascii "source-path", sourcePath)] else [])
  ++ (if c.auth.SessionID ≠ [] then [(ascii "f.sid", c.auth.SessionID)] else [])
  ++ [(ascii "_reqid", appendInt reqID)]

/-- The POST request of `Execute`. -/
def executeRequest (c : Client) (rpcID sourcePath fReqJSON : Bytes) (reqID : Int) :
    Http.Request :=
  { method := ascii "POST"
    url := BaseURL ++ BatchExecutePath
    query := executeQuery c rpcID sourcePath reqID
    form := [(ascii "f.req", fReqJSON), (ascii "at", c.auth.CSRFToken)]
    header :=
      [(ascii "Content-Type", ascii "application/x-www-form-urlencoded;charset=UTF-8"),
       (ascii "Cookie", c.auth.Cookies),
       (ascii "Origin", BaseURL),
       (ascii "Referer", BaseURL ++ ascii "/"),
       (ascii "X-Same-Domain", ascii "1")] }

/-- The JSON text `[rpcID, S, null, "generic"]`, where `S` is the JSON string
literal whose content is `paramsJSON`. -/
def envelopeRow (rpcID paramsJSON : Bytes) : Bytes :=
  ascii "[" ++ appendString rpcID ++ ascii "," ++ appendString paramsJSON ++
    ascii ",null," ++ appendString (ascii "generic") ++ ascii "]"

/-- The JSON text `[[[rpcID, S, null, "generic"]]]`. -/
def envelopeText (rpcID paramsJSON : Bytes) : Bytes :=
  ascii "[[" ++ envelopeRow rpcID paramsJSON ++ ascii "]]"

/-- The value of a form field of a request. -/
def formValue (r : Http.Request) (key : Bytes) : Option Bytes :=
  (r.form.find? (fun kv => kv.1 = key)).map (·.2)

/-- Whether a request is a POST. -/
def isPost (r : Http.Request) : Bool := r.method = ascii "POST"

/-- The bounded preview of a response body in the error for a non-200 status. -/
def preview (body : Bytes) : Bytes :=
  if body.length > 500 then body.take 500 ++ ascii "..." else body

/-- Go `Client.Execute`: the result, the client and the network afterwards. -/
def Client.Execute (c : Client) (w : Http.World) (rpcID : Bytes) (params : GoValue)
    (sourcePath : Bytes) : Except Error Bytes × Client × Http.World :=
  match c.auth.EnsureTokens w with
  | (some err, st, w1) => (.error (.auth err), { c with auth := st }, w1)
  | (none, st, w1) =>
    let c1 := { c with auth := st }
    match Marshal params with
    | none => (.error .marshalParams, c1, w1)
    | some paramsJSON =>
      match Marshal (fReqOuter rpcID paramsJSON) with
      | none => (.error .marshalRequest, c1, w1)
      | some fReqJSON =>
        let reqID := wrapInt64 (c1.reqID + 100000)
        let c2 := { c1 with reqID := reqID }
        let r := w1.send (executeRequest c1 rpcID sourcePath fReqJSON reqID)
        match r.1 with
        | .failed cause => (.error (.requestFailed cause), c2, r.2)
        | .response _ (.error cause) => (.error (.readFailed cause), c2, r.2)
        | .response status (.ok body) =>
          if status = 401 ∨ status = 403 then
            match c2.auth.RefreshTokens r.2 with
            | (some refreshErr, st3, w3) =>
              (.error (.refreshFailed status refreshErr), { c2 with auth := st3 }, w3)
            | (none, st3, w3) => (.error (.refreshed status), { c2 with auth := st3 }, w3)
          else if status ≠ 200 then (.error (.httpStatus status (preview body)), c2, r.2)
          else match ParseBatchResponse body rpcID with
            | .ok payload => (.ok payload, c2, r.2)
            | .error e => (.error (.parse e), c2, r.2)

/-! ## `internal/api/parse.go`: the accessors of raw values -/

/-- Go `ParseRawArray`: the elements and the cause of the error (`none` is
`nil`); with an error the slice is nil. -/
def ParseRawArray (data : Bytes) : List Bytes × Option UnmarshalError :=
  match UnmarshalRawSlice data with
  | .ok arr => (arr, none)
  | .error e => ([], some e)

/-- Go `GetString`. -/
def GetString (data : Bytes) : Bytes :=
  match UnmarshalString data [] with
  | .ok s => s
  | .error _ => []

/-- Go `GetInt`. -/
def GetInt (data : Bytes) : Int :=
  match UnmarshalInt data 0 with
  | .ok n => n
  | .error _ => 0

/-! ## `internal/api/query.go`: the answer of a streamed response -/

/-- The type check of `extractAnswerFromChunk`: `isAnswer` for the elements
`firstElem` of the first entry of the payload. -/
def isAnswerType (firstElem : List Bytes) : Bool :=
  if firstElem.length > 4 then
    let typeInfo := (ParseRawArray (firstElem.getD 4 [])).1
    if typeInfo.length > 0 then GetInt (typeInfo.getD (typeInfo.length - 1) []) = 1
    else false
  else false

/-- The body of the loop of `extractAnswerFromChunk` for one `item` of the
outer array: `some (text, isAnswer)` is `return text, isAnswer`, `none` is the
next iteration. -/
def chunkItem (item : Bytes) : Option (Bytes × Bool) :=
  match UnmarshalRawSlice item with
  | .ok (m :: _ :: p :: _) =>
    match UnmarshalString m [] with
    | .ok marker =>
      if marker ≠ wrbFr then none
      else match UnmarshalString p [] with
        | .ok payloadStr =>
          match UnmarshalRawSlice payloadStr with
          | .ok (first :: _) =>
            let firstElem := (ParseRawArray first).1
            if firstElem.length > 0 then
              let text := GetString (firstElem.getD 0 [])
              if text.length > 20 then some (text, isAnswerType firstElem) else none
            else none
          | _ => none
        | .error _ => none
    | .error _ => none
  | _ => none

/-- Go `extractAnswerFromChunk`. -/
def extractAnswerFromChunk (jsonStr : Bytes) : Bytes × Bool :=
  match UnmarshalRawSlice jsonStr with
  | .ok data => (data.findSome? chunkItem).getD ([], false)
  | .error _ => ([], false)

/-- The two variables `longestAnswer` and `longestThinking` of
`parseQueryResponse`. -/
structure Longest where
  answer : Bytes
  thinking : Bytes
  deriving DecidableEq, Repr

/-- The update of the two variables with the result of one chunk. -/
def Longest.update (acc : Longest) (chunk : Bytes × Bool) : Longest :=
  if chunk.1 ≠ [] then
    if chunk.2 = true ∧ chunk.1.length > acc.answer.length then { acc with answer := chunk.1 }
    else if chunk.2 = false ∧ chunk.1.length > acc.thinking.length then
      { acc with thinking := chunk.1 }
    else acc
  else acc

/-- The test `isNumber` of `parseQueryResponse`: every rune of the line is a
decimal digit. A digit is a one-byte rune and no byte of another rune is one,
so the test is on the bytes. -/
def isNumber (line : Bytes) : Bool := line.all fun ch => 48 ≤ ch ∧ ch ≤ 57

/-- The loop of `parseQueryResponse` on the lines from index `i` on: a line
that is blank once trimmed is skipped; a line of digits that is not the last
one hands the next line, as it is, to `extractAnswerFromChunk` and both are
consumed; any other line is handed over trimmed. -/
def queryLoop : List Bytes → Longest → Longest
  | [], acc => acc
  | [l], acc =>
    if TrimSpace l = [] then acc
    else acc.update (extractAnswerFromChunk (TrimSpace l))
  | l :: next :: rest, acc =>
    if TrimSpace l = [] then queryLoop (next :: rest) acc
    else if isNumber (TrimSpace l) then queryLoop rest (acc.update (extractAnswerFromChunk next))
    else queryLoop (next :: rest) (acc.update (extractAnswerFromChunk (TrimSpace l)))

/-- Go `parseQueryResponse`. -/
def parseQueryResponse (text : Bytes) : Bytes :=
  let text := if HasPrefix text (ascii ")]\x7d'") then text.drop 4 else text
  let r := queryLoop (SplitNewline (TrimSpace text)) ⟨[], []⟩
  if r.answer ≠ [] then r.answer else r.thinking

/-- The strings the loop of `parseQueryResponse` hands to
`extractAnswerFromChunk`, in order. -/
def chunksOf : List Bytes → List Bytes
  | [] => []
  | [l] => if TrimSpace l = [] then [] else [TrimSpace l]
  | l :: next :: rest =>
    if TrimSpace l = [] then chunksOf (next :: rest)
    else if isNumber (TrimSpace l) then next :: chunksOf rest
    else TrimSpace l :: chunksOf (next :: rest)

/-- The candidate texts of a response: the non-empty texts that
`extractAnswerFromChunk` finds in the chunks, in order, each with its
classification (`true` for answer). -/
def candidates (text : Bytes) : List (Bytes × Bool) :=
  let text := if HasPrefix text (ascii ")]\x7d'") then text.drop 4 else text
  ((chunksOf (SplitNewline (TrimSpace text))).map extractAnswerFromChunk).filter
    fun c => c.1 ≠ []

/-- Specification side: `r` is the first of the longest members of `l`. -/
def IsFirstLongest (r : Bytes) (l : List Bytes) : Prop :=
  ∃ pre post, l = pre ++ r :: post ∧
    (∀ t ∈ pre, t.length < r.length) ∧ (∀ t ∈ post, t.length ≤ r.length)

/-- The candidate texts classified as answer, in order. -/
def answerTexts (text : Bytes) : List Bytes :=
  ((candidates text).filter fun c => c.2).map fun c => c.1

/-- The candidate texts classified as thinking, in order. -/
def thinkingTexts (text : Bytes) : List Bytes :=
  ((candidates text).filter fun c => !c.2).map fun c => c.1

/-- The lines `parseQueryResponse` walks over: the lines of the text without
the prefix `)]}'` and trimmed. -/
def queryLines (text : Bytes) : List Bytes :=
  SplitNewline (TrimSpace (if HasPrefix text (ascii ")]\x7d'") then text.drop 4 else text))

/-- Specification side: the result of applying `extractAnswerFromChunk` to
every line of the prefix-stripped, trimmed text in order and folding the
longest-answer / longest-thinking update over the outcomes. -/
def foldAllLines (text : Bytes) : Bytes :=
  let r := ((queryLines text).map extractAnswerFromChunk).foldl Longest.update ⟨[], []⟩
  if r.answer ≠ [] then r.answer else r.thinking

/-- Specification side: a line that carries no white space before and after
its text other than blank, tab and carriage return. -/
def plainSpaced (l : Bytes) : Prop :=
  ∃ a b, l = a ++ TrimSpace l ++ b ∧ (∀ x ∈ a, x = 32 ∨ x = 9 ∨ x = 13) ∧
    (∀ x ∈ b, x = 32 ∨ x = 9 ∨ x = 13)

/-! ## `internal/api/sources.go`: the texts of a nested value -/

/-- The loop of `extractAllText` over the elements of an array, with `f` for
the recursive call: the results appended in order; `none` when a call gives
none. -/
def extractItems (f : Bytes → Option (List Bytes)) : List Bytes → Option (List Bytes)
  | [] => some []
  | item :: rest =>
    match f item, extractItems f rest with
    | some a, some b => some (a ++ b)
    | _, _ => none

/-- Go `extractAllText`, with the bound `fuel` on the depth of the recursion;
`none` when the bound is reached. -/
def extractAllTextFuel : Nat → Bytes → Option (List Bytes)
  | 0, _ => none
  | fuel + 1, data =>
    let fromArray :=
      match ParseRawArray data with
      | (_, some _) => some []
      | (arr, none) => extractItems (extractAllTextFuel fuel) arr
    match UnmarshalString data [] with
    | .ok s => if s ≠ [] then some [s] else fromArray
    | .error _ => fromArray

/-- Go `extractAllText`.  An element of an array is shorter than the array, so
the length of the input bounds the depth of the recursion. -/
def extractAllText (data : Bytes) : List Bytes :=
  (extractAllTextFuel (data.length + 1) data).getD []

mutual
/-- Specification side: the strings of a value that are not empty, depth
first and left to right. -/
def texts : GoValue → List Bytes
  | .string s => if s = [] then [] else [s]
  | .slice xs => textsList xs
  | _ => []
/-- The strings of the values of a list, in order. -/
def textsList : List GoValue → List Bytes
  | [] => []
  | x :: xs => texts x ++ textsList xs
end

mutual
/-- Every string of the value is well-formed UTF-8. -/
def validStrings : GoValue → Bool
  | .string s => Utf8.Valid s
  | .slice xs => validStringsList xs
  | _ => true
/-- Every string of the values of the list is well-formed UTF-8. -/
def validStringsList : List GoValue → Bool
  | [] => true
  | x :: xs => validStrings x && validStringsList xs
end

/-! ## `internal/api/notebooks.go`: the sources of a notebook -/

/-- An entry of `ParseSourceEntries`: the values of the keys `id`, `title` and
`_raw` of the map. -/
structure SourceEntry where
  id : Bytes
  title : Bytes
  raw : List Bytes
  deriving DecidableEq, Repr

/-- The body of the loop of `ParseSourceEntries` for one element `s` of the
sources array: `none` is `continue`. -/
def sourceEntry (s : Bytes) : Option SourceEntry :=
  match ParseRawArray s with
  | (_, some _) => none
  | (arr, none) =>
    if arr.length < 2 then none
    else
      let idArr := (ParseRawArray (arr.getD 0 [])).1
      if idArr.length = 0 then none
      else
        let id := GetString (idArr.getD 0 [])
        if id = [] then none
        else some ⟨id, GetString (arr.getD 1 []), arr⟩

/-- Go `ParseSourceEntries`. -/
def ParseSourceEntries (data : Bytes) : List SourceEntry :=
  match ParseRawArray data with
  | (_, some _) => []
  | (srcArr, none) => srcArr.filterMap sourceEntry

/-! ## `internal/api/query.go`: `Query` -/

/-- Go `RPCGetNotebook`. -/
def RPCGetNotebook : Bytes := ascii "rLM1Ne"

/-- Go `StreamQueryPath`. -/
def StreamQueryPath : Bytes :=
  ascii ("/_/LabsTailwindUi/data/google.internal.labs.tailwind.orchestration.v1."
    ++ "LabsTailwindOrchestrationService/GenerateFreeFormStreamed")

/-- Go `NotebookPath`. -/
def NotebookPath (notebookID : Bytes) : Bytes := ascii "/notebook/" ++ notebookID

/-- Go `Client.getNotebookSourceIDs`: the result, the client and the network
afterwards. -/
def Client.getNotebookSourceIDs (c : Client) (w : Http.World) (notebookID : Bytes) :
    Except Error (List Bytes) × Client × Http.World :=
  match c.Execute w RPCGetNotebook
      (.slice [.string notebookID, .nil, .slice [.int 2], .nil, .int 0])
      (NotebookPath notebookID) with
  | (.error e, c1, w1) => (.error e, c1, w1)
  | (.ok raw, c1, w1) =>
    let outer := (ParseRawArray raw).1
    let ids :=
      if outer.length > 0 then
        let nbData := (ParseRawArray (outer.getD 0 [])).1
        if nbData.length > 1 then
          (ParseSourceEntries (nbData.getD 1 [])).filterMap fun entry =>
            if entry.id ≠ [] then some entry.id else none
        else []
      else []
    (.ok ids, c1, w1)

/-- What `%x` writes for a byte slice: two lower-case hexadecimal digits for
every byte. -/
def hexBytes : Bytes → Bytes
  | [] => []
  | x :: rest => hexDigit (x / 16) :: hexDigit (x % 16) :: hexBytes rest

/-- Go `generateUUID`, for the 16 bytes `rnd` that `crypto/rand.Read` puts
into `b`. -/
def generateUUID (rnd : Bytes) : Bytes :=
  let b := rnd.set 6 ((rnd.getD 6 0 &&& 0x0f) ||| 0x40)
  let b := b.set 8 ((b.getD 8 0 &&& 0x3f) ||| 0x80)
  hexBytes (b.take 4) ++ [45] ++ hexBytes ((b.drop 4).take 2) ++ [45] ++
    hexBytes ((b.drop 6).take 2) ++ [45] ++ hexBytes ((b.drop 8).take 2) ++ [45] ++
    hexBytes ((b.drop 10).take 6)

/-- The map `Query` returns, by its keys `answer`, `conversation_id` and
`is_follow_up`. -/
structure QueryResult where
  answer : Bytes
  conversation_id : Bytes
  is_follow_up : Bool
  deriving DecidableEq, Repr

/-- The errors `Query` returns. -/
inductive QueryError where
  | auth (e : Auth.Error)          -- the error of `EnsureTokens`, unchanged
  | sourceIDs (e : Error)          -- "getting source IDs: %w"
  | requestFailed (cause : Bytes)  -- "query request failed: %w"
  | httpStatus (status : Int)      -- "query returned HTTP %d"
  | readFailed (cause : Bytes)     -- "reading query response: %w"
  deriving DecidableEq, Repr

/-- The value `params` of `Query`:
`[sources, query, nil, [2, nil, [1]], conversationID]`, with `[[sid]]` for
every source. -/
def queryParams (sourceIDs : List Bytes) (queryText conversationID : Bytes) : GoValue :=
  .slice [.slice (sourceIDs.map fun sid => .slice [.slice [.string sid]]),
    .string queryText, .nil, .slice [.int 2, .nil, .slice [.int 1]], .string conversationID]

/-- The POST request of `Query`; the form fields are those of the body
`f.req=...&at=...&`. -/
def queryRequest (c : Client) (fReqJSON : Bytes) (reqID : Int) : Http.Request :=
  { method := ascii "POST"
    url := BaseURL ++ StreamQueryPath
    query :=
      [(ascii "bl", c.buildLabel), (ascii "hl", ascii "en"),
       (ascii "_reqid", appendInt reqID), (ascii "rt", ascii "c")]
      ++ (if c.auth.SessionID ≠ [] then [(ascii "f.sid", c.auth.SessionID)] else [])
    form :=
      [(ascii "f.req", fReqJSON)]
      ++ (if c.auth.CSRFToken ≠ [] then [(ascii "at", c.auth.CSRFToken)] else [])
    header :=
      [(ascii "Content-Type", ascii "application/x-www-form-urlencoded;charset=UTF-8"),
       (ascii "Cookie", c.auth.Cookies),
       (ascii "Origin", BaseURL),
       (ascii "Referer", BaseURL ++ ascii "/"),
       (ascii "X-Same-Domain", ascii "1")] }

/-- The part of Go `Client.Query` that follows the choice of the source ids:
the conversation identifier, the request and the reading of the response. -/
def Client.sendQuery (c : Client) (w : Http.World) (rnd queryText : Bytes)
    (sourceIDs : List Bytes) (conversationID : Bytes) :
    Except QueryError QueryResult × Client × Http.World :=
  let isNewConversation : Bool := conversationID = []
  let conversationID := if isNewConversation then generateUUID rnd else conversationID
  let paramsJSON := (Marshal (queryParams sourceIDs queryText conversationID)).getD []
  let fReqJSON := (Marshal (.slice [.nil, .string paramsJSON])).getD []
  let reqID := wrapInt64 (c.reqID + 100000)
  let c3 := { c with reqID := reqID }
  let r := w.send (queryRequest c fReqJSON reqID)
  match r.1 with
  | .failed cause => (.error (.requestFailed cause), c3, r.2)
  | .response status body =>
    if status ≠ 200 then (.error (.httpStatus status), c3, r.2)
    else match body with
      | .error cause => (.error (.readFailed cause), c3, r.2)
      | .ok respBody =>
        (.ok ⟨parseQueryResponse respBody, conversationID, !isNewConversation⟩, c3, r.2)

/-- Go `Client.Query`: the result, the client and the network afterwards.
`rnd` is what `crypto/rand.Read` delivers when an identifier is generated,
`sourceIDs` is `none` for a nil slice; the timeout is not modelled. -/
def Client.Query (c : Client) (w : Http.World) (rnd notebookID queryText : Bytes)
    (sourceIDs : Option (List Bytes)) (conversationID : Bytes) :
    Except QueryError QueryResult × Client × Http.World :=
  match c.auth.EnsureTokens w with
  | (some err, st, w1) => (.error (.auth err), { c with auth := st }, w1)
  | (none, st, w1) =>
    let c1 := { c with auth := st }
    match sourceIDs with
    | some ids => c1.sendQuery w1 rnd queryText ids conversationID
    | none =>
      match c1.getNotebookSourceIDs w1 notebookID with
      | (.error e, c2, w2) => (.error (.sourceIDs e), c2, w2)
      | (.ok ids, c2, w2) => c2.sendQuery w2 rnd queryText ids conversationID

/-! ### Vocabulary for statements about the request counter -/

/-- A call on a client: `Execute` or `Query`, with its arguments. -/
inductive Call where
  | execute (rpcID : Bytes) (params : GoValue) (sourcePath : Bytes)
  | query (rnd notebookID queryText : Bytes) (sourceIDs : Option (List Bytes))
      (conversationID : Bytes)

/-- A sequence of calls on one client, one after the other: the client and the
network afterwards. -/
def Client.run (c : Client) (w : Http.World) : List Call → Client × Http.World
  | [] => (c, w)
  | .execute rpcID params sourcePath :: rest =>
    Client.run (c.Execute w rpcID params sourcePath).2.1
      (c.Execute w rpcID params sourcePath).2.2 rest
  | .query rnd notebookID queryText sourceIDs conversationID :: rest =>
    Client.run (c.Query w rnd notebookID queryText sourceIDs conversationID).2.1
      (c.Query w rnd notebookID queryText sourceIDs conversationID).2.2 rest

/-- The value of the URL parameter `_reqid` of a request, if it has one. -/
def reqidOf (r : Http.Request) : Option Bytes :=
  (r.query.find? (fun kv => kv.1 = ascii "_reqid")).map (·.2)

/-- The `_reqid` values of the requests sent, oldest first. -/
def reqids (sent : List Http.Request) : List Bytes := sent.filterMap reqidOf

/-- The value `c.reqID.Add(100000)` returns when the counter holds `x`. -/
def nextReqID (x : Int) : Int := wrapInt64 (x + 100000)

/-! ## `internal/api/research.go`: the sources of a research task -/

/-- A source of `parseResearchSources`: the values of the keys `index`, `url`,
`title`, `description` and `result_type` of the map. -/
structure ResearchSource where
  index : Int
  url : Bytes
  title : Bytes
  description : Bytes
  resultType : Int
  deriving DecidableEq, Repr

/-- The test of the loop of `parseResearchSources` that makes it pass over an
item: `err != nil || len(arr) < 2`. -/
def malformed (item : Bytes) : Bool :=
  (ParseRawArray item).2 ≠ none ∨ (ParseRawArray item).1.length < 2

/-- The body of the loop of `parseResearchSources` for the item at position
`idx`: `none` is `continue`. -/
def researchSource (idx : Nat) (item : Bytes) : Option ResearchSource :=
  if malformed item then none
  else
    let arr := (ParseRawArray item).1
    some
      { index := idx
        url := GetString (arr.getD 0 [])
        title := if arr.length > 1 then GetString (arr.getD 1 []) else []
        description := if arr.length > 2 then GetString (arr.getD 2 []) else []
        resultType := if arr.length > 3 then GetInt (arr.getD 3 []) else 1 }

/-- The loop of `parseResearchSources` over the items from position `idx`
on. -/
def parseResearchSourcesFrom : Nat → List Bytes → List ResearchSource
  | _, [] => []
  | idx, item :: rest =>
    match researchSource idx item with
    | none => parseResearchSourcesFrom (idx + 1) rest
    | some s => s :: parseResearchSourcesFrom (idx + 1) rest

/-- Go `parseResearchSources`. -/
def parseResearchSources (data : List Bytes) : List ResearchSource :=
  parseResearchSourcesFrom 0 data

end Api

/-! ## `internal/constants/codes.go` -/

namespace Constants

open Strings

/-- A Go map as the list of its keys with their values, each key once:
`m[k] = v`. -/
def mapSet {κ ν : Type} [DecidableEq κ] (m : List (κ × ν)) (k : κ) (v : ν) : List (κ × ν) :=
  (k, v) :: m.filter (fun kv => kv.1 ≠ k)

/-- The lookup `v, ok := m[k]`: `none` is `ok = false`. -/
def mapGet {κ ν : Type} [DecidableEq κ] (m : List (κ × ν)) (k : κ) : Option ν :=
  (m.find? (fun kv => kv.1 = k)).map (·.2)

/-- Go `CodeMap`. -/
structure CodeMap where
  nameToCode : List (Bytes × Int)
  codeToName : List (Int × Bytes)
  deriving DecidableEq, Repr

/-- Go `NewCodeMap`.  The argument lists the entries of the Go map `entries`
in the order in which the `range` loop visits them, an order Go does not
fix. -/
def NewCodeMap (mapLower : Bytes → Bytes) (entries : List (Bytes × Int)) : CodeMap :=
  entries.foldl
    (fun m e =>
      { nameToCode := mapSet m.nameToCode (ToLower mapLower e.1) e.2
        codeToName := mapSet m.codeToName e.2 e.1 })
    ⟨[], []⟩

/-- Go `CodeMap.Code`. -/
def CodeMap.Code (mapLower : Bytes → Bytes) (m : CodeMap) (name : Bytes) : Int × Bool :=
  match mapGet m.nameToCode (ToLower mapLower name) with
  | some code => (code, true)
  | none => (0, false)

/-- Go `CodeMap.Name`. -/
def CodeMap.Name (m : CodeMap) (code : Int) : Bytes × Bool :=
  match mapGet m.codeToName code with
  | some name => (name, true)
  | none => ([], false)

/-- The map literal of Go `ChatGoals`. -/
def ChatGoalsEntries : List (Bytes × Int) :=
  [(ascii "default", 1), (ascii "custom", 2), (ascii "learning_guide", 3)]

/-- The map literal of Go `ResponseLengths`. -/
def ResponseLengthsEntries : List (Bytes × Int) :=
  [(ascii "default", 1), (ascii "longer", 4), (ascii "shorter", 5)]

/-- The map literal of Go `ResearchSources`. -/
def ResearchSourcesEntries : List (Bytes × Int) :=
  [(ascii "web", 1), (ascii "drive", 2)]

/-- The map literal of Go `ResearchModes`. -/
def ResearchModesEntries : List (Bytes × Int) :=
  [(ascii "fast", 1), (ascii "deep", 5)]

/-- The map literal of Go `SourceTypes`. -/
def SourceTypesEntries : List (Bytes × Int) :=
  [(ascii "google_docs", 1), (ascii "google_slides_sheets", 2), (ascii "pdf", 3),
   (ascii "pasted_text", 4), (ascii "web_page", 5), (ascii "generated_text", 8),
   (ascii "youtube", 9), (ascii "uploaded_file", 11), (ascii "image", 13),
   (ascii "word_doc", 14)]

/-- The map literal of Go `StudioTypes`. -/
def StudioTypesEntries : List (Bytes × Int) :=
  [(ascii "audio", 1), (ascii "report", 2), (ascii "video", 3), (ascii "flashcards", 4),
   (ascii "infographic", 7), (ascii "slide_deck", 8), (ascii "data_table", 9)]

/-- The map literal of Go `AudioFormats`. -/
def AudioFormatsEntries : List (Bytes × Int) :=
  [(ascii "deep_dive", 1), (ascii "brief", 2), (ascii "critique", 3), (ascii "debate", 4)]

/-- The map literal of Go `AudioLengths`. -/
def AudioLengthsEntries : List (Bytes × Int) :=
  [(ascii "short", 1), (ascii "default", 2), (ascii "long", 3)]

/-- The map literal of Go `VideoFormats`. -/
def VideoFormatsEntries : List (Bytes × Int) :=
  [(ascii "explainer", 1), (ascii "brief", 2)]

/-- The map literal of Go `VideoStyles`. -/
def VideoStylesEntries : List (Bytes × Int) :=
  [(ascii "auto_select", 1), (ascii "custom", 2), (ascii "classic", 3),
   (ascii "whiteboard", 4), (ascii "kawaii", 5), (ascii "anime", 6), (ascii "watercolor", 7),
   (ascii "retro_print", 8), (ascii "heritage", 9), (ascii "paper_craft", 10)]

/-- The map literal of Go `InfographicOrientations`. -/
def InfographicOrientationsEntries : List (Bytes × Int) :=
  [(ascii "landscape", 1), (ascii "portrait", 2), (ascii "square", 3)]

/-- The map literal of Go `InfographicDetails`. -/
def InfographicDetailsEntries : List (Bytes × Int) :=
  [(ascii "concise", 1), (ascii "standard", 2), (ascii "detailed", 3)]

/-- The map literal of Go `SlideDeckFormats`. -/
def SlideDeckFormatsEntries : List (Bytes × Int) :=
  [(ascii "detailed_deck", 1), (ascii "presenter_slides", 2)]

/-- The map literal of Go `SlideDeckLengths`. -/
def SlideDeckLengthsEntries : List (Bytes × Int) :=
  [(ascii "short", 1), (ascii "default", 3)]

/-- The map literal of Go `FlashcardDifficulties`. -/
def FlashcardDifficultiesEntries : List (Bytes × Int) :=
  [(ascii "easy", 1), (ascii "medium", 2), (ascii "hard", 3)]

/-- The map literal of Go `ShareRoles`. -/
def ShareRolesEntries : List (Bytes × Int) :=
  [(ascii "owner", 1), (ascii "editor", 2), (ascii "viewer", 3)]

/-- The map literal of Go `ShareAccess`. -/
def ShareAccessEntries : List (Bytes × Int) :=
  [(ascii "restricted", 0), (ascii "public", 1)]

/-- The map literal of Go `ExportTypes`. -/
def ExportTypesEntries : List (Bytes × Int) :=
  [(ascii "docs", 1), (ascii "sheets", 2)]

/-- The map literals of the eighteen predefined code maps. -/
def predefinedTables : List (List (Bytes × Int)) :=
  [ChatGoalsEntries, ResponseLengthsEntries, ResearchSourcesEntries, ResearchModesEntries,
   SourceTypesEntries, StudioTypesEntries, AudioFormatsEntries, AudioLengthsEntries,
   VideoFormatsEntries, VideoStylesEntries, InfographicOrientationsEntries,
   InfographicDetailsEntries, SlideDeckFormatsEntries, SlideDeckLengthsEntries,
   FlashcardDifficultiesEntries, ShareRolesEntries, ShareAccessEntries, ExportTypesEntries]

/-- Specification side: a table whose names are ASCII without the letters
`A`..`Z` and pairwise different, and whose codes are pairwise different. -/
def plainTable (t : List (Bytes × Int)) : Bool :=
  t.all (fun e => e.1.all (fun c => c < 128 ∧ ¬ (65 ≤ c ∧ c ≤ 90))) ∧
    (t.map (·.1)).Nodup ∧ (t.map (·.2)).Nodup

/-- Specification side: `v` is an upper/lower-case variant of the lower-case
ASCII name `n`: a string of ASCII bytes that becomes `n` when each of its
letters `A`..`Z` is replaced by the lower-case letter. -/
def caseVariant (v n : Bytes) : Prop :=
  (∀ b ∈ v, b < 128) ∧ v.map toLowerByte = n

/-- Go `ChatGoals`, the entries visited in the order of the map literal. -/
def ChatGoals (mapLower : Bytes → Bytes) : CodeMap := NewCodeMap mapLower ChatGoalsEntries

/-- Go `ResponseLengths`, the entries visited in the order of the map
literal. -/
def ResponseLengths (mapLower : Bytes → Bytes) : CodeMap :=
  NewCodeMap mapLower ResponseLengthsEntries

/-- Go `ResearchSources`, the entries visited in the order of the map
literal. -/
def ResearchSources (mapLower : Bytes → Bytes) : CodeMap :=
  NewCodeMap mapLower ResearchSourcesEntries

/-- Go `ResearchModes`, the entries visited in the order of the map literal. -/
def ResearchModes (mapLower : Bytes → Bytes) : CodeMap :=
  NewCodeMap mapLower ResearchModesEntries

/-- Go `SourceTypes`, the entries visited in the order of the map literal. -/
def SourceTypes (mapLower : Bytes → Bytes) : CodeMap := NewCodeMap mapLower SourceTypesEntries

/-- Go `StudioTypes`, the entries visited in the order of the map literal. -/
def StudioTypes (mapLower : Bytes → Bytes) : CodeMap := NewCodeMap mapLower StudioTypesEntries

/-- Go `AudioFormats`, the entries visited in the order of the map literal. -/
def AudioFormats (mapLower : Bytes → Bytes) : CodeMap := NewCodeMap mapLower AudioFormatsEntries

/-- Go `AudioLengths`, the entries visited in the order of the map literal. -/
def AudioLengths (mapLower : Bytes → Bytes) : CodeMap := NewCodeMap mapLower AudioLengthsEntries

/-- Go `VideoFormats`, the entries visited in the order of the map literal. -/
def VideoFormats (mapLower : Bytes → Bytes) : CodeMap := NewCodeMap mapLower VideoFormatsEntries

/-- Go `VideoStyles`, the entries visited in the order of the map literal. -/
def VideoStyles (mapLower : Bytes → Bytes) : CodeMap := NewCodeMap mapLower VideoStylesEntries

/-- Go `InfographicOrientations`, the entries visited in the order of the map
literal. -/
def InfographicOrientations (mapLower : Bytes → Bytes) : CodeMap :=
  NewCodeMap mapLower InfographicOrientationsEntries

/-- Go `InfographicDetails`, the entries visited in the order of the map
literal. -/
def InfographicDetails (mapLower : Bytes → Bytes) : CodeMap :=
  NewCodeMap mapLower InfographicDetailsEntries

/-- Go `SlideDeckFormats`, the entries visited in the order of the map
literal. -/
def SlideDeckFormats (mapLower : Bytes → Bytes) : CodeMap :=
  NewCodeMap mapLower SlideDeckFormatsEntries

/-- Go `SlideDeckLengths`, the entries visited in the order of the map
literal. -/
def SlideDeckLengths (mapLower : Bytes → Bytes) : CodeMap :=
  NewCodeMap mapLower SlideDeckLengthsEntries

/-- Go `FlashcardDifficulties`, the entries visited in the order of the map
literal. -/
def FlashcardDifficulties (mapLower : Bytes → Bytes) : CodeMap :=
  NewCodeMap mapLower FlashcardDifficultiesEntries

/-- Go `ShareRoles`, the entries visited in the order of the map literal. -/
def ShareRoles (mapLower : Bytes → Bytes) : CodeMap := NewCodeMap mapLower ShareRolesEntries

/-- Go `ShareAccess`, the entries visited in the order of the map literal. -/
def ShareAccess (mapLower : Bytes → Bytes) : CodeMap := NewCodeMap mapLower ShareAccessEntries

/-- Go `ExportTypes`, the entries visited in the order of the map literal. -/
def ExportTypes (mapLower : Bytes → Bytes) : CodeMap := NewCodeMap mapLower ExportTypesEntries

end Constants

/-! ## `internal/mcp/tools.go`: `extractParam` -/

namespace Mcp

open Strings

/-- One turn of the loop of `extractParam` at index `i`: `none` is a run-time
panic, `some none` is "go on with `i + 1`", `some (some v)` is `return v`.
The condition is evaluated left to right with the short cuts of `&&` and
`||`. -/
def extractParamStep (s pre : Bytes) (i : Int) : Option (Option Bytes) :=
  match sliceOf s i (i + pre.length) with
  | none => none
  | some w =>
    if w ≠ pre then some none
    else
      let found : Option (Option Bytes) :=
        match sliceOf s (i + pre.length) s.length with
        | none => none
        | some val =>
          match IndexByte 38 val with
          | some amp => (sliceOf val 0 amp).map some
          | none => some (some val)
      if i = 0 then found
      else match byteAt s (i - 1) with
        | none => none
        | some b =>
          if b = 38 then found
          else match byteAt s (i - 1) with
            | none => none
            | some b2 => if b2 = 63 then found else some none

/-- The loop of `extractParam` from index `i` on; `none` is a run-time panic
(or the end of the fuel). -/
def extractParamLoop (s pre : Bytes) : Nat → Int → Option Bytes
  | 0, _ => none
  | fuel + 1, i =>
    if i ≤ (s.length : Int) - pre.length then
      match extractParamStep s pre i with
      | none => none
      | some (some v) => some v
      | some none => extractParamLoop s pre fuel (i + 1)
    else some []

/-- Go `extractParam`: the value of the parameter `key` in a URL-encoded
string; `none` would be a run-time panic. -/
def extractParam (s key : Bytes) : Option Bytes :=
  extractParamLoop s (key ++ [61]) (s.length + 2) 0

/-- Specification side: `key` followed by `=` stands at byte offset `i` of
`s`, at the start of `s` or directly after `&` or `?`. -/
def paramAt (s key : Bytes) (i : Nat) : Prop :=
  (key ++ [61]) <+: s.drop i ∧
    (i = 0 ∨ s.get? (i - 1) = some 38 ∨ s.get? (i - 1) = some 63)

instance (s key : Bytes) (i : Nat) : Decidable (paramAt s key i) := by
  unfold paramAt; infer_instance

/-! ## `internal/mcp/tools.go`: the selection of `research_import` -/

/-- The filter of the `research_import` tool: the sources to import, for the
indices given (`source_indices`, already read as integers) and the sources of
the task. -/
def selectSources (indices : List Int) (allSources : List Api.ResearchSource) :
    List Api.ResearchSource :=
  if indices.length > 0 then
    indices.filterMap fun (idx : Int) =>
      if 0 ≤ idx ∧ idx < allSources.length then allSources.get? idx.toNat else none
  else allSources

open Json

/-! ## `internal/mcp/types.go` -/

/-- A Go value of type `any` that `json.Unmarshal` has produced and that is
not nil: a `bool`, a `float64` (every JSON number is decoded into one), a
`string`, a `[]any`, or a `map[string]any` (the keys with their values, each
key once).  The nil interface, which the value `null` decodes to, is `none`. -/
inductive Any where
  | bool (b : Bool)
  | number (f : Float64)
  | string (s : Bytes)
  | slice (xs : List (Option Any))
  | map (m : List (Bytes × Option Any))

/-- Go `Request`.  `Params` is a `json.RawMessage`; `none` is nil. -/
structure Request where
  JSONRPC : Bytes
  ID : Option Any
  Method : Bytes
  Params : Option Bytes

/-- Go `Error` (the field `Data` is never set). -/
structure RpcError where
  Code : Int
  Message : Bytes
  deriving DecidableEq, Repr

/-- Go `ErrCodeParse`. -/
def ErrCodeParse : Int := -32700

/-- Go `ErrCodeInvalidRequest`. -/
def ErrCodeInvalidRequest : Int := -32600

/-- Go `ErrCodeMethodNotFound`. -/
def ErrCodeMethodNotFound : Int := -32601

/-- Go `ErrCodeInvalidParams`. -/
def ErrCodeInvalidParams : Int := -32602

/-- Go `ErrCodeInternal`. -/
def ErrCodeInternal : Int := -32603

/-- Go `ContentBlock`; `Type_` is the field `Type`. -/
structure ContentBlock where
  Type_ : Bytes
  Text : Bytes
  deriving DecidableEq, Repr

/-- Go `ToolCallResult`. -/
structure ToolCallResult where
  Content : List ContentBlock
  IsError : Bool
  deriving DecidableEq, Repr

/-- Go `TextResult`. -/
def TextResult (text : Bytes) : ToolCallResult :=
  { Content := [⟨ascii "text", text⟩], IsError := false }

/-- Go `ErrorResult`. -/
def ErrorResult (text : Bytes) : ToolCallResult :=
  { Content := [⟨ascii "text", text⟩], IsError := true }

/-- Go `ToolDef`; the schema is given by its JSON text. -/
structure ToolDef where
  Name : Bytes
  Description : Bytes
  InputSchema : Bytes
  deriving DecidableEq, Repr

/-- The values the server puts into the field `Result` of a response: an
`InitializeResult` (its fields are constants), a `ToolsListResult`, the empty
map of `ping`, and a `*ToolCallResult`. -/
inductive ResultValue where
  | initializeResult
  | toolsList (defs : List ToolDef)
  | emptyMap
  | toolCall (r : ToolCallResult)
  deriving DecidableEq, Repr

/-- Go `Response`, the value handed to `mustMarshal`; `none` in `Result` and
`Error` is nil (the field is left out of the JSON text), `none` in `ID` is nil
(the JSON text has `"id":null`). -/
structure Response where
  JSONRPC : Bytes
  ID : Option Any
  Result : Option ResultValue
  Error : Option RpcError

/-- The arguments of a tool call, Go `map[string]any`: the keys with the
values, each key once. -/
abbrev Args := List (Bytes × Option Any)

/-- Go `ToolCallParams`; `none` in `Arguments` is the nil map. -/
structure ToolCallParams where
  Name : Bytes
  Arguments : Option Args

/-! ## `json.Unmarshal` into the structs of `types.go` -/

/-- The text `v` of a JSON value stored into a Go `string` that holds `cur`:
the new string and whether an error is saved; a string literal is unquoted,
`null` changes nothing, any other value is an `UnmarshalTypeError` and changes
nothing.  (`unquoteBytes` does not reject a literal of a text that has passed
`checkValid`; as in `UnmarshalString` that case is kept as an error.) -/
def storeString (v : Bytes) (cur : Bytes) : Bytes × Bool :=
  if v.head? = some 34 then
    match unquoteBytes v with
    | some s => (s, false)
    | none => (cur, true)
  else if v.head? = some 110 then (cur, false)
  else (cur, true)

/-- One member of the object decoded into a `map[string]any` (Go
`objectInterface` and the map case of `decodeState.object`), with `f` for the
decoding of the value: the value is stored under the unquoted key, in the
place of a value stored under that key before.  The `Bool` says whether an
error has been saved so far. -/
def objectMember (f : Bytes → Option Any × Bool) (st : List (Bytes × Option Any) × Bool)
    (m : Bytes × Bytes) : List (Bytes × Option Any) × Bool :=
  match unquoteBytes m.1 with
  | none => (st.1, true)
  | some key => (Constants.mapSet st.1 key (f m.2).1, st.2 || (f m.2).2)

/-- Go `valueInterface` with `literalInterface`, `arrayInterface` and
`objectInterface`: the text `v` of a JSON value decoded into a Go `any`, the
value and whether an error is saved.  `null` gives nil, `true` and `false` a
`bool`, a string literal the `string` it stands for, a number the `float64`
that `parseFloat` (`strconv.ParseFloat`) reads from it, an array the `[]any`
of its elements, an object the `map[string]any` of its members.  The one error
of this decoding is the range error of `strconv.ParseFloat`, `none` of
`parseFloat`, which gives nil in the place of the number.  `fuel` bounds the
depth of the recursion. -/
def valueInterface (parseFloat : Bytes → Option Float64) : Nat → Bytes → Option Any × Bool
  | 0, _ => (none, true)
  | fuel + 1, v =>
    if v.head? = some 110 then (none, false)
    else if v.head? = some 116 then (some (.bool true), false)
    else if v.head? = some 102 then (some (.bool false), false)
    else if v.head? = some 34 then
      match unquoteBytes v with
      | some s => (some (.string s), false)
      | none => (none, true)
    else if v.head? = some 91 then
      (some (.slice ((rawElements v).map fun x => (valueInterface parseFloat fuel x).1)),
        (rawElements v).any fun x => (valueInterface parseFloat fuel x).2)
    else if v.head? = some 123 then
      (some (.map ((rawMembers v).foldl (objectMember (valueInterface parseFloat fuel))
          ([], false)).1),
        ((rawMembers v).foldl (objectMember (valueInterface parseFloat fuel)) ([], false)).2)
    else
      match parseFloat v with
      | some f => (some (.number f), false)
      | none => (none, true)

/-- The text `v` of a JSON value stored into a Go `any`: the new value and
whether an error is saved.  An element of an array and a value of an object
are shorter than the array and the object, so the length of the text bounds
the depth of the recursion.  With an error the value stored does not matter
(`json.Unmarshal` returns the error and the program drops the struct). -/
def storeAny (parseFloat : Bytes → Option Float64) (v : Bytes) : Option Any × Bool :=
  valueInterface parseFloat (v.length + 1) v

/-- The field of a struct that an object key selects: the folded name of the
unquoted key (`byFoldedName`; an exact match is also a folded match).
(`unquoteBytes` does not reject a key of a text that has passed `checkValid`;
the members keep that case as an error.) -/
def fieldOf (rawKey : Bytes) : Option Bytes := (unquoteBytes rawKey).map foldName

/-- One member of the object stored into a `Request`: the field is found by
the folded name of the key, and a key without field is skipped.  The `Bool`
says whether an error has been saved so far. -/
def Request.setMember (parseFloat : Bytes → Option Float64) (st : Request × Bool)
    (m : Bytes × Bytes) : Request × Bool :=
  match fieldOf m.1 with
  | none => (st.1, true)
  | some f =>
    if f = ascii "JSONRPC" then
      ({ st.1 with JSONRPC := (storeString m.2 st.1.JSONRPC).1 },
        st.2 || (storeString m.2 st.1.JSONRPC).2)
    else if f = ascii "ID" then
      ({ st.1 with ID := (storeAny parseFloat m.2).1 }, st.2 || (storeAny parseFloat m.2).2)
    else if f = ascii "METHOD" then
      ({ st.1 with Method := (storeString m.2 st.1.Method).1 },
        st.2 || (storeString m.2 st.1.Method).2)
    else if f = ascii "PARAMS" then ({ st.1 with Params := some m.2 }, st.2)
    else st

/-- Go `json.Unmarshal(msg, &req)` for `var req Request`: an object fills the
fields member by member, `null` leaves `req` as it is, any other value is a
type error; an error saved on the way is returned at the end. -/
def UnmarshalRequest (parseFloat : Bytes → Option Float64) (msg : Bytes) :
    Except UnmarshalError Request :=
  if checkValid msg then
    if firstByte msg = some 123 then
      let r := (rawMembers msg).foldl (Request.setMember parseFloat) (⟨[], none, [], none⟩, false)
      if r.2 then .error .typeError else .ok r.1
    else if firstByte msg = some 110 then .ok ⟨[], none, [], none⟩
    else .error .typeError
  else .error .syntaxError

/-- One member of the object stored into a `map[string]any`. -/
def Args.setMember (parseFloat : Bytes → Option Float64) (st : Args × Bool) (m : Bytes × Bytes) :
    Args × Bool :=
  objectMember (storeAny parseFloat) st m

/-- The text `v` of a JSON value stored into a `map[string]any` that holds
`cur`: an object adds its members to the map (a nil map is made first),
`null` changes nothing, any other value is a type error. -/
def storeArgs (parseFloat : Bytes → Option Float64) (v : Bytes) (cur : Option Args) :
    Option Args × Bool :=
  if v.head? = some 123 then
    let r := (rawMembers v).foldl (Args.setMember parseFloat) (cur.getD [], false)
    (some r.1, r.2)
  else if v.head? = some 110 then (cur, false)
  else (cur, true)

/-- One member of the object stored into a `ToolCallParams`. -/
def ToolCallParams.setMember (parseFloat : Bytes → Option Float64) (st : ToolCallParams × Bool)
    (m : Bytes × Bytes) : ToolCallParams × Bool :=
  match fieldOf m.1 with
  | none => (st.1, true)
  | some f =>
    if f = ascii "NAME" then
      ({ st.1 with Name := (storeString m.2 st.1.Name).1 },
        st.2 || (storeString m.2 st.1.Name).2)
    else if f = ascii "ARGUMENTS" then
      ({ st.1 with Arguments := (storeArgs parseFloat m.2 st.1.Arguments).1 },
        st.2 || (storeArgs parseFloat m.2 st.1.Arguments).2)
    else st

/-- Go `json.Unmarshal(data, &callParams)` for `var callParams
ToolCallParams`. -/
def UnmarshalToolCallParams (parseFloat : Bytes → Option Float64) (data : Bytes) :
    Except UnmarshalError ToolCallParams :=
  if checkValid data then
    if firstByte data = some 123 then
      let r := (rawMembers data).foldl (ToolCallParams.setMember parseFloat) (⟨[], none⟩, false)
      if r.2 then .error .typeError else .ok r.1
    else if firstByte data = some 110 then .ok ⟨[], none⟩
    else .error .typeError
  else .error .syntaxError

/-! ## `internal/mcp/server.go` -/

/-- Go `HandlerFunc`, for handlers that work on a state `σ` (the API client
and the network): the result or the error (by its text), and the state
afterwards. -/
abbrev HandlerFunc (σ : Type) := Args → σ → Except Bytes ToolCallResult × σ

/-- Go `registeredTool`. -/
structure RegisteredTool (σ : Type) where
  tooldef : ToolDef
  handler : HandlerFunc σ

/-- Go `Server` (without the mutex). -/
structure Server (σ : Type) where
  tools : List (RegisteredTool σ)
  index : List (Bytes × Nat)
  initialized : Bool

/-- Go `NewServer`. -/
def NewServer (σ : Type) : Server σ := ⟨[], [], false⟩

/-- Go `Server.AddTool`. -/
def Server.AddTool {σ : Type} (s : Server σ) (tooldef : ToolDef) (handler : HandlerFunc σ) :
    Server σ :=
  { s with
    tools := s.tools ++ [⟨tooldef, handler⟩]
    index := Constants.mapSet s.index tooldef.Name s.tools.length }

/-- Go `Server.handleNotification`. -/
def Server.handleNotification {σ : Type} (s : Server σ) (req : Request) : Server σ :=
  if req.Method = ascii "notifications/initialized" then { s with initialized := true } else s

/-- Go `Server.handleInitialize`. -/
def Server.handleInitialize {σ : Type} (_s : Server σ) (req : Request) : Response :=
  { JSONRPC := ascii "2.0", ID := req.ID, Result := some .initializeResult, Error := none }

/-- Go `Server.handleToolsList`. -/
def Server.handleToolsList {σ : Type} (s : Server σ) (req : Request) : Response :=
  { JSONRPC := ascii "2.0", ID := req.ID, Result := some (.toolsList (s.tools.map (·.tooldef))),
    Error := none }

/-- The decoding of the parameters at the start of `handleToolsCall`. -/
def callParamsOf (parseFloat : Bytes → Option Float64) (req : Request) :
    Except UnmarshalError ToolCallParams :=
  match req.Params with
  | some params => UnmarshalToolCallParams parseFloat params
  | none => .ok ⟨[], none⟩

/-- Go `Server.handleToolsCall`: the response and the state afterwards; `none`
is the panic of the index expression `s.tools[idx]` out of range.  The text of
the `json` error after `invalid params: ` is not modelled. -/
def Server.handleToolsCall {σ : Type} (parseFloat : Bytes → Option Float64) (s : Server σ) (st : σ)
    (req : Request) : Option (Response × σ) :=
  match callParamsOf parseFloat req with
  | .error _ =>
    some ({ JSONRPC := ascii "2.0", ID := req.ID, Result := none,
            Error := some ⟨ErrCodeInvalidParams, ascii "invalid params: "⟩ }, st)
  | .ok callParams =>
    match Constants.mapGet s.index callParams.Name with
    | none =>
      some ({ JSONRPC := ascii "2.0", ID := req.ID,
              Result := some (.toolCall (ErrorResult (ascii "unknown tool: " ++ callParams.Name))),
              Error := none }, st)
    | some idx =>
      match s.tools.get? idx with
      | none => none
      | some tool =>
        let args : Args := callParams.Arguments.getD []
        match tool.handler args st with
        | (.error err, st1) =>
          some ({ JSONRPC := ascii "2.0", ID := req.ID,
                  Result := some (.toolCall (ErrorResult err)), Error := none }, st1)
        | (.ok result, st1) =>
          some ({ JSONRPC := ascii "2.0", ID := req.ID, Result := some (.toolCall result),
                  Error := none }, st1)

/-- Go `Server.dispatch`. -/
def Server.dispatch {σ : Type} (parseFloat : Bytes → Option Float64) (s : Server σ) (st : σ)
    (req : Request) : Option (Response × σ) :=
  if req.Method = ascii "initialize" then some (s.handleInitialize req, st)
  else if req.Method = ascii "tools/list" then some (s.handleToolsList req, st)
  else if req.Method = ascii "tools/call" then s.handleToolsCall parseFloat st req
  else if req.Method = ascii "ping" then
    some ({ JSONRPC := ascii "2.0", ID := req.ID, Result := some .emptyMap, Error := none }, st)
  else
    some ({ JSONRPC := ascii "2.0", ID := req.ID, Result := none,
            Error := some ⟨ErrCodeMethodNotFound, ascii "method not found: " ++ req.Method⟩ }, st)

/-- Go `Server.HandleMessage`: the response as the value handed to
`mustMarshal` (`none` is the nil slice returned for a notification), the
server and the state afterwards; the outer `none` is the panic of
`handleToolsCall`.  The text of the `json` error after `parse error: ` is not
modelled. -/
def Server.HandleMessage {σ : Type} (parseFloat : Bytes → Option Float64) (s : Server σ) (st : σ)
    (msg : Bytes) : Option (Option Response × Server σ × σ) :=
  match UnmarshalRequest parseFloat msg with
  | .error _ =>
    some (some { JSONRPC := ascii "2.0", ID := none, Result := none,
                 Error := some ⟨ErrCodeParse, ascii "parse error: "⟩ }, s, st)
  | .ok req =>
    match req.ID with
    | none => some (none, s.handleNotification req, st)
    | some _ => (s.dispatch parseFloat st req).map fun r => (some r.1, s, r.2)

/-- The invariant of the server that `AddTool` keeps: every position in the
map `index` is a position of the slice `tools`. -/
def Server.WellFormed {σ : Type} (s : Server σ) : Prop :=
  ∀ name idx, Constants.mapGet s.index name = some idx → idx < s.tools.length

/-- Specification side: the value of `req.ID` after the members `ms`: the
value of the last member whose key selects the field `ID` (`null` is nil), and
`init` when there is none. -/
def idOf (parseFloat : Bytes → Option Float64) (ms : List (Bytes × Bytes)) (init : Option Any) :
    Option Any :=
  ms.foldl (fun acc m => if fieldOf m.1 = some (ascii "ID") then (storeAny parseFloat m.2).1 else acc)
    init

/-! ## `internal/mcp/tools.go`: the tools that need a confirmation -/

/-- Go `str`: the argument `key` when it is a string, the empty string
otherwise. -/
def str (p : Args) (key : Bytes) : Bytes :=
  match Constants.mapGet p key with
  | some (some (.string v)) => v
  | _ => []

/-- Go `strOr`. -/
def strOr (p : Args) (key def_ : Bytes) : Bytes :=
  if str p key ≠ [] then str p key else def_

/-- Go `boolean`: the argument `key` when it is a boolean, `false`
otherwise. -/
def boolean (p : Args) (key : Bytes) : Bool :=
  match Constants.mapGet p key with
  | some (some (.bool v)) => v
  | _ => false

/-- Go `strSlice`: the strings among the elements of the argument `key` when
it is a `[]any`, nil otherwise.  (The case `[]string` does not occur for
arguments decoded from JSON.) -/
def strSlice (p : Args) (key : Bytes) : List Bytes :=
  match Constants.mapGet p key with
  | some (some (.slice v)) =>
    v.filterMap fun (item : Option Any) =>
      match item with
      | some (.string s) => some s
      | _ => none
  | _ => []

/-- The Go values the API client hands to the tools: `map[string]any` and
`[]map[string]any` with what they hold. -/
inductive Val where
  | nil
  | bool (b : Bool)
  | int (n : Int)
  | str (s : Bytes)
  | list (xs : List Val)
  | map (m : List (Bytes × Val))

/-- Go `map[string]any` as the API client builds it. -/
abbrev GoMap := List (Bytes × Val)

/-- Go `api.StudioOptions`. -/
structure StudioOptions where
  TypeCode : Int := 0
  SourceIDs : List Bytes := []
  FormatCode : Int := 0
  LengthCode : Int := 0
  StyleCode : Int := 0
  Language : Bytes := []
  FocusPrompt : Bytes := []
  OrientationCode : Int := 0
  DetailCode : Int := 0
  DifficultyCode : Int := 0
  CardCount : Int := 0
  IsQuiz : Bool := false
  Description : Bytes := []
  ReportTitle : Bytes := []
  ReportDesc : Bytes := []
  ReportPrompt : Bytes := []
  deriving DecidableEq, Repr

/-- The methods of `*api.Client` that the tools with a confirmation call, as
operations on a state `σ` (the client and the network): an error is given by
its text, `none` is a nil error.  `MarshalIndent` is
`json.MarshalIndent(v, "", "  ")` for the values handed to `JSONResult`. -/
structure ApiOps (σ : Type) where
  DeleteNotebook : Bytes → σ → Option Bytes × σ
  SyncDriveSource : Bytes → σ → Except Bytes GoMap × σ
  DeleteSource : Bytes → σ → Option Bytes × σ
  GetNotebookSourcesWithTypes : Bytes → σ → Except Bytes (List GoMap) × σ
  CreateStudioContent : Bytes → StudioOptions → σ → Except Bytes GoMap × σ
  DeleteStudioContent : Bytes → σ → Option Bytes × σ
  CreateNote : Bytes → Bytes → σ → Except Bytes GoMap × σ
  UpdateNote : Bytes → Bytes → Bytes → Bytes → σ → Option Bytes × σ
  ListNotes : Bytes → σ → Except Bytes (List GoMap) × σ
  DeleteNote : Bytes → Bytes → σ → Option Bytes × σ
  MarshalIndent : Val → Except Bytes Bytes

/-- Go `JSONResult`. -/
def JSONResult {σ : Type} (api : ApiOps σ) (v : Val) : Except Bytes ToolCallResult :=
  match api.MarshalIndent v with
  | .error err => .error err
  | .ok data => .ok (TextResult data)

/-- The handler of the tool `notebook_delete`. -/
def notebookDelete {σ : Type} (api : ApiOps σ) : HandlerFunc σ := fun p st =>
  if !boolean p (ascii "confirm") then
    (.ok (ErrorResult (ascii "Set confirm=true to delete. This is IRREVERSIBLE.")), st)
  else
    match api.DeleteNotebook (str p (ascii "notebook_id")) st with
    | (some err, st1) => (.error err, st1)
    | (none, st1) => (.ok (TextResult (ascii "Notebook deleted.")), st1)

/-- The loop of the handler of `source_sync_drive` over the identifiers: the
results and the state afterwards. -/
def syncAll {σ : Type} (api : ApiOps σ) : List Bytes → List Val → σ → List Val × σ
  | [], results, st => (results, st)
  | id :: ids, results, st =>
    match api.SyncDriveSource id st with
    | (.error err, st1) =>
      syncAll api ids (results ++ [.map [(ascii "id", .str id), (ascii "error", .str err)]]) st1
    | (.ok r, st1) => syncAll api ids (results ++ [.map r]) st1

/-- The handler of the tool `source_sync_drive`.  The slice `results` is
handed to `JSONResult` as a list; it is the nil slice when the list is
empty. -/
def sourceSyncDrive {σ : Type} (api : ApiOps σ) : HandlerFunc σ := fun p st =>
  if !boolean p (ascii "confirm") then
    (.ok (ErrorResult (ascii "Set confirm=true to sync.")), st)
  else
    let r := syncAll api (strSlice p (ascii "source_ids")) [] st
    (JSONResult api (.list r.1), r.2)

/-- The handler of the tool `source_delete`. -/
def sourceDelete {σ : Type} (api : ApiOps σ) : HandlerFunc σ := fun p st =>
  if !boolean p (ascii "confirm") then
    (.ok (ErrorResult (ascii "Set confirm=true. IRREVERSIBLE.")), st)
  else
    match api.DeleteSource (str p (ascii "source_id")) st with
    | (some err, st1) => (.error err, st1)
    | (none, st1) => (.ok (TextResult (ascii "Source deleted.")), st1)

/-- The `switch artType` of the handler of `studio_create`: the options with
the codes of the artifact type, or the text of the error result. -/
def studioOptions (mapLower : Bytes → Bytes) (p : Args) (artType : Bytes)
    (opts : StudioOptions) : Except Bytes StudioOptions :=
  if artType = ascii "audio" then
    .ok { opts with
      TypeCode := 1
      FormatCode :=
        ((Constants.AudioFormats mapLower).Code mapLower
          (strOr p (ascii "format") (ascii "deep_dive"))).1
      LengthCode :=
        ((Constants.AudioLengths mapLower).Code mapLower
          (strOr p (ascii "length") (ascii "default"))).1 }
  else if artType = ascii "video" then
    .ok { opts with
      TypeCode := 3
      FormatCode :=
        ((Constants.VideoFormats mapLower).Code mapLower
          (strOr p (ascii "format") (ascii "explainer"))).1
      StyleCode :=
        ((Constants.VideoStyles mapLower).Code mapLower
          (strOr p (ascii "visual_style") (ascii "auto_select"))).1 }
  else if artType = ascii "report" then
    .ok { opts with
      TypeCode := 2
      ReportTitle := strOr p (ascii "format") (ascii "Briefing Doc")
      ReportDesc := ascii "Key insights"
      ReportPrompt := str p (ascii "focus_prompt") }
  else if artType = ascii "infographic" then
    .ok { opts with
      TypeCode := 7
      OrientationCode :=
        ((Constants.InfographicOrientations mapLower).Code mapLower
          (strOr p (ascii "orientation") (ascii "landscape"))).1
      DetailCode :=
        ((Constants.InfographicDetails mapLower).Code mapLower
          (strOr p (ascii "detail_level") (ascii "standard"))).1 }
  else if artType = ascii "slide_deck" then
    .ok { opts with
      TypeCode := 8
      FormatCode :=
        ((Constants.SlideDeckFormats mapLower).Code mapLower
          (strOr p (ascii "format") (ascii "detailed_deck"))).1
      LengthCode :=
        ((Constants.SlideDeckLengths mapLower).Code mapLower
          (strOr p (ascii "length") (ascii "default"))).1 }
  else if artType = ascii "flashcards" then
    .ok { opts with
      TypeCode := 4
      DifficultyCode :=
        ((Constants.FlashcardDifficulties mapLower).Code mapLower
          (strOr p (ascii "difficulty") (ascii "medium"))).1 }
  else if artType = ascii "quiz" then
    .ok { opts with
      TypeCode := 4
      IsQuiz := true
      DifficultyCode :=
        ((Constants.FlashcardDifficulties mapLower).Code mapLower
          (strOr p (ascii "difficulty") (ascii "medium"))).1 }
  else if artType = ascii "data_table" then .ok { opts with TypeCode := 9 }
  else if artType = ascii "mind_map" then
    .error (ascii "Mind map uses a separate two-step RPC flow " ++ [0xE2, 0x80, 0x94] ++
      ascii " not yet wired.")
  else .error (ascii "Unknown artifact_type: " ++ artType)

/-- The handler of the tool `studio_create`. -/
def studioCreate {σ : Type} (mapLower : Bytes → Bytes) (api : ApiOps σ) : HandlerFunc σ :=
  fun p st =>
  if !boolean p (ascii "confirm") then
    (.ok (ErrorResult (ascii "Set confirm=true to create.")), st)
  else
    let nbID := str p (ascii "notebook_id")
    let artType := str p (ascii "artifact_type")
    let srcIDs := strSlice p (ascii "source_ids")
    let found : List Bytes × σ :=
      if srcIDs.length = 0 then
        match api.GetNotebookSourcesWithTypes nbID st with
        | (.ok sources, st1) =>
          (srcIDs ++ sources.filterMap (fun (s : GoMap) =>
            match Constants.mapGet s (ascii "id") with
            | some (.str id) => some id
            | _ => none), st1)
        | (.error _, st1) => (srcIDs, st1)
      else (srcIDs, st)
    let lang := if str p (ascii "language") = [] then ascii "en" else str p (ascii "language")
    let opts : StudioOptions :=
      { SourceIDs := found.1, Language := lang, FocusPrompt := str p (ascii "focus_prompt"),
        Description := str p (ascii "description") }
    match studioOptions mapLower p artType opts with
    | .error text => (.ok (ErrorResult text), found.2)
    | .ok opts1 =>
      match api.CreateStudioContent nbID opts1 found.2 with
      | (.error err, st2) => (.error err, st2)
      | (.ok r, st2) => (JSONResult api (.map r), st2)

/-- The handler of the tool `studio_delete`. -/
def studioDelete {σ : Type} (api : ApiOps σ) : HandlerFunc σ := fun p st =>
  if !boolean p (ascii "confirm") then
    (.ok (ErrorResult (ascii "Set confirm=true. IRREVERSIBLE.")), st)
  else
    match api.DeleteStudioContent (str p (ascii "artifact_id")) st with
    | (some err, st1) => (.error err, st1)
    | (none, st1) => (.ok (TextResult (ascii "Artifact deleted.")), st1)

/-- The handler of the tool `note`. -/
def note {σ : Type} (api : ApiOps σ) : HandlerFunc σ := fun p st =>
  let nbID := str p (ascii "notebook_id")
  if str p (ascii "action") = ascii "create" then
    match api.CreateNote nbID (str p (ascii "title")) st with
    | (.error err, st1) => (.error err, st1)
    | (.ok r, st1) =>
      if str p (ascii "content") ≠ [] then
        match Constants.mapGet r (ascii "note_id") with
        | some (.str noteID) =>
          if noteID ≠ [] then
            match api.UpdateNote nbID noteID (str p (ascii "content")) (str p (ascii "title"))
                st1 with
            | (some err, st2) =>
              (.error (ascii "note created (id=" ++ noteID ++
                ascii ") but content update failed: " ++ err), st2)
            | (none, st2) => (JSONResult api (.map r), st2)
          else (JSONResult api (.map r), st1)
        | _ => (JSONResult api (.map r), st1)
      else (JSONResult api (.map r), st1)
  else if str p (ascii "action") = ascii "list" then
    match api.ListNotes nbID st with
    | (.error err, st1) => (.error err, st1)
    | (.ok notes, st1) => (JSONResult api (.list (notes.map .map)), st1)
  else if str p (ascii "action") = ascii "update" then
    if str p (ascii "note_id") = [] then
      (.ok (ErrorResult (ascii "note_id required for update")), st)
    else
      match api.UpdateNote nbID (str p (ascii "note_id")) (str p (ascii "content"))
          (str p (ascii "title")) st with
      | (some err, st1) => (.error err, st1)
      | (none, st1) => (.ok (TextResult (ascii "Note updated.")), st1)
  else if str p (ascii "action") = ascii "delete" then
    if !boolean p (ascii "confirm") then
      (.ok (ErrorResult (ascii "Set confirm=true. IRREVERSIBLE.")), st)
    else
      match api.DeleteNote nbID (str p (ascii "note_id")) st with
      | (some err, st1) => (.error err, st1)
      | (none, st1) => (.ok (TextResult (ascii "Note deleted.")), st1)
  else (.ok (ErrorResult (ascii "Unknown action. Use: create, list, update, delete")), st)

/-- Specification side: the API client with a log of the operations invoked:
each operation adds its name to the log and then works as the operation of
`api`. -/
def ApiOps.logged {σ : Type} (api : ApiOps σ) : ApiOps (σ × List Bytes) where
  DeleteNotebook := fun a st =>
    ((api.DeleteNotebook a st.1).1, (api.DeleteNotebook a st.1).2, st.2 ++ [ascii "DeleteNotebook"])
  SyncDriveSource := fun a st =>
    ((api.SyncDriveSource a st.1).1, (api.SyncDriveSource a st.1).2,
      st.2 ++ [ascii "SyncDriveSource"])
  DeleteSource := fun a st =>
    ((api.DeleteSource a st.1).1, (api.DeleteSource a st.1).2, st.2 ++ [ascii "DeleteSource"])
  GetNotebookSourcesWithTypes := fun a st =>
    ((api.GetNotebookSourcesWithTypes a st.1).1, (api.GetNotebookSourcesWithTypes a st.1).2,
      st.2 ++ [ascii "GetNotebookSourcesWithTypes"])
  CreateStudioContent := fun a o st =>
    ((api.CreateStudioContent a o st.1).1, (api.CreateStudioContent a o st.1).2,
      st.2 ++ [ascii "CreateStudioContent"])
  DeleteStudioContent := fun a st =>
    ((api.DeleteStudioContent a st.1).1, (api.DeleteStudioContent a st.1).2,
      st.2 ++ [ascii "DeleteStudioContent"])
  CreateNote := fun a b st =>
    ((api.CreateNote a b st.1).1, (api.CreateNote a b st.1).2, st.2 ++ [ascii "CreateNote"])
  UpdateNote := fun a b c d st =>
    ((api.UpdateNote a b c d st.1).1, (api.UpdateNote a b c d st.1).2,
      st.2 ++ [ascii "UpdateNote"])
  ListNotes := fun a st =>
    ((api.ListNotes a st.1).1, (api.ListNotes a st.1).2, st.2 ++ [ascii "ListNotes"])
  DeleteNote := fun a b st =>
    ((api.DeleteNote a b st.1).1, (api.DeleteNote a b st.1).2, st.2 ++ [ascii "DeleteNote"])
  MarshalIndent := api.MarshalIndent

/-- Specification side: a client whose operations do nothing and succeed. -/
def ApiOps.idle : ApiOps Unit where
  DeleteNotebook := fun _ st => (none, st)
  SyncDriveSource := fun _ st => (.ok [], st)
  DeleteSource := fun _ st => (none, st)
  GetNotebookSourcesWithTypes := fun _ st => (.ok [], st)
  CreateStudioContent := fun _ _ st => (.ok [], st)
  DeleteStudioContent := fun _ st => (none, st)
  CreateNote := fun _ _ st => (.ok [], st)
  UpdateNote := fun _ _ _ _ st => (none, st)
  ListNotes := fun _ st => (.ok [], st)
  DeleteNote := fun _ _ st => (none, st)
  MarshalIndent := fun _ => .ok []

/-- Specification side: the value of the argument `key` after the members
`ms` of an arguments object: the value of the last member whose key is `key`,
and `init` when there is none. -/
def argOf (parseFloat : Bytes → Option Float64) (ms : List (Bytes × Bytes)) (key : Bytes)
    (init : Option (Option Any)) : Option (Option Any) :=
  ms.foldl
    (fun acc m => if unquoteBytes m.1 = some key then some (storeAny parseFloat m.2).1 else acc)
    init

end Mcp

end NotebookLM

/-! # Theorems -/

namespace NotebookLM

open Strings Json Api

/-! ## Lemmas on `strings` -/

theorem IndexNewline_append (pre t : Bytes) (h : 10 ∉ pre) :
    IndexNewline (pre ++ 10 :: t) = some pre.length := by
  induction pre with
  | nil => simp [IndexNewline]
  | cons c pre ih =>
    have hc : c ≠ 10 := fun e => h (by simp [e])
    have hp : 10 ∉ pre := fun e => h (by simp [e])
    simp [IndexNewline, hc, ih hp]

theorem IndexNewline_none (s : Bytes) (h : 10 ∉ s) : IndexNewline s = none := by
  induction s with
  | nil => rfl
  | cons c s ih =>
    have hc : c ≠ 10 := fun e => h (by simp [e])
    have hp : 10 ∉ s := fun e => h (by simp [e])
    simp [IndexNewline, hc, ih hp]

theorem stripPrefix_line (pre t : Bytes) (h : 10 ∉ pre) (hlen : pre.length < 10) :
    stripPrefix (pre ++ 10 :: t) = t := by
  simp [stripPrefix, IndexNewline_append pre t h, hlen]

theorem SplitNewline_ne_nil (s : Bytes) : SplitNewline s ≠ [] := by
  induction s with
  | nil => simp [SplitNewline]
  | cons c s ih =>
    unfold SplitNewline
    split
    · simp
    · split <;> simp

theorem SplitNewline_line (l : Bytes) (h : 10 ∉ l) : SplitNewline l = [l] := by
  induction l with
  | nil => rfl
  | cons c l ih =>
    have hc : c ≠ 10 := fun e => h (by simp [e])
    have hp : 10 ∉ l := fun e => h (by simp [e])
    simp [SplitNewline, hc, ih hp]

theorem SplitNewline_append (l t : Bytes) (h : 10 ∉ l) :
    SplitNewline (l ++ 10 :: t) = l :: SplitNewline t := by
  induction l with
  | nil => simp [SplitNewline]
  | cons c l ih =>
    have hc : c ≠ 10 := fun e => h (by simp [e])
    have hp : 10 ∉ l := fun e => h (by simp [e])
    simp [SplitNewline, hc, ih hp]

theorem SplitNewline_joinLines (ls : List Bytes) (hne : ls ≠ [])
    (h : ∀ l ∈ ls, 10 ∉ l) : SplitNewline (joinLines ls) = ls := by
  induction ls with
  | nil => exact absurd rfl hne
  | cons l ls ih =>
    cases ls with
    | nil => simpa [joinLines] using SplitNewline_line l (h l (by simp))
    | cons l2 ls =>
      have h1 : 10 ∉ l := h l (by simp)
      have h2 : ∀ x ∈ l2 :: ls, 10 ∉ x := fun x hx => h x (by simp [hx])
      simp only [joinLines]
      rw [SplitNewline_append l _ h1, ih (by simp) h2]

/-! ## Lemmas on `strings.TrimSpace` -/

theorem spaceLen_take (s : Bytes) :
    ∀ x ∈ s.take (spaceLen s), isAsciiSpace x = true ∨ 128 ≤ x := by
  intro x hx
  match s with
  | [] => simp [spaceLen] at hx
  | [a] =>
    simp only [spaceLen] at hx
    split at hx
    · simp at hx; subst hx; left; assumption
    · simp at hx
  | [a, b] =>
    simp only [spaceLen] at hx
    split at hx
    · simp at hx; subst hx; left; assumption
    · split at hx
      · rename_i h2
        simp [isSpace2] at h2
        simp at hx
        rcases hx with rfl | rfl <;> right <;> omega
      · simp at hx
  | a :: b :: c :: t =>
    simp only [spaceLen] at hx
    split at hx
    · simp at hx; subst hx; left; assumption
    · split at hx
      · rename_i h2
        simp [isSpace2] at h2
        simp at hx
        rcases hx with rfl | rfl <;> right <;> omega
      · split at hx
        · rename_i h3
          simp [isSpace3] at h3
          simp at hx
          rcases hx with rfl | rfl | rfl <;> right <;> omega
        · simp at hx

theorem spaceLenRev_take (s : Bytes) :
    ∀ x ∈ s.take (spaceLenRev s), isAsciiSpace x = true ∨ 128 ≤ x := by
  intro x hx
  match s with
  | [] => simp [spaceLenRev] at hx
  | [a] =>
    simp only [spaceLenRev] at hx
    split at hx
    · simp at hx; subst hx; left; assumption
    · simp at hx
  | [a, b] =>
    simp only [spaceLenRev] at hx
    split at hx
    · simp at hx; subst hx; left; assumption
    · split at hx
      · rename_i h2
        simp [isSpace2] at h2
        simp at hx
        rcases hx with rfl | rfl <;> right <;> omega
      · simp at hx
  | a :: b :: c :: t =>
    simp only [spaceLenRev] at hx
    split at hx
    · simp at hx; subst hx; left; assumption
    · split at hx
      · rename_i h2
        simp [isSpace2] at h2
        simp at hx
        rcases hx with rfl | rfl <;> right <;> omega
      · split at hx
        · rename_i h3
          simp [isSpace3] at h3
          simp at hx
          rcases hx with rfl | rfl | rfl <;> right <;> omega
        · simp at hx

/-- What `dropSpaces` removes is a prefix made of white space bytes. -/
theorem dropSpaces_spec (len : Bytes → Nat)
    (hlen : ∀ s : Bytes, ∀ x ∈ s.take (len s), isAsciiSpace x = true ∨ 128 ≤ x) :
    ∀ (fuel : Nat) (s : Bytes), ∃ d, s = d ++ dropSpaces len fuel s ∧
      ∀ x ∈ d, isAsciiSpace x = true ∨ 128 ≤ x := by
  intro fuel
  induction fuel with
  | zero => intro s; exact ⟨[], by simp [dropSpaces], by simp⟩
  | succ n ih =>
    intro s
    unfold dropSpaces
    split
    · exact ⟨[], by simp, by simp⟩
    · obtain ⟨d, hd, hsp⟩ := ih (s.drop (len s))
      refine ⟨s.take (len s) ++ d, ?_, ?_⟩
      · rw [List.append_assoc, ← hd, List.take_append_drop]
      · intro x hx
        rcases List.mem_append.mp hx with h | h
        · exact hlen s x h
        · exact hsp x h

/-- `TrimSpace` cuts white space bytes off both ends. -/
theorem TrimSpace_spec (s : Bytes) : ∃ a b, s = a ++ TrimSpace s ++ b ∧
    (∀ x ∈ a, isAsciiSpace x = true ∨ 128 ≤ x) ∧
    (∀ x ∈ b, isAsciiSpace x = true ∨ 128 ≤ x) := by
  obtain ⟨a, ha, hsa⟩ := dropSpaces_spec spaceLen spaceLen_take s.length s
  obtain ⟨b, hb, hsb⟩ := dropSpaces_spec spaceLenRev spaceLenRev_take
    (TrimLeftSpace s).length (TrimLeftSpace s).reverse
  refine ⟨a, b.reverse, ?_, hsa, ?_⟩
  · have h1 : TrimLeftSpace s = TrimSpace s ++ b.reverse := by
      have := congrArg List.reverse hb
      simpa [TrimSpace, TrimRightSpace] using this
    have h2 : s = a ++ TrimLeftSpace s := ha
    rw [List.append_assoc, ← h1]
    exact h2
  · intro x hx
    exact hsb x (List.mem_reverse.mp hx)

/-- A byte that is neither white space nor part of a multi-byte rune
survives trimming: the trimmed text is not empty. -/
theorem TrimSpace_ne_nil (s : Bytes) (c : Nat) (hc : c ∈ s)
    (h1 : isAsciiSpace c = false) (h2 : c < 128) : TrimSpace s ≠ [] := by
  obtain ⟨a, b, hs, ha, hb⟩ := TrimSpace_spec s
  intro hnil
  rw [hnil] at hs
  rw [hs] at hc
  simp at hc
  rcases hc with h | h
  · rcases ha c h with h | h
    · simp [h1] at h
    · omega
  · rcases hb c h with h | h
    · simp [h1] at h
    · omega

/-- The trimmed text is part of the text. -/
theorem mem_of_mem_TrimSpace (s : Bytes) (c : Nat) (hc : c ∈ TrimSpace s) : c ∈ s := by
  obtain ⟨a, b, hs, _, _⟩ := TrimSpace_spec s
  rw [hs]
  simp [hc]

theorem TrimSpace_nil : TrimSpace [] = [] := rfl

theorem mem_joinLines (ls : List Bytes) (l : Bytes) (hl : l ∈ ls) (c : Nat) (hc : c ∈ l) :
    c ∈ joinLines ls := by
  induction ls with
  | nil => simp at hl
  | cons x ls ih =>
    cases ls with
    | nil =>
      simp at hl
      subst hl
      simpa [joinLines] using hc
    | cons y ls =>
      simp only [joinLines]
      rcases List.mem_cons.mp hl with h | h
      · subst h; simp [hc]
      · have := ih h
        simp [this]

/-! ## Lemmas on the decoder of batch responses -/

/-- The loop over the lines returns the first payload found among the
entries of the lines, in order. -/
theorem scanLines_eq_findSome (rpcID : Bytes) (ls : List Bytes) :
    scanLines rpcID ls =
      ls.findSome? (fun l => (lineEntries l).findSome? (matchItem rpcID)) := by
  induction ls with
  | nil => rfl
  | cons l ls ih =>
    rw [List.findSome?_cons, ← ih]
    simp only [scanLines]
    by_cases h : (TrimSpace l).head? = some 91
    · have h0 : TrimSpace l ≠ [] := by intro e; simp [e] at h
      simp only [lineEntries, extractRPCPayload, h, h0, false_or, not_true_eq_false,
        if_false, if_true, ne_eq]
      cases hu : UnmarshalRawSlice (TrimSpace l) with
      | error e => rfl
      | ok outer =>
        simp only
        cases hf : List.findSome? (matchItem rpcID) outer <;> rfl
    · simp [lineEntries, h]

/-- A raw value that is a string literal is read as that string. -/
theorem UnmarshalString_of_stringOf (raw s cur : Bytes) (h : stringOf raw = some s) :
    UnmarshalString raw cur = .ok s := by
  unfold stringOf at h
  split at h
  · rename_i hv
    simp only [UnmarshalString, hv.1, hv.2, if_true, h]
  · cases h

/-- An item that is no entry for `rpcID` is passed over. -/
theorem matchItem_of_not_matches (rpcID item : Bytes) (h : ¬ entryMatches rpcID item) :
    matchItem rpcID item = none := by
  unfold matchItem
  split
  · rename_i m i p rest hu
    split
    · rename_i marker hm
      split
      · rfl
      · rename_i hmk
        split
        · rename_i id hi
          split
          · rfl
          · rename_i hid
            exfalso
            apply h
            refine ⟨m, i, p, rest, hu, ?_, ?_⟩
            · rw [hm]; simp at hmk; rw [hmk]
            · rw [hi]; simp at hid; rw [hid]
        · rfl
    · rfl
  · rfl

/-- An entry for `rpcID` whose third element reads as a string is selected,
with that string as payload. -/
theorem matchItem_of_payload (rpcID item m i p payload : Bytes) (rest : List Bytes)
    (hu : UnmarshalRawSlice item = .ok (m :: i :: p :: rest))
    (hm : UnmarshalString m [] = .ok wrbFr) (hi : UnmarshalString i [] = .ok rpcID)
    (hp : UnmarshalString p [] = .ok payload) :
    matchItem rpcID item = some payload := by
  simp [matchItem, hu, hm, hi, hp]

/-- The payload found on a line whose entries are `epre ++ e :: epost`, none
of `epre` being an entry for `rpcID`. -/
theorem findSome_entries (rpcID : Bytes) (epre epost : List Bytes) (e payload : Bytes)
    (hepre : ∀ item ∈ epre, ¬ entryMatches rpcID item)
    (he : matchItem rpcID e = some payload) :
    (epre ++ e :: epost).findSome? (matchItem rpcID) = some payload := by
  have h1 : epre.findSome? (matchItem rpcID) = none :=
    List.findSome?_eq_none_iff.mpr fun x hx => matchItem_of_not_matches rpcID x (hepre x hx)
  simp [List.findSome?_append, h1, List.findSome?_cons, he]

/-- The result of `ParseBatchResponse` on a body made of a short first line
and a remainder that is neither blank nor HTML. -/
theorem ParseBatchResponse_scan (pre text rpcID : Bytes) (hpre : 10 ∉ pre)
    (hlen : pre.length < 10) (hblank : TrimSpace text ≠ [])
    (hhtml : looksLikeHTML (TrimSpace text) = false) :
    ParseBatchResponse (pre ++ 10 :: text) rpcID =
      match scanLines rpcID (SplitNewline text) with
      | some payload => .ok payload
      | none => .error (.notFound rpcID) := by
  simp [ParseBatchResponse, stripPrefix_line pre text hpre hlen, hblank, hhtml]

/-! ## More on `strings.TrimSpace`: the first byte of the trimmed text -/

theorem spaceLen_le (s : Bytes) : spaceLen s ≤ s.length := by
  match s with
  | [] => simp [spaceLen]
  | [a] => simp only [spaceLen]; split <;> simp
  | [a, b] => simp only [spaceLen]; split <;> [simp; (split <;> simp)]
  | a :: b :: c :: t =>
    simp only [spaceLen]
    split <;> [simp; (split <;> [simp; (split <;> simp)])]

theorem spaceLen_append (s y : Bytes) (h : spaceLen s ≠ 0) :
    spaceLen (s ++ y) = spaceLen s := by
  match s with
  | [] => simp [spaceLen] at h
  | [a] =>
    simp only [spaceLen] at h ⊢
    by_cases ha : isAsciiSpace a = true
    · cases y with
      | nil => simp [spaceLen, ha]
      | cons y1 y => cases y <;> simp [spaceLen, ha]
    · simp [ha] at h
  | [a, b] =>
    simp only [spaceLen] at h ⊢
    by_cases ha : isAsciiSpace a = true
    · cases y <;> simp [spaceLen, ha]
    · by_cases hb : isSpace2 a b = true
      · cases y <;> simp [spaceLen, ha, hb]
      · simp [ha, hb] at h
  | a :: b :: c :: t => simp [spaceLen]

theorem spaceLen_head (c : Nat) (r : Bytes) (h1 : isAsciiSpace c = false) (h2 : c < 128) :
    spaceLen (c :: r) = 0 := by
  by_contra hne
  have := spaceLen_take (c :: r) c (by
    cases hk : spaceLen (c :: r) with
    | zero => exact absurd hk hne
    | succ k => simp)
  rcases this with h | h
  · simp [h1] at h
  · omega

theorem dropSpaces_fuel (n : Nat) : ∀ (m : Nat) (s : Bytes), s.length ≤ n → s.length ≤ m →
    dropSpaces spaceLen n s = dropSpaces spaceLen m s := by
  induction n with
  | zero =>
    intro m s hn _
    have : s = [] := List.length_eq_zero.mp (by omega)
    subst this
    cases m <;> simp [dropSpaces, spaceLen]
  | succ n ih =>
    intro m s hn hm
    cases m with
    | zero =>
      have : s = [] := List.length_eq_zero.mp (by omega)
      subst this
      simp [dropSpaces, spaceLen]
    | succ m =>
      simp only [dropSpaces]
      split
      · rfl
      · rename_i hk
        have hle := spaceLen_le s
        apply ih
        · simp only [List.length_drop]; omega
        · simp only [List.length_drop]; omega

theorem TrimLeftSpace_unfold (s : Bytes) :
    TrimLeftSpace s = if spaceLen s = 0 then s else TrimLeftSpace (s.drop (spaceLen s)) := by
  unfold TrimLeftSpace
  cases hs : s.length with
  | zero =>
    have : s = [] := List.length_eq_zero.mp hs
    subst this
    simp [dropSpaces, spaceLen]
  | succ n =>
    simp only [dropSpaces]
    split
    · rfl
    · have hle := spaceLen_le s
      apply dropSpaces_fuel
      · simp only [List.length_drop]; omega
      · exact Nat.le_refl _

theorem TrimLeftSpace_append (n : Nat) : ∀ (x y : Bytes) (c : Nat), x.length ≤ n →
    (TrimLeftSpace x).head? = some c → isAsciiSpace c = false → c < 128 →
    TrimLeftSpace (x ++ y) = TrimLeftSpace x ++ y := by
  induction n with
  | zero =>
    intro x y c hn hh _ _
    have : x = [] := List.length_eq_zero.mp (by omega)
    subst this
    simp [TrimLeftSpace, dropSpaces] at hh
  | succ n ih =>
    intro x y c hn hh h1 h2
    rw [TrimLeftSpace_unfold x] at hh ⊢
    by_cases hk : spaceLen x = 0
    · simp only [hk, if_true] at hh ⊢
      cases x with
      | nil => simp at hh
      | cons a r =>
        simp at hh
        subst hh
        rw [TrimLeftSpace_unfold]
        simp [spaceLen_head a (r ++ y) h1 h2]
    · simp only [hk, if_false] at hh ⊢
      have hle := spaceLen_le x
      rw [TrimLeftSpace_unfold (x ++ y), spaceLen_append x y hk]
      simp only [hk, if_false]
      have hd : (x ++ y).drop (spaceLen x) = x.drop (spaceLen x) ++ y := by
        rw [List.drop_append_of_le_length hle]
      rw [hd]
      exact ih _ y c (by simp only [List.length_drop]; omega) hh h1 h2

/-- Trimming on the right keeps the first byte when it is an ASCII byte other
than white space. -/
theorem TrimRightSpace_head (c : Nat) (r : Bytes) (h1 : isAsciiSpace c = false)
    (h2 : c < 128) : (TrimRightSpace (c :: r)).head? = some c := by
  obtain ⟨b, hb, hsb⟩ := dropSpaces_spec spaceLenRev spaceLenRev_take
    (c :: r).length (c :: r).reverse
  have h3 : c :: r = TrimRightSpace (c :: r) ++ b.reverse := by
    have := congrArg List.reverse hb
    simpa [TrimRightSpace] using this
  cases ht : TrimRightSpace (c :: r) with
  | nil =>
    rw [ht] at h3
    have hc : c ∈ b := by
      have : c ∈ b.reverse := by rw [← List.nil_append b.reverse, ← h3]; simp
      exact List.mem_reverse.mp this
    rcases hsb c hc with h | h
    · simp [h1] at h
    · omega
  | cons a t =>
    rw [ht] at h3
    simp at h3
    simp [h3.1]

/-- The first byte of trimmed text whose first line, trimmed, starts with an
ASCII byte other than white space. -/
theorem TrimSpace_head_append (x y : Bytes) (c : Nat) (h : (TrimSpace x).head? = some c)
    (h1 : isAsciiSpace c = false) (h2 : c < 128) :
    (TrimSpace (x ++ y)).head? = some c := by
  have hl : (TrimLeftSpace x).head? = some c := by
    obtain ⟨b, hb, _⟩ := dropSpaces_spec spaceLenRev spaceLenRev_take
      (TrimLeftSpace x).length (TrimLeftSpace x).reverse
    have h3 : TrimLeftSpace x = TrimSpace x ++ b.reverse := by
      have := congrArg List.reverse hb
      simpa [TrimSpace, TrimRightSpace] using this
    rw [h3]
    cases ht : TrimSpace x with
    | nil => simp [ht] at h
    | cons a t => simp [ht] at h ⊢; exact h
  unfold TrimSpace
  rw [TrimLeftSpace_append x.length x y c (Nat.le_refl _) hl h1 h2]
  cases ht : TrimLeftSpace x with
  | nil => simp [ht] at hl
  | cons a t =>
    simp [ht] at hl
    subst hl
    exact TrimRightSpace_head a (t ++ y) h1 h2

/-- A body whose first line is a byte count or an array line is neither blank
nor taken for HTML. -/
theorem first_line_not_html (f : Bytes) (rest : List Bytes)
    (h : isByteCountLine f = true ∨ isArrayLine f = true) :
    TrimSpace (joinLines (f :: rest)) ≠ [] ∧
      looksLikeHTML (TrimSpace (joinLines (f :: rest))) = false := by
  have hc : ∃ c, (TrimSpace f).head? = some c ∧ isAsciiSpace c = false ∧ c < 128 ∧ c ≠ 60 := by
    rcases h with h | h
    · cases f with
      | nil => simp [isByteCountLine] at h
      | cons d r =>
        simp [isByteCountLine, isDigit] at h
        have h1 : isAsciiSpace d = false := by simp [isAsciiSpace]; omega
        have h2 : d < 128 := by omega
        refine ⟨d, ?_, h1, h2, by omega⟩
        unfold TrimSpace
        rw [TrimLeftSpace_unfold, spaceLen_head d r h1 h2]
        simpa using TrimRightSpace_head d r h1 h2
    · simp [isArrayLine] at h
      exact ⟨91, h, by decide, by decide, by decide⟩
  obtain ⟨c, h0, h1, h2, h3⟩ := hc
  have hj : ∃ y, joinLines (f :: rest) = f ++ y := by
    cases rest with
    | nil => exact ⟨[], by simp [joinLines]⟩
    | cons g rest => exact ⟨10 :: joinLines (g :: rest), by simp [joinLines]⟩
  obtain ⟨y, hy⟩ := hj
  have hh := TrimSpace_head_append f y c h0 h1 h2
  rw [← hy] at hh
  cases ht : TrimSpace (joinLines (f :: rest)) with
  | nil => simp [ht] at hh
  | cons a t =>
    simp [ht] at hh
    subst hh
    refine ⟨by simp, ?_⟩
    have h4 : ¬ (60 = a) := fun e => h3 e.symm
    simp [looksLikeHTML, HasPrefix, ascii, List.isPrefixOf, h4]

/-- The result of `ParseBatchResponse` on a body made of the prefix line and
of byte-count and array lines: the first payload found among the entries of
the lines. -/
theorem ParseBatchResponse_lines (rpcID : Bytes) (ls : List Bytes) (hne : ls ≠ [])
    (hnl : ∀ x ∈ ls, 10 ∉ x)
    (hshape : ∀ x ∈ ls, isByteCountLine x = true ∨ isArrayLine x = true) :
    ParseBatchResponse (ascii ")]\x7d'" ++ 10 :: joinLines ls) rpcID =
      match ls.findSome? (fun l => (lineEntries l).findSome? (matchItem rpcID)) with
      | some payload => .ok payload
      | none => .error (.notFound rpcID) := by
  cases ls with
  | nil => exact absurd rfl hne
  | cons f rest =>
    obtain ⟨hblank, hhtml⟩ := first_line_not_html f rest (hshape f (by simp))
    rw [ParseBatchResponse_scan (ascii ")]\x7d'") _ rpcID (by decide) (by decide) hblank hhtml,
      SplitNewline_joinLines _ hne hnl, scanLines_eq_findSome]

/-- C1. Round trip of the batch decoder: when the body is the prefix line
`)]}'` followed by byte-count lines and array lines, and the entry `e` with
marker `"wrb.fr"`, identifier the string `rpcID` and third element a JSON
string literal standing for `p` is the first entry for `rpcID` (no line before
its line and no entry before it on its line is an entry for `rpcID`), then
`ParseBatchResponse` succeeds and returns exactly `p`: the string at position
2, decoded once. -/
theorem C1_batch_round_trip (rpcID p : Bytes) (pre post : List Bytes) (l : Bytes)
    (epre epost : List Bytes) (e m i s : Bytes) (rest : List Bytes)
    (hnl : ∀ x ∈ pre ++ l :: post, 10 ∉ x)
    (hshape : ∀ x ∈ pre ++ l :: post, isByteCountLine x = true ∨ isArrayLine x = true)
    (hpre : ∀ x ∈ pre, ∀ item ∈ lineEntries x, ¬ entryMatches rpcID item)
    (hl : lineEntries l = epre ++ e :: epost)
    (hepre : ∀ item ∈ epre, ¬ entryMatches rpcID item)
    (he : UnmarshalRawSlice e = .ok (m :: i :: s :: rest))
    (hm : stringOf m = some wrbFr) (hi : stringOf i = some rpcID)
    (hs : stringOf s = some p) :
    ParseBatchResponse (ascii ")]\x7d'" ++ 10 :: joinLines (pre ++ l :: post)) rpcID = .ok p := by
  rw [ParseBatchResponse_lines rpcID _ (by simp) hnl hshape]
  have h1 : pre.findSome? (fun l => (lineEntries l).findSome? (matchItem rpcID)) = none :=
    List.findSome?_eq_none_iff.mpr fun x hx =>
      List.findSome?_eq_none_iff.mpr fun item hitem =>
        matchItem_of_not_matches rpcID item (hpre x hx item hitem)
  have h2 : (lineEntries l).findSome? (matchItem rpcID) = some p := by
    rw [hl]
    exact findSome_entries rpcID epre epost e p hepre
      (matchItem_of_payload rpcID e m i s p rest he
        (UnmarshalString_of_stringOf m wrbFr [] hm)
        (UnmarshalString_of_stringOf i rpcID [] hi)
        (UnmarshalString_of_stringOf s p [] hs))
  simp [List.findSome?_append, h1, List.findSome?_cons, h2]

set_option maxRecDepth 100000 in
/-- The witness of C1: the body
`)]}'\n23\n[["wrb.fr","R1","[\"ok\"]",null]]\n5\n[["di",1]]` with `R1`
yields `["ok"]`. -/
theorem C1_batch_round_trip_witness :
    ParseBatchResponse
      (ascii ")]\x7d'" ++ 10 :: joinLines
        ([ascii "23"] ++ ascii "[[\"wrb.fr\",\"R1\",\"[\\\"ok\\\"]\",null]]" ::
          [ascii "5", ascii "[[\"di\",1]]"]))
      (ascii "R1") = .ok (ascii "[\"ok\"]") :=
  C1_batch_round_trip (ascii "R1") (ascii "[\"ok\"]") [ascii "23"]
    [ascii "5", ascii "[[\"di\",1]]"]
    (ascii "[[\"wrb.fr\",\"R1\",\"[\\\"ok\\\"]\",null]]") [] []
    (ascii "[\"wrb.fr\",\"R1\",\"[\\\"ok\\\"]\",null]")
    (ascii "\"wrb.fr\"") (ascii "\"R1\"") (ascii "\"[\\\"ok\\\"]\"") [ascii "null"]
    (by decide!) (by decide!)
    (by
      intro x hx item hitem
      simp at hx
      subst hx
      have : lineEntries (ascii "23") = [] := by rfl
      rw [this] at hitem
      cases hitem)
    (by rfl) (by simp) (by rfl) (by rfl) (by rfl) (by rfl)

/-- C7. Empty response: when nothing is left of the body after prefix
stripping, `ParseBatchResponse` fails with the "empty response body" error
for the requested identifier (hence with neither the HTML error nor the
not-found error); this is so for the empty body and for the body made of the
prefix line and its newline alone. -/
theorem C7_empty_response (rpcID : Bytes) :
    (∀ body, stripPrefix body = [] →
      ParseBatchResponse body rpcID = .error (.emptyBody rpcID)) ∧
    ParseBatchResponse [] rpcID = .error (.emptyBody rpcID) ∧
    ParseBatchResponse (ascii ")]\x7d'\n") rpcID = .error (.emptyBody rpcID) ∧
    ParseError.emptyBody rpcID ≠ .html ∧ ParseError.emptyBody rpcID ≠ .notFound rpcID := by
  have h : ∀ body, stripPrefix body = [] →
      ParseBatchResponse body rpcID = .error (.emptyBody rpcID) := by
    intro body hb
    simp [ParseBatchResponse, hb, TrimSpace_nil]
  exact ⟨h, h [] rfl, h _ rfl, by simp, by simp⟩

/-- The witness of C7: the body `)]}'` followed by a newline, asked for
`R1`. -/
theorem C7_empty_response_witness :
    stripPrefix (ascii ")]\x7d'\n") = [] ∧
    ParseBatchResponse (ascii ")]\x7d'\n") (ascii "R1") = .error (.emptyBody (ascii "R1")) :=
  ⟨rfl, (C7_empty_response (ascii "R1")).1 (ascii ")]\x7d'\n") rfl⟩

set_option maxRecDepth 100000 in
/-- The counterexample to C5: the remainder `<HTML>...` begins with an HTML
tag, yet the call does not fail with the HTML error: it returns the payload of
the entry on the next line. -/
theorem C5_counterexample :
    HasPrefix (TrimSpace (stripPrefix
      (ascii ")]\x7d'\n<HTML><body>login</body></HTML>\n[[\"wrb.fr\",\"R1\",\"[1]\"]]")))
      (ascii "<HTML>") = true ∧
    ParseBatchResponse
      (ascii ")]\x7d'\n<HTML><body>login</body></HTML>\n[[\"wrb.fr\",\"R1\",\"[1]\"]]")
      (ascii "R1") = .ok (ascii "[1]") :=
  ⟨rfl, rfl⟩

/-- C5, amended. HTML detection: for every body whose remainder after prefix
stripping, trimmed of surrounding white space, begins with `<!` or with
`<html`, and for every identifier, `ParseBatchResponse` fails with the
HTML-detected error, whatever the later lines of the body hold. -/
theorem C5_html_detected (body rpcID : Bytes)
    (h : HasPrefix (TrimSpace (stripPrefix body)) (ascii "<!") = true ∨
      HasPrefix (TrimSpace (stripPrefix body)) (ascii "<html") = true) :
    ParseBatchResponse body rpcID = .error .html := by
  have hne : TrimSpace (stripPrefix body) ≠ [] := by
    intro e
    rw [e] at h
    simp [HasPrefix, ascii] at h
  have hh : looksLikeHTML (TrimSpace (stripPrefix body)) = true := by
    simpa [looksLikeHTML] using h
  simp [ParseBatchResponse, hne, hh]

set_option maxRecDepth 100000 in
/-- The witness of C5: a login page after the prefix line, with a matching
entry on a later line. -/
theorem C5_html_detected_witness :
    ParseBatchResponse
      (ascii ")]\x7d'\n  <!DOCTYPE html><html></html>\n[[\"wrb.fr\",\"R1\",\"[1]\"]]")
      (ascii "R1") = .error .html :=
  C5_html_detected _ _ (Or.inl rfl)

/-! ## What `json.Unmarshal` into a string accepts -/

/-- `null` read into a string variable leaves it as it is, without error. -/
theorem UnmarshalString_null (p cur : Bytes) (h : UnmarshalsToNil p = true) :
    UnmarshalString p cur = .ok cur := by
  simp [UnmarshalsToNil] at h
  simp [UnmarshalString, h.1, h.2]

/-- A value read into an empty string variable without error is a string
literal, read as the string it stands for, or `null`, read as the empty
string. -/
theorem UnmarshalString_ok (p s : Bytes) (h : UnmarshalString p [] = .ok s) :
    stringOf p = some s ∨ (UnmarshalsToNil p = true ∧ s = []) := by
  unfold UnmarshalString at h
  split at h
  · rename_i hv
    split at h
    · rename_i hq
      split at h
      · rename_i t ht
        left
        have : t = s := by simpa using h
        subst this
        simp [stringOf, hv, hq, ht]
      · cases h
    · split at h
      · rename_i hn
        right
        refine ⟨by simp [UnmarshalsToNil, hv, hn], ?_⟩
        simpa using h.symm
      · cases h
  · cases h

/-- The branch of `extractRPCPayload` that returns the payload `null` is
never taken: whenever the third element is `null`, reading it into the string
`payloadStr` has already succeeded. -/
theorem matchItem_some (rpcID item payload : Bytes) (h : matchItem rpcID item = some payload) :
    ∃ m i p rest, UnmarshalRawSlice item = .ok (m :: i :: p :: rest) ∧
      UnmarshalString m [] = .ok wrbFr ∧ UnmarshalString i [] = .ok rpcID ∧
      UnmarshalString p [] = .ok payload := by
  unfold matchItem at h
  split at h
  · rename_i m i p rest hu
    split at h
    · rename_i marker hm
      split at h
      · cases h
      · rename_i hmk
        split at h
        · rename_i id hi
          split at h
          · cases h
          · rename_i hid
            simp at hmk hid
            subst hmk hid
            split at h
            · rename_i payloadStr hp
              have : payloadStr = payload := by simpa using h
              subst this
              exact ⟨m, i, p, rest, hu, hm, hi, hp⟩
            · rename_i e hp
              split at h
              · rename_i hnil
                rw [UnmarshalString_null p [] hnil] at hp
                cases hp
              · cases h
        · cases h
    · cases h
  · cases h

/-- The decoder selects exactly the usable entries. -/
theorem matchItem_isSome_iff (rpcID item : Bytes) :
    (matchItem rpcID item).isSome = true ↔ usableEntry rpcID item := by
  constructor
  · intro h
    obtain ⟨payload, hp⟩ := Option.isSome_iff_exists.mp h
    obtain ⟨m, i, p, rest, hu, hm, hi, hpl⟩ := matchItem_some rpcID item payload hp
    refine ⟨m, i, p, rest, hu, hm, hi, ?_⟩
    rcases UnmarshalString_ok p payload hpl with h1 | h1
    · left; simp [h1]
    · right; exact h1.1
  · rintro ⟨m, i, p, rest, hu, hm, hi, hp⟩
    rcases hp with hp | hp
    · obtain ⟨s, hs⟩ := Option.isSome_iff_exists.mp hp
      rw [matchItem_of_payload rpcID item m i p s rest hu hm hi
        (UnmarshalString_of_stringOf p s [] hs)]
      rfl
    · rw [matchItem_of_payload rpcID item m i p [] rest hu hm hi (UnmarshalString_null p [] hp)]
      rfl

/-- An item with fewer than three elements, another marker or another
identifier is no entry for `rpcID`. -/
theorem not_matches_of_otherEntry (rpcID item : Bytes) (h : otherEntry rpcID item) :
    ¬ entryMatches rpcID item := by
  rintro ⟨m, i, p, rest, hu, hm, hi⟩
  rcases h with ⟨elems, he, hlen⟩ | ⟨m2, i2, p2, rest2, marker, he, hmk, hne⟩ |
      ⟨m2, i2, p2, rest2, id, he, hid, hne⟩
  · rw [hu] at he
    injection he with he
    subst he
    simp at hlen
    omega
  · rw [hu] at he
    injection he with he
    injection he with h1 h2
    subst h1
    rw [hm] at hmk
    injection hmk with hmk
    exact hne hmk.symm
  · rw [hu] at he
    injection he with he
    injection he with h1 h2
    injection h2 with h2 h3
    subst h2
    rw [hi] at hid
    injection hid with hid
    exact hne hid.symm

/-! ## The claims on `ParseBatchResponse` -/

set_option maxRecDepth 100000 in
/-- C3, at the failing input: for the body `)]}'\n[["wrb.fr","R1",null]]` and
the identifier `R1` the call succeeds, but the payload it returns is the
empty byte string, not `null`; asked for `R2` the same body gives the
not-found error. -/
theorem C3_null_payload_returned_empty :
    ParseBatchResponse (ascii ")]\x7d'\n[[\"wrb.fr\",\"R1\",null]]") (ascii "R1") = .ok [] ∧
    ParseBatchResponse (ascii ")]\x7d'\n[[\"wrb.fr\",\"R1\",null]]") (ascii "R1")
      ≠ .ok (ascii "null") ∧
    ParseBatchResponse (ascii ")]\x7d'\n[[\"wrb.fr\",\"R1\",null]]") (ascii "R2")
      = .error (.notFound (ascii "R2")) :=
  ⟨rfl, by decide!, rfl⟩

/-- C4. Selection by identifier: in a body made of the prefix line and of
byte-count and array lines, let the entry `e` on line `l` have the marker
`"wrb.fr"`, the identifier `rpcID` and a string payload standing for `p`, and
let every entry on the lines before `l` and every entry before `e` on `l` be
an entry with fewer than three elements, with another marker or with another
identifier.  Then `ParseBatchResponse` returns `p`, whatever the entries after
`e` and the lines after `l` hold. -/
theorem C4_selection_by_identifier (rpcID p : Bytes) (pre post : List Bytes) (l : Bytes)
    (epre epost : List Bytes) (e m i s : Bytes) (rest : List Bytes)
    (hnl : ∀ x ∈ pre ++ l :: post, 10 ∉ x)
    (hshape : ∀ x ∈ pre ++ l :: post, isByteCountLine x = true ∨ isArrayLine x = true)
    (hpre : ∀ x ∈ pre, ∀ item ∈ lineEntries x, otherEntry rpcID item)
    (hl : lineEntries l = epre ++ e :: epost)
    (hepre : ∀ item ∈ epre, otherEntry rpcID item)
    (he : UnmarshalRawSlice e = .ok (m :: i :: s :: rest))
    (hm : stringOf m = some wrbFr) (hi : stringOf i = some rpcID)
    (hs : stringOf s = some p) :
    ParseBatchResponse (ascii ")]\x7d'" ++ 10 :: joinLines (pre ++ l :: post)) rpcID = .ok p := by
  rw [ParseBatchResponse_lines rpcID _ (by simp) hnl hshape]
  have h1 : pre.findSome? (fun l => (lineEntries l).findSome? (matchItem rpcID)) = none :=
    List.findSome?_eq_none_iff.mpr fun x hx =>
      List.findSome?_eq_none_iff.mpr fun item hitem =>
        matchItem_of_not_matches rpcID item
          (not_matches_of_otherEntry rpcID item (hpre x hx item hitem))
  have h2 : (lineEntries l).findSome? (matchItem rpcID) = some p := by
    rw [hl]
    exact findSome_entries rpcID epre epost e p
      (fun item hitem => not_matches_of_otherEntry rpcID item (hepre item hitem))
      (matchItem_of_payload rpcID e m i s p rest he
        (UnmarshalString_of_stringOf m wrbFr [] hm)
        (UnmarshalString_of_stringOf i rpcID [] hi)
        (UnmarshalString_of_stringOf s p [] hs))
  simp [List.findSome?_append, h1, List.findSome?_cons, h2]

set_option maxRecDepth 100000 in
/-- The witness of C4: three array lines; the second holds the entry for `R1`
after an entry with another marker, the first holds a short entry and an
entry for `R2`, the third an entry for `R3`. -/
theorem C4_selection_by_identifier_witness :
    ParseBatchResponse
      (ascii ")]\x7d'" ++ 10 :: joinLines
        ([ascii "40", ascii "[[\"di\",1],[\"wrb.fr\",\"R2\",\"[2]\"]]", ascii "41"] ++
          ascii "[[\"e\",4,null],[\"wrb.fr\",\"R1\",\"[1]\"]]" ::
          [ascii "25", ascii "[[\"wrb.fr\",\"R3\",\"[3]\"]]"]))
      (ascii "R1") = .ok (ascii "[1]") :=
  C4_selection_by_identifier (ascii "R1") (ascii "[1]")
    [ascii "40", ascii "[[\"di\",1],[\"wrb.fr\",\"R2\",\"[2]\"]]", ascii "41"]
    [ascii "25", ascii "[[\"wrb.fr\",\"R3\",\"[3]\"]]"]
    (ascii "[[\"e\",4,null],[\"wrb.fr\",\"R1\",\"[1]\"]]")
    [ascii "[\"e\",4,null]"] [] (ascii "[\"wrb.fr\",\"R1\",\"[1]\"]")
    (ascii "\"wrb.fr\"") (ascii "\"R1\"") (ascii "\"[1]\"") []
    (by decide!) (by decide!)
    (by
      intro x hx item hitem
      simp only [List.mem_cons, List.mem_singleton, List.not_mem_nil, or_false] at hx
      rcases hx with rfl | rfl | rfl
      · have : lineEntries (ascii "40") = [] := by rfl
        rw [this] at hitem
        cases hitem
      · have : lineEntries (ascii "[[\"di\",1],[\"wrb.fr\",\"R2\",\"[2]\"]]") =
            [ascii "[\"di\",1]", ascii "[\"wrb.fr\",\"R2\",\"[2]\"]"] := by rfl
        rw [this] at hitem
        simp only [List.mem_cons, List.mem_singleton, List.not_mem_nil, or_false] at hitem
        rcases hitem with rfl | rfl
        · exact Or.inl ⟨[ascii "\"di\"", ascii "1"], by rfl, by decide⟩
        · exact Or.inr (Or.inr ⟨ascii "\"wrb.fr\"", ascii "\"R2\"", ascii "\"[2]\"", [],
            ascii "R2", by rfl, by rfl, by decide⟩)
      · have : lineEntries (ascii "41") = [] := by rfl
        rw [this] at hitem
        cases hitem)
    (by rfl)
    (by
      intro item hitem
      simp only [List.mem_singleton] at hitem
      subst hitem
      exact Or.inr (Or.inl ⟨ascii "\"e\"", ascii "4", ascii "null", [], ascii "e",
        by rfl, by rfl, by decide⟩))
    (by rfl) (by rfl) (by rfl) (by rfl)

/-- The result of `ParseBatchResponse` on a body whose remainder is neither
blank nor HTML: the first payload found among the entries of its lines. -/
theorem ParseBatchResponse_remainder (body rpcID : Bytes)
    (hblank : TrimSpace (stripPrefix body) ≠ [])
    (hhtml : looksLikeHTML (TrimSpace (stripPrefix body)) = false) :
    ParseBatchResponse body rpcID =
      match (SplitNewline (stripPrefix body)).findSome?
          (fun l => (lineEntries l).findSome? (matchItem rpcID)) with
      | some payload => .ok payload
      | none => .error (.notFound rpcID) := by
  simp [ParseBatchResponse, hblank, hhtml, scanLines_eq_findSome]

/-- C6. Not found: for a body whose remainder is not blank and not detected
as HTML, if no array line holds a usable entry for `rpcID` (an entry with
marker `"wrb.fr"`, identifier `rpcID` and a third element that is a JSON
string or `null`), `ParseBatchResponse` fails with the error "no response
found for RPC rpcID"; conversely, whenever such an entry exists the call
succeeds. -/
theorem C6_not_found (body rpcID : Bytes)
    (hblank : TrimSpace (stripPrefix body) ≠ [])
    (hhtml : looksLikeHTML (TrimSpace (stripPrefix body)) = false) :
    ((¬ ∃ l ∈ SplitNewline (stripPrefix body), ∃ item ∈ lineEntries l,
        usableEntry rpcID item) →
      ParseBatchResponse body rpcID = .error (.notFound rpcID)) ∧
    ((∃ l ∈ SplitNewline (stripPrefix body), ∃ item ∈ lineEntries l,
        usableEntry rpcID item) →
      ∃ payload, ParseBatchResponse body rpcID = .ok payload) := by
  rw [ParseBatchResponse_remainder body rpcID hblank hhtml]
  constructor
  · intro hno
    have : (SplitNewline (stripPrefix body)).findSome?
        (fun l => (lineEntries l).findSome? (matchItem rpcID)) = none := by
      apply List.findSome?_eq_none_iff.mpr
      intro l hl
      apply List.findSome?_eq_none_iff.mpr
      intro item hitem
      cases hm : matchItem rpcID item with
      | none => rfl
      | some payload =>
        exfalso
        exact hno ⟨l, hl, item, hitem,
          (matchItem_isSome_iff rpcID item).mp (by simp [hm])⟩
    rw [this]
  · rintro ⟨l, hl, item, hitem, hu⟩
    cases hf : (SplitNewline (stripPrefix body)).findSome?
        (fun l => (lineEntries l).findSome? (matchItem rpcID)) with
    | some payload => exact ⟨payload, rfl⟩
    | none =>
      exfalso
      have h1 := List.findSome?_eq_none_iff.mp hf l hl
      have h2 := List.findSome?_eq_none_iff.mp h1 item hitem
      have h3 := (matchItem_isSome_iff rpcID item).mpr hu
      simp [h2] at h3

set_option maxRecDepth 100000 in
/-- The witness of C6: the body of the end-to-end example holds no entry for
`R2`, and asking for `R2` gives the not-found error. -/
theorem C6_not_found_witness :
    ParseBatchResponse
      (ascii ")]\x7d'\n23\n[[\"wrb.fr\",\"R1\",\"[\\\"ok\\\"]\",null]]\n5\n[[\"di\",1]]")
      (ascii "R2") = .error (.notFound (ascii "R2")) :=
  (C6_not_found
    (ascii ")]\x7d'\n23\n[[\"wrb.fr\",\"R1\",\"[\\\"ok\\\"]\",null]]\n5\n[[\"di\",1]]")
    (ascii "R2") (by decide!) (by rfl)).1
    (by
      rintro ⟨l, hl, item, hitem, hu⟩
      have h := (matchItem_isSome_iff (ascii "R2") item).mpr hu
      have hall : ∀ l ∈ SplitNewline (stripPrefix
          (ascii ")]\x7d'\n23\n[[\"wrb.fr\",\"R1\",\"[\\\"ok\\\"]\",null]]\n5\n[[\"di\",1]]")),
          ∀ item ∈ lineEntries l, (matchItem (ascii "R2") item).isSome = false := by
        decide!
      rw [hall l hl item hitem] at h
      cases h)

set_option maxRecDepth 100000 in
/-- The counterexample to C8: the entry for `R1` carries the payload string
`not json`; the call succeeds and returns that text, which is not JSON. -/
theorem C8_counterexample :
    ParseBatchResponse (ascii ")]\x7d'\n[[\"wrb.fr\",\"R1\",\"not json\"]]") (ascii "R1")
      = .ok (ascii "not json") ∧
    checkValid (ascii "not json") = false :=
  ⟨rfl, rfl⟩

/-- C8, amended. Decoded payload: whenever `ParseBatchResponse` succeeds, an
array line of the remainder holds an entry with marker `"wrb.fr"` and
identifier `rpcID` whose third element is a JSON string literal standing for
exactly the returned payload (the string is unquoted once and returned as it
is, without being parsed as JSON), or is `null`. -/
theorem C8_payload_is_unquoted_string (body rpcID payload : Bytes)
    (h : ParseBatchResponse body rpcID = .ok payload) :
    ∃ l ∈ SplitNewline (stripPrefix body), ∃ item ∈ lineEntries l, ∃ m i p rest,
      UnmarshalRawSlice item = .ok (m :: i :: p :: rest) ∧
      UnmarshalString m [] = .ok wrbFr ∧ UnmarshalString i [] = .ok rpcID ∧
      (stringOf p = some payload ∨ UnmarshalsToNil p = true) := by
  unfold ParseBatchResponse at h
  simp only at h
  split at h
  · cases h
  · split at h
    · cases h
    · split at h
      · rename_i pl hs
        have : pl = payload := by injection h
        subst this
        rw [scanLines_eq_findSome] at hs
        obtain ⟨l, hl, hl2⟩ := List.exists_of_findSome?_eq_some hs
        obtain ⟨item, hitem, hm⟩ := List.exists_of_findSome?_eq_some hl2
        obtain ⟨m, i, p, rest, hu, hmk, hid, hp⟩ := matchItem_some rpcID item pl hm
        refine ⟨l, hl, item, hitem, m, i, p, rest, hu, hmk, hid, ?_⟩
        rcases UnmarshalString_ok p pl hp with h1 | h1
        · exact Or.inl h1
        · exact Or.inr h1.1
      · cases h

set_option maxRecDepth 100000 in
/-- The witness of C8: the payload `["ok"]` of the end-to-end example is the
string at position 2 of the entry for `R1`, unquoted once. -/
theorem C8_payload_is_unquoted_string_witness :
    ∃ l ∈ SplitNewline (stripPrefix
        (ascii ")]\x7d'\n23\n[[\"wrb.fr\",\"R1\",\"[\\\"ok\\\"]\",null]]\n5\n[[\"di\",1]]")),
      ∃ item ∈ lineEntries l, ∃ m i p rest,
      UnmarshalRawSlice item = .ok (m :: i :: p :: rest) ∧
      UnmarshalString m [] = .ok wrbFr ∧ UnmarshalString i [] = .ok (ascii "R1") ∧
      (stringOf p = some (ascii "[\"ok\"]") ∨ UnmarshalsToNil p = true) :=
  C8_payload_is_unquoted_string _ (ascii "R1") (ascii "[\"ok\"]") (by rfl)

/-! ## The credential store -/

open Auth Http

/-- Extraction sends exactly one request, the fetch of the page. -/
theorem extractTokensLocked_world (s : Store) (w : World) :
    (s.extractTokensLocked w).2.2 = { w with sent := w.sent ++ [pageRequest s.cookies] } := by
  unfold Store.extractTokensLocked World.send
  simp only
  split
  · rfl
  · split
    · rfl
    · split
      · rfl
      · split
        · rfl
        · split <;> rfl

/-- Extraction never changes the cookie. -/
theorem extractTokensLocked_cookies (s : Store) (w : World) :
    (s.extractTokensLocked w).2.1.cookies = s.cookies := by
  unfold Store.extractTokensLocked
  simp only
  split
  · rfl
  · split
    · rfl
    · split
      · rfl
      · split
        · rfl
        · split <;> rfl

/-- After a successful `EnsureTokens` the cookie is not empty. -/
theorem EnsureTokens_ok_cookies (s st : Store) (w w1 : World)
    (h : s.EnsureTokens w = (none, st, w1)) : st.cookies ≠ [] := by
  unfold Store.EnsureTokens at h
  split at h
  · cases h
  · rename_i hc
    split at h
    · injection h with _ h
      injection h with h _
      rw [← h]
      exact hc
    · have h2 := extractTokensLocked_cookies s w
      rw [h] at h2
      simp only at h2
      rw [h2]
      exact hc

/-- The counterexample to C10: a store with an empty cookie and a CSRF token
set through `SetTokens`; `EnsureTokens` returns `ErrNoCookies`. -/
theorem C10_counterexample :
    ((New []).SetTokens (ascii "tok") []).csrfToken ≠ [] ∧
    (((New []).SetTokens (ascii "tok") []).EnsureTokens ⟨[], fun _ _ => .failed []⟩).1
      = some .noCookies :=
  ⟨by decide, rfl⟩

/-- C10, amended. `EnsureTokens` with a cached token: for every store state in
which the CSRF token is not empty, `EnsureTokens` sends no request and leaves
cookie, CSRF token and session id unchanged; it returns no error when the
cookie is not empty, and `ErrNoCookies` when the cookie is empty. -/
theorem C10_ensure_tokens_cached (s : Store) (w : World) (h : s.csrfToken ≠ []) :
    (s.EnsureTokens w).2 = (s, w) ∧
    (s.cookies ≠ [] → (s.EnsureTokens w).1 = none) ∧
    (s.cookies = [] → (s.EnsureTokens w).1 = some .noCookies) := by
  unfold Store.EnsureTokens
  by_cases hc : s.cookies = []
  · simp [hc]
  · simp [hc, h]

/-- The witness of C10: a store with cookie, token and session id. -/
theorem C10_ensure_tokens_cached_witness :
    ((⟨ascii "SID=1", ascii "tok", ascii "42"⟩ : Store).EnsureTokens
        ⟨[], fun _ _ => .failed []⟩).2
      = (⟨ascii "SID=1", ascii "tok", ascii "42"⟩, ⟨[], fun _ _ => .failed []⟩) ∧
    ((⟨ascii "SID=1", ascii "tok", ascii "42"⟩ : Store).EnsureTokens
        ⟨[], fun _ _ => .failed []⟩).1 = none :=
  ⟨(C10_ensure_tokens_cached ⟨ascii "SID=1", ascii "tok", ascii "42"⟩
      ⟨[], fun _ _ => .failed []⟩ (by decide)).1,
   (C10_ensure_tokens_cached ⟨ascii "SID=1", ascii "tok", ascii "42"⟩
      ⟨[], fun _ _ => .failed []⟩ (by decide)).2.1 (by decide)⟩

/-! ## `Client.Execute` -/

/-- The envelope is always serializable: its text. -/
theorem Marshal_fReqOuter (rpcID paramsJSON : Bytes) :
    Marshal (fReqOuter rpcID paramsJSON) = some (envelopeText rpcID paramsJSON) := by
  simp [fReqOuter, Marshal, MarshalElems, envelopeText, envelopeRow, ascii]

/-- What `RefreshTokens` sends when the cookie is not empty: the one fetch of
the page. -/
theorem RefreshTokens_world (s : Store) (w : World) (h : s.cookies ≠ []) :
    (s.RefreshTokens w).2.2 = { w with sent := w.sent ++ [pageRequest s.cookies] } := by
  unfold Store.RefreshTokens
  simp only [h, if_false]
  rw [extractTokensLocked_world]

/-- When the body of the answer cannot be read, `Execute` returns the error of
the read whatever the status is, 401 and 403 included, and ends there: the
POST is the last request sent and the credential store is the one after
`EnsureTokens`; `RefreshTokens` is not called. -/
theorem Execute_read_failed (c : Client) (w : World) (rpcID : Bytes)
    (params : GoValue) (sourcePath : Bytes) (st : Store) (w1 : World) (pj : Bytes)
    (status : Int) (cause : Bytes)
    (hens : c.auth.EnsureTokens w = (none, st, w1))
    (hpj : Marshal params = some pj)
    (hresp : w1.respond w1.sent
        (executeRequest { c with auth := st } rpcID sourcePath (envelopeText rpcID pj)
          (wrapInt64 (c.reqID + 100000))) = .response status (.error cause)) :
    c.Execute w rpcID params sourcePath =
      (.error (.readFailed cause),
       { auth := st, buildLabel := c.buildLabel, reqID := wrapInt64 (c.reqID + 100000) },
       { w1 with sent := w1.sent ++
          [executeRequest { c with auth := st } rpcID sourcePath (envelopeText rpcID pj)
            (wrapInt64 (c.reqID + 100000))] }) := by
  unfold Client.Execute
  simp only [hens, hpj, Marshal_fReqOuter, World.send, hresp]

set_option maxRecDepth 100000 in
/-- The counterexample to C9: the POST is answered with HTTP 403 and the body
of the answer cannot be read.  `Execute` returns the error of the read, which
does not name the status code; `RefreshTokens` is not called: the POST is the
only request sent, the page is not fetched, and the store still holds the
token `tok`, while a refresh would have fetched the page and stored the token
`new`. -/
theorem C9_counterexample :
    (Client.Execute ⟨⟨ascii "SID=1", ascii "tok", []⟩, DefaultBuildLabel, 0⟩
      ⟨[], fun _ r => if r.method = ascii "POST" then .response 403 (.error (ascii "unexpected EOF"))
        else .response 200 (.ok (ascii "\"SNlM0e\":\"new\""))⟩
      (ascii "R1") (.slice [.nil]) []).1 = .error (.readFailed (ascii "unexpected EOF")) ∧
    (Client.Execute ⟨⟨ascii "SID=1", ascii "tok", []⟩, DefaultBuildLabel, 0⟩
      ⟨[], fun _ r => if r.method = ascii "POST" then .response 403 (.error (ascii "unexpected EOF"))
        else .response 200 (.ok (ascii "\"SNlM0e\":\"new\""))⟩
      (ascii "R1") (.slice [.nil]) []).2.2.sent.map (·.method) = [ascii "POST"] ∧
    (Client.Execute ⟨⟨ascii "SID=1", ascii "tok", []⟩, DefaultBuildLabel, 0⟩
      ⟨[], fun _ r => if r.method = ascii "POST" then .response 403 (.error (ascii "unexpected EOF"))
        else .response 200 (.ok (ascii "\"SNlM0e\":\"new\""))⟩
      (ascii "R1") (.slice [.nil]) []).2.1.auth = ⟨ascii "SID=1", ascii "tok", []⟩ ∧
    ((⟨ascii "SID=1", ascii "tok", []⟩ : Store).RefreshTokens
      ⟨[], fun _ r => if r.method = ascii "POST" then .response 403 (.error (ascii "unexpected EOF"))
        else .response 200 (.ok (ascii "\"SNlM0e\":\"new\""))⟩).2.1.csrfToken = ascii "new" ∧
    (Api.Error.readFailed (ascii "unexpected EOF")).message =
      ascii "reading response body: unexpected EOF" :=
  ⟨by rfl, by rfl, by rfl, by rfl, by rfl⟩

/-- C9, amended. Authentication failure in `Execute`: when the tokens are
available, the parameters serializable, the POST is answered with HTTP 401 or
403 and the body of the answer is read without error (whatever the body
holds), `Execute` runs `RefreshTokens` once on the state reached after the
POST and ends there: the requests sent are the POST and the one page fetch of
the refresh, no second POST; the result is an error in both cases, carrying
the status code and the refresh error when the refresh fails, and carrying the
status code with the advice to retry when it succeeds; never a payload. -/
theorem C9_auth_failure_refreshes_once (c : Client) (w : World) (rpcID : Bytes)
    (params : GoValue) (sourcePath : Bytes) (st : Store) (w1 : World) (pj : Bytes)
    (status : Int) (body : Bytes)
    (hens : c.auth.EnsureTokens w = (none, st, w1))
    (hpj : Marshal params = some pj)
    (hresp : w1.respond w1.sent
        (executeRequest { c with auth := st } rpcID sourcePath (envelopeText rpcID pj)
          (wrapInt64 (c.reqID + 100000))) = .response status (.ok body))
    (hstatus : status = 401 ∨ status = 403) :
    (c.Execute w rpcID params sourcePath).1 =
      .error (match (st.RefreshTokens { w1 with sent := w1.sent ++
          [executeRequest { c with auth := st } rpcID sourcePath (envelopeText rpcID pj)
            (wrapInt64 (c.reqID + 100000))] }).1 with
        | some refreshErr => Api.Error.refreshFailed status refreshErr
        | none => Api.Error.refreshed status) ∧
    (c.Execute w rpcID params sourcePath).2.1.auth =
      (st.RefreshTokens { w1 with sent := w1.sent ++
          [executeRequest { c with auth := st } rpcID sourcePath (envelopeText rpcID pj)
            (wrapInt64 (c.reqID + 100000))] }).2.1 ∧
    (c.Execute w rpcID params sourcePath).2.2.sent =
      w1.sent ++ [executeRequest { c with auth := st } rpcID sourcePath (envelopeText rpcID pj)
            (wrapInt64 (c.reqID + 100000)), pageRequest st.cookies] ∧
    (c.Execute w rpcID params sourcePath).2.2.sent.countP isPost =
      w1.sent.countP isPost + 1 ∧
    (∀ payload, (c.Execute w rpcID params sourcePath).1 ≠ .ok payload) := by
  have hck := EnsureTokens_ok_cookies c.auth st w w1 hens
  have hw := RefreshTokens_world st { w1 with sent := w1.sent ++
          [executeRequest { c with auth := st } rpcID sourcePath (envelopeText rpcID pj)
            (wrapInt64 (c.reqID + 100000))] } hck
  have hex : c.Execute w rpcID params sourcePath =
      (.error (match (st.RefreshTokens { w1 with sent := w1.sent ++
          [executeRequest { c with auth := st } rpcID sourcePath (envelopeText rpcID pj)
            (wrapInt64 (c.reqID + 100000))] }).1 with
        | some refreshErr => Api.Error.refreshFailed status refreshErr
        | none => Api.Error.refreshed status),
       { auth := (st.RefreshTokens { w1 with sent := w1.sent ++
          [executeRequest { c with auth := st } rpcID sourcePath (envelopeText rpcID pj)
            (wrapInt64 (c.reqID + 100000))] }).2.1,
         buildLabel := c.buildLabel, reqID := wrapInt64 (c.reqID + 100000) },
       (st.RefreshTokens { w1 with sent := w1.sent ++
          [executeRequest { c with auth := st } rpcID sourcePath (envelopeText rpcID pj)
            (wrapInt64 (c.reqID + 100000))] }).2.2) := by
    unfold Client.Execute
    simp only [hens, hpj, Marshal_fReqOuter, World.send, hresp, hstatus, if_true]
    split <;> rename_i e1 e2 <;> simp [e2]
  rw [hex]
  refine ⟨rfl, rfl, ?_, ?_, ?_⟩
  · simp only [hw]
    simp
  · simp only [hw]
    simp [List.countP_append, List.countP_cons, isPost, executeRequest, pageRequest, ascii]
  · intro payload
    split <;> simp

set_option maxRecDepth 100000 in
/-- The witness of C9: a client with cached tokens whose POST is answered
with 403 and whose page fetch succeeds: the error says the tokens were
refreshed. -/
theorem C9_auth_failure_refreshes_once_witness :
    (Client.Execute ⟨⟨ascii "SID=1", ascii "tok", []⟩, DefaultBuildLabel, 0⟩
      ⟨[], fun _ r => if r.method = ascii "POST" then .response 403 (.ok (ascii "denied"))
        else .response 200 (.ok (ascii "\"SNlM0e\":\"new\""))⟩
      (ascii "R1") (.slice [.nil]) []).1 = .error (.refreshed 403) :=
  (C9_auth_failure_refreshes_once ⟨⟨ascii "SID=1", ascii "tok", []⟩, DefaultBuildLabel, 0⟩
      ⟨[], fun _ r => if r.method = ascii "POST" then .response 403 (.ok (ascii "denied"))
        else .response 200 (.ok (ascii "\"SNlM0e\":\"new\""))⟩
      (ascii "R1") (.slice [.nil]) [] ⟨ascii "SID=1", ascii "tok", []⟩
      ⟨[], fun _ r => if r.method = ascii "POST" then .response 403 (.ok (ascii "denied"))
        else .response 200 (.ok (ascii "\"SNlM0e\":\"new\""))⟩
      (ascii "[null]") 403 (ascii "denied") (by rfl) (by rfl) (by rfl) (Or.inr rfl)).1

/-! ## UTF-8: decoding and encoding one rune -/

open Utf8 in
/-- A valid multi-byte encoding at the start of a text: `EncodeRune` gives the
same bytes back, all of them are at least `0x80`, and the decoding depends on
these bytes only. -/
theorem DecodeRune_valid (a : Nat) (rest : Bytes) (h128 : 128 ≤ a)
    (hv : ¬ ((DecodeRune (a :: rest)).1 = RuneError ∧ (DecodeRune (a :: rest)).2 = 1)) :
    EncodeRune (DecodeRune (a :: rest)).1 = (a :: rest).take (DecodeRune (a :: rest)).2 ∧
    2 ≤ (DecodeRune (a :: rest)).2 ∧
    (DecodeRune (a :: rest)).2 ≤ (a :: rest).length ∧
    (∀ x ∈ (a :: rest).take (DecodeRune (a :: rest)).2, 128 ≤ x) ∧
    (∀ t, DecodeRune ((a :: rest).take (DecodeRune (a :: rest)).2 ++ t)
      = DecodeRune (a :: rest)) := by
  unfold DecodeRune at hv ⊢
  have hlt : ¬ a < 128 := by omega
  simp only [hlt, if_false] at hv ⊢
  by_cases h1 : a < 0xC2
  · simp [h1] at hv
  simp only [h1, if_false] at hv ⊢
  by_cases h2 : a < 0xE0
  · simp only [h2, if_true] at hv ⊢
    match rest with
    | [] => simp at hv
    | b :: r =>
      simp only at hv ⊢
      by_cases hb : isCont b = true
      · simp only [hb, if_true] at hv ⊢
        simp [isCont] at hb
        refine ⟨?_, by simp, by simp, ?_, ?_⟩
        · simp [EncodeRune]
          have e1 : ¬ (a % 32 * 64 + b % 64 ≤ 127) := by omega
          have e2 : a % 32 * 64 + b % 64 ≤ 2047 := by omega
          simp [e1, e2]
          constructor <;> omega
        · intro x hx
          simp at hx
          rcases hx with rfl | rfl <;> omega
        · intro t
          simp [DecodeRune, hlt, h1, h2, isCont, hb]
      · simp [hb] at hv
  simp only [h2, if_false] at hv ⊢
  by_cases h3 : a < 0xF0
  · simp only [h3, if_true] at hv ⊢
    match rest with
    | [] => simp at hv
    | [b] => simp at hv
    | b :: c :: r =>
      simp only at hv ⊢
      by_cases hc : second3 a b = true ∧ isCont c = true
      · simp only [hc, and_self, if_true] at hv ⊢
        have hbc : 128 ≤ b ∧ b ≤ 191 ∧ 128 ≤ c ∧ c ≤ 191 ∧ (a = 224 → 160 ≤ b) ∧
            (a = 237 → b ≤ 159) := by
          obtain ⟨hc1, hc2⟩ := hc
          simp [isCont] at hc2
          unfold second3 at hc1
          by_cases ha : a = 224
          · simp [ha] at hc1; omega
          · by_cases ha2 : a = 237
            · simp [ha2] at hc1; omega
            · simp [ha, ha2, isCont] at hc1; omega
        refine ⟨?_, by simp, by simp, ?_, ?_⟩
        · simp only [EncodeRune]
          have e1 : ¬ (a % 16 * 4096 + b % 64 * 64 + c % 64 ≤ 127) := by omega
          have e2 : ¬ (a % 16 * 4096 + b % 64 * 64 + c % 64 ≤ 2047) := by omega
          have e3 : ¬ (a % 16 * 4096 + b % 64 * 64 + c % 64 > 1114111 ∨
              (55296 ≤ a % 16 * 4096 + b % 64 * 64 + c % 64 ∧
                a % 16 * 4096 + b % 64 * 64 + c % 64 ≤ 57343)) := by omega
          have e4 : a % 16 * 4096 + b % 64 * 64 + c % 64 ≤ 65535 := by omega
          simp only [e1, e2, e3, e4, if_true, if_false]
          simp
          refine ⟨?_, ?_, ?_⟩ <;> omega
        · intro x hx
          simp at hx
          rcases hx with rfl | rfl | rfl <;> omega
        · intro t
          simp [DecodeRune, hlt, h1, h2, h3, hc]
      · simp [hc] at hv
  simp only [h3, if_false] at hv ⊢
  by_cases h4 : a < 0xF5
  · simp only [h4, if_true] at hv ⊢
    match rest with
    | [] => simp at hv
    | [b] => simp at hv
    | [b, c] => simp at hv
    | b :: c :: d :: r =>
      simp only at hv ⊢
      by_cases hc : second4 a b = true ∧ isCont c = true ∧ isCont d = true
      · simp only [hc, and_self, if_true] at hv ⊢
        have hbc : 128 ≤ b ∧ b ≤ 191 ∧ 128 ≤ c ∧ c ≤ 191 ∧ 128 ≤ d ∧ d ≤ 191 ∧
            (a = 240 → 144 ≤ b) ∧ (a = 244 → b ≤ 143) := by
          obtain ⟨hc1, hc2, hc3⟩ := hc
          simp [isCont] at hc2 hc3
          unfold second4 at hc1
          by_cases ha : a = 240
          · simp [ha] at hc1; omega
          · by_cases ha2 : a = 244
            · simp [ha2] at hc1; omega
            · simp [ha, ha2, isCont] at hc1; omega
        refine ⟨?_, by simp, by simp, ?_, ?_⟩
        · simp only [EncodeRune]
          have e1 : ¬ (a % 8 * 262144 + b % 64 * 4096 + c % 64 * 64 + d % 64 ≤ 127) := by omega
          have e2 : ¬ (a % 8 * 262144 + b % 64 * 4096 + c % 64 * 64 + d % 64 ≤ 2047) := by omega
          have e3 : ¬ (a % 8 * 262144 + b % 64 * 4096 + c % 64 * 64 + d % 64 > 1114111 ∨
              (55296 ≤ a % 8 * 262144 + b % 64 * 4096 + c % 64 * 64 + d % 64 ∧
                a % 8 * 262144 + b % 64 * 4096 + c % 64 * 64 + d % 64 ≤ 57343)) := by omega
          have e4 : ¬ (a % 8 * 262144 + b % 64 * 4096 + c % 64 * 64 + d % 64 ≤ 65535) := by omega
          simp only [e1, e2, e3, e4, if_true, if_false]
          simp
          refine ⟨?_, ?_, ?_, ?_⟩ <;> omega
        · intro x hx
          simp at hx
          rcases hx with rfl | rfl | rfl | rfl <;> omega
        · intro t
          simp [DecodeRune, hlt, h1, h2, h3, h4, hc]
      · simp [hc] at hv
  · simp [h4] at hv

/-! ## Quoting and unquoting a string -/

theorem hexVal_hexDigit (x : Nat) (h : x < 16) : hexVal (hexDigit x) = some x := by
  interval_cases x <;> rfl

theorem isHex_hexDigit (x : Nat) (h : x < 16) : isHex (hexDigit x) = true := by
  interval_cases x <;> rfl

/-- The escape `\u00XY` of an ASCII byte reads back as that byte. -/
theorem getu4_escape (b : Nat) (hb : b < 128) (t : Bytes) :
    getu4 (92 :: 117 :: 48 :: 48 :: hexDigit (b / 16) :: hexDigit (b % 16) :: t) = some b := by
  have h1 : b / 16 < 16 := by omega
  have h2 : b % 16 < 16 := by omega
  simp only [getu4, and_self, if_true, hexVal_hexDigit _ h1, hexVal_hexDigit _ h2]
  have : hexVal 48 = some 0 := rfl
  simp only [this]
  congr 1
  omega

theorem appendStringLoop_nil (f : Nat) : appendStringLoop f [] = [] := by
  cases f <;> rfl

theorem unquoteLoop_nil (g : Nat) : unquoteLoop g [] = some [] := by
  cases g <;> rfl

/-- One round of unquoting undoes one round of quoting: on what `appendStep`
wrote for the head of a source text (an ASCII byte or a well-formed rune),
followed by any text `X`, `unquoteStep` writes the bytes `appendStep` consumed
and leaves `X`. -/
theorem unquoteStep_appendStep (b : Nat) (rest X : Bytes)
    (hv : b < 128 ∨ ¬ ((Utf8.DecodeRune (b :: rest)).1 = Utf8.RuneError ∧
      (Utf8.DecodeRune (b :: rest)).2 = 1)) :
    ∃ pre, unquoteStep ((appendStep b rest).1 ++ X) = some (pre, X) ∧
      pre ++ (appendStep b rest).2 = b :: rest ∧
      (appendStep b rest).2.length < (b :: rest).length ∧
      1 ≤ (appendStep b rest).1.length := by
  unfold appendStep
  by_cases hb : b < 128
  · simp only [hb, if_true]
    by_cases hs : htmlSafe b = true
    · simp only [hs, if_true]
      simp [htmlSafe] at hs
      refine ⟨[b], ?_, rfl, by simp, by simp⟩
      have e1 : ¬ b = 92 := by omega
      have e2 : ¬ (b = 34 ∨ b < 32) := by omega
      simp only [List.cons_append, List.nil_append, unquoteStep, e1, e2, hb, if_true, if_false]
    · simp only [hs, Bool.false_eq_true, if_false]
      refine ⟨[b], ?_, rfl, by simp, ?_⟩
      · unfold escapeByte
        by_cases c1 : b = 92 ∨ b = 34
        · have c2 : b = 34 ∨ b = 92 ∨ b = 47 ∨ b = 39 := by omega
          simp [c1, unquoteStep, c2]
        simp only [c1, if_false]
        by_cases c2 : b = 8
        · subst c2; rfl
        simp only [c2, if_false]
        by_cases c3 : b = 12
        · subst c3; rfl
        simp only [c3, if_false]
        by_cases c4 : b = 10
        · subst c4; rfl
        simp only [c4, if_false]
        by_cases c5 : b = 13
        · subst c5; rfl
        simp only [c5, if_false]
        by_cases c6 : b = 9
        · subst c6; rfl
        simp only [c6, if_false]
        have hsur : Utf8.IsSurrogate b = false := by
          simp [Utf8.IsSurrogate]; omega
        have henc : Utf8.EncodeRune b = [b] := by
          have : b ≤ 127 := by omega
          simp [Utf8.EncodeRune, this]
        simp only [List.cons_append, List.nil_append, unquoteStep, if_true]
        simp only [show ¬ ((117 : Nat) = 34 ∨ (117 : Nat) = 92 ∨ (117 : Nat) = 47 ∨
          (117 : Nat) = 39) by decide, show ¬ ((117 : Nat) = 98) by decide,
          show ¬ ((117 : Nat) = 102) by decide, show ¬ ((117 : Nat) = 110) by decide,
          show ¬ ((117 : Nat) = 114) by decide, show ¬ ((117 : Nat) = 116) by decide,
          if_false, if_true, getu4_escape b hb, hsur, henc]
        simp
      · unfold escapeByte
        split <;> [simp; (split <;> [simp; (split <;> [simp; (split <;> [simp;
          (split <;> [simp; (split <;> simp)])])])])]
  · have hbad : ¬ ((Utf8.DecodeRune (b :: rest)).1 = Utf8.RuneError ∧
        (Utf8.DecodeRune (b :: rest)).2 = 1) := by
      rcases hv with h | h
      · exact absurd h hb
      · exact h
    simp only [hb, hbad, if_false]
    obtain ⟨henc, h2, hle, hge, hdec⟩ := DecodeRune_valid b rest (by omega) hbad
    have hlt : ((b :: rest).drop (Utf8.DecodeRune (b :: rest)).2).length < (b :: rest).length := by
      simp only [List.length_drop, List.length_cons]
      simp only [List.length_cons] at hle
      omega
    by_cases hls : (Utf8.DecodeRune (b :: rest)).1 = 0x2028 ∨
        (Utf8.DecodeRune (b :: rest)).1 = 0x2029
    · simp only [hls, if_true]
      refine ⟨(b :: rest).take (Utf8.DecodeRune (b :: rest)).2, ?_,
        List.take_append_drop _ _, hlt, by simp⟩
      have hg4 : getu4 (92 :: 117 :: 50 :: 48 :: 50 ::
          hexDigit ((Utf8.DecodeRune (b :: rest)).1 % 16) :: X)
          = some (Utf8.DecodeRune (b :: rest)).1 := by
        rcases hls with h | h <;> rw [h] <;> rfl
      have hsur : Utf8.IsSurrogate (Utf8.DecodeRune (b :: rest)).1 = false := by
        rcases hls with h | h <;> rw [h] <;> rfl
      simp only [List.cons_append, List.nil_append, unquoteStep, if_true]
      simp only [show ¬ ((117 : Nat) = 34 ∨ (117 : Nat) = 92 ∨ (117 : Nat) = 47 ∨
        (117 : Nat) = 39) by decide, show ¬ ((117 : Nat) = 98) by decide,
        show ¬ ((117 : Nat) = 102) by decide, show ¬ ((117 : Nat) = 110) by decide,
        show ¬ ((117 : Nat) = 114) by decide, show ¬ ((117 : Nat) = 116) by decide,
        if_false, if_true, hg4, hsur]
      simp only [List.drop_succ_cons, List.drop_zero, Bool.false_eq_true, if_false, henc]
    · simp only [hls, if_false]
      refine ⟨(b :: rest).take (Utf8.DecodeRune (b :: rest)).2, ?_,
        List.take_append_drop _ _, hlt, ?_⟩
      · have htake : (b :: rest).take (Utf8.DecodeRune (b :: rest)).2 =
            b :: rest.take ((Utf8.DecodeRune (b :: rest)).2 - 1) := by
          cases hk : (Utf8.DecodeRune (b :: rest)).2 with
          | zero => omega
          | succ k => simp
        have hlen : ((b :: rest).take (Utf8.DecodeRune (b :: rest)).2).length =
            (Utf8.DecodeRune (b :: rest)).2 := by
          simp only [List.length_take, List.length_cons] at hle ⊢
          omega
        have hd := hdec X
        have hdr : ((b :: rest).take (Utf8.DecodeRune (b :: rest)).2 ++ X).drop
            (Utf8.DecodeRune (b :: rest)).2 = X := by
          rw [List.drop_append_of_le_length (by omega),
            List.drop_of_length_le (by omega)]
          rfl
        rw [htake] at hd hdr
        rw [htake]
        have e1 : ¬ b = 92 := by omega
        have e2 : ¬ (b = 34 ∨ b < 32) := by omega
        simp only [List.cons_append] at hd hdr ⊢
        simp only [unquoteStep, e1, e2, hb, if_false, hd, hdr]
        rw [← htake, henc]
      · simp only [List.length_take, List.length_cons] at hle ⊢
        omega

/-- Unquoting undoes quoting on well-formed UTF-8. -/
theorem unquoteLoop_appendStringLoop (n : Nat) : ∀ (s : Bytes) (f g v : Nat),
    s.length ≤ n → s.length ≤ f → (appendStringLoop f s).length ≤ g → s.length ≤ v →
    Utf8.validLoop v s = true → unquoteLoop g (appendStringLoop f s) = some s := by
  induction n with
  | zero =>
    intro s f g v hn _ _ _ _
    have : s = [] := List.length_eq_zero.mp (by omega)
    subst this
    rw [appendStringLoop_nil, unquoteLoop_nil]
  | succ n ih =>
    intro s f g v hn hf hg hv hvalid
    cases s with
    | nil => rw [appendStringLoop_nil, unquoteLoop_nil]
    | cons b rest =>
      cases f with
      | zero => simp at hf
      | succ f =>
        cases v with
        | zero => simp at hv
        | succ v =>
          simp only [List.length_cons] at hn hf hv
          have hhead : b < 128 ∨ ¬ ((Utf8.DecodeRune (b :: rest)).1 = Utf8.RuneError ∧
              (Utf8.DecodeRune (b :: rest)).2 = 1) := by
            by_cases hb : b < 128
            · exact Or.inl hb
            · right
              intro hbad
              simp [Utf8.validLoop, hb, hbad] at hvalid
          have hvalid2 : Utf8.validLoop v (appendStep b rest).2 = true := by
            unfold appendStep
            by_cases hb : b < 128
            · simp only [Utf8.validLoop, hb, if_true] at hvalid
              simp only [hb, if_true]
              split <;> exact hvalid
            · rcases hhead with h | hbad
              · exact absurd h hb
              · simp only [Utf8.validLoop, hb, hbad, if_false] at hvalid
                simp only [hb, hbad, if_false]
                split <;> exact hvalid
          obtain ⟨pre, hstep, hpre, hlt, hout⟩ := unquoteStep_appendStep b rest
            (appendStringLoop f (appendStep b rest).2) hhead
          simp only [appendStringLoop] at hg ⊢
          simp only [List.length_cons] at hlt
          simp only [List.length_append] at hg
          cases g with
          | zero => omega
          | succ g =>
            cases hout2 : (appendStep b rest).1 ++ appendStringLoop f (appendStep b rest).2 with
            | nil =>
              have := congrArg List.length hout2
              simp only [List.length_append, List.length_nil] at this
              omega
            | cons c t =>
              rw [hout2] at hstep
              simp only [unquoteLoop, hstep]
              rw [ih (appendStep b rest).2 f g v (by omega) (by omega) (by omega) (by omega)
                hvalid2]
              simp [hpre]

/-- A quoted string literal stands for the string quoted, when that string is
well-formed UTF-8. -/
theorem unquoteBytes_appendString (s : Bytes) (h : Utf8.Valid s = true) :
    unquoteBytes (appendString s) = some s := by
  unfold unquoteBytes appendString
  have h1 : ¬ ((34 :: appendStringLoop s.length s ++ [34]).length < 2 ∨
      (34 :: appendStringLoop s.length s ++ [34]).head? ≠ some 34 ∨
      (34 :: appendStringLoop s.length s ++ [34]).getLast? ≠ some 34) := by
    have hl : (34 :: appendStringLoop s.length s ++ [34]).getLast? = some 34 := by
      rw [List.getLast?_append]
      rfl
    rw [hl]
    simp
  simp only [h1, if_false]
  have h2 : ((34 :: appendStringLoop s.length s ++ [34]).drop 1).dropLast =
      appendStringLoop s.length s := by
    simp
  rw [h2]
  exact unquoteLoop_appendStringLoop s.length s s.length _ s.length (Nat.le_refl _)
    (Nat.le_refl _) (by simp; omega) (Nat.le_refl _) h

/-! ## The scanner on a quoted string -/

/-- Inside a string literal, a byte other than the quote, the backslash and
the control characters leaves the scanner where it is; below the top level the
byte is added to the element being read. -/
theorem Split_next_inString (ps : List ParseKind) (et : Bool) (cur : Bytes)
    (elems : List Bytes) (c : Nat) (h1 : c ≠ 34) (h2 : c ≠ 92) (h3 : 32 ≤ c) :
    Split.next ⟨⟨.inString, ps, et⟩, cur, elems⟩ c =
      ⟨⟨.inString, ps, et⟩, if ps = [] then cur else c :: cur, elems⟩ := by
  have h4 : ¬ c < 32 := by omega
  by_cases hps : ps = []
  · subst hps
    simp [Split.next, Scanner.next, stateInString, h1, h2, h4]
  · have h5 : ps.length ≠ 0 := by
      intro e; exact hps (List.length_eq_zero.mp e)
    simp [Split.next, Scanner.next, stateInString, h1, h2, h4, h5, hps]

theorem Split_feed_plain (ps : List ParseKind) (et : Bool) (elems : List Bytes) :
    ∀ (chunk cur : Bytes), (∀ x ∈ chunk, x ≠ 34 ∧ x ≠ 92 ∧ 32 ≤ x) →
    chunk.foldl Split.next ⟨⟨.inString, ps, et⟩, cur, elems⟩ =
      ⟨⟨.inString, ps, et⟩, if ps = [] then cur else chunk.reverse ++ cur, elems⟩ := by
  intro chunk
  induction chunk with
  | nil => intro cur _; simp
  | cons c chunk ih =>
    intro cur h
    obtain ⟨h1, h2, h3⟩ := h c (by simp)
    rw [List.foldl_cons, Split_next_inString ps et cur elems c h1 h2 h3,
      ih _ (fun x hx => h x (by simp [hx]))]
    by_cases hps : ps = [] <;> simp [hps]

/-- A two-byte escape inside a string literal. -/
theorem Split_feed_esc2 (ps : List ParseKind) (et : Bool) (cur : Bytes)
    (elems : List Bytes) (e : Nat)
    (he : e = 98 ∨ e = 102 ∨ e = 110 ∨ e = 114 ∨ e = 116 ∨ e = 92 ∨ e = 47 ∨ e = 34) :
    [92, e].foldl Split.next ⟨⟨.inString, ps, et⟩, cur, elems⟩ =
      ⟨⟨.inString, ps, et⟩, if ps = [] then cur else e :: 92 :: cur, elems⟩ := by
  by_cases hps : ps = []
  · subst hps
    simp [Split.next, Scanner.next, stateInString, stateInStringEsc, Scanner.goto, he]
  · have h5 : ps.length ≠ 0 := by
      intro e; exact hps (List.length_eq_zero.mp e)
    simp [Split.next, Scanner.next, stateInString, stateInStringEsc, Scanner.goto, he, h5, hps]

/-- A `\uXXXX` escape inside a string literal. -/
theorem Split_feed_esc6 (ps : List ParseKind) (et : Bool) (cur : Bytes)
    (elems : List Bytes) (a b c d : Nat)
    (ha : isHex a = true) (hb : isHex b = true) (hc : isHex c = true) (hd : isHex d = true) :
    [92, 117, a, b, c, d].foldl Split.next ⟨⟨.inString, ps, et⟩, cur, elems⟩ =
      ⟨⟨.inString, ps, et⟩,
        if ps = [] then cur else d :: c :: b :: a :: 117 :: 92 :: cur, elems⟩ := by
  by_cases hps : ps = []
  · subst hps
    simp [Split.next, Scanner.next, stateInString, stateInStringEsc, Scanner.goto, ha, hb, hc,
      hd]
  · have h5 : ps.length ≠ 0 := by
      intro e; exact hps (List.length_eq_zero.mp e)
    simp [Split.next, Scanner.next, stateInString, stateInStringEsc, Scanner.goto, ha, hb, hc,
      hd, h5, hps]

/-- What one round of `appendString` writes keeps the scanner inside the
string literal. -/
theorem Split_feed_appendStep (ps : List ParseKind) (et : Bool) (cur : Bytes)
    (elems : List Bytes) (b : Nat) (rest : Bytes) :
    (appendStep b rest).1.foldl Split.next ⟨⟨.inString, ps, et⟩, cur, elems⟩ =
      ⟨⟨.inString, ps, et⟩,
        if ps = [] then cur else (appendStep b rest).1.reverse ++ cur, elems⟩ := by
  unfold appendStep
  by_cases hb : b < 128
  · simp only [hb, if_true]
    by_cases hs : htmlSafe b = true
    · simp only [hs, if_true]
      simp [htmlSafe] at hs
      exact Split_feed_plain ps et elems [b] cur (by
        intro x hx
        simp at hx
        subst hx
        omega)
    · simp only [hs, Bool.false_eq_true, if_false]
      unfold escapeByte
      by_cases c1 : b = 92 ∨ b = 34
      · simp only [c1, if_true]
        rw [Split_feed_esc2 ps et cur elems b (by omega)]
        simp
      simp only [c1, if_false]
      by_cases c2 : b = 8
      · simp only [c2, if_true]
        rw [Split_feed_esc2 ps et cur elems 98 (by omega)]
        simp
      simp only [c2, if_false]
      by_cases c3 : b = 12
      · simp only [c3, if_true]
        rw [Split_feed_esc2 ps et cur elems 102 (by omega)]
        simp
      simp only [c3, if_false]
      by_cases c4 : b = 10
      · simp only [c4, if_true]
        rw [Split_feed_esc2 ps et cur elems 110 (by omega)]
        simp
      simp only [c4, if_false]
      by_cases c5 : b = 13
      · simp only [c5, if_true]
        rw [Split_feed_esc2 ps et cur elems 114 (by omega)]
        simp
      simp only [c5, if_false]
      by_cases c6 : b = 9
      · simp only [c6, if_true]
        rw [Split_feed_esc2 ps et cur elems 116 (by omega)]
        simp
      simp only [c6, if_false]
      rw [Split_feed_esc6 ps et cur elems 48 48 _ _ rfl rfl
        (isHex_hexDigit _ (by omega)) (isHex_hexDigit _ (by omega))]
      simp
  · simp only [hb, if_false]
    by_cases hbad : (Utf8.DecodeRune (b :: rest)).1 = Utf8.RuneError ∧
        (Utf8.DecodeRune (b :: rest)).2 = 1
    · simp only [hbad, and_self, if_true]
      rw [Split_feed_esc6 ps et cur elems 102 102 102 100 rfl rfl rfl rfl]
      simp
    · simp only [hbad, if_false]
      by_cases hls : (Utf8.DecodeRune (b :: rest)).1 = 0x2028 ∨
          (Utf8.DecodeRune (b :: rest)).1 = 0x2029
      · simp only [hls, if_true]
        rw [Split_feed_esc6 ps et cur elems 50 48 50 _ rfl rfl rfl
          (isHex_hexDigit _ (by omega))]
        simp
      · simp only [hls, if_false]
        obtain ⟨_, _, _, hge, _⟩ := DecodeRune_valid b rest (by omega) hbad
        exact Split_feed_plain ps et elems _ cur (by
          intro x hx
          have := hge x hx
          omega)

/-- The text `appendString` writes between the quotes keeps the scanner inside
the string literal. -/
theorem Split_feed_appendStringLoop (ps : List ParseKind) (et : Bool)
    (elems : List Bytes) : ∀ (f : Nat) (s cur : Bytes),
    (appendStringLoop f s).foldl Split.next ⟨⟨.inString, ps, et⟩, cur, elems⟩ =
      ⟨⟨.inString, ps, et⟩,
        if ps = [] then cur else (appendStringLoop f s).reverse ++ cur, elems⟩ := by
  intro f
  induction f with
  | zero =>
    intro s cur
    cases s <;> simp [appendStringLoop]
  | succ f ih =>
    intro s cur
    cases s with
    | nil => simp [appendStringLoop]
    | cons b rest =>
      simp only [appendStringLoop, List.foldl_append]
      rw [Split_feed_appendStep ps et cur elems b rest, ih]
      by_cases hps : ps = [] <;> simp [hps]

/-- A quoted string where a value is expected: the scanner ends after the
value; below the top level the literal is added to the element being read. -/
theorem Split_feed_appendString (st0 : Step) (ps : List ParseKind) (et : Bool)
    (cur : Bytes) (elems : List Bytes) (s : Bytes)
    (hst : st0 = .beginValue ∨ st0 = .beginValueOrEmpty) :
    (appendString s).foldl Split.next ⟨⟨st0, ps, et⟩, cur, elems⟩ =
      ⟨⟨.endValue, ps, et⟩,
        if ps = [] then cur else (appendString s).reverse ++ cur, elems⟩ := by
  unfold appendString
  simp only [List.foldl_append, List.foldl_cons, List.foldl_nil]
  have h1 : Split.next ⟨⟨st0, ps, et⟩, cur, elems⟩ 34 =
      ⟨⟨.inString, ps, et⟩, if ps = [] then cur else 34 :: cur, elems⟩ := by
    by_cases hps : ps = []
    · subst hps
      rcases hst with rfl | rfl <;>
        simp [Split.next, Scanner.next, stateBeginValue, stateBeginValueOrEmpty, isSpace,
          Scanner.goto]
    · have h5 : ps.length ≠ 0 := by
        intro e; exact hps (List.length_eq_zero.mp e)
      rcases hst with rfl | rfl <;>
        simp [Split.next, Scanner.next, stateBeginValue, stateBeginValueOrEmpty, isSpace,
          Scanner.goto, h5, hps]
  rw [h1, Split_feed_appendStringLoop]
  by_cases hps : ps = []
  · subst hps
    simp [Split.next, Scanner.next, stateInString, Scanner.goto]
  · have h5 : ps.length ≠ 0 := by
      intro e; exact hps (List.length_eq_zero.mp e)
    simp [Split.next, Scanner.next, stateInString, Scanner.goto, h5, hps]

/-- The scanner part of the walk over an array is the scanner run. -/
theorem Split_feed_scan (data : Bytes) : ∀ st : Split,
    (data.foldl Split.next st).scan = st.scan.run data := by
  induction data with
  | nil => intro st; rfl
  | cons c data ih =>
    intro st
    rw [List.foldl_cons, ih]
    have : (Split.next st c).scan = (st.scan.next c).1 := by
      unfold Split.next Split.flush
      simp only
      split
      · split
        · split <;> rfl
        · rfl
      · split
        · rfl
        · split
          · split <;> rfl
          · rfl
    rw [this]
    rfl

/-- A quoted string is a valid JSON text. -/
theorem checkValid_appendString (s : Bytes) : checkValid (appendString s) = true := by
  unfold checkValid
  have h := Split_feed_appendString .beginValue [] false [] [] s (Or.inl rfl)
  have h2 := Split_feed_scan (appendString s) ⟨Scanner.reset, [], []⟩
  rw [show (⟨Scanner.reset, [], []⟩ : Split) = ⟨⟨.beginValue, [], false⟩, [], []⟩ from rfl,
    h] at h2
  rw [show Scanner.reset = ⟨.beginValue, [], false⟩ from rfl, ← h2]
  rfl

/-- A quoted string read back: `stringOf` gives the string quoted, when it is
well-formed UTF-8. -/
theorem stringOf_appendString (s : Bytes) (h : Utf8.Valid s = true) :
    stringOf (appendString s) = some s := by
  have h1 : firstByte (appendString s) = some 34 := by
    simp [firstByte, appendString, isSpace]
  have h2 : trimValue (appendString s) = appendString s := by
    unfold trimValue appendString
    have : List.dropWhile isSpace (34 :: appendStringLoop s.length s ++ [34]) =
        34 :: appendStringLoop s.length s ++ [34] := by
      simp [isSpace]
    rw [this]
    simp [isSpace]
  simp [stringOf, checkValid_appendString, h1, h2, unquoteBytes_appendString s h]

/-! ## The scanner on the request envelope -/

/-- An opening bracket below the top level. -/
theorem Split_next_open (st0 : Step) (ps : List ParseKind) (et : Bool) (cur : Bytes)
    (elems : List Bytes) (hst : st0 = .beginValue ∨ st0 = .beginValueOrEmpty)
    (hps : ps ≠ []) (hd : ps.length + 1 ≤ maxNestingDepth) :
    Split.next ⟨⟨st0, ps, et⟩, cur, elems⟩ 91 =
      ⟨⟨.beginValueOrEmpty, .arrayValue :: ps, et⟩, 91 :: cur, elems⟩ := by
  have h5 : ps.length ≠ 0 := by
    intro e; exact hps (List.length_eq_zero.mp e)
  rcases hst with rfl | rfl <;>
    simp [Split.next, Scanner.next, stateBeginValue, stateBeginValueOrEmpty, isSpace,
      Scanner.pushParseState, hd, h5]

/-- A comma between the elements of an array below the top level. -/
theorem Split_next_comma (ps : List ParseKind) (et : Bool) (cur : Bytes)
    (elems : List Bytes) (hps : ps ≠ []) :
    Split.next ⟨⟨.endValue, .arrayValue :: ps, et⟩, cur, elems⟩ 44 =
      ⟨⟨.beginValue, .arrayValue :: ps, et⟩, 44 :: cur, elems⟩ := by
  have h5 : ps.length ≠ 0 := by
    intro e; exact hps (List.length_eq_zero.mp e)
  simp [Split.next, Scanner.next, stateEndValue, isSpace, Scanner.goto, h5]

/-- The closing bracket of an array below the top level. -/
theorem Split_next_close (ps : List ParseKind) (et : Bool) (cur : Bytes)
    (elems : List Bytes) (hps : ps ≠ []) :
    Split.next ⟨⟨.endValue, .arrayValue :: ps, et⟩, cur, elems⟩ 93 =
      ⟨⟨.endValue, ps, et⟩, 93 :: cur, elems⟩ := by
  have h5 : ps.length ≠ 0 := by
    intro e; exact hps (List.length_eq_zero.mp e)
  cases ps with
  | nil => exact absurd rfl hps
  | cons k ps =>
    simp [Split.next, Scanner.next, stateEndValue, isSpace, Scanner.popParseState]

/-- The literal `null` where a value is expected, below the top level. -/
theorem Split_feed_null (ps : List ParseKind) (et : Bool) (cur : Bytes)
    (elems : List Bytes) (hps : ps ≠ []) :
    [110, 117, 108, 108].foldl Split.next ⟨⟨.beginValue, ps, et⟩, cur, elems⟩ =
      ⟨⟨.endValue, ps, et⟩, 108 :: 108 :: 117 :: 110 :: cur, elems⟩ := by
  have h5 : ps.length ≠ 0 := by
    intro e; exact hps (List.length_eq_zero.mp e)
  simp [Split.next, Scanner.next, stateBeginValue, stateLit, isSpace, Scanner.goto, h5]

/-- The innermost array of the envelope where a value is expected, below the
top level: the scanner ends after it and the whole text is added to the
element being read. -/
theorem Split_feed_envelopeRow (rpcID pj : Bytes) (st0 : Step) (ps : List ParseKind)
    (et : Bool) (cur : Bytes) (elems : List Bytes)
    (hst : st0 = .beginValue ∨ st0 = .beginValueOrEmpty)
    (hps : ps ≠ []) (hd : ps.length + 1 ≤ maxNestingDepth) :
    (envelopeRow rpcID pj).foldl Split.next ⟨⟨st0, ps, et⟩, cur, elems⟩ =
      ⟨⟨.endValue, ps, et⟩, (envelopeRow rpcID pj).reverse ++ cur, elems⟩ := by
  have hne : ParseKind.arrayValue :: ps ≠ [] := by simp
  unfold envelopeRow
  have e1 : ascii "[" = [91] := rfl
  have e2 : ascii "," = [44] := rfl
  have e3 : ascii ",null," = [44] ++ [110, 117, 108, 108] ++ [44] := rfl
  have e4 : ascii "]" = [93] := rfl
  rw [e1, e2, e3, e4]
  simp only [List.foldl_append, List.foldl_cons, List.foldl_nil]
  rw [Split_next_open st0 ps et cur elems hst hps hd,
    Split_feed_appendString _ _ _ _ _ rpcID (Or.inr rfl)]
  simp only [hne, if_false]
  rw [Split_next_comma ps et _ elems hps,
    Split_feed_appendString _ _ _ _ _ pj (Or.inl rfl)]
  simp only [hne, if_false]
  rw [Split_next_comma ps et _ elems hps]
  have hn := Split_feed_null (.arrayValue :: ps) et
    (44 :: ((appendString pj).reverse ++ 44 :: ((appendString rpcID).reverse ++ 91 :: cur)))
    elems hne
  simp only [List.foldl_cons, List.foldl_nil] at hn
  rw [hn, Split_next_comma ps et _ elems hps,
    Split_feed_appendString _ _ _ _ _ (ascii "generic") (Or.inl rfl)]
  simp only [hne, if_false]
  rw [Split_next_close ps et _ elems hps]
  simp

/-- An array around one value, where a value is expected below the top
level. -/
theorem Split_feed_wrap (Y : Bytes) (st0 : Step) (ps : List ParseKind)
    (et : Bool) (cur : Bytes) (elems : List Bytes)
    (hst : st0 = .beginValue ∨ st0 = .beginValueOrEmpty)
    (hps : ps ≠ []) (hd : ps.length + 1 ≤ maxNestingDepth)
    (hY : ∀ cur', Y.foldl Split.next ⟨⟨.beginValueOrEmpty, .arrayValue :: ps, et⟩, cur', elems⟩ =
      ⟨⟨.endValue, .arrayValue :: ps, et⟩, Y.reverse ++ cur', elems⟩) :
    ([91] ++ Y ++ [93]).foldl Split.next ⟨⟨st0, ps, et⟩, cur, elems⟩ =
      ⟨⟨.endValue, ps, et⟩, ([91] ++ Y ++ [93]).reverse ++ cur, elems⟩ := by
  simp only [List.foldl_append, List.foldl_cons, List.foldl_nil]
  rw [Split_next_open st0 ps et cur elems hst hps hd, hY, Split_next_close ps et _ elems hps]
  simp

/-- A top-level array around one value `Y` that is itself an array or a
string: `json.Unmarshal` into a slice of raw messages gives the one element
`Y`. -/
theorem UnmarshalRawSlice_single (Y : Bytes) (hne : Y ≠ [])
    (hY : Y.foldl Split.next ⟨⟨.beginValueOrEmpty, [.arrayValue], false⟩, [], []⟩ =
      ⟨⟨.endValue, [.arrayValue], false⟩, Y.reverse ++ [], []⟩) :
    UnmarshalRawSlice ([91] ++ Y ++ [93]) = .ok [Y] := by
  have hfold : ([91] ++ Y ++ [93]).foldl Split.next ⟨Scanner.reset, [], []⟩ =
      ⟨⟨.endTop, [], true⟩, [], [Y]⟩ := by
    simp only [List.foldl_append, List.foldl_cons, List.foldl_nil]
    have h0 : Split.next ⟨Scanner.reset, [], []⟩ 91 =
        ⟨⟨.beginValueOrEmpty, [.arrayValue], false⟩, [], []⟩ := by
      simp [Split.next, Scanner.next, Scanner.reset, stateBeginValue, isSpace,
        Scanner.pushParseState, maxNestingDepth]
    rw [h0, hY]
    have hr : Y.reverse ++ [] ≠ [] := by simpa using hne
    simp [Split.next, Scanner.next, stateEndValue, isSpace, Scanner.popParseState,
      Split.flush, hne]
  have hvalid : checkValid ([91] ++ Y ++ [93]) = true := by
    unfold checkValid
    have h2 := Split_feed_scan ([91] ++ Y ++ [93]) ⟨Scanner.reset, [], []⟩
    rw [hfold] at h2
    simp only at h2
    rw [← h2]
    rfl
  have hfirst : firstByte ([91] ++ Y ++ [93]) = some 91 := by
    simp [firstByte, isSpace]
  unfold UnmarshalRawSlice rawElements
  rw [hvalid, hfirst, hfold]
  rfl

theorem appendString_ne_nil (s : Bytes) : appendString s ≠ [] := by
  simp [appendString]

/-- A comma after an element of the top-level array closes the element. -/
theorem Split_next_comma_top (et : Bool) (cur : Bytes) (elems : List Bytes)
    (hcur : cur ≠ []) :
    Split.next ⟨⟨.endValue, [.arrayValue], et⟩, cur, elems⟩ 44 =
      ⟨⟨.beginValue, [.arrayValue], et⟩, [], cur.reverse :: elems⟩ := by
  simp [Split.next, Scanner.next, stateEndValue, isSpace, Scanner.goto, Split.flush, hcur]

/-- The closing bracket of the top-level array closes the last element. -/
theorem Split_next_close_top (et : Bool) (cur : Bytes) (elems : List Bytes)
    (hcur : cur ≠ []) :
    Split.next ⟨⟨.endValue, [.arrayValue], et⟩, cur, elems⟩ 93 =
      ⟨⟨.endTop, [], true⟩, [], cur.reverse :: elems⟩ := by
  simp [Split.next, Scanner.next, stateEndValue, isSpace, Scanner.popParseState,
    Split.flush, hcur]

/-- The innermost array of the envelope, decoded: its four elements are the
quoted identifier, the quoted parameter text, `null` and `"generic"`. -/
theorem UnmarshalRawSlice_envelopeRow (rpcID pj : Bytes) :
    UnmarshalRawSlice (envelopeRow rpcID pj) =
      .ok [appendString rpcID, appendString pj, ascii "null",
        appendString (ascii "generic")] := by
  have hfold : (envelopeRow rpcID pj).foldl Split.next ⟨Scanner.reset, [], []⟩ =
      ⟨⟨.endTop, [], true⟩, [],
        [appendString (ascii "generic"), ascii "null", appendString pj,
          appendString rpcID]⟩ := by
    have hne : [ParseKind.arrayValue] ≠ [] := by simp
    unfold envelopeRow
    have e1 : ascii "[" = [91] := rfl
    have e2 : ascii "," = [44] := rfl
    have e3 : ascii ",null," = [44] ++ [110, 117, 108, 108] ++ [44] := rfl
    have e4 : ascii "]" = [93] := rfl
    rw [e1, e2, e3, e4]
    simp only [List.foldl_append, List.foldl_cons, List.foldl_nil]
    have h0 : Split.next ⟨Scanner.reset, [], []⟩ 91 =
        ⟨⟨.beginValueOrEmpty, [.arrayValue], false⟩, [], []⟩ := by
      simp [Split.next, Scanner.next, Scanner.reset, stateBeginValue, isSpace,
        Scanner.pushParseState, maxNestingDepth]
    rw [h0, Split_feed_appendString _ _ _ _ _ rpcID (Or.inr rfl)]
    simp only [hne, if_false]
    rw [Split_next_comma_top false _ _ (by simp [appendString_ne_nil]),
      Split_feed_appendString _ _ _ _ _ pj (Or.inl rfl)]
    simp only [hne, if_false]
    rw [Split_next_comma_top false _ _ (by simp [appendString_ne_nil])]
    have hn := Split_feed_null [.arrayValue] false []
      [((appendString pj).reverse ++ []).reverse, ((appendString rpcID).reverse ++ []).reverse]
      hne
    simp only [List.foldl_cons, List.foldl_nil] at hn
    rw [hn, Split_next_comma_top false _ _ (by simp),
      Split_feed_appendString _ _ _ _ _ (ascii "generic") (Or.inl rfl)]
    simp only [hne, if_false]
    rw [Split_next_close_top false _ _ (by simp [appendString_ne_nil])]
    simp
    rfl
  have hvalid : checkValid (envelopeRow rpcID pj) = true := by
    unfold checkValid
    have h2 := Split_feed_scan (envelopeRow rpcID pj) ⟨Scanner.reset, [], []⟩
    rw [hfold] at h2
    simp only at h2
    rw [← h2]
    rfl
  have hfirst : firstByte (envelopeRow rpcID pj) = some 91 := by
    simp [firstByte, envelopeRow, ascii, isSpace]
  unfold UnmarshalRawSlice rawElements
  rw [hvalid, hfirst, hfold]
  rfl

theorem envelopeRow_ne_nil (rpcID pj : Bytes) : envelopeRow rpcID pj ≠ [] := by
  simp [envelopeRow, ascii]

/-- The middle array of the envelope, decoded: its one element is the
innermost array. -/
theorem UnmarshalRawSlice_envelopeMiddle (rpcID pj : Bytes) :
    UnmarshalRawSlice ([91] ++ envelopeRow rpcID pj ++ [93]) = .ok [envelopeRow rpcID pj] :=
  UnmarshalRawSlice_single _ (envelopeRow_ne_nil rpcID pj)
    (Split_feed_envelopeRow rpcID pj _ _ _ _ _ (Or.inr rfl) (by simp)
      (by simp [maxNestingDepth]))

/-- The envelope, decoded: its one element is the middle array. -/
theorem UnmarshalRawSlice_envelopeText (rpcID pj : Bytes) :
    UnmarshalRawSlice (envelopeText rpcID pj) = .ok [[91] ++ envelopeRow rpcID pj ++ [93]] := by
  have h : envelopeText rpcID pj = [91] ++ ([91] ++ envelopeRow rpcID pj ++ [93]) ++ [93] := by
    simp [envelopeText, ascii]
  rw [h]
  exact UnmarshalRawSlice_single _ (by simp)
    (Split_feed_wrap _ _ _ _ _ _ (Or.inr rfl) (by simp) (by simp [maxNestingDepth])
      (fun cur' => Split_feed_envelopeRow rpcID pj _ _ _ _ _ (Or.inr rfl) (by simp)
        (by simp [maxNestingDepth])))

/-! ## Well-formed UTF-8 and the output of `json.Marshal` -/

theorem validLoop_nil (f : Nat) : Utf8.validLoop f [] = true := by
  cases f <;> rfl

theorem validLoop_fuel (n : Nat) : ∀ (m : Nat) (s : Bytes), s.length ≤ n → s.length ≤ m →
    Utf8.validLoop n s = Utf8.validLoop m s := by
  induction n with
  | zero =>
    intro m s hn _
    have : s = [] := List.length_eq_zero.mp (by omega)
    subst this
    rw [validLoop_nil, validLoop_nil]
  | succ n ih =>
    intro m s hn hm
    cases s with
    | nil => rw [validLoop_nil, validLoop_nil]
    | cons a rest =>
      cases m with
      | zero => simp at hm
      | succ m =>
        simp only [List.length_cons] at hn hm
        simp only [Utf8.validLoop]
        by_cases ha : a < 128
        · simp only [ha, if_true]
          exact ih m rest (by omega) (by omega)
        · simp only [ha, if_false]
          by_cases hbad : (Utf8.DecodeRune (a :: rest)).1 = Utf8.RuneError ∧
              (Utf8.DecodeRune (a :: rest)).2 = 1
          · simp only [hbad, and_self, if_true]
          · simp only [hbad, if_false]
            obtain ⟨_, h2, hle, _, _⟩ := DecodeRune_valid a rest (by omega) hbad
            simp only [List.length_cons] at hle
            apply ih
            · simp only [List.length_drop, List.length_cons]; omega
            · simp only [List.length_drop, List.length_cons]; omega

/-- Well-formed texts joined are well-formed. -/
theorem Valid_append (n : Nat) : ∀ (a b : Bytes), a.length ≤ n →
    Utf8.Valid a = true → Utf8.Valid b = true → Utf8.Valid (a ++ b) = true := by
  induction n with
  | zero =>
    intro a b hn _ hb
    have : a = [] := List.length_eq_zero.mp (by omega)
    subst this
    simpa using hb
  | succ n ih =>
    intro a b hn ha hb
    cases a with
    | nil => simpa using hb
    | cons x a =>
      simp only [List.length_cons] at hn
      unfold Utf8.Valid at ha ⊢
      simp only [List.cons_append, List.length_cons, Utf8.validLoop] at ha ⊢
      by_cases hx : x < 128
      · simp only [hx, if_true] at ha ⊢
        have h1 := ih a b (by omega) ha hb
        unfold Utf8.Valid at h1
        exact h1
      · simp only [hx, if_false] at ha ⊢
        by_cases hbad : (Utf8.DecodeRune (x :: a)).1 = Utf8.RuneError ∧
            (Utf8.DecodeRune (x :: a)).2 = 1
        · simp [hbad] at ha
        · simp only [hbad, if_false] at ha
          obtain ⟨_, h2, hle, _, hdec⟩ := DecodeRune_valid x a (by omega) hbad
          simp only [List.length_cons] at hle
          have hsplit : x :: (a ++ b) =
              (x :: a).take (Utf8.DecodeRune (x :: a)).2 ++
                ((x :: a).drop (Utf8.DecodeRune (x :: a)).2 ++ b) := by
            rw [← List.append_assoc, List.take_append_drop]
            rfl
          have hd : Utf8.DecodeRune (x :: (a ++ b)) = Utf8.DecodeRune (x :: a) := by
            rw [hsplit]
            exact hdec _
          simp only [List.append_eq]
          rw [hd]
          simp only [hbad, if_false]
          have hdrop : (x :: (a ++ b)).drop (Utf8.DecodeRune (x :: a)).2 =
              (x :: a).drop (Utf8.DecodeRune (x :: a)).2 ++ b := by
            rw [← List.cons_append, List.drop_append_of_le_length (by
              simp only [List.length_cons]; omega)]
          rw [hdrop]
          have hva : Utf8.Valid ((x :: a).drop (Utf8.DecodeRune (x :: a)).2) = true := by
            unfold Utf8.Valid
            rw [← validLoop_fuel a.length _ _ (by
              simp only [List.length_drop, List.length_cons]; omega) (Nat.le_refl _)]
            exact ha
          have h1 := ih _ b (by simp only [List.length_drop, List.length_cons]; omega) hva hb
          unfold Utf8.Valid at h1
          rw [validLoop_fuel (a ++ b).length _ _ (by
            simp only [List.length_append, List.length_drop, List.length_cons]; omega)
            (Nat.le_refl _)]
          exact h1

/-- ASCII text is well-formed. -/
theorem Valid_ascii (l : Bytes) (h : ∀ x ∈ l, x < 128) : Utf8.Valid l = true := by
  induction l with
  | nil => rfl
  | cons x l ih =>
    unfold Utf8.Valid
    simp only [List.length_cons, Utf8.validLoop]
    have hx : x < 128 := h x (by simp)
    simp only [hx, if_true]
    exact ih (fun y hy => h y (by simp [hy]))

/-- What one round of `appendString` writes is well-formed. -/
theorem Valid_appendStep (b : Nat) (rest : Bytes) : Utf8.Valid (appendStep b rest).1 = true := by
  unfold appendStep
  by_cases hb : b < 128
  · simp only [hb, if_true]
    by_cases hs : htmlSafe b = true
    · simp only [hs, if_true]
      exact Valid_ascii _ (by intro x hx; simp at hx; omega)
    · simp only [hs, Bool.false_eq_true, if_false]
      apply Valid_ascii
      intro x hx
      unfold escapeByte at hx
      have h1 : hexDigit (b / 16) < 128 := by unfold hexDigit; split <;> omega
      have h2 : hexDigit (b % 16) < 128 := by unfold hexDigit; split <;> omega
      split at hx
      · simp at hx; omega
      · split at hx
        · simp at hx; omega
        · split at hx
          · simp at hx; omega
          · split at hx
            · simp at hx; omega
            · split at hx
              · simp at hx; omega
              · split at hx
                · simp at hx; omega
                · simp at hx; omega
  · simp only [hb, if_false]
    by_cases hbad : (Utf8.DecodeRune (b :: rest)).1 = Utf8.RuneError ∧
        (Utf8.DecodeRune (b :: rest)).2 = 1
    · simp only [hbad, and_self, if_true]
      rfl
    · simp only [hbad, if_false]
      by_cases hls : (Utf8.DecodeRune (b :: rest)).1 = 0x2028 ∨
          (Utf8.DecodeRune (b :: rest)).1 = 0x2029
      · simp only [hls, if_true]
        apply Valid_ascii
        intro x hx
        have h2 : hexDigit ((Utf8.DecodeRune (b :: rest)).1 % 16) < 128 := by
          unfold hexDigit; split <;> omega
        simp at hx
        omega
      · simp only [hls, if_false]
        obtain ⟨_, h2, hle, _, hdec⟩ := DecodeRune_valid b rest (by omega) hbad
        have htake : (b :: rest).take (Utf8.DecodeRune (b :: rest)).2 =
            b :: rest.take ((Utf8.DecodeRune (b :: rest)).2 - 1) := by
          cases hk : (Utf8.DecodeRune (b :: rest)).2 with
          | zero => omega
          | succ k => simp
        have hlen : ((b :: rest).take (Utf8.DecodeRune (b :: rest)).2).length =
            (Utf8.DecodeRune (b :: rest)).2 := by
          simp only [List.length_take, List.length_cons] at hle ⊢
          omega
        have hd := hdec []
        rw [List.append_nil] at hd
        unfold Utf8.Valid
        rw [htake] at hd hlen ⊢
        simp only [List.length_cons, Utf8.validLoop, hb, if_false, hd, hbad]
        rw [← htake, List.drop_of_length_le (by rw [htake]; omega)]
        exact validLoop_nil _

/-- What `appendString` writes between the quotes is well-formed. -/
theorem Valid_appendStringLoop : ∀ (f : Nat) (s : Bytes),
    Utf8.Valid (appendStringLoop f s) = true := by
  intro f
  induction f with
  | zero => intro s; cases s <;> rfl
  | succ f ih =>
    intro s
    cases s with
    | nil => rfl
    | cons b rest =>
      simp only [appendStringLoop]
      exact Valid_append _ _ _ (Nat.le_refl _) (Valid_appendStep b rest) (ih _)

/-- A quoted string is well-formed UTF-8, whatever the bytes quoted. -/
theorem Valid_appendString (s : Bytes) : Utf8.Valid (appendString s) = true := by
  unfold appendString
  have h1 : Utf8.Valid (34 :: appendStringLoop s.length s) = true := by
    have := Valid_append _ [34] (appendStringLoop s.length s) (Nat.le_refl _) rfl
      (Valid_appendStringLoop _ _)
    simpa using this
  exact Valid_append _ _ [34] (Nat.le_refl _) h1 rfl

theorem decimalDigits_lt : ∀ (fuel n : Nat) (acc : Bytes),
    (∀ x ∈ acc, x < 128) → ∀ x ∈ decimalDigits fuel n acc, x < 128 := by
  intro fuel
  induction fuel with
  | zero => intro n acc h; simpa [decimalDigits] using h
  | succ fuel ih =>
    intro n acc h
    simp only [decimalDigits]
    split
    · intro x hx
      simp at hx
      rcases hx with rfl | hx
      · omega
      · exact h x hx
    · apply ih
      intro x hx
      simp at hx
      rcases hx with rfl | hx
      · omega
      · exact h x hx

/-- A decimal integer is ASCII text. -/
theorem appendInt_lt (n : Int) : ∀ x ∈ appendInt n, x < 128 := by
  intro x hx
  unfold appendInt at hx
  cases n with
  | ofNat k => exact decimalDigits_lt _ _ [] (by simp) x hx
  | negSucc k =>
    simp only [List.mem_cons] at hx
    rcases hx with rfl | hx
    · decide
    · exact decimalDigits_lt _ _ [] (by simp) x hx

mutual
/-- What `json.Marshal` writes is well-formed UTF-8. -/
theorem Marshal_valid : ∀ (v : GoValue) (t : Bytes), Marshal v = some t →
    Utf8.Valid t = true
  | .nil, t, h => by
    simp only [Marshal, Option.some.injEq] at h
    subst h
    rfl
  | .bool b, t, h => by
    simp only [Marshal, Option.some.injEq] at h
    subst h
    cases b <;> rfl
  | .int n, t, h => by
    simp only [Marshal, Option.some.injEq] at h
    subst h
    exact Valid_ascii _ (appendInt_lt n)
  | .string s, t, h => by
    simp only [Marshal, Option.some.injEq] at h
    subst h
    exact Valid_appendString s
  | .slice xs, t, h => by
    simp only [Marshal, Option.map_eq_some'] at h
    obtain ⟨body, hb, rfl⟩ := h
    have h1 := MarshalElems_valid xs body hb
    have h2 : Utf8.Valid (91 :: body) = true := by
      have := Valid_append _ [91] body (Nat.le_refl _) rfl h1
      simpa using this
    exact Valid_append _ _ [93] (Nat.le_refl _) h2 rfl
  | .unsupported, t, h => by
    simp [Marshal] at h
/-- What `json.Marshal` writes for the elements of a slice is well-formed. -/
theorem MarshalElems_valid : ∀ (xs : List GoValue) (t : Bytes), MarshalElems xs = some t →
    Utf8.Valid t = true
  | [], t, h => by
    simp only [MarshalElems, Option.some.injEq] at h
    subst h
    rfl
  | [x], t, h => by
    simp only [MarshalElems] at h
    exact Marshal_valid x t h
  | x :: y :: rest, t, h => by
    simp only [MarshalElems] at h
    cases hx : Marshal x with
    | none => simp [hx] at h
    | some a =>
      cases hy : MarshalElems (y :: rest) with
      | none => simp [hx, hy] at h
      | some b =>
        simp only [hx, hy, Option.some.injEq] at h
        subst h
        have h1 := Marshal_valid x a hx
        have h2 := MarshalElems_valid (y :: rest) b hy
        have h3 : Utf8.Valid (44 :: b) = true := by
          have := Valid_append _ [44] b (Nat.le_refl _) rfl h2
          simpa using this
        exact Valid_append _ a (44 :: b) (Nat.le_refl _) h1 h3
end

/-! ## The request envelope of `Execute` -/

/-- The requests `Execute` sends once the tokens are there and the parameters
are serialized: first the POST carrying the envelope. -/
theorem Execute_sent (c : Client) (w : World) (rpcID : Bytes) (params : GoValue)
    (sourcePath : Bytes) (st : Store) (w1 : World) (pj : Bytes)
    (hens : c.auth.EnsureTokens w = (none, st, w1)) (hpj : Marshal params = some pj) :
    (w1.sent ++ [executeRequest { c with auth := st } rpcID sourcePath
        (envelopeText rpcID pj) (wrapInt64 (c.reqID + 100000))]) <+:
      (c.Execute w rpcID params sourcePath).2.2.sent := by
  have hck := EnsureTokens_ok_cookies c.auth st w w1 hens
  unfold Client.Execute
  simp only [hens, hpj, Marshal_fReqOuter, World.send]
  split
  · exact List.prefix_refl _
  · exact List.prefix_refl _
  · split
    · split
      · rename_i e1 e2 st3 w3 heq
        have := RefreshTokens_world st { w1 with sent := w1.sent ++
          [executeRequest { c with auth := st } rpcID sourcePath (envelopeText rpcID pj)
            (wrapInt64 (c.reqID + 100000))] } hck
        rw [heq] at this
        simp only at this
        rw [this]
        exact List.prefix_append _ _
      · rename_i e1 st3 w3 heq
        have := RefreshTokens_world st { w1 with sent := w1.sent ++
          [executeRequest { c with auth := st } rpcID sourcePath (envelopeText rpcID pj)
            (wrapInt64 (c.reqID + 100000))] } hck
        rw [heq] at this
        simp only at this
        rw [this]
        exact List.prefix_append _ _
    · split
      · exact List.prefix_refl _
      · split <;> exact List.prefix_refl _

/-! ## A remark on identifiers -/

set_option maxRecDepth 100000 in
/-- The same reading of `null` concerns the identifier: an entry whose second
element is `null` is selected when the requested identifier is the empty
string (and only then). -/
theorem null_identifier_reads_as_empty :
    ParseBatchResponse (ascii ")]\x7d'\n[[\"wrb.fr\",null,\"[1]\"]]") [] = .ok (ascii "[1]") ∧
    ParseBatchResponse (ascii ")]\x7d'\n[[\"wrb.fr\",null,\"[1]\"]]") (ascii "R1")
      = .error (.notFound (ascii "R1")) :=
  ⟨rfl, rfl⟩

/-! ## The credential store: extraction, refresh and the setters -/

theorem matchQuotedHere_ne_nil (key s v : Bytes) (h : matchQuotedHere key s = some v) :
    v ≠ [] := by
  unfold matchQuotedHere at h
  simp only at h
  split at h
  · split at h
    · rename_i hv
      have : List.takeWhile (fun x => decide (x ≠ 34))
          (List.drop (34 :: key ++ ascii "\":\"").length s) = v := by
        simpa using h
      rw [← this]
      exact hv.1
    · cases h
  · cases h

/-- The value the pattern captures is never empty. -/
theorem FindSubmatch_ne_nil (key : Bytes) : ∀ (body v : Bytes),
    FindSubmatch key body = some v → v ≠ [] := by
  intro body
  induction body with
  | nil => intro v h; cases h
  | cons c rest ih =>
    intro v h
    unfold FindSubmatch at h
    split at h
    · rename_i u hu
      have : u = v := by simpa using h
      subst this
      exact matchQuotedHere_ne_nil key _ _ hu
    · exact ih v h

/-- A successful extraction leaves a non-empty CSRF token. -/
theorem extractTokensLocked_ok_csrf (s : Store) (w : World)
    (h : (s.extractTokensLocked w).1 = none) :
    (s.extractTokensLocked w).2.1.csrfToken ≠ [] := by
  unfold Store.extractTokensLocked at h ⊢
  simp only at h ⊢
  split
  · rename_i heq; simp [heq] at h
  · rename_i status body heq
    simp only [heq] at h
    split
    · rename_i hs; simp [hs] at h
    · rename_i hs
      simp only [hs, if_false] at h
      split
      · simp at h
      · rename_i page
        simp only at h
        split
        · rename_i hf; simp [hf] at h
        · rename_i csrf hf
          split <;> exact FindSubmatch_ne_nil _ _ _ hf

/-- C11. Extraction happens once: for a store with a non-empty cookie and no
cached CSRF token, when the extraction of a first `EnsureTokens` succeeds, a
second `EnsureTokens` right after it returns nil, leaves the store as the
first call left it and sends nothing: the two calls together send exactly one
request, the fetch of the page. -/
theorem C11_extraction_once (s : Store) (w : World) (hc : s.cookies ≠ [])
    (ht : s.csrfToken = []) (hok : (s.EnsureTokens w).1 = none) :
    ((s.EnsureTokens w).2.1.EnsureTokens (s.EnsureTokens w).2.2).1 = none ∧
    ((s.EnsureTokens w).2.1.EnsureTokens (s.EnsureTokens w).2.2).2.1
      = (s.EnsureTokens w).2.1 ∧
    ((s.EnsureTokens w).2.1.EnsureTokens (s.EnsureTokens w).2.2).2.2.sent
      = w.sent ++ [pageRequest s.cookies] := by
  have h1 : s.EnsureTokens w = s.extractTokensLocked w := by
    simp [Store.EnsureTokens, hc, ht]
  rw [h1] at hok ⊢
  have hcsrf := extractTokensLocked_ok_csrf s w hok
  have hck : (s.extractTokensLocked w).2.1.cookies ≠ [] := by
    rw [extractTokensLocked_cookies]; exact hc
  have h2 : (s.extractTokensLocked w).2.1.EnsureTokens (s.extractTokensLocked w).2.2 =
      (none, (s.extractTokensLocked w).2.1, (s.extractTokensLocked w).2.2) := by
    simp [Store.EnsureTokens, hck, hcsrf]
  rw [h2]
  refine ⟨rfl, rfl, ?_⟩
  simp only [extractTokensLocked_world]

/-- The witness of C11: a store with a cookie only, and a page that carries
both markers. -/
theorem C11_extraction_once_witness :
    (((⟨ascii "SID=1", [], []⟩ : Store).EnsureTokens
        ⟨[], fun _ _ => .response 200
          (.ok (ascii "x \"SNlM0e\":\"tok\", \"FdrFJe\":\"42\" y"))⟩).2.1.EnsureTokens
      ((⟨ascii "SID=1", [], []⟩ : Store).EnsureTokens
        ⟨[], fun _ _ => .response 200
          (.ok (ascii "x \"SNlM0e\":\"tok\", \"FdrFJe\":\"42\" y"))⟩).2.2).2.2.sent
      = [] ++ [pageRequest (ascii "SID=1")] :=
  (C11_extraction_once ⟨ascii "SID=1", [], []⟩
    ⟨[], fun _ _ => .response 200 (.ok (ascii "x \"SNlM0e\":\"tok\", \"FdrFJe\":\"42\" y"))⟩
    (by decide) rfl (by rfl)).2.2

/-- The counterexample to C12: the page fetch is answered with HTTP 500; the
refresh fails and leaves no token, so the `EnsureTokens` after it fetches the
page again: two fetches in total. -/
theorem C12_counterexample :
    (((⟨ascii "SID=1", ascii "tok", ascii "42"⟩ : Store).RefreshTokens
        ⟨[], fun _ _ => .response 500 (.ok [])⟩).2.1.EnsureTokens
      ((⟨ascii "SID=1", ascii "tok", ascii "42"⟩ : Store).RefreshTokens
        ⟨[], fun _ _ => .response 500 (.ok [])⟩).2.2).2.2.sent
      = [pageRequest (ascii "SID=1"), pageRequest (ascii "SID=1")] :=
  rfl

/-- A failed extraction changes nothing in the store. -/
theorem extractTokensLocked_failed (s : Store) (w : World)
    (h : (s.extractTokensLocked w).1 ≠ none) : (s.extractTokensLocked w).2.1 = s := by
  unfold Store.extractTokensLocked at h ⊢
  cases hr : (w.send (pageRequest s.cookies)).1 with
  | failed cause => simp only [hr]
  | response status body =>
    simp only [hr] at h ⊢
    by_cases hs : status = 200
    swap
    · simp [hs]
    · subst hs
      simp only [ne_eq, not_true_eq_false, if_false] at h ⊢
      cases body with
      | error cause => rfl
      | ok page =>
        simp only at h ⊢
        cases hf : FindSubmatch (ascii "SNlM0e") page with
        | none => rfl
        | some csrf =>
          simp only [hf] at h
          cases hsid : FindSubmatch (ascii "FdrFJe") page <;> simp [hsid] at h

/-- C12, amended. `RefreshTokens` followed immediately by `EnsureTokens`, on a
store with a non-empty cookie: when the extraction of the refresh succeeds,
the `EnsureTokens` sends nothing and the two calls together perform exactly
one fetch; when it fails, no token is cached and the `EnsureTokens` fetches
the page again, two fetches in total. -/
theorem C12_refresh_then_ensure (s : Store) (w : World) (hc : s.cookies ≠ []) :
    ((s.RefreshTokens w).1 = none →
      ((s.RefreshTokens w).2.1.EnsureTokens (s.RefreshTokens w).2.2).2.2.sent
        = w.sent ++ [pageRequest s.cookies]) ∧
    ((s.RefreshTokens w).1 ≠ none →
      ((s.RefreshTokens w).2.1.EnsureTokens (s.RefreshTokens w).2.2).2.2.sent
        = w.sent ++ [pageRequest s.cookies, pageRequest s.cookies]) := by
  have h1 : s.RefreshTokens w =
      Store.extractTokensLocked { s with csrfToken := [], sessionID := [] } w := by
    simp [Store.RefreshTokens, hc]
  rw [h1]
  have hck : (Store.extractTokensLocked { s with csrfToken := [], sessionID := [] } w).2.1.cookies
      ≠ [] := by
    rw [extractTokensLocked_cookies]; exact hc
  constructor
  · intro hok
    have hcsrf := extractTokensLocked_ok_csrf _ w hok
    simp only [Store.EnsureTokens, hck, hcsrf, if_false, ne_eq, not_false_eq_true, if_true]
    simp only [extractTokensLocked_world]
  · intro hbad
    have hst := extractTokensLocked_failed _ w hbad
    have hcs : (Store.extractTokensLocked { s with csrfToken := [], sessionID := [] }
        w).2.1.csrfToken = [] := by rw [hst]
    simp only [Store.EnsureTokens, hck, hcs, if_false, ne_eq, not_true_eq_false]
    simp only [extractTokensLocked_world]
    rw [hst]
    simp

/-- The witness of C12: a refresh that succeeds; one fetch in total. -/
theorem C12_refresh_then_ensure_witness :
    (((⟨ascii "SID=1", ascii "old", ascii "7"⟩ : Store).RefreshTokens
        ⟨[], fun _ _ => .response 200 (.ok (ascii "\"SNlM0e\":\"tok\""))⟩).2.1.EnsureTokens
      ((⟨ascii "SID=1", ascii "old", ascii "7"⟩ : Store).RefreshTokens
        ⟨[], fun _ _ => .response 200 (.ok (ascii "\"SNlM0e\":\"tok\""))⟩).2.2).2.2.sent
      = [] ++ [pageRequest (ascii "SID=1")] :=
  (C12_refresh_then_ensure ⟨ascii "SID=1", ascii "old", ascii "7"⟩
    ⟨[], fun _ _ => .response 200 (.ok (ascii "\"SNlM0e\":\"tok\""))⟩ (by decide)).1 (by rfl)

/-- The counterexample to C13: a store without cookie that was given tokens
through `SetTokens`; `RefreshTokens` returns `ErrNoCookies` and the store
still holds the tokens it held before the call. -/
theorem C13_counterexample :
    ((((New []).SetTokens (ascii "tok") (ascii "42")).RefreshTokens
        ⟨[], fun _ _ => .response 200 (.ok [])⟩).2.1.csrfToken = ascii "tok") ∧
    ((((New []).SetTokens (ascii "tok") (ascii "42")).RefreshTokens
        ⟨[], fun _ _ => .response 200 (.ok [])⟩).2.1.sessionID = ascii "42") ∧
    ((((New []).SetTokens (ascii "tok") (ascii "42")).RefreshTokens
        ⟨[], fun _ _ => .response 200 (.ok [])⟩).2.2.sent = []) :=
  ⟨rfl, rfl, rfl⟩

/-- C13, amended. `RefreshTokens` clears and re-extracts: for every store
state with a non-empty cookie, `RefreshTokens` performs exactly one fetch, and
its outcome does not depend on the tokens held before the call; after a failed
extraction both tokens are empty, and after a successful one the CSRF token is
the value read from the page just fetched and the session id is the value read
from that page, or empty when the page has none. -/
theorem C13_refresh_clears (s : Store) (w : World) (hc : s.cookies ≠ []) :
    (s.RefreshTokens w).2.2.sent = w.sent ++ [pageRequest s.cookies] ∧
    (∀ x y, Store.RefreshTokens { s with csrfToken := x, sessionID := y } w
      = s.RefreshTokens w) ∧
    ((s.RefreshTokens w).1 ≠ none →
      (s.RefreshTokens w).2.1.csrfToken = [] ∧ (s.RefreshTokens w).2.1.sessionID = []) ∧
    ((s.RefreshTokens w).1 = none →
      ∃ page, w.respond w.sent (pageRequest s.cookies) = .response 200 (.ok page) ∧
        FindSubmatch (ascii "SNlM0e") page = some (s.RefreshTokens w).2.1.csrfToken ∧
        (s.RefreshTokens w).2.1.sessionID = (FindSubmatch (ascii "FdrFJe") page).getD []) := by
  have h1 : s.RefreshTokens w =
      Store.extractTokensLocked { s with csrfToken := [], sessionID := [] } w := by
    simp [Store.RefreshTokens, hc]
  refine ⟨?_, ?_, ?_, ?_⟩
  · rw [h1, extractTokensLocked_world]
  · intro x y
    simp [Store.RefreshTokens, hc]
  · intro hbad
    rw [h1] at hbad ⊢
    rw [extractTokensLocked_failed _ w hbad]
    exact ⟨rfl, rfl⟩
  · intro hok
    rw [h1] at hok ⊢
    unfold Store.extractTokensLocked World.send at hok ⊢
    simp only at hok ⊢
    split
    · rename_i heq; simp [heq] at hok
    · rename_i status body heq
      simp only [heq] at hok
      split
      · rename_i hs; simp [hs] at hok
      · rename_i hs
        simp only [hs, if_false] at hok
        have hst : status = 200 := by
          by_contra hne
          exact hs hne
        subst hst
        split
        · simp at hok
        · rename_i page
          simp only at hok
          refine ⟨page, heq, ?_⟩
          split
          · rename_i hf; simp [hf] at hok
          · rename_i csrf hf
            split
            · rename_i sid hsid
              simp [hf, hsid]
            · rename_i hsid
              simp [hf, hsid]

/-- The witness of C13: a store with stale tokens and a page with the CSRF
marker only: the new token is read from the page and the session id is
empty. -/
theorem C13_refresh_clears_witness :
    ((⟨ascii "SID=1", ascii "old", ascii "7"⟩ : Store).RefreshTokens
        ⟨[], fun _ _ => .response 200 (.ok (ascii "\"SNlM0e\":\"tok\""))⟩).2.2.sent
      = [] ++ [pageRequest (ascii "SID=1")] ∧
    ((⟨ascii "SID=1", ascii "old", ascii "7"⟩ : Store).RefreshTokens
        ⟨[], fun _ _ => .response 200 (.ok (ascii "\"SNlM0e\":\"tok\""))⟩).2.1
      = ⟨ascii "SID=1", ascii "tok", []⟩ :=
  ⟨(C13_refresh_clears ⟨ascii "SID=1", ascii "old", ascii "7"⟩
      ⟨[], fun _ _ => .response 200 (.ok (ascii "\"SNlM0e\":\"tok\""))⟩ (by decide)).1, rfl⟩

/-- The counterexample to C14: the cookie ` SID=1 ` (with blanks around it) is
stored without the blanks, and after `SetCookies` of a blank the store has no
cookie, so the next `EnsureTokens` performs no extraction. -/
theorem C14_counterexample :
    ((⟨ascii "old", ascii "tok", ascii "42"⟩ : Store).SetCookies (ascii " SID=1 ")).cookies
      = ascii "SID=1" ∧
    ((⟨ascii "old", ascii "tok", ascii "42"⟩ : Store).SetCookies (ascii " SID=1 ")).cookies
      ≠ ascii " SID=1 " ∧
    ascii " " ≠ [] ∧
    ((((⟨ascii "old", ascii "tok", ascii "42"⟩ : Store).SetCookies (ascii " ")).EnsureTokens
        ⟨[], fun _ _ => .response 200 (.ok [])⟩).2.2.sent = []) :=
  ⟨rfl, by decide, by decide, rfl⟩

/-- C14, amended. `SetCookies` replaces the cookie and invalidates the
tokens: for every prior store state and every string `c`, after
`SetCookies(c)` the stored cookie is `c` trimmed of surrounding white space,
the CSRF token and the session id are empty, and, when the trimmed cookie is
not empty, the next `EnsureTokens` performs an extraction (it fetches the page
with the new cookie). -/
theorem C14_set_cookies (s : Store) (c : Bytes) (w : World) :
    (s.SetCookies c).Cookies = TrimSpace c ∧
    (s.SetCookies c).CSRFToken = [] ∧ (s.SetCookies c).SessionID = [] ∧
    (TrimSpace c ≠ [] →
      (s.SetCookies c).EnsureTokens w = (s.SetCookies c).extractTokensLocked w ∧
      ((s.SetCookies c).EnsureTokens w).2.2.sent = w.sent ++ [pageRequest (TrimSpace c)]) := by
  refine ⟨rfl, rfl, rfl, ?_⟩
  intro hne
  have h1 : (s.SetCookies c).EnsureTokens w = (s.SetCookies c).extractTokensLocked w := by
    simp [Store.EnsureTokens, Store.SetCookies, hne]
  refine ⟨h1, ?_⟩
  rw [h1, extractTokensLocked_world]
  rfl

/-- The witness of C14: a new cookie with a newline after it. -/
theorem C14_set_cookies_witness :
    (((⟨ascii "old", ascii "tok", ascii "42"⟩ : Store).SetCookies (ascii "SID=1\n")).EnsureTokens
        ⟨[], fun _ _ => .response 200 (.ok [])⟩).2.2.sent
      = [] ++ [pageRequest (TrimSpace (ascii "SID=1\n"))] :=
  ((C14_set_cookies ⟨ascii "old", ascii "tok", ascii "42"⟩ (ascii "SID=1\n")
    ⟨[], fun _ _ => .response 200 (.ok [])⟩).2.2.2 (by decide)).2

/-- C15. `SetTokens` overrides only with non-empty values: after
`SetTokens(csrf, session)` the CSRF token is `csrf` if `csrf` is not empty and
is unchanged otherwise, the session id is `session` if `session` is not empty
and is unchanged otherwise, and the cookie is unchanged. -/
theorem C15_set_tokens (s : Store) (csrf session : Bytes) :
    (s.SetTokens csrf session).CSRFToken = (if csrf ≠ [] then csrf else s.CSRFToken) ∧
    (s.SetTokens csrf session).SessionID = (if session ≠ [] then session else s.SessionID) ∧
    (s.SetTokens csrf session).Cookies = s.Cookies := by
  unfold Store.SetTokens Store.CSRFToken Store.SessionID Store.Cookies
  by_cases h1 : csrf = [] <;> by_cases h2 : session = [] <;> simp [h1, h2]

/-- C16. No credential configured: for every store state whose cookie is
empty, `EnsureTokens` and `RefreshTokens` both return `ErrNoCookies`, send
nothing and leave the store, the CSRF token and the session id included, as it
was. -/
theorem C16_no_cookies (s : Store) (w : World) (hc : s.cookies = []) :
    s.EnsureTokens w = (some .noCookies, s, w) ∧
    s.RefreshTokens w = (some .noCookies, s, w) := by
  simp [Store.EnsureTokens, Store.RefreshTokens, hc]

/-- The witness of C16: a store without cookie that holds tokens. -/
theorem C16_no_cookies_witness :
    (⟨[], ascii "tok", ascii "42"⟩ : Store).EnsureTokens ⟨[], fun _ _ => .response 200 (.ok [])⟩
      = (some .noCookies, ⟨[], ascii "tok", ascii "42"⟩,
          ⟨[], fun _ _ => .response 200 (.ok [])⟩) ∧
    (⟨[], ascii "tok", ascii "42"⟩ : Store).RefreshTokens ⟨[], fun _ _ => .response 200 (.ok [])⟩
      = (some .noCookies, ⟨[], ascii "tok", ascii "42"⟩,
          ⟨[], fun _ _ => .response 200 (.ok [])⟩) :=
  C16_no_cookies ⟨[], ascii "tok", ascii "42"⟩ ⟨[], fun _ _ => .response 200 (.ok [])⟩ rfl

/-- The counterexample to C18: for a store without cookie `Status` returns
`no_cookies`, not `no_credentials`; for a store with a cookie and no token it
returns `cookies_set_tokens_pending`, not `credentials_set_tokens_pending`. -/
theorem C18_counterexample :
    (⟨[], [], []⟩ : Store).Status = ascii "no_cookies" ∧
    (⟨[], [], []⟩ : Store).Status ≠ ascii "no_credentials" ∧
    (⟨ascii "SID=1", [], []⟩ : Store).Status = ascii "cookies_set_tokens_pending" ∧
    (⟨ascii "SID=1", [], []⟩ : Store).Status ≠ ascii "credentials_set_tokens_pending" :=
  ⟨rfl, by decide, rfl, by decide⟩

/-- C18, amended. `Status` is a function of the credential state with exactly
three values: it is `no_cookies` when the cookie is empty,
`cookies_set_tokens_pending` when the cookie is not empty and the CSRF token
is empty, and `authenticated` when both are not empty; it is never any other
string, and the three strings are pairwise different. -/
theorem C18_status (s : Store) :
    (s.cookies = [] → s.Status = ascii "no_cookies") ∧
    (s.cookies ≠ [] → s.csrfToken = [] → s.Status = ascii "cookies_set_tokens_pending") ∧
    (s.cookies ≠ [] → s.csrfToken ≠ [] → s.Status = ascii "authenticated") ∧
    (s.Status = ascii "no_cookies" ∨ s.Status = ascii "cookies_set_tokens_pending" ∨
      s.Status = ascii "authenticated") ∧
    ascii "no_cookies" ≠ ascii "cookies_set_tokens_pending" ∧
    ascii "no_cookies" ≠ ascii "authenticated" ∧
    ascii "cookies_set_tokens_pending" ≠ ascii "authenticated" := by
  unfold Store.Status
  refine ⟨?_, ?_, ?_, ?_, by decide, by decide, by decide⟩
  · intro h; simp [h]
  · intro h1 h2; simp [h1, h2]
  · intro h1 h2; simp [h1, h2]
  · by_cases h1 : s.cookies = [] <;> by_cases h2 : s.csrfToken = [] <;> simp [h1, h2]

/-- The witness of C18: a store with cookie and token is `authenticated`. -/
theorem C18_status_witness :
    (⟨ascii "SID=1", ascii "tok", []⟩ : Store).Status = ascii "authenticated" :=
  (C18_status ⟨ascii "SID=1", ascii "tok", []⟩).2.2.1 (by decide) (by decide)

/-! ## The two markers of the page -/

theorem takeWhile_quote (v post : Bytes) (h : 34 ∉ v) :
    (v ++ 34 :: post).takeWhile (· ≠ 34) = v := by
  induction v with
  | nil => simp
  | cons a v ih =>
    have ha : a ≠ 34 := fun e => h (by simp [e])
    have hv : 34 ∉ v := fun e => h (by simp [e])
    have hi := ih hv
    rw [List.cons_append, List.takeWhile_cons]
    have hd : decide (a ≠ 34) = true := by simpa using ha
    rw [hd]
    simp only [if_true]
    rw [hi]

/-- The pattern matches at the start of `s` exactly when `s` starts with an
occurrence, and then the group is its value. -/
theorem matchQuotedHere_iff (key s v : Bytes) :
    matchQuotedHere key s = some v ↔
      ∃ post, s = 34 :: key ++ ascii "\":\"" ++ v ++ 34 :: post ∧ v ≠ [] ∧ 34 ∉ v := by
  unfold matchQuotedHere
  simp only
  constructor
  · intro h
    split at h
    · rename_i hp
      obtain ⟨t, ht⟩ := List.isPrefixOf_iff_prefix.mp hp
      split at h
      · rename_i hv
        have hdrop : List.drop (34 :: key ++ ascii "\":\"").length s = t := by
          rw [← ht, List.drop_left]
        rw [hdrop] at h hv
        have hveq : List.takeWhile (fun x => decide (x ≠ 34)) t = v := by simpa using h
        have hsplit := List.takeWhile_append_dropWhile (fun x => decide (x ≠ 34)) t
        rw [hveq] at hsplit hv
        have hd : List.drop v.length t = List.dropWhile (fun x => decide (x ≠ 34)) t := by
          conv => lhs; rw [← hsplit]
          rw [List.drop_left]
        rw [hd] at hv
        cases hdw : List.dropWhile (fun x => decide (x ≠ 34)) t with
        | nil => rw [hdw] at hv; simp at hv
        | cons q post =>
          rw [hdw] at hv hsplit
          have hq : q = 34 := by simpa using hv.2
          subst hq
          refine ⟨post, ?_, hv.1, ?_⟩
          · rw [← ht, ← hsplit]; simp only [List.append_assoc]
          · intro hm
            rw [← hveq] at hm
            have := List.mem_takeWhile_imp hm
            simp at this
      · cases h
    · cases h
  · rintro ⟨post, hs, hne, hq⟩
    have hp : (34 :: key ++ ascii "\":\"").isPrefixOf s = true := by
      apply List.isPrefixOf_iff_prefix.mpr
      exact ⟨v ++ 34 :: post, by rw [hs]; simp only [List.append_assoc]⟩
    have hdrop : List.drop (34 :: key ++ ascii "\":\"").length s = v ++ 34 :: post := by
      rw [hs, List.append_assoc, List.drop_left]
    simp only [hp, if_true, hdrop, takeWhile_quote v post hq]
    have : List.drop v.length (v ++ 34 :: post) = 34 :: post := List.drop_left _ _
    simp [hne, this]

theorem markerAt_zero (key body v : Bytes) :
    markerAt key body 0 v ↔ matchQuotedHere key body = some v := by
  unfold markerAt
  rw [matchQuotedHere_iff]
  simp

theorem markerAt_succ (key : Bytes) (c : Nat) (rest : Bytes) (n : Nat) (v : Bytes) :
    markerAt key (c :: rest) (n + 1) v ↔ markerAt key rest n v := by
  unfold markerAt
  simp

theorem markerAt_nil (key : Bytes) (n : Nat) (v : Bytes) : ¬ markerAt key [] n v := by
  unfold markerAt
  simp

/-- `FindSubmatch` finds nothing exactly when there is no occurrence. -/
theorem FindSubmatch_none_iff (key : Bytes) : ∀ body : Bytes,
    FindSubmatch key body = none ↔ ∀ n v, ¬ markerAt key body n v := by
  intro body
  induction body with
  | nil => simp [FindSubmatch, markerAt_nil]
  | cons c rest ih =>
    unfold FindSubmatch
    cases hm : matchQuotedHere key (c :: rest) with
    | some u =>
      simp only
      constructor
      · intro h; cases h
      · intro h
        exact absurd ((markerAt_zero key _ u).mpr hm) (h 0 u)
    | none =>
      simp only
      rw [ih]
      constructor
      · intro h n v
        cases n with
        | zero =>
          intro h0
          rw [markerAt_zero, hm] at h0
          cases h0
        | succ n => rw [markerAt_succ]; exact h n v
      · intro h n v
        have := h (n + 1) v
        rwa [markerAt_succ] at this

/-- `FindSubmatch` returns the value of the first occurrence. -/
theorem FindSubmatch_some_iff (key : Bytes) : ∀ (body v : Bytes),
    FindSubmatch key body = some v ↔
      ∃ n, markerAt key body n v ∧ ∀ m, m < n → ∀ u, ¬ markerAt key body m u := by
  intro body
  induction body with
  | nil =>
    intro v
    simp [FindSubmatch, markerAt_nil]
  | cons c rest ih =>
    intro v
    unfold FindSubmatch
    cases hm : matchQuotedHere key (c :: rest) with
    | some u =>
      simp only
      constructor
      · intro h
        have : u = v := by simpa using h
        subst this
        exact ⟨0, (markerAt_zero key _ u).mpr hm, fun m hm0 => absurd hm0 (Nat.not_lt_zero m)⟩
      · rintro ⟨n, hn, hfirst⟩
        cases n with
        | zero =>
          rw [markerAt_zero, hm] at hn
          exact hn
        | succ n =>
          exact absurd ((markerAt_zero key _ u).mpr hm) (hfirst 0 (Nat.succ_pos n) u)
    | none =>
      simp only
      rw [ih]
      constructor
      · rintro ⟨n, hn, hfirst⟩
        refine ⟨n + 1, (markerAt_succ key c rest n v).mpr hn, ?_⟩
        intro m hmlt u
        cases m with
        | zero =>
          intro h0
          rw [markerAt_zero, hm] at h0
          cases h0
        | succ m =>
          rw [markerAt_succ]
          exact hfirst m (by omega) u
      · rintro ⟨n, hn, hfirst⟩
        cases n with
        | zero =>
          rw [markerAt_zero, hm] at hn
          cases hn
        | succ n =>
          refine ⟨n, (markerAt_succ key c rest n v).mp hn, ?_⟩
          intro m hmlt u
          have := hfirst (m + 1) (by omega) u
          rwa [markerAt_succ] at this

/-- The extraction on a page returned with status 200, in terms of the two
searches alone. -/
theorem extractTokensLocked_page (s : Store) (w : World) (page : Bytes)
    (hresp : w.respond w.sent (pageRequest s.cookies) = .response 200 (.ok page)) :
    s.extractTokensLocked w =
      match FindSubmatch (ascii "SNlM0e") page with
      | none => (some .csrfNotFound, s, (w.send (pageRequest s.cookies)).2)
      | some csrf =>
        match FindSubmatch (ascii "FdrFJe") page with
        | some sid => (none, { s with csrfToken := csrf, sessionID := sid },
            (w.send (pageRequest s.cookies)).2)
        | none => (none, { s with csrfToken := csrf }, (w.send (pageRequest s.cookies)).2) := by
  unfold Store.extractTokensLocked World.send
  simp only [hresp]
  rfl

/-- C17. Mandatory CSRF marker, optional session marker: for a page body
returned with HTTP 200, `extractTokensLocked` succeeds if and only if the body
has an occurrence of `"SNlM0e":"value"` with a non-empty value free of double
quotes; the CSRF token is then the value of the first such occurrence, and the
session id is the value of the first `"FdrFJe":"value"` occurrence when there
is one and is left as it was otherwise; when the CSRF marker is absent the
call fails with `csrfNotFound` and leaves the store as it was, whatever the
session marker. -/
theorem C17_markers (s : Store) (w : World) (page : Bytes)
    (hresp : w.respond w.sent (pageRequest s.cookies) = .response 200 (.ok page)) :
    ((s.extractTokensLocked w).1 = none ↔ ∃ n v, markerAt (ascii "SNlM0e") page n v) ∧
    (∀ n v, markerAt (ascii "SNlM0e") page n v →
      (∀ m, m < n → ∀ u, ¬ markerAt (ascii "SNlM0e") page m u) →
      (s.extractTokensLocked w).2.1.csrfToken = v ∧
      (∀ k x, markerAt (ascii "FdrFJe") page k x →
        (∀ m, m < k → ∀ u, ¬ markerAt (ascii "FdrFJe") page m u) →
        (s.extractTokensLocked w).2.1.sessionID = x) ∧
      ((∀ k x, ¬ markerAt (ascii "FdrFJe") page k x) →
        (s.extractTokensLocked w).2.1.sessionID = s.sessionID)) ∧
    ((∀ n v, ¬ markerAt (ascii "SNlM0e") page n v) →
      (s.extractTokensLocked w).1 = some .csrfNotFound ∧
      (s.extractTokensLocked w).2.1 = s) := by
  rw [extractTokensLocked_page s w page hresp]
  refine ⟨?_, ?_, ?_⟩
  · cases hf : FindSubmatch (ascii "SNlM0e") page with
    | none =>
      have hn := (FindSubmatch_none_iff _ _).mp hf
      simp only
      constructor
      · intro h; cases h
      · rintro ⟨n, v, hv⟩
        exact absurd hv (hn n v)
    | some csrf =>
      obtain ⟨n, hn, _⟩ := (FindSubmatch_some_iff _ _ _).mp hf
      simp only
      constructor
      · intro _; exact ⟨n, csrf, hn⟩
      · intro _
        cases FindSubmatch (ascii "FdrFJe") page <;> rfl
  · intro n v hn hfirst
    have hf : FindSubmatch (ascii "SNlM0e") page = some v :=
      (FindSubmatch_some_iff _ _ _).mpr ⟨n, hn, hfirst⟩
    rw [hf]
    simp only
    refine ⟨?_, ?_, ?_⟩
    · cases FindSubmatch (ascii "FdrFJe") page <;> rfl
    · intro k x hk hkfirst
      have hg : FindSubmatch (ascii "FdrFJe") page = some x :=
        (FindSubmatch_some_iff _ _ _).mpr ⟨k, hk, hkfirst⟩
      rw [hg]
    · intro hno
      have hg : FindSubmatch (ascii "FdrFJe") page = none :=
        (FindSubmatch_none_iff _ _).mpr hno
      rw [hg]
  · intro hno
    have hf : FindSubmatch (ascii "SNlM0e") page = none :=
      (FindSubmatch_none_iff _ _).mpr hno
    rw [hf]
    exact ⟨rfl, rfl⟩

/-- The witness of C17: a page with two CSRF markers and a session marker: the
extraction succeeds, the token is the value of the first CSRF marker and the
session id the value of the session marker. -/
theorem C17_markers_witness :
    ((⟨ascii "SID=1", [], ascii "old"⟩ : Store).extractTokensLocked
        ⟨[], fun _ _ => .response 200
          (.ok (ascii "x \"SNlM0e\":\"tokA\",\"FdrFJe\":\"77\" \"SNlM0e\":\"tokB\""))⟩).1
      = none ∧
    ((⟨ascii "SID=1", [], ascii "old"⟩ : Store).extractTokensLocked
        ⟨[], fun _ _ => .response 200
          (.ok (ascii "x \"SNlM0e\":\"tokA\",\"FdrFJe\":\"77\" \"SNlM0e\":\"tokB\""))⟩).2.1
      = ⟨ascii "SID=1", ascii "tokA", ascii "77"⟩ :=
  ⟨(C17_markers ⟨ascii "SID=1", [], ascii "old"⟩
      ⟨[], fun _ _ => .response 200
        (.ok (ascii "x \"SNlM0e\":\"tokA\",\"FdrFJe\":\"77\" \"SNlM0e\":\"tokB\""))⟩
      (ascii "x \"SNlM0e\":\"tokA\",\"FdrFJe\":\"77\" \"SNlM0e\":\"tokB\"") rfl).1.mpr
      ⟨2, ascii "tokA", ascii ",\"FdrFJe\":\"77\" \"SNlM0e\":\"tokB\"", rfl,
        by decide, by decide⟩,
    rfl⟩

/-! ## The answer of a streamed response -/

/-- The loop is a fold of the update over the chunks it hands over. -/
theorem queryLoop_eq_foldl : ∀ (n : Nat) (lines : List Bytes) (acc : Longest),
    lines.length ≤ n →
    queryLoop lines acc =
      (chunksOf lines).foldl (fun a l => a.update (extractAnswerFromChunk l)) acc := by
  intro n
  induction n with
  | zero =>
    intro lines acc h
    cases lines with
    | nil => rfl
    | cons _ _ => simp at h
  | succ n ih =>
    intro lines acc h
    match lines, h with
    | [], _ => rfl
    | [l], _ =>
      unfold queryLoop chunksOf
      by_cases hl : TrimSpace l = [] <;> simp [hl]
    | l :: next :: rest, h =>
      have h1 : (next :: rest).length ≤ n := by simp at h ⊢; omega
      have h2 : rest.length ≤ n := by simp at h ⊢; omega
      unfold queryLoop chunksOf
      by_cases hl : TrimSpace l = []
      · simp only [hl, if_true]
        exact ih _ _ h1
      · simp only [hl, if_false]
        by_cases hn : isNumber (TrimSpace l) = true
        · simp only [hn, if_true, List.foldl_cons]
          exact ih _ _ h2
        · simp only [hn, if_false, List.foldl_cons]
          exact ih _ _ h1

/-- The comparison of the loop: keep the text seen first unless the new one is
strictly longer. -/
theorem foldl_update_filter (cs : List (Bytes × Bool)) : ∀ acc : Longest,
    cs.foldl Longest.update acc = (cs.filter fun c => c.1 ≠ []).foldl Longest.update acc := by
  induction cs with
  | nil => intro acc; rfl
  | cons c cs ih =>
    intro acc
    by_cases hc : c.1 = []
    · have hu : acc.update c = acc := by simp [Longest.update, hc]
      simp [List.filter_cons, hc, hu, ih]
    · simp [List.filter_cons, hc, ih]

theorem foldl_update_answer (cs : List (Bytes × Bool)) (hne : ∀ c ∈ cs, c.1 ≠ []) :
    ∀ acc : Longest, (cs.foldl Longest.update acc).answer =
      ((cs.filter fun c => c.2).map fun c => c.1).foldl
        (fun best t => if t.length > best.length then t else best) acc.answer := by
  induction cs with
  | nil => intro acc; rfl
  | cons c cs ih =>
    intro acc
    have hc : c.1 ≠ [] := hne c (by simp)
    have hcs : ∀ c ∈ cs, c.1 ≠ [] := fun x hx => hne x (by simp [hx])
    rw [List.foldl_cons, ih hcs]
    cases h2 : c.2 with
    | true =>
      simp only [List.filter_cons, h2, if_true, List.map_cons, List.foldl_cons]
      congr 1
      by_cases hl : c.1.length > acc.answer.length <;> simp [Longest.update, hc, h2, hl]
    | false =>
      simp only [List.filter_cons, h2]
      congr 1
      by_cases hl : c.1.length > acc.thinking.length <;> simp [Longest.update, hc, h2, hl]

theorem foldl_update_thinking (cs : List (Bytes × Bool)) (hne : ∀ c ∈ cs, c.1 ≠ []) :
    ∀ acc : Longest, (cs.foldl Longest.update acc).thinking =
      ((cs.filter fun c => !c.2).map fun c => c.1).foldl
        (fun best t => if t.length > best.length then t else best) acc.thinking := by
  induction cs with
  | nil => intro acc; rfl
  | cons c cs ih =>
    intro acc
    have hc : c.1 ≠ [] := hne c (by simp)
    have hcs : ∀ c ∈ cs, c.1 ≠ [] := fun x hx => hne x (by simp [hx])
    rw [List.foldl_cons, ih hcs]
    cases h2 : c.2 with
    | true =>
      simp only [List.filter_cons, h2]
      congr 1
      by_cases hl : c.1.length > acc.answer.length <;> simp [Longest.update, hc, h2, hl]
    | false =>
      simp only [List.filter_cons, h2, Bool.not_false, if_true, List.map_cons, List.foldl_cons]
      congr 1
      by_cases hl : c.1.length > acc.thinking.length <;> simp [Longest.update, hc, h2, hl]

/-- A fold of the comparison from `b` either keeps `b`, no member being
longer, or ends on the first of the longest members, which is longer than
`b`. -/
theorem foldl_pick (l : List Bytes) : ∀ b : Bytes,
    ((∀ t ∈ l, t.length ≤ b.length) ∧
      l.foldl (fun best t => if t.length > best.length then t else best) b = b) ∨
    (b.length <
        (l.foldl (fun best t => if t.length > best.length then t else best) b).length ∧
      IsFirstLongest (l.foldl (fun best t => if t.length > best.length then t else best) b) l) := by
  induction l with
  | nil => intro b; left; simp
  | cons t l ih =>
    intro b
    rw [List.foldl_cons]
    by_cases ht : t.length > b.length
    · simp only [ht, if_true]
      right
      rcases ih t with ⟨hall, heq⟩ | ⟨hlt, pre, post, hl, hpre, hpost⟩
      · rw [heq]
        exact ⟨ht, [], l, rfl, by simp, hall⟩
      · refine ⟨by omega, t :: pre, post, congrArg (List.cons t) hl, ?_, hpost⟩
        intro x hx
        rcases List.mem_cons.mp hx with rfl | hx
        · exact hlt
        · exact hpre x hx
    · simp only [ht, if_false]
      rcases ih b with ⟨hall, heq⟩ | ⟨hlt, pre, post, hl, hpre, hpost⟩
      · left
        refine ⟨?_, heq⟩
        intro x hx
        rcases List.mem_cons.mp hx with rfl | hx
        · omega
        · exact hall x hx
      · right
        refine ⟨hlt, t :: pre, post, congrArg (List.cons t) hl, ?_, hpost⟩
        intro x hx
        rcases List.mem_cons.mp hx with rfl | hx
        · omega
        · exact hpre x hx

theorem candidates_ne_nil (text : Bytes) : ∀ c ∈ candidates text, c.1 ≠ [] := by
  intro c hc
  unfold candidates at hc
  simp only [List.mem_filter] at hc
  simpa using hc.2

theorem answerTexts_ne_nil (text : Bytes) : ∀ t ∈ answerTexts text, t ≠ [] := by
  intro t ht
  unfold answerTexts at ht
  obtain ⟨c, hc, rfl⟩ := List.mem_map.mp ht
  exact candidates_ne_nil text c (List.mem_filter.mp hc).1

theorem thinkingTexts_ne_nil (text : Bytes) : ∀ t ∈ thinkingTexts text, t ≠ [] := by
  intro t ht
  unfold thinkingTexts at ht
  obtain ⟨c, hc, rfl⟩ := List.mem_map.mp ht
  exact candidates_ne_nil text c (List.mem_filter.mp hc).1

/-- The result of `parseQueryResponse` in terms of the candidates: the fold of
the comparison over the answer texts when it is not empty, and over the
thinking texts otherwise. -/
theorem parseQueryResponse_eq (text : Bytes) :
    parseQueryResponse text =
      if (answerTexts text).foldl
          (fun best t => if t.length > best.length then t else best) [] ≠ [] then
        (answerTexts text).foldl (fun best t => if t.length > best.length then t else best) []
      else
        (thinkingTexts text).foldl
          (fun best t => if t.length > best.length then t else best) [] := by
  have hfold : ∀ lines : List Bytes,
      queryLoop lines ⟨[], []⟩ =
        (((chunksOf lines).map extractAnswerFromChunk).filter fun c => c.1 ≠ []).foldl
          Longest.update ⟨[], []⟩ := by
    intro lines
    rw [queryLoop_eq_foldl lines.length lines _ (Nat.le_refl _), ← foldl_update_filter,
      List.foldl_map]
  have hne := candidates_ne_nil text
  have ha := foldl_update_answer (candidates text) hne ⟨[], []⟩
  have ht := foldl_update_thinking (candidates text) hne ⟨[], []⟩
  unfold answerTexts thinkingTexts
  rw [← ha, ← ht]
  unfold parseQueryResponse candidates
  simp only [hfold]

/-- C20. Answer selection: with the candidates of a response being the
non-empty texts `extractAnswerFromChunk` finds in the chunks, in order,
`parseQueryResponse` returns the first of the longest candidates classified as
answer when there is one, whatever the thinking candidates; otherwise the
first of the longest candidates classified as thinking when there is one;
otherwise the empty string. -/
theorem C20_answer_selection (text : Bytes) :
    (answerTexts text ≠ [] → IsFirstLongest (parseQueryResponse text) (answerTexts text)) ∧
    (answerTexts text = [] → thinkingTexts text ≠ [] →
      IsFirstLongest (parseQueryResponse text) (thinkingTexts text)) ∧
    (answerTexts text = [] → thinkingTexts text = [] → parseQueryResponse text = []) := by
  rw [parseQueryResponse_eq]
  have hnil : ∀ l : List Bytes, (∀ t ∈ l, t ≠ []) → l ≠ [] →
      ¬ (∀ t ∈ l, t.length ≤ ([] : Bytes).length) := by
    intro l hl hne hall
    cases l with
    | nil => exact hne rfl
    | cons t l =>
      have h1 := hall t (by simp)
      have h2 := hl t (by simp)
      cases t with
      | nil => exact h2 rfl
      | cons _ _ => simp at h1
  refine ⟨?_, ?_, ?_⟩
  · intro hne
    rcases foldl_pick (answerTexts text) [] with ⟨hall, _⟩ | ⟨hlt, hfirst⟩
    · exact absurd hall (hnil _ (answerTexts_ne_nil text) hne)
    · have hpos : (answerTexts text).foldl
          (fun best t => if t.length > best.length then t else best) [] ≠ [] := by
        intro h
        rw [h] at hlt
        exact absurd hlt (Nat.lt_irrefl _)
      rw [if_pos hpos]
      exact hfirst
  · intro ha hne
    rw [ha]
    simp only [List.foldl_nil, ne_eq, not_true_eq_false, if_false]
    rcases foldl_pick (thinkingTexts text) [] with ⟨hall, _⟩ | ⟨_, hfirst⟩
    · exact absurd hall (hnil _ (thinkingTexts_ne_nil text) hne)
    · exact hfirst
  · intro ha ht
    rw [ha, ht]
    rfl

set_option maxRecDepth 100000 in
/-- The witness of C20: a response with a 25-byte and a 40-byte answer chunk
gives the 40-byte text, and a response with a 30-byte answer chunk and a
50-byte thinking chunk gives the 30-byte text. -/
theorem C20_answer_selection_witness :
    parseQueryResponse (ascii (")]\x7d'\n\n120\n"
      ++ "[[\"wrb.fr\",null,\"[[\\\"The answer is forty-two..\\\",null,null,null,[1]]]\"]]\n135\n"
      ++ "[[\"wrb.fr\",null,\"[[\\\"The answer is forty-two.. as you know it\\\",null,null,null,[1]]]\"]]\n"))
      = ascii "The answer is forty-two.. as you know it" ∧
    parseQueryResponse (ascii (")]\x7d'\n\n125\n"
      ++ "[[\"wrb.fr\",null,\"[[\\\"The capital of France is Paris\\\",null,null,null,[1]]]\"]]\n145\n"
      ++ "[[\"wrb.fr\",null,\"[[\\\"Let me think about which city is the capital here.\\\",null,null,null,[2]]]\"]]\n"))
      = ascii "The capital of France is Paris" ∧
    IsFirstLongest
      (parseQueryResponse (ascii (")]\x7d'\n\n120\n"
        ++ "[[\"wrb.fr\",null,\"[[\\\"The answer is forty-two..\\\",null,null,null,[1]]]\"]]\n135\n"
        ++ "[[\"wrb.fr\",null,\"[[\\\"The answer is forty-two.. as you know it\\\",null,null,null,[1]]]\"]]\n")))
      [ascii "The answer is forty-two..", ascii "The answer is forty-two.. as you know it"] :=
  ⟨rfl, rfl,
    (C20_answer_selection (ascii (")]\x7d'\n\n120\n"
        ++ "[[\"wrb.fr\",null,\"[[\\\"The answer is forty-two..\\\",null,null,null,[1]]]\"]]\n135\n"
        ++ "[[\"wrb.fr\",null,\"[[\\\"The answer is forty-two.. as you know it\\\",null,null,null,[1]]]\"]]\n"))).1
      (by decide)⟩

/-! ## The chunks of a streamed response -/

/-- A text that an entry of a chunk yields has more than 20 bytes. -/
theorem chunkItem_some_len (item : Bytes) (c : Bytes × Bool) (h : chunkItem item = some c) :
    20 < c.1.length := by
  unfold chunkItem at h
  split at h
  · split at h
    · split at h
      · cases h
      · split at h
        · split at h
          · simp only at h
            split at h
            · split at h
              · rename_i hlen
                simp only [Option.some.injEq] at h
                rw [← h]
                exact hlen
              · cases h
            · cases h
          · cases h
        · cases h
    · cases h
  · cases h

/-- The text `extractAnswerFromChunk` returns is empty or has more than 20
bytes. -/
theorem extractAnswerFromChunk_len (jsonStr : Bytes) :
    (extractAnswerFromChunk jsonStr).1 = [] ∨ 20 < (extractAnswerFromChunk jsonStr).1.length := by
  unfold extractAnswerFromChunk
  split
  · rename_i data _
    cases hf : data.findSome? chunkItem with
    | none => left; rfl
    | some c =>
      right
      obtain ⟨item, _, hitem⟩ := List.exists_of_findSome?_eq_some hf
      exact chunkItem_some_len item c hitem
  · left; rfl

/-- An entry whose parts decode: the marker is `wrb.fr`, the third element is
a string that holds an array, and the first element of that array is an array
with the elements `E`. -/
theorem chunkItem_decoded (item m x p : Bytes) (more : List Bytes) (payloadStr first : Bytes)
    (others E : List Bytes)
    (hitem : UnmarshalRawSlice item = .ok (m :: x :: p :: more))
    (hm : UnmarshalString m [] = .ok wrbFr)
    (hp : UnmarshalString p [] = .ok payloadStr)
    (hpayload : UnmarshalRawSlice payloadStr = .ok (first :: others))
    (hfirst : UnmarshalRawSlice first = .ok E) :
    chunkItem item =
      if 0 < E.length ∧ 20 < (GetString (E.getD 0 [])).length
      then some (GetString (E.getD 0 []), isAnswerType E) else none := by
  have hE : (ParseRawArray first).1 = E := by simp [ParseRawArray, hfirst]
  unfold chunkItem
  simp only [hitem, hm, hp, hpayload, hE, ne_eq, not_true_eq_false, if_false]
  by_cases h0 : E.length > 0
  · by_cases h20 : (GetString (E.getD 0 [])).length > 20
    · simp [h0, h20]
    · simp [h0, h20]
  · simp [h0]

/-- A fold of the comparison ends on its start or on a member. -/
theorem foldl_pick_mem (l : List Bytes) (b : Bytes) :
    l.foldl (fun best t => if t.length > best.length then t else best) b = b ∨
    l.foldl (fun best t => if t.length > best.length then t else best) b ∈ l := by
  rcases foldl_pick l b with ⟨_, h⟩ | ⟨_, pre, post, hl, _, _⟩
  · left; exact h
  · right
    generalize l.foldl (fun best t => if t.length > best.length then t else best) b = r at hl ⊢
    rw [hl]
    simp

/-- A candidate is what `extractAnswerFromChunk` returns for some chunk. -/
theorem candidates_chunk (text : Bytes) (c : Bytes × Bool) (h : c ∈ candidates text) :
    ∃ chunk, extractAnswerFromChunk chunk = c := by
  unfold candidates at h
  obtain ⟨chunk, _, hc⟩ := List.mem_map.mp (List.mem_filter.mp h).1
  exact ⟨chunk, hc⟩

/-- The result of `parseQueryResponse` is empty or the text of a candidate. -/
theorem parseQueryResponse_mem (text : Bytes) :
    parseQueryResponse text = [] ∨ ∃ c ∈ candidates text, c.1 = parseQueryResponse text := by
  rw [parseQueryResponse_eq]
  have hA := foldl_pick_mem (answerTexts text) []
  have hT := foldl_pick_mem (thinkingTexts text) []
  split
  · rename_i hne
    rcases hA with h | h
    · exact absurd h hne
    · right
      unfold answerTexts at h
      obtain ⟨c, hc, hc1⟩ := List.mem_map.mp h
      exact ⟨c, (List.mem_filter.mp hc).1, hc1⟩
  · rcases hT with h | h
    · left; exact h
    · right
      unfold thinkingTexts at h
      obtain ⟨c, hc, hc1⟩ := List.mem_map.mp h
      exact ⟨c, (List.mem_filter.mp hc).1, hc1⟩

set_option maxRecDepth 100000 in
/-- The counterexample to C21: a chunk whose text is seven characters long
(seven times U+65E5, 21 bytes of UTF-8) is a candidate, and
`parseQueryResponse` returns this text of fewer than 20 characters. -/
theorem C21_counterexample :
    parseQueryResponse (ascii "[[\"wrb.fr\",null,\"[[\\\""
      ++ [0xE6, 0x97, 0xA5, 0xE6, 0x97, 0xA5, 0xE6, 0x97, 0xA5, 0xE6, 0x97, 0xA5,
          0xE6, 0x97, 0xA5, 0xE6, 0x97, 0xA5, 0xE6, 0x97, 0xA5]
      ++ ascii "\\\",null,null,null,[1]]]\"]]")
      = [0xE6, 0x97, 0xA5, 0xE6, 0x97, 0xA5, 0xE6, 0x97, 0xA5, 0xE6, 0x97, 0xA5,
          0xE6, 0x97, 0xA5, 0xE6, 0x97, 0xA5, 0xE6, 0x97, 0xA5] ∧
    Utf8.RuneCount [0xE6, 0x97, 0xA5, 0xE6, 0x97, 0xA5, 0xE6, 0x97, 0xA5, 0xE6, 0x97, 0xA5,
          0xE6, 0x97, 0xA5, 0xE6, 0x97, 0xA5, 0xE6, 0x97, 0xA5] = 7 :=
  ⟨rfl, rfl⟩

/-- C21, amended. Length threshold: the threshold is on the number of bytes.
For every response text `parseQueryResponse` returns the empty string or a
string of more than 20 bytes; `extractAnswerFromChunk` returns an empty text
or one of more than 20 bytes; and a chunk with one entry whose text has 20
bytes or fewer gives the empty text and leaves the two running maxima as they
were. -/
theorem C21_length_threshold (text chunk item m x p : Bytes) (more : List Bytes)
    (payloadStr first : Bytes) (others E : List Bytes) (acc : Longest) :
    (parseQueryResponse text = [] ∨ 20 < (parseQueryResponse text).length) ∧
    ((extractAnswerFromChunk chunk).1 = [] ∨ 20 < (extractAnswerFromChunk chunk).1.length) ∧
    (UnmarshalRawSlice chunk = .ok [item] →
      UnmarshalRawSlice item = .ok (m :: x :: p :: more) →
      UnmarshalString m [] = .ok wrbFr →
      UnmarshalString p [] = .ok payloadStr →
      UnmarshalRawSlice payloadStr = .ok (first :: others) →
      UnmarshalRawSlice first = .ok E →
      (GetString (E.getD 0 [])).length ≤ 20 →
      extractAnswerFromChunk chunk = ([], false) ∧
      acc.update (extractAnswerFromChunk chunk) = acc) := by
  refine ⟨?_, extractAnswerFromChunk_len chunk, ?_⟩
  · rcases parseQueryResponse_mem text with h | ⟨c, hc, hc1⟩
    · left; exact h
    · right
      obtain ⟨ch, hch⟩ := candidates_chunk text c hc
      have hne := candidates_ne_nil text c hc
      rw [← hc1, ← hch]
      rcases extractAnswerFromChunk_len ch with h | h
      · rw [hch] at h; exact absurd h hne
      · exact h
  · intro hchunk hitem hm hp hpayload hfirst hlen
    have hci := chunkItem_decoded item m x p more payloadStr first others E hitem hm hp
      hpayload hfirst
    have hnone : chunkItem item = none := by
      rw [hci]
      have : ¬ 20 < (GetString (E.getD 0 [])).length := by omega
      rw [if_neg]
      intro h
      exact this h.2
    have hx : extractAnswerFromChunk chunk = ([], false) := by
      simp [extractAnswerFromChunk, hchunk, hnone]
    rw [hx]
    exact ⟨rfl, by simp [Longest.update]⟩

set_option maxRecDepth 100000 in
/-- The witness of C21: a chunk whose text has 20 bytes gives nothing. -/
theorem C21_length_threshold_witness :
    extractAnswerFromChunk
      (ascii "[[\"wrb.fr\",null,\"[[\\\"twenty bytes of text\\\",null,null,null,[1]]]\"]]")
      = ([], false) :=
  ((C21_length_threshold []
    (ascii "[[\"wrb.fr\",null,\"[[\\\"twenty bytes of text\\\",null,null,null,[1]]]\"]]")
    (ascii "[\"wrb.fr\",null,\"[[\\\"twenty bytes of text\\\",null,null,null,[1]]]\"]")
    (ascii "\"wrb.fr\"") (ascii "null")
    (ascii "\"[[\\\"twenty bytes of text\\\",null,null,null,[1]]]\"") []
    (ascii "[[\"twenty bytes of text\",null,null,null,[1]]]")
    (ascii "[\"twenty bytes of text\",null,null,null,[1]]") []
    [ascii "\"twenty bytes of text\"", ascii "null", ascii "null", ascii "null", ascii "[1]"]
    ⟨[], []⟩).2.2 rfl rfl rfl rfl rfl rfl (by decide)).1

/-! ## What `json.Unmarshal` into an `int` accepts -/

/-- The error state of the scanner is absorbing. -/
theorem Scanner_run_error (data : Bytes) : ∀ s : Scanner, s.step = .error →
    s.run data = s := by
  induction data with
  | nil => intro s _; rfl
  | cons c rest ih =>
    intro s hs
    have h1 : (s.next c).1 = s := by
      unfold Scanner.next
      rw [hs]
    show Scanner.run (s.next c).1 rest = s
    rw [h1]
    exact ih s hs

/-- White space in front of a value leaves the scanner where it started. -/
theorem Scanner_run_spaces (sp : Bytes) (h : ∀ c ∈ sp, isSpace c = true) :
    Scanner.reset.run sp = Scanner.reset := by
  induction sp with
  | nil => rfl
  | cons c rest ih =>
    have hc : isSpace c = true := h c (by simp)
    have h1 : (Scanner.reset.next c).1 = Scanner.reset := by
      simp [Scanner.next, Scanner.reset, stateBeginValue, hc]
    show Scanner.run (Scanner.reset.next c).1 rest = Scanner.reset
    rw [h1]
    exact ih (fun x hx => h x (by simp [hx]))

theorem Scanner_run_append (a b : Bytes) (s : Scanner) :
    s.run (a ++ b) = (s.run a).run b := by
  simp [Scanner.run, List.foldl_append]

/-- A value with the white space around it. -/
theorem trimValue_split (x : Bytes) : ∃ sp1 sp2, x = sp1 ++ trimValue x ++ sp2 ∧
    x.dropWhile isSpace = trimValue x ++ sp2 ∧
    (∀ c ∈ sp1, isSpace c = true) ∧ (∀ c ∈ sp2, isSpace c = true) := by
  have h1 := List.takeWhile_append_dropWhile isSpace x
  have h2 := List.takeWhile_append_dropWhile isSpace (x.dropWhile isSpace).reverse
  have h3 : x.dropWhile isSpace =
      trimValue x ++ ((x.dropWhile isSpace).reverse.takeWhile isSpace).reverse := by
    unfold trimValue
    rw [← List.reverse_append, h2, List.reverse_reverse]
  refine ⟨x.takeWhile isSpace, ((x.dropWhile isSpace).reverse.takeWhile isSpace).reverse,
    ?_, h3, ?_, ?_⟩
  · rw [List.append_assoc, ← h3, h1]
  · intro c hc
    exact List.mem_takeWhile_imp hc
  · intro c hc
    exact List.mem_takeWhile_imp (List.mem_reverse.mp hc)

/-- A number with a leading zero is not valid JSON. -/
theorem checkValid_leading_zero (x : Bytes) (d : Nat) (r : Bytes)
    (h : trimValue x = 48 :: d :: r) (hd : isDigit d = true) : checkValid x = false := by
  obtain ⟨sp1, sp2, hx, _, h1, _⟩ := trimValue_split x
  rw [h] at hx
  have hd' : 48 ≤ d ∧ d ≤ 57 := by simpa [isDigit] using hd
  have hor : ¬ (d = 32 ∨ d = 9 ∨ d = 13 ∨ d = 10) := by omega
  have hrun : Scanner.reset.run (sp1 ++ [48, d]) = ⟨.error, [], true⟩ := by
    rw [Scanner_run_append, Scanner_run_spaces sp1 h1]
    have h46 : d ≠ 46 := by omega
    have h101 : d ≠ 101 := by omega
    have h69 : d ≠ 69 := by omega
    simp [Scanner.run, Scanner.next, Scanner.reset, stateBeginValue, isSpace, Scanner.goto,
      state0, stateEndValue, stateEndTop, h46, h101, h69, hor]
  have hx2 : x = (sp1 ++ [48, d]) ++ (r ++ sp2) := by
    rw [hx]; simp
  unfold checkValid
  rw [hx2, Scanner_run_append, hrun, Scanner_run_error _ _ rfl]
  rfl

/-- The value `strconv.ParseInt` computes from the digits is at least the
value it started from. -/
theorem foldl_digits_ge (l : Bytes) : ∀ a : Nat,
    a ≤ l.foldl (fun a c => a * 10 + (c - 48)) a := by
  induction l with
  | nil => intro a; exact Nat.le_refl _
  | cons c l ih =>
    intro a
    have := ih (a * 10 + (c - 48))
    simp only [List.foldl_cons]
    omega

theorem parseInt64_neg (t : Bytes) (h : t.head? = some 45) :
    parseInt64 t =
      if t.drop 1 ≠ [] ∧ (t.drop 1).all isDigit = true then
        if -(2 : Int) ^ 63 ≤ -((t.drop 1).foldl (fun a c => a * 10 + (c - 48)) 0 : Nat) ∧
            -(((t.drop 1).foldl (fun a c => a * 10 + (c - 48)) 0 : Nat) : Int) < (2 : Int) ^ 63
        then some (-(((t.drop 1).foldl (fun a c => a * 10 + (c - 48)) 0 : Nat) : Int))
        else none
      else none := by
  unfold parseInt64
  simp only [h, decide_True, if_true]

theorem parseInt64_pos (t : Bytes) (h : t.head? ≠ some 45) :
    parseInt64 t =
      if t ≠ [] ∧ t.all isDigit = true then
        if -(2 : Int) ^ 63 ≤ ((t.foldl (fun a c => a * 10 + (c - 48)) 0 : Nat) : Int) ∧
            ((t.foldl (fun a c => a * 10 + (c - 48)) 0 : Nat) : Int) < (2 : Int) ^ 63
        then some ((t.foldl (fun a c => a * 10 + (c - 48)) 0 : Nat) : Int)
        else none
      else none := by
  unfold parseInt64
  simp only [h, decide_False, Bool.false_eq_true, if_false]

/-- The only valid JSON text that `parseInt64` reads as 1 is `1`. -/
theorem parseInt64_one (x : Bytes) (hv : checkValid x = true)
    (h : parseInt64 (trimValue x) = some 1) : trimValue x = ascii "1" := by
  by_cases hneg : (trimValue x).head? = some 45
  · rw [parseInt64_neg _ hneg] at h
    split at h
    · split at h
      · simp only [Option.some.injEq] at h
        omega
      · cases h
    · cases h
  · rw [parseInt64_pos _ hneg] at h
    split at h
    · rename_i hdig
      split at h
      · simp only [Option.some.injEq] at h
        have hnat : (trimValue x).foldl (fun a c => a * 10 + (c - 48)) 0 = 1 := by
          exact_mod_cast h
        cases ht : trimValue x with
        | nil => rw [ht] at hdig; exact absurd rfl hdig.1
        | cons d r =>
          rw [ht] at hnat hdig
          have hall := hdig.2
          simp only [List.all_cons, Bool.and_eq_true] at hall
          have hd : 48 ≤ d ∧ d ≤ 57 := by simpa [isDigit] using hall.1
          simp only [List.foldl_cons, Nat.zero_mul, Nat.zero_add] at hnat
          cases r with
          | nil =>
            simp only [List.foldl_nil] at hnat
            have : d = 49 := by omega
            subst this
            rfl
          | cons e r =>
            simp only [List.all_cons, Bool.and_eq_true] at hall
            by_cases hz : d = 48
            · subst hz
              have := checkValid_leading_zero x e r ht hall.2.1
              rw [hv] at this
              cases this
            · have hge := foldl_digits_ge r ((d - 48) * 10 + (e - 48))
              simp only [List.foldl_cons] at hnat
              omega
      · cases h
    · cases h

/-- `GetInt` gives 1 exactly for the JSON text `1`. -/
theorem GetInt_eq_one_iff (x : Bytes) :
    GetInt x = 1 ↔ checkValid x = true ∧ trimValue x = ascii "1" := by
  constructor
  · intro h
    unfold GetInt UnmarshalInt at h
    by_cases hv : checkValid x = true
    · refine ⟨hv, ?_⟩
      simp only [hv, if_true] at h
      cases hf : firstByte x with
      | none => simp [hf] at h
      | some c =>
        simp only [hf] at h
        by_cases hc : c = 45 ∨ isDigit c = true
        · simp only [hc, if_true] at h
          cases hp : parseInt64 (trimValue x) with
          | none => simp [hp] at h
          | some n =>
            simp only [hp] at h
            subst h
            exact parseInt64_one x hv hp
        · simp only [hc, if_false] at h
          by_cases hn : c = 110 <;> simp [hn] at h
    · simp [hv] at h
  · rintro ⟨hv, ht⟩
    obtain ⟨sp1, sp2, _, hdrop, _, _⟩ := trimValue_split x
    have hf : firstByte x = some 49 := by
      unfold firstByte
      rw [hdrop, ht]
      rfl
    unfold GetInt UnmarshalInt
    simp only [hv, if_true, hf, ht]
    rfl

theorem ParseRawArray_ok (d : Bytes) (a : List Bytes) (h : UnmarshalRawSlice d = .ok a) :
    ParseRawArray d = (a, none) := by
  unfold ParseRawArray
  rw [h]

theorem ParseRawArray_error (d : Bytes) (e : UnmarshalError)
    (h : UnmarshalRawSlice d = .error e) : ParseRawArray d = ([], some e) := by
  unfold ParseRawArray
  rw [h]

/-- The classification of `extractAnswerFromChunk`: answer exactly when the
fifth element is an array that is not empty and whose last element is the
JSON text `1`. -/
theorem isAnswerType_iff (E : List Bytes) :
    isAnswerType E = true ↔
      ∃ fifth typeInfo last, E.get? 4 = some fifth ∧
        UnmarshalRawSlice fifth = .ok typeInfo ∧ typeInfo.getLast? = some last ∧
        checkValid last = true ∧ trimValue last = ascii "1" := by
  unfold isAnswerType
  constructor
  · intro h
    split at h
    · rename_i hlen
      simp only at h
      split at h
      · rename_i hti
        have hget : E.get? 4 = some (E.getD 4 []) := by
          rw [List.getD_eq_getElem?_getD, List.get?_eq_getElem?,
            List.getElem?_eq_getElem hlen]
          rfl
        cases hu : UnmarshalRawSlice (E.getD 4 []) with
        | error e =>
          rw [ParseRawArray_error _ e hu] at hti
          exact absurd hti (Nat.lt_irrefl 0)
        | ok typeInfo =>
          have hp : (ParseRawArray (E.getD 4 [])).1 = typeInfo := by
            rw [ParseRawArray_ok _ _ hu]
          rw [hp] at h hti
          have hne : typeInfo ≠ [] := by
            intro hnil; rw [hnil] at hti; simp at hti
          have hlast : typeInfo.getLast? = some (typeInfo.getD (typeInfo.length - 1) []) := by
            rw [List.getLast?_eq_getElem?, List.getD_eq_getElem?_getD,
              List.getElem?_eq_getElem (by omega)]
            rfl
          have h1 : GetInt (typeInfo.getD (typeInfo.length - 1) []) = 1 := by simpa using h
          have h2 := (GetInt_eq_one_iff _).mp h1
          exact ⟨_, typeInfo, _, hget, hu, hlast, h2.1, h2.2⟩
      · cases h
    · cases h
  · rintro ⟨fifth, typeInfo, last, hget, hu, hlast, hv, ht⟩
    have hlen : E.length > 4 := by
      rw [List.get?_eq_getElem?] at hget
      exact (List.getElem?_eq_some_iff.mp hget).1
    have hd : E.getD 4 [] = fifth := by
      rw [List.getD_eq_getElem?_getD, ← List.get?_eq_getElem?, hget]
      rfl
    have hp : (ParseRawArray fifth).1 = typeInfo := by rw [ParseRawArray_ok _ _ hu]
    have hne : typeInfo.length > 0 := by
      cases typeInfo with
      | nil => simp at hlast
      | cons _ _ => simp
    have hl : typeInfo.getD (typeInfo.length - 1) [] = last := by
      rw [List.getLast?_eq_getElem?] at hlast
      rw [List.getD_eq_getElem?_getD, hlast]
      rfl
    have h1 : GetInt last = 1 := (GetInt_eq_one_iff last).mpr ⟨hv, ht⟩
    rw [if_pos hlen]
    simp only [hd, hp]
    rw [if_pos hne, hl, h1]
    rfl

/-- C22. Chunk classification: for an entry of a chunk whose marker is
`wrb.fr` and whose payload decodes to an array with an array `E` as first
element, `extractAnswerFromChunk` takes the string `E[0]` as the text (when it
has more than 20 bytes, see C21; otherwise the entry gives nothing), and it
reports the text as an answer if and only if `E` has a fifth element that is
an array, not empty, whose last element is the JSON text `1`; when the fifth
element is missing, null, not an array, empty or ends in something else, the
text is reported as thinking. -/
theorem C22_chunk_classification (chunk item m x p : Bytes) (more rest : List Bytes)
    (payloadStr first : Bytes) (others E : List Bytes)
    (hchunk : UnmarshalRawSlice chunk = .ok (item :: rest))
    (hitem : UnmarshalRawSlice item = .ok (m :: x :: p :: more))
    (hm : UnmarshalString m [] = .ok wrbFr)
    (hp : UnmarshalString p [] = .ok payloadStr)
    (hpayload : UnmarshalRawSlice payloadStr = .ok (first :: others))
    (hfirst : UnmarshalRawSlice first = .ok E)
    (hlen : 20 < (GetString (E.getD 0 [])).length) :
    extractAnswerFromChunk chunk = (GetString (E.getD 0 []), isAnswerType E) ∧
    (isAnswerType E = true ↔
      ∃ fifth typeInfo last, E.get? 4 = some fifth ∧
        UnmarshalRawSlice fifth = .ok typeInfo ∧ typeInfo.getLast? = some last ∧
        checkValid last = true ∧ trimValue last = ascii "1") ∧
    (E.length ≤ 4 → isAnswerType E = false) ∧
    (∀ fifth, E.get? 4 = some fifth →
      (UnmarshalsToNil fifth = true → isAnswerType E = false) ∧
      (∀ e, UnmarshalRawSlice fifth = .error e → isAnswerType E = false) ∧
      (UnmarshalRawSlice fifth = .ok [] → isAnswerType E = false) ∧
      (∀ typeInfo last, UnmarshalRawSlice fifth = .ok typeInfo →
        typeInfo.getLast? = some last → trimValue last ≠ ascii "1" →
        isAnswerType E = false)) := by
  have hiff := isAnswerType_iff E
  have hfalse : ∀ P : Prop, (isAnswerType E = true → P) → ¬ P → isAnswerType E = false := by
    intro P h1 h2
    cases h : isAnswerType E with
    | false => rfl
    | true => exact absurd (h1 h) h2
  refine ⟨?_, hiff, ?_, ?_⟩
  · have hE0 : 0 < E.length := by
      cases E with
      | nil => simp [GetString, UnmarshalString, checkValid, Scanner.run, Scanner.eof,
          Scanner.reset, Scanner.next, stateBeginValue, isSpace] at hlen
      | cons _ _ => simp
    have hci := chunkItem_decoded item m x p more payloadStr first others E hitem hm hp
      hpayload hfirst
    rw [if_pos ⟨hE0, hlen⟩] at hci
    simp [extractAnswerFromChunk, hchunk, List.findSome?_cons, hci]
  · intro hle
    apply hfalse _ hiff.mp
    rintro ⟨fifth, _, _, hget, _⟩
    rw [List.get?_eq_getElem?] at hget
    have := (List.getElem?_eq_some_iff.mp hget).1
    omega
  · intro fifth hget
    refine ⟨?_, ?_, ?_, ?_⟩
    · intro hnil
      apply hfalse _ hiff.mp
      rintro ⟨fifth', typeInfo, last, hget', hu, hlast, _⟩
      have : fifth' = fifth := by rw [hget] at hget'; exact (Option.some.inj hget').symm
      subst this
      have hb : checkValid fifth' = true ∧ firstByte fifth' = some 110 := by
        simpa [UnmarshalsToNil] using hnil
      have : UnmarshalRawSlice fifth' = .ok [] := by
        simp [UnmarshalRawSlice, hb.1, hb.2]
      rw [this] at hu
      cases hu
      simp at hlast
    · intro e he
      apply hfalse _ hiff.mp
      rintro ⟨fifth', typeInfo, last, hget', hu, _⟩
      have : fifth' = fifth := by rw [hget] at hget'; exact (Option.some.inj hget').symm
      subst this
      rw [he] at hu
      cases hu
    · intro he
      apply hfalse _ hiff.mp
      rintro ⟨fifth', typeInfo, last, hget', hu, hlast, _⟩
      have : fifth' = fifth := by rw [hget] at hget'; exact (Option.some.inj hget').symm
      subst this
      rw [he] at hu
      cases hu
      simp at hlast
    · intro typeInfo last hu hlast hne
      apply hfalse _ hiff.mp
      rintro ⟨fifth', typeInfo', last', hget', hu', hlast', _, ht⟩
      have : fifth' = fifth := by rw [hget] at hget'; exact (Option.some.inj hget').symm
      subst this
      rw [hu] at hu'
      cases hu'
      rw [hlast] at hlast'
      cases hlast'
      exact hne ht

set_option maxRecDepth 100000 in
/-- The witness of C22: a chunk whose first entry has the type array `[2,1]`
is an answer. -/
theorem C22_chunk_classification_witness :
    extractAnswerFromChunk
      (ascii "[[\"wrb.fr\",null,\"[[\\\"The answer is forty-two..\\\",null,null,null,[2,1]]]\"]]")
      = (ascii "The answer is forty-two..", true) :=
  (C22_chunk_classification
    (ascii "[[\"wrb.fr\",null,\"[[\\\"The answer is forty-two..\\\",null,null,null,[2,1]]]\"]]")
    (ascii "[\"wrb.fr\",null,\"[[\\\"The answer is forty-two..\\\",null,null,null,[2,1]]]\"]")
    (ascii "\"wrb.fr\"") (ascii "null")
    (ascii "\"[[\\\"The answer is forty-two..\\\",null,null,null,[2,1]]]\"") [] []
    (ascii "[[\"The answer is forty-two..\",null,null,null,[2,1]]]")
    (ascii "[\"The answer is forty-two..\",null,null,null,[2,1]]") []
    [ascii "\"The answer is forty-two..\"", ascii "null", ascii "null", ascii "null",
      ascii "[2,1]"]
    rfl rfl rfl rfl rfl rfl (by decide)).1

/-! ## The accessors `GetString` and `GetInt` -/

set_option maxRecDepth 100000 in
/-- C24. `GetString` is total and tolerant: it returns `s` for the JSON string
literal `json.Marshal` writes for a well-formed `s`, and for every JSON string
literal that stands for `s`; it returns the empty string for every input that
does not start with a double quote after optional white space (null, a number,
a boolean, an array, an object, the empty input) and for every input that is
not valid JSON. -/
theorem C24_GetString (s data : Bytes) :
    (Utf8.Valid s = true → GetString (appendString s) = s) ∧
    (stringOf data = some s → GetString data = s) ∧
    (firstByte data ≠ some 34 → GetString data = []) ∧
    (checkValid data = false → GetString data = []) ∧
    GetString (ascii "null") = [] ∧ GetString (ascii "12.5") = [] ∧
    GetString (ascii "true") = [] ∧ GetString (ascii "[\"a\"]") = [] ∧
    GetString (ascii "\x7b\"a\":\"b\"\x7d") = [] ∧ GetString [] = [] ∧
    GetString (ascii "\"a") = [] := by
  refine ⟨?_, ?_, ?_, ?_, rfl, rfl, rfl, rfl, rfl, rfl, rfl⟩
  · intro hs
    unfold GetString
    rw [UnmarshalString_of_stringOf _ s [] (stringOf_appendString s hs)]
  · intro h
    unfold GetString
    rw [UnmarshalString_of_stringOf _ s [] h]
  · intro h
    unfold GetString UnmarshalString
    by_cases hv : checkValid data = true
    · simp only [hv, if_true, h, if_false]
      by_cases hn : firstByte data = some 110 <;> simp [hn]
    · simp [hv]
  · intro h
    unfold GetString UnmarshalString
    simp [h]

/-- The witness of C24: the string `a"b<c`, which `json.Marshal` writes with
escapes. -/
theorem C24_GetString_witness :
    GetString (appendString (ascii "a\"b<c")) = ascii "a\"b<c" :=
  (C24_GetString (ascii "a\"b<c") []).1 (by decide)

/-- The digits `strconv.AppendInt` writes: not empty, decimal digits only,
without a leading zero unless the number is zero, and `strconv.ParseInt`
reads the number back from them. -/
theorem decimalDigits_spec : ∀ (fuel n : Nat) (acc : Bytes), n < fuel →
    ∃ ds, decimalDigits fuel n acc = ds ++ acc ∧ ds ≠ [] ∧
      (∀ d ∈ ds, isDigit d = true) ∧
      ds.foldl (fun a c => a * 10 + (c - 48)) 0 = n ∧
      (ds.head? = some 48 → ds = [48]) := by
  intro fuel
  induction fuel with
  | zero => intro n acc h; omega
  | succ fuel ih =>
    intro n acc h
    unfold decimalDigits
    by_cases hn : n < 10
    · simp only [hn, if_true]
      refine ⟨[48 + n], rfl, by simp, ?_, ?_, ?_⟩
      · intro d hd
        simp only [List.mem_singleton] at hd
        subst hd
        simp only [isDigit, decide_eq_true_eq]
        omega
      · simp
      · intro h0
        simp only [List.head?_cons, Option.some.injEq] at h0
        have : n = 0 := by omega
        subst this
        rfl
    · simp only [hn, if_false]
      obtain ⟨ds, hds, hne, hdig, hval, hhead⟩ := ih (n / 10) ((48 + n % 10) :: acc) (by omega)
      refine ⟨ds ++ [48 + n % 10], ?_, by simp, ?_, ?_, ?_⟩
      · rw [hds]; simp
      · intro d hd
        rcases List.mem_append.mp hd with hd | hd
        · exact hdig d hd
        · simp only [List.mem_singleton] at hd
          subst hd
          simp only [isDigit, decide_eq_true_eq]
          omega
      · rw [List.foldl_append, hval]
        simp only [List.foldl_cons, List.foldl_nil]
        omega
      · intro h0
        cases ds with
        | nil => exact absurd rfl hne
        | cons d r =>
          simp only [List.cons_append, List.head?_cons, Option.some.injEq] at h0
          subst h0
          have := hhead rfl
          rw [this] at hval
          simp at hval
          omega

/-- Digits after the first digit of a number leave the scanner in the state
`state1`, and are part of the element being read. -/
theorem Split_feed_digits (ps : List ParseKind) (et : Bool) (elems : List Bytes) :
    ∀ (ds cur : Bytes), (∀ d ∈ ds, isDigit d = true) →
    ds.foldl Split.next ⟨⟨.one, ps, et⟩, cur, elems⟩ =
      ⟨⟨.one, ps, et⟩, if ps = [] then cur else ds.reverse ++ cur, elems⟩ := by
  intro ds
  induction ds with
  | nil => intro cur _; simp
  | cons d r ih =>
    intro cur h
    have hd : isDigit d = true := h d (by simp)
    have hstep : Split.next ⟨⟨.one, ps, et⟩, cur, elems⟩ d =
        ⟨⟨.one, ps, et⟩, if ps = [] then cur else d :: cur, elems⟩ := by
      cases ps with
      | nil => simp [Split.next, Scanner.next, hd, Scanner.goto]
      | cons k ps =>
        cases ps with
        | nil => simp [Split.next, Scanner.next, hd, Scanner.goto]
        | cons k2 ps => simp [Split.next, Scanner.next, hd, Scanner.goto]
    rw [List.foldl_cons, hstep, ih _ (fun x hx => h x (by simp [hx]))]
    by_cases hps : ps = [] <;> simp [hps]

/-- The state of the scanner after the last digit of the integer `n`. -/
theorem Split_feed_nat (k : Nat) (st0 : Step) (ps : List ParseKind) (et : Bool)
    (cur : Bytes) (elems : List Bytes)
    (hst : st0 = .beginValue ∨ st0 = .beginValueOrEmpty ∨ (st0 = .neg ∧ k ≠ 0)) :
    (decimalDigits (k + 1) k []).foldl Split.next ⟨⟨st0, ps, et⟩, cur, elems⟩ =
      ⟨⟨if k = 0 then .zero else .one, ps, et⟩,
        if ps = [] then cur else (decimalDigits (k + 1) k []).reverse ++ cur, elems⟩ := by
  obtain ⟨ds, hds, hne, hdig, hval, hhead⟩ := decimalDigits_spec (k + 1) k [] (by omega)
  rw [List.append_nil] at hds
  rw [hds]
  cases ds with
  | nil => exact absurd rfl hne
  | cons d r =>
    have hd : 48 ≤ d ∧ d ≤ 57 := by
      simpa [isDigit] using hdig d (by simp)
    have hr : ∀ x ∈ r, isDigit x = true := fun x hx => hdig x (by simp [hx])
    have hns : ¬ (d = 32 ∨ d = 9 ∨ d = 13 ∨ d = 10) := by omega
    by_cases hz : d = 48
    · subst hz
      have hr0 : r = [] := by simpa using hhead rfl
      subst hr0
      have hk : k = 0 := by simpa using hval.symm
      subst hk
      rcases hst with h | h | h
      · subst h
        cases ps with
        | nil => simp [Split.next, Scanner.next, stateBeginValue, isSpace, Scanner.goto]
        | cons a ps =>
          cases ps <;> simp [Split.next, Scanner.next, stateBeginValue, isSpace, Scanner.goto]
      · subst h
        cases ps with
        | nil =>
          simp [Split.next, Scanner.next, stateBeginValueOrEmpty, stateBeginValue, isSpace,
            Scanner.goto]
        | cons a ps =>
          cases ps <;>
            simp [Split.next, Scanner.next, stateBeginValueOrEmpty, stateBeginValue, isSpace,
              Scanner.goto]
      · exact absurd rfl h.2
    · have hk : k ≠ 0 := by
        intro hk
        subst hk
        have hge := foldl_digits_ge r (0 * 10 + (d - 48))
        simp only [List.foldl_cons] at hval
        omega
      have hfirst : Split.next ⟨⟨st0, ps, et⟩, cur, elems⟩ d =
          ⟨⟨.one, ps, et⟩, if ps = [] then cur else d :: cur, elems⟩ := by
        have h1 : d ≠ 123 := by omega
        have h2 : d ≠ 91 := by omega
        have h3 : d ≠ 34 := by omega
        have h4 : d ≠ 45 := by omega
        have h5 : d ≠ 116 := by omega
        have h6 : d ≠ 102 := by omega
        have h7 : d ≠ 110 := by omega
        have h8 : d ≠ 93 := by omega
        have h9 : 49 ≤ d ∧ d ≤ 57 := by omega
        rcases hst with h | h | h
        · subst h
          cases ps with
          | nil =>
            simp [Split.next, Scanner.next, stateBeginValue, isSpace, Scanner.goto, hns, h1, h2,
              h3, h4, h5, h6, h7, hz, h9]
          | cons a ps =>
            cases ps <;>
              simp [Split.next, Scanner.next, stateBeginValue, isSpace, Scanner.goto, hns, h1,
                h2, h3, h4, h5, h6, h7, hz, h9]
        · subst h
          cases ps with
          | nil =>
            simp [Split.next, Scanner.next, stateBeginValueOrEmpty, stateBeginValue, isSpace,
              Scanner.goto, hns, h1, h2, h3, h4, h5, h6, h7, h8, hz, h9]
          | cons a ps =>
            cases ps <;>
              simp [Split.next, Scanner.next, stateBeginValueOrEmpty, stateBeginValue, isSpace,
                Scanner.goto, hns, h1, h2, h3, h4, h5, h6, h7, h8, hz, h9]
        · rw [h.1]
          cases ps with
          | nil => simp [Split.next, Scanner.next, Scanner.goto, hz, h9]
          | cons a ps =>
            cases ps <;> simp [Split.next, Scanner.next, Scanner.goto, hz, h9]
      rw [List.foldl_cons, hfirst, Split_feed_digits ps et elems r _ hr]
      by_cases hps : ps = [] <;> simp [hps, hk]

/-- The text of an integer, fed to the walk at the start of a value. -/
theorem Split_feed_appendInt (n : Int) (st0 : Step) (ps : List ParseKind) (et : Bool)
    (cur : Bytes) (elems : List Bytes)
    (hst : st0 = .beginValue ∨ st0 = .beginValueOrEmpty) :
    (appendInt n).foldl Split.next ⟨⟨st0, ps, et⟩, cur, elems⟩ =
      ⟨⟨if n = 0 then .zero else .one, ps, et⟩,
        if ps = [] then cur else (appendInt n).reverse ++ cur, elems⟩ := by
  cases n with
  | ofNat k =>
    have hk : (Int.ofNat k = 0) ↔ k = 0 := by
      constructor
      · intro h; exact Int.ofNat.inj h
      · intro h; rw [h]; rfl
    have h := Split_feed_nat k st0 ps et cur elems
      (by rcases hst with h | h; exact Or.inl h; exact Or.inr (Or.inl h))
    simp only [appendInt]
    rw [h]
    by_cases hk0 : k = 0
    · simp [hk0]
    · have : ¬ Int.ofNat k = 0 := fun h => hk0 (hk.mp h)
      simp [hk0, this]
  | negSucc k =>
    have hminus : Split.next ⟨⟨st0, ps, et⟩, cur, elems⟩ 45 =
        ⟨⟨.neg, ps, et⟩, if ps = [] then cur else 45 :: cur, elems⟩ := by
      rcases hst with h | h
      · subst h
        cases ps with
        | nil => simp [Split.next, Scanner.next, stateBeginValue, isSpace, Scanner.goto]
        | cons a ps =>
          cases ps <;> simp [Split.next, Scanner.next, stateBeginValue, isSpace, Scanner.goto]
      · subst h
        cases ps with
        | nil =>
          simp [Split.next, Scanner.next, stateBeginValueOrEmpty, stateBeginValue, isSpace,
            Scanner.goto]
        | cons a ps =>
          cases ps <;>
            simp [Split.next, Scanner.next, stateBeginValueOrEmpty, stateBeginValue, isSpace,
              Scanner.goto]
    have h := Split_feed_nat (k + 1) .neg ps et (if ps = [] then cur else 45 :: cur) elems
      (Or.inr (Or.inr ⟨rfl, by omega⟩))
    simp only [appendInt, List.foldl_cons]
    rw [hminus, h]
    have hne : ¬ Int.negSucc k = 0 := by intro h; cases h
    by_cases hps : ps = [] <;> simp [hps, hne]

/-- The text of an integer is valid JSON. -/
theorem checkValid_appendInt (n : Int) : checkValid (appendInt n) = true := by
  unfold checkValid
  have h := Split_feed_scan (appendInt n) ⟨Scanner.reset, [], []⟩
  rw [Scanner.reset, Split_feed_appendInt n .beginValue [] false [] [] (Or.inl rfl)] at h
  simp only at h
  rw [Scanner.reset, ← h]
  by_cases hn : n = 0 <;> simp [hn] <;> rfl

/-- The text of an integer starts and ends with a byte that is not white
space. -/
theorem appendInt_ends (n : Int) : ∃ a mid b, (appendInt n = [a] ∨ appendInt n = a :: mid ++ [b]) ∧
    isSpace a = false ∧ isSpace b = false ∧ (a = 45 ∨ isDigit a = true) := by
  have hdig : ∀ d, isDigit d = true → isSpace d = false := by
    intro d hd
    have : 48 ≤ d ∧ d ≤ 57 := by simpa [isDigit] using hd
    cases hs : isSpace d with
    | false => rfl
    | true =>
      have hs' : d = 32 ∨ d = 9 ∨ d = 13 ∨ d = 10 := by simpa [isSpace] using hs
      omega
  have hlist : ∀ ds : Bytes, ds ≠ [] → (∀ d ∈ ds, isDigit d = true) →
      ∃ a mid b, (ds = [a] ∨ ds = a :: mid ++ [b]) ∧ isDigit a = true ∧ isDigit b = true := by
    intro ds hne hall
    cases ds with
    | nil => exact absurd rfl hne
    | cons a r =>
      cases hr : r.getLast? with
      | none =>
        have : r = [] := List.getLast?_eq_none_iff.mp hr
        subst this
        exact ⟨a, [], a, Or.inl rfl, hall a (by simp), hall a (by simp)⟩
      | some b =>
        obtain ⟨mid, hmid⟩ := List.getLast?_eq_some_iff.mp hr
        subst hmid
        exact ⟨a, mid, b, Or.inr rfl, hall a (by simp), hall b (by simp)⟩
  cases n with
  | ofNat k =>
    obtain ⟨ds, hds, hne, hall, _, _⟩ := decimalDigits_spec (k + 1) k [] (by omega)
    rw [List.append_nil] at hds
    obtain ⟨a, mid, b, hshape, ha, hb⟩ := hlist ds hne hall
    refine ⟨a, mid, b, ?_, hdig a ha, hdig b hb, Or.inr ha⟩
    simp only [appendInt]
    rw [hds]
    exact hshape
  | negSucc k =>
    obtain ⟨ds, hds, hne, hall, _, _⟩ := decimalDigits_spec (k + 2) (k + 1) [] (by omega)
    rw [List.append_nil] at hds
    obtain ⟨a, mid, b, hshape, ha, hb⟩ := hlist ds hne hall
    simp only [appendInt]
    rw [hds]
    rcases hshape with h | h
    · exact ⟨45, [], a, Or.inr (by rw [h]; rfl), by decide, hdig a ha, Or.inl rfl⟩
    · exact ⟨45, a :: mid, b, Or.inr (by rw [h]; rfl), by decide, hdig b hb, Or.inl rfl⟩

/-- A text without white space at its ends is its own value. -/
theorem trimValue_id (x : Bytes) (a b : Nat) (mid : Bytes)
    (hx : x = [a] ∨ x = a :: mid ++ [b]) (ha : isSpace a = false) (hb : isSpace b = false) :
    trimValue x = x ∧ firstByte x = some a := by
  unfold trimValue firstByte
  rcases hx with h | h
  · subst h
    simp [List.dropWhile_cons, ha]
  · subst h
    have h1 : List.dropWhile isSpace (a :: mid ++ [b]) = a :: mid ++ [b] := by
      simp [List.dropWhile_cons, ha]
    rw [h1]
    refine ⟨?_, rfl⟩
    have h2 : (a :: mid ++ [b]).reverse = b :: (a :: mid).reverse := by simp
    rw [h2]
    simp [List.dropWhile_cons, hb]

/-- `strconv.ParseInt` reads back an integer of the `int64` range. -/
theorem parseInt64_appendInt (n : Int) (h1 : -(2 : Int) ^ 63 ≤ n) (h2 : n < (2 : Int) ^ 63) :
    parseInt64 (appendInt n) = some n := by
  cases n with
  | ofNat k =>
    obtain ⟨ds, hds, hne, hall, hval, _⟩ := decimalDigits_spec (k + 1) k [] (by omega)
    rw [List.append_nil] at hds
    have hhead : (appendInt (Int.ofNat k)).head? ≠ some 45 := by
      simp only [appendInt]
      rw [hds]
      cases ds with
      | nil => exact absurd rfl hne
      | cons d r =>
        have : 48 ≤ d ∧ d ≤ 57 := by simpa [isDigit] using hall d (by simp)
        simp only [List.head?_cons, ne_eq, Option.some.injEq]
        omega
    rw [parseInt64_pos _ hhead]
    simp only [appendInt]
    rw [hds, hval]
    have hall' : ds.all isDigit = true := List.all_eq_true.mpr hall
    rw [if_pos ⟨hne, hall'⟩, if_pos ⟨h1, h2⟩]
    rfl
  | negSucc k =>
    obtain ⟨ds, hds, hne, hall, hval, _⟩ := decimalDigits_spec (k + 2) (k + 1) [] (by omega)
    rw [List.append_nil] at hds
    have hhead : (appendInt (Int.negSucc k)).head? = some 45 := rfl
    rw [parseInt64_neg _ hhead]
    simp only [appendInt, List.drop_one, List.tail_cons]
    rw [hds, hval]
    have hall' : ds.all isDigit = true := List.all_eq_true.mpr hall
    have e : -((k + 1 : Nat) : Int) = Int.negSucc k := by
      rw [Int.negSucc_eq]; push_cast; ring
    rw [if_pos ⟨hne, hall'⟩, e, if_pos ⟨h1, h2⟩]

/-- `GetInt` reads back an integer of the `int64` range from its decimal
text. -/
theorem GetInt_appendInt (n : Int) (h1 : -(2 : Int) ^ 63 ≤ n) (h2 : n < (2 : Int) ^ 63) :
    GetInt (appendInt n) = n := by
  obtain ⟨a, mid, b, hshape, ha, hb, hfirst⟩ := appendInt_ends n
  obtain ⟨ht, hf⟩ := trimValue_id (appendInt n) a b mid hshape ha hb
  unfold GetInt UnmarshalInt
  simp only [checkValid_appendInt, if_true, hf, ht, parseInt64_appendInt n h1 h2]
  have : (a = 45 ∨ isDigit a = true) := hfirst
  simp [this]

/-- When `GetInt` gives a value other than zero, the input is valid JSON, it
starts with a minus sign or a digit, and `strconv.ParseInt` reads the value
from its text. -/
theorem GetInt_ne_zero (data : Bytes) (h : GetInt data ≠ 0) :
    checkValid data = true ∧
    (∃ c, firstByte data = some c ∧ (c = 45 ∨ isDigit c = true)) ∧
    parseInt64 (trimValue data) = some (GetInt data) := by
  unfold GetInt UnmarshalInt at h ⊢
  by_cases hv : checkValid data = true
  · simp only [hv, if_true] at h ⊢
    cases hf : firstByte data with
    | none => simp [hf] at h
    | some c =>
      simp only [hf] at h ⊢
      by_cases hc : c = 45 ∨ isDigit c = true
      · simp only [hc, if_true] at h ⊢
        cases hp : parseInt64 (trimValue data) with
        | none => simp [hp] at h
        | some n => exact ⟨trivial, ⟨c, rfl, hc⟩, rfl⟩
      · simp only [hc, if_false] at h
        by_cases hn : c = 110 <;> simp [hn] at h
  · simp [hv] at h

/-- A text with a fraction or an exponent is not read by `strconv.ParseInt`. -/
theorem parseInt64_fraction (t : Bytes) (c : Nat) (hc : c ∈ t)
    (hc' : c = 46 ∨ c = 101 ∨ c = 69) : parseInt64 t = none := by
  have hnd : isDigit c = false := by
    cases h : isDigit c with
    | false => rfl
    | true =>
      have : 48 ≤ c ∧ c ≤ 57 := by simpa [isDigit] using h
      omega
  by_cases hneg : t.head? = some 45
  · rw [parseInt64_neg _ hneg]
    cases t with
    | nil => simp at hc
    | cons a r =>
      have ha : a = 45 := by simpa using hneg
      have hcr : c ∈ r := by
        rcases List.mem_cons.mp hc with h | h
        · omega
        · exact h
      have : ¬ ((List.drop 1 (a :: r)).all isDigit = true) := by
        intro hall
        have := List.all_eq_true.mp hall c (by simpa using hcr)
        rw [hnd] at this
        cases this
      rw [if_neg (fun h => this h.2)]
  · rw [parseInt64_pos _ hneg]
    have : ¬ (t.all isDigit = true) := by
      intro hall
      have := List.all_eq_true.mp hall c hc
      rw [hnd] at this
      cases this
    rw [if_neg (fun h => this h.2)]

set_option maxRecDepth 100000 in
/-- The counterexample to C25: `1e2` and `100.0` are valid JSON numbers whose
value is the integer 100, and `GetInt` returns 0 for them (it returns 100 for
`100`). -/
theorem C25_counterexample :
    checkValid (ascii "1e2") = true ∧ GetInt (ascii "1e2") = 0 ∧
    checkValid (ascii "100.0") = true ∧ GetInt (ascii "100.0") = 0 ∧
    GetInt (ascii "100") = 100 :=
  ⟨rfl, rfl, rfl, rfl, rfl⟩

set_option maxRecDepth 100000 in
/-- C25, amended. `GetInt` is total; it returns `n` for the decimal text of
every integer `n` of the `int64` range (an optional minus sign and digits); it
returns 0 for every number written with a fraction or an exponent, whatever
its value, for every input that does not start with a minus sign or a digit
after optional white space (null, a string, a boolean, an array, an object,
the empty input) and for every input that is not valid JSON. -/
theorem C25_GetInt (n : Int) (data : Bytes) :
    (-(2 : Int) ^ 63 ≤ n → n < (2 : Int) ^ 63 → GetInt (appendInt n) = n) ∧
    ((∃ c ∈ trimValue data, c = 46 ∨ c = 101 ∨ c = 69) → GetInt data = 0) ∧
    ((∀ c, firstByte data = some c → c ≠ 45 ∧ isDigit c = false) → GetInt data = 0) ∧
    (checkValid data = false → GetInt data = 0) ∧
    GetInt (ascii "null") = 0 ∧ GetInt (ascii "\"7\"") = 0 ∧ GetInt (ascii "true") = 0 ∧
    GetInt (ascii "[7]") = 0 ∧ GetInt (ascii "\x7b\"a\":7\x7d") = 0 ∧ GetInt [] = 0 ∧
    GetInt (ascii "7,") = 0 := by
  refine ⟨GetInt_appendInt n, ?_, ?_, ?_, rfl, rfl, rfl, rfl, rfl, rfl, rfl⟩
  · rintro ⟨c, hc, hc'⟩
    by_contra hne
    have h := (GetInt_ne_zero data hne).2.2
    rw [parseInt64_fraction _ c hc hc'] at h
    cases h
  · intro hfirst
    by_contra hne
    obtain ⟨c, hc, hc'⟩ := (GetInt_ne_zero data hne).2.1
    have := hfirst c hc
    rcases hc' with h | h
    · exact this.1 h
    · rw [this.2] at h; cases h
  · intro hv
    by_contra hne
    have := (GetInt_ne_zero data hne).1
    rw [hv] at this
    cases this

/-- The witness of C25: the integer -7 is read back from its text `-7`. -/
theorem C25_GetInt_witness :
    GetInt (appendInt (-7)) = -7 ∧ appendInt (-7) = ascii "-7" :=
  ⟨(C25_GetInt (-7) []).1 (by decide) (by decide), by decide⟩

/-! ## Arrays written by `json.Marshal`, read back as raw elements -/

theorem isEnd_endStep (v : GoValue) : isEnd (endStep v) = true := by
  cases v <;> simp [endStep, isEnd]

/-- A comma after a complete element of an array below the top level. -/
theorem Split_next_comma_end (en : Step) (he : isEnd en = true) (ps : List ParseKind)
    (et : Bool) (cur : Bytes) (elems : List Bytes) (hps : ps ≠ []) :
    Split.next ⟨⟨en, .arrayValue :: ps, et⟩, cur, elems⟩ 44 =
      ⟨⟨.beginValue, .arrayValue :: ps, et⟩, 44 :: cur, elems⟩ := by
  have h5 : ps.length ≠ 0 := by
    intro h0; exact hps (List.length_eq_zero.mp h0)
  have he' : en = .endValue ∨ en = .one ∨ en = .zero := by simpa [isEnd] using he
  rcases he' with h | h | h <;> subst h <;>
    simp [Split.next, Scanner.next, state0, stateEndValue, isSpace, isDigit, Scanner.goto, h5]

/-- The closing bracket of an array below the top level, after a complete
element or right after the opening bracket. -/
theorem Split_next_close_end (en : Step) (he : isEnd en = true ∨ en = .beginValueOrEmpty)
    (ps : List ParseKind) (et : Bool) (cur : Bytes) (elems : List Bytes) (hps : ps ≠ []) :
    Split.next ⟨⟨en, .arrayValue :: ps, et⟩, cur, elems⟩ 93 =
      ⟨⟨.endValue, ps, et⟩, 93 :: cur, elems⟩ := by
  have h5 : ps.length ≠ 0 := by
    intro h0; exact hps (List.length_eq_zero.mp h0)
  have he' : en = .endValue ∨ en = .one ∨ en = .zero ∨ en = .beginValueOrEmpty := by
    rcases he with h | h
    · have : en = .endValue ∨ en = .one ∨ en = .zero := by simpa [isEnd] using h
      rcases this with h | h | h
      · exact Or.inl h
      · exact Or.inr (Or.inl h)
      · exact Or.inr (Or.inr (Or.inl h))
    · exact Or.inr (Or.inr (Or.inr h))
  cases ps with
  | nil => exact absurd rfl hps
  | cons k ps =>
    rcases he' with h | h | h | h <;> subst h <;>
      simp [Split.next, Scanner.next, state0, stateEndValue, stateBeginValueOrEmpty, isSpace,
        isDigit, Scanner.goto, Scanner.popParseState]

/-- A comma after a complete element of the top-level array closes the
element. -/
theorem Split_next_comma_top_end (en : Step) (he : isEnd en = true) (et : Bool) (cur : Bytes)
    (elems : List Bytes) (hcur : cur ≠ []) :
    Split.next ⟨⟨en, [.arrayValue], et⟩, cur, elems⟩ 44 =
      ⟨⟨.beginValue, [.arrayValue], et⟩, [], cur.reverse :: elems⟩ := by
  have he' : en = .endValue ∨ en = .one ∨ en = .zero := by simpa [isEnd] using he
  rcases he' with h | h | h <;> subst h <;>
    simp [Split.next, Scanner.next, state0, stateEndValue, isSpace, isDigit, Scanner.goto,
      Split.flush, hcur]

/-- The closing bracket of the top-level array closes the last element. -/
theorem Split_next_close_top_end (en : Step) (he : isEnd en = true) (et : Bool) (cur : Bytes)
    (elems : List Bytes) (hcur : cur ≠ []) :
    Split.next ⟨⟨en, [.arrayValue], et⟩, cur, elems⟩ 93 =
      ⟨⟨.endTop, [], true⟩, [], cur.reverse :: elems⟩ := by
  have he' : en = .endValue ∨ en = .one ∨ en = .zero := by simpa [isEnd] using he
  rcases he' with h | h | h <;> subst h <;>
    simp [Split.next, Scanner.next, state0, stateEndValue, isSpace, isDigit,
      Scanner.popParseState, Split.flush, hcur]

/-- The closing bracket of an empty top-level array. -/
theorem Split_next_close_top_empty (et : Bool) (elems : List Bytes) :
    Split.next ⟨⟨.beginValueOrEmpty, [.arrayValue], et⟩, [], elems⟩ 93 =
      ⟨⟨.endTop, [], true⟩, [], elems⟩ := by
  simp [Split.next, Scanner.next, stateBeginValueOrEmpty, stateEndValue, isSpace,
    Scanner.popParseState, Split.flush]

/-- The literals `null`, `true` and `false`, at the start of a value below
the top level or in the top-level array. -/
theorem Split_feed_literal (lit : Bytes)
    (hlit : lit = ascii "null" ∨ lit = ascii "true" ∨ lit = ascii "false")
    (st0 : Step) (hst : st0 = .beginValue ∨ st0 = .beginValueOrEmpty)
    (ps : List ParseKind) (et : Bool) (cur : Bytes) (elems : List Bytes) (hps : ps ≠ []) :
    lit.foldl Split.next ⟨⟨st0, ps, et⟩, cur, elems⟩ =
      ⟨⟨.endValue, ps, et⟩, lit.reverse ++ cur, elems⟩ := by
  have h5 : ps.length ≠ 0 := by
    intro h0; exact hps (List.length_eq_zero.mp h0)
  cases ps with
  | nil => exact absurd rfl hps
  | cons k ps =>
    cases ps with
    | nil =>
      rcases hlit with h | h | h <;> subst h <;> rcases hst with h | h <;> subst h <;>
        simp [ascii, Split.next, Scanner.next, stateBeginValue, stateBeginValueOrEmpty, isSpace,
          Scanner.goto, stateLit]
    | cons k2 ps =>
      rcases hlit with h | h | h <;> subst h <;> rcases hst with h | h <;> subst h <;>
        simp [ascii, Split.next, Scanner.next, stateBeginValue, stateBeginValueOrEmpty, isSpace,
          Scanner.goto, stateLit]

/-- The text of a value is not empty. -/
theorem Marshal_ne_nil (v : GoValue) (t : Bytes) (h : Marshal v = some t) : t ≠ [] := by
  cases v with
  | nil => simp only [Marshal, Option.some.injEq] at h; subst h; decide
  | bool b => simp only [Marshal, Option.some.injEq] at h; subst h; cases b <;> decide
  | int n =>
    simp only [Marshal, Option.some.injEq] at h
    subst h
    obtain ⟨a, mid, b, hshape, _⟩ := appendInt_ends n
    rcases hshape with h | h <;> rw [h] <;> simp
  | string s => simp only [Marshal, Option.some.injEq] at h; subst h; exact appendString_ne_nil s
  | slice xs =>
    simp only [Marshal, Option.map_eq_some'] at h
    obtain ⟨body, _, rfl⟩ := h
    simp
  | unsupported => simp [Marshal] at h

mutual
/-- The text of a value, fed to the walk at the start of a value inside an
array: the scanner ends after the value, and the whole text is part of the
element being read. -/
theorem Split_feed_value : ∀ (v : GoValue) (t : Bytes), Marshal v = some t →
    ∀ (st0 : Step) (ps : List ParseKind) (et : Bool) (cur : Bytes) (elems : List Bytes),
    (st0 = .beginValue ∨ st0 = .beginValueOrEmpty) → ps ≠ [] →
    ps.length + v.depth ≤ maxNestingDepth →
    t.foldl Split.next ⟨⟨st0, ps, et⟩, cur, elems⟩ =
      ⟨⟨endStep v, ps, et⟩, t.reverse ++ cur, elems⟩
  | .nil, t, h, st0, ps, et, cur, elems, hst, hps, _ => by
    simp only [Marshal, Option.some.injEq] at h
    subst h
    exact Split_feed_literal _ (Or.inl rfl) st0 hst ps et cur elems hps
  | .bool b, t, h, st0, ps, et, cur, elems, hst, hps, _ => by
    simp only [Marshal, Option.some.injEq] at h
    subst h
    cases b
    · exact Split_feed_literal _ (Or.inr (Or.inr rfl)) st0 hst ps et cur elems hps
    · exact Split_feed_literal _ (Or.inr (Or.inl rfl)) st0 hst ps et cur elems hps
  | .int n, t, h, st0, ps, et, cur, elems, hst, hps, _ => by
    simp only [Marshal, Option.some.injEq] at h
    subst h
    rw [Split_feed_appendInt n st0 ps et cur elems hst]
    simp only [hps, if_false, endStep]
  | .string s, t, h, st0, ps, et, cur, elems, hst, hps, _ => by
    simp only [Marshal, Option.some.injEq] at h
    subst h
    rw [Split_feed_appendString st0 ps et cur elems s hst]
    simp only [hps, if_false, endStep]
  | .slice xs, t, h, st0, ps, et, cur, elems, hst, hps, hd => by
    simp only [Marshal, Option.map_eq_some'] at h
    obtain ⟨body, hb, rfl⟩ := h
    simp only [GoValue.depth] at hd
    have hopen := Split_next_open st0 ps et cur elems hst hps (by omega)
    simp only [List.foldl_append, List.foldl_cons, List.foldl_nil]
    rw [hopen]
    cases xs with
    | nil =>
      simp only [MarshalElems, Option.some.injEq] at hb
      subst hb
      simp only [List.foldl_nil]
      rw [Split_next_close_end _ (Or.inr rfl) ps et _ elems hps]
      simp [endStep]
    | cons x rest =>
      obtain ⟨en, hen, hfeed⟩ := Split_feed_elems (x :: rest) body hb (by simp)
        .beginValueOrEmpty ps et (91 :: cur) elems (Or.inr rfl) hps (by omega)
      rw [hfeed, Split_next_close_end _ (Or.inl hen) ps et _ elems hps]
      simp [endStep]
  | .unsupported, t, h, _, _, _, _, _, _, _, _ => by
    simp [Marshal] at h
/-- The texts of the elements of a slice with the commas between them, fed
to the walk inside the array. -/
theorem Split_feed_elems : ∀ (xs : List GoValue) (body : Bytes), MarshalElems xs = some body →
    xs ≠ [] →
    ∀ (st0 : Step) (ps : List ParseKind) (et : Bool) (cur : Bytes) (elems : List Bytes),
    (st0 = .beginValue ∨ st0 = .beginValueOrEmpty) → ps ≠ [] →
    ps.length + 1 + depthList xs ≤ maxNestingDepth →
    ∃ en, isEnd en = true ∧
      body.foldl Split.next ⟨⟨st0, .arrayValue :: ps, et⟩, cur, elems⟩ =
        ⟨⟨en, .arrayValue :: ps, et⟩, body.reverse ++ cur, elems⟩
  | [], _, _, hne, _, _, _, _, _, _, _, _ => absurd rfl hne
  | [x], body, h, _, st0, ps, et, cur, elems, hst, hps, hd => by
    simp only [MarshalElems] at h
    simp only [depthList] at hd
    refine ⟨endStep x, isEnd_endStep x, ?_⟩
    exact Split_feed_value x body h st0 (.arrayValue :: ps) et cur elems hst (by simp)
      (by simp only [List.length_cons]; omega)
  | x :: y :: rest, body, h, _, st0, ps, et, cur, elems, hst, hps, hd => by
    simp only [MarshalElems] at h
    cases hx : Marshal x with
    | none => simp [hx] at h
    | some a =>
      cases hy : MarshalElems (y :: rest) with
      | none => simp [hx, hy] at h
      | some b =>
        simp only [hx, hy, Option.some.injEq] at h
        subst h
        have hd' : max x.depth (depthList (y :: rest)) = depthList (x :: y :: rest) := by
          simp only [depthList]
        rw [← hd'] at hd
        have h1 := Split_feed_value x a hx st0 (.arrayValue :: ps) et cur elems hst (by simp)
          (by simp only [List.length_cons]; omega)
        obtain ⟨en, hen, h2⟩ := Split_feed_elems (y :: rest) b hy (by simp) .beginValue ps et
          (44 :: (a.reverse ++ cur)) elems (Or.inl rfl) hps (by omega)
        refine ⟨en, hen, ?_⟩
        rw [List.foldl_append, h1, List.foldl_cons,
          Split_next_comma_end _ (isEnd_endStep x) ps et _ elems hps, h2]
        simp
end

/-- When a slice is marshalled, every element is. -/
theorem marshalAll_of_MarshalElems : ∀ (xs : List GoValue) (body : Bytes),
    MarshalElems xs = some body → ∃ ts, marshalAll xs = some ts
  | [], _, _ => ⟨[], rfl⟩
  | [x], body, h => by
    simp only [MarshalElems] at h
    exact ⟨[body], by simp [marshalAll, h]⟩
  | x :: y :: rest, body, h => by
    simp only [MarshalElems] at h
    cases hx : Marshal x with
    | none => simp [hx] at h
    | some a =>
      cases hy : MarshalElems (y :: rest) with
      | none => simp [hx, hy] at h
      | some b =>
        obtain ⟨ts, hts⟩ := marshalAll_of_MarshalElems (y :: rest) b hy
        exact ⟨a :: ts, by
          show marshalAll (x :: y :: rest) = some (a :: ts)
          rw [marshalAll, hx, hts]⟩

/-- The texts of the elements of the top-level array with the commas between
them, fed to the walk: every element but the last is closed by the comma
after it. -/
theorem Split_feed_top : ∀ (xs : List GoValue) (body : Bytes) (ts : List Bytes),
    MarshalElems xs = some body → marshalAll xs = some ts → xs ≠ [] →
    1 + depthList xs ≤ maxNestingDepth →
    ∀ (st0 : Step) (elems : List Bytes), (st0 = .beginValue ∨ st0 = .beginValueOrEmpty) →
    ∃ en last init, isEnd en = true ∧ ts = init ++ [last] ∧ last ≠ [] ∧
      body.foldl Split.next ⟨⟨st0, [.arrayValue], false⟩, [], elems⟩ =
        ⟨⟨en, [.arrayValue], false⟩, last.reverse, init.reverse ++ elems⟩
  | [], _, _, _, _, hne, _, _, _, _ => absurd rfl hne
  | [x], body, ts, h, hts, _, hd, st0, elems, hst => by
    simp only [MarshalElems] at h
    simp only [marshalAll, h, Option.some.injEq] at hts
    subst hts
    simp only [depthList] at hd
    refine ⟨endStep x, body, [], isEnd_endStep x, rfl, Marshal_ne_nil x body h, ?_⟩
    rw [Split_feed_value x body h st0 [.arrayValue] false [] elems hst (by simp)
      (by simp only [List.length_cons, List.length_nil]; omega)]
    simp
  | x :: y :: rest, body, ts, h, hts, _, hd, st0, elems, hst => by
    simp only [MarshalElems] at h
    cases hx : Marshal x with
    | none => simp [hx] at h
    | some a =>
      cases hy : MarshalElems (y :: rest) with
      | none => simp [hx, hy] at h
      | some b =>
        simp only [hx, hy, Option.some.injEq] at h
        subst h
        obtain ⟨ts', hts'⟩ := marshalAll_of_MarshalElems (y :: rest) b hy
        have hts2 : ts = a :: ts' := by
          rw [marshalAll, hx, hts'] at hts
          exact (Option.some.inj hts).symm
        subst hts2
        have hd' : max x.depth (depthList (y :: rest)) = depthList (x :: y :: rest) := by
          simp only [depthList]
        rw [← hd'] at hd
        have h1 := Split_feed_value x a hx st0 [.arrayValue] false [] elems hst (by simp)
          (by simp only [List.length_cons, List.length_nil]; omega)
        obtain ⟨en, last, init, hen, hsplit, hlast, h2⟩ :=
          Split_feed_top (y :: rest) b ts' hy hts' (by simp) (by omega) .beginValue
            (a :: elems) (Or.inl rfl)
        refine ⟨en, last, a :: init, hen, by rw [hsplit]; rfl, hlast, ?_⟩
        have ha : a.reverse ++ [] ≠ [] := by
          simp only [List.append_nil, ne_eq, List.reverse_eq_nil_iff]
          exact Marshal_ne_nil x a hx
        rw [List.foldl_append, h1, List.foldl_cons,
          Split_next_comma_top_end _ (isEnd_endStep x) false _ elems ha]
        simp only [List.append_nil, List.reverse_reverse]
        rw [h2]
        simp

/-- An array written by `json.Marshal`, at most `maxNestingDepth` deep, is
read back as the texts of its elements, in order. -/
theorem UnmarshalRawSlice_Marshal (xs : List GoValue) (t : Bytes) (ts : List Bytes)
    (h : Marshal (.slice xs) = some t) (hts : marshalAll xs = some ts)
    (hd : (GoValue.slice xs).depth ≤ maxNestingDepth) :
    UnmarshalRawSlice t = .ok ts := by
  simp only [Marshal, Option.map_eq_some'] at h
  obtain ⟨body, hb, rfl⟩ := h
  simp only [GoValue.depth] at hd
  have h0 : Split.next ⟨Scanner.reset, [], []⟩ 91 =
      ⟨⟨.beginValueOrEmpty, [.arrayValue], false⟩, [], []⟩ := by
    simp [Split.next, Scanner.next, Scanner.reset, stateBeginValue, isSpace,
      Scanner.pushParseState, maxNestingDepth]
  have hfold : (91 :: body ++ [93]).foldl Split.next ⟨Scanner.reset, [], []⟩ =
      ⟨⟨.endTop, [], true⟩, [], ts.reverse⟩ := by
    simp only [List.foldl_append, List.foldl_cons, List.foldl_nil]
    rw [h0]
    cases xs with
    | nil =>
      simp only [MarshalElems, Option.some.injEq] at hb
      simp only [marshalAll, Option.some.injEq] at hts
      subst hb
      subst hts
      simp only [List.foldl_nil]
      rw [Split_next_close_top_empty]
      rfl
    | cons x rest =>
      obtain ⟨en, last, init, hen, hsplit, hlast, hfeed⟩ :=
        Split_feed_top (x :: rest) body ts hb hts (by simp) (by omega) .beginValueOrEmpty []
          (Or.inr rfl)
      rw [hfeed, Split_next_close_top_end _ hen false _ _ (by simpa using hlast), hsplit]
      simp
  have hvalid : checkValid (91 :: body ++ [93]) = true := by
    unfold checkValid
    have h2 := Split_feed_scan (91 :: body ++ [93]) ⟨Scanner.reset, [], []⟩
    rw [hfold] at h2
    simp only at h2
    rw [← h2]
    rfl
  have hfirst : firstByte (91 :: body ++ [93]) = some 91 := by
    simp [firstByte, isSpace]
  unfold UnmarshalRawSlice rawElements
  rw [hvalid, hfirst, hfold]
  simp

/-- The counterexample to C23: `null` is a JSON value that is not an array,
and `ParseRawArray` returns no error for it (and no elements). -/
theorem C23_counterexample :
    checkValid (ascii "null") = true ∧ firstByte (ascii "null") ≠ some 91 ∧
    ParseRawArray (ascii "null") = ([], none) :=
  ⟨rfl, by decide, rfl⟩

set_option maxRecDepth 100000 in
/-- C23, amended. `ParseRawArray` returns an error and no elements for every
input that is not valid JSON and for every valid JSON value that is neither an
array nor null (a string, a number, a boolean, an object); for null it returns
no elements and no error; for an array it returns the raw elements and no
error, and for an array that `json.Marshal` wrote (at most `maxNestingDepth`
deep) these are the texts of its elements in their order. -/
theorem C23_ParseRawArray (data : Bytes) (xs : List GoValue) (t : Bytes) (ts : List Bytes) :
    (checkValid data = false → ParseRawArray data = ([], some .syntaxError)) ∧
    (checkValid data = true → firstByte data ≠ some 91 → firstByte data ≠ some 110 →
      ParseRawArray data = ([], some .typeError)) ∧
    (checkValid data = true → firstByte data = some 110 → ParseRawArray data = ([], none)) ∧
    (checkValid data = true → firstByte data = some 91 →
      ParseRawArray data = (rawElements data, none)) ∧
    (Marshal (.slice xs) = some t → marshalAll xs = some ts →
      (GoValue.slice xs).depth ≤ maxNestingDepth → ParseRawArray t = (ts, none)) ∧
    ParseRawArray (ascii "\"a\"") = ([], some .typeError) ∧
    ParseRawArray (ascii "12") = ([], some .typeError) ∧
    ParseRawArray (ascii "true") = ([], some .typeError) ∧
    ParseRawArray (ascii "\x7b\"a\":[1]\x7d") = ([], some .typeError) ∧
    ParseRawArray (ascii "[1,") = ([], some .syntaxError) ∧
    ParseRawArray (ascii " [1, \"a\" ,[2, 3],\x7b\"k\":null\x7d ] ") =
      ([ascii "1", ascii "\"a\"", ascii "[2, 3]", ascii "\x7b\"k\":null\x7d"], none) := by
  refine ⟨?_, ?_, ?_, ?_, ?_, rfl, rfl, rfl, rfl, rfl, rfl⟩
  · intro hv
    simp [ParseRawArray, UnmarshalRawSlice, hv]
  · intro hv h1 h2
    simp [ParseRawArray, UnmarshalRawSlice, hv, h1, h2]
  · intro hv h1
    simp [ParseRawArray, UnmarshalRawSlice, hv, h1]
  · intro hv h1
    simp [ParseRawArray, UnmarshalRawSlice, hv, h1]
  · intro h hts hd
    exact ParseRawArray_ok t ts (UnmarshalRawSlice_Marshal xs t ts h hts hd)

/-- The witness of C23: the array `[1,"a",[null]]`. -/
theorem C23_ParseRawArray_witness :
    ParseRawArray (ascii "[1,\"a\",[null]]") =
      ([ascii "1", ascii "\"a\"", ascii "[null]"], none) :=
  (C23_ParseRawArray [] [.int 1, .string (ascii "a"), .slice [.nil]]
    (ascii "[1,\"a\",[null]]") [ascii "1", ascii "\"a\"", ascii "[null]"]).2.2.2.2.1
    rfl rfl (by decide)

/-! ## The texts of a nested value -/

/-- The bytes the walk has put into elements, counting one more for every
closed element. -/
theorem Split_next_measure (st : Split) (c : Nat) :
    (Split.next st c).cur.length + ((Split.next st c).elems.map (·.length + 1)).sum ≤
      st.cur.length + (st.elems.map (·.length + 1)).sum + 1 := by
  have hflush : ∀ s : Scanner,
      (st.flush s).cur.length + ((st.flush s).elems.map (·.length + 1)).sum ≤
        st.cur.length + (st.elems.map (·.length + 1)).sum + 1 := by
    intro s
    unfold Split.flush
    split
    · simp
    · simp only [List.length_nil, List.map_cons, List.sum_cons, List.length_reverse]
      omega
  unfold Split.next
  simp only
  split
  · split
    · exact hflush _
    · simp
  · split
    · simp
    · split
      · exact hflush _
      · simp only [List.length_cons]
        omega

theorem Split_foldl_measure (data : Bytes) : ∀ st : Split,
    (data.foldl Split.next st).cur.length +
        ((data.foldl Split.next st).elems.map (·.length + 1)).sum ≤
      st.cur.length + (st.elems.map (·.length + 1)).sum + data.length := by
  induction data with
  | nil => intro st; simp
  | cons c rest ih =>
    intro st
    have h1 := ih (Split.next st c)
    have h2 := Split_next_measure st c
    simp only [List.foldl_cons, List.length_cons]
    omega

/-- A raw element of an array is shorter than the text of the array. -/
theorem rawElements_length (data : Bytes) (item : Bytes) (h : item ∈ rawElements data) :
    item.length < data.length := by
  unfold rawElements at h
  have hm := Split_foldl_measure data ⟨Scanner.reset, [], []⟩
  simp only [List.length_nil, List.map_nil, List.sum_nil, Nat.zero_add] at hm
  have hmem : item ∈ (data.foldl Split.next ⟨Scanner.reset, [], []⟩).elems :=
    List.mem_reverse.mp h
  have hle : item.length + 1 ≤
      ((data.foldl Split.next ⟨Scanner.reset, [], []⟩).elems.map (·.length + 1)).sum :=
    List.single_le_sum (by intro x _; exact Nat.zero_le x) _ (List.mem_map.mpr ⟨item, hmem, rfl⟩)
  omega

/-- An element `ParseRawArray` returns is shorter than the input. -/
theorem ParseRawArray_length (data : Bytes) (item : Bytes)
    (h : item ∈ (ParseRawArray data).1) : item.length < data.length := by
  unfold ParseRawArray UnmarshalRawSlice at h
  by_cases hv : checkValid data = true
  · simp only [hv, if_true] at h
    by_cases h1 : firstByte data = some 91
    · simp only [h1, if_true] at h
      exact rawElements_length data item h
    · simp only [h1, if_false] at h
      by_cases h2 : firstByte data = some 110 <;> simp [h2] at h
  · simp [hv] at h

/-- The loop over the elements depends on the recursive call on the elements
only. -/
theorem extractItems_congr (f g : Bytes → Option (List Bytes)) : ∀ arr : List Bytes,
    (∀ item ∈ arr, f item = g item) → extractItems f arr = extractItems g arr := by
  intro arr
  induction arr with
  | nil => intro _; rfl
  | cons item rest ih =>
    intro h
    simp only [extractItems]
    rw [h item (by simp), ih (fun x hx => h x (by simp [hx]))]

theorem extractItems_isSome (f : Bytes → Option (List Bytes)) : ∀ arr : List Bytes,
    (∀ item ∈ arr, ∃ r, f item = some r) → ∃ r, extractItems f arr = some r := by
  intro arr
  induction arr with
  | nil => intro _; exact ⟨[], rfl⟩
  | cons item rest ih =>
    intro h
    obtain ⟨a, ha⟩ := h item (by simp)
    obtain ⟨b, hb⟩ := ih (fun x hx => h x (by simp [hx]))
    exact ⟨a ++ b, by simp only [extractItems, ha, hb]⟩

/-- One round of `extractAllText`, with `f` for the recursive call. -/
theorem extractAllTextFuel_succ (fuel : Nat) (data : Bytes) :
    extractAllTextFuel (fuel + 1) data =
      match UnmarshalString data [] with
      | .ok s =>
        if s ≠ [] then some [s]
        else match ParseRawArray data with
          | (_, some _) => some []
          | (arr, none) => extractItems (extractAllTextFuel fuel) arr
      | .error _ =>
        match ParseRawArray data with
        | (_, some _) => some []
        | (arr, none) => extractItems (extractAllTextFuel fuel) arr := by
  rw [extractAllTextFuel]

/-- `extractAllText` terminates: with more fuel than the input has bytes the
bound is not reached, and the result does not depend on the fuel. -/
theorem extractAllTextFuel_total : ∀ (n : Nat) (data : Bytes), data.length < n →
    (∃ r, extractAllTextFuel (data.length + 1) data = some r) ∧
    ∀ fuel, data.length < fuel →
      extractAllTextFuel fuel data = extractAllTextFuel (data.length + 1) data := by
  intro n
  induction n with
  | zero => intro data h; omega
  | succ n ih =>
    intro data hlen
    have hitems : ∀ fuel, data.length ≤ fuel → ∀ item ∈ (ParseRawArray data).1,
        extractAllTextFuel fuel item = extractAllTextFuel (item.length + 1) item := by
      intro fuel hf item hitem
      have hl := ParseRawArray_length data item hitem
      exact (ih item (by omega)).2 fuel (by omega)
    have hround : ∀ fuel, data.length ≤ fuel →
        extractAllTextFuel (fuel + 1) data = extractAllTextFuel (data.length + 1) data := by
      intro fuel hf
      rw [extractAllTextFuel_succ, extractAllTextFuel_succ]
      have hc : extractItems (extractAllTextFuel fuel) (ParseRawArray data).1 =
          extractItems (extractAllTextFuel data.length) (ParseRawArray data).1 := by
        apply extractItems_congr
        intro item hitem
        rw [hitems fuel hf item hitem, hitems data.length (Nat.le_refl _) item hitem]
      cases hp : ParseRawArray data with
      | mk arr err =>
        rw [hp] at hc
        cases err with
        | some e => rfl
        | none => simp only [hc]
    constructor
    · rw [extractAllTextFuel_succ]
      have hsome : ∃ r, extractItems (extractAllTextFuel data.length) (ParseRawArray data).1
          = some r := by
        apply extractItems_isSome
        intro item hitem
        have hl := ParseRawArray_length data item hitem
        obtain ⟨r, hr⟩ := (ih item (by omega)).1
        exact ⟨r, by rw [hitems data.length (Nat.le_refl _) item hitem, hr]⟩
      cases hp : ParseRawArray data with
      | mk arr err =>
        rw [hp] at hsome
        cases hu : UnmarshalString data [] with
        | ok s =>
          by_cases hs : s = []
          · cases err with
            | some e => exact ⟨[], by simp [hs]⟩
            | none => obtain ⟨r, hr⟩ := hsome; exact ⟨r, by simp [hs, hr]⟩
          · exact ⟨[s], by simp [hs]⟩
        | error e =>
          cases err with
          | some e => exact ⟨[], by simp⟩
          | none => obtain ⟨r, hr⟩ := hsome; exact ⟨r, by simp [hr]⟩
    · intro fuel hf
      cases fuel with
      | zero => omega
      | succ fuel => exact hround fuel (by omega)

/-- The text of an integer is neither a string nor an array nor null. -/
theorem appendInt_firstByte (n : Int) : ∃ a, firstByte (appendInt n) = some a ∧
    a ≠ 34 ∧ a ≠ 91 ∧ a ≠ 110 := by
  obtain ⟨a, mid, b, hshape, ha, hb, hfirst⟩ := appendInt_ends n
  obtain ⟨_, hf⟩ := trimValue_id (appendInt n) a b mid hshape ha hb
  refine ⟨a, hf, ?_⟩
  rcases hfirst with h | h
  · subst h; decide
  · have : 48 ≤ a ∧ a ≤ 57 := by simpa [isDigit] using h
    omega

mutual
/-- For the text `json.Marshal` writes for a value with well-formed strings,
at most `maxNestingDepth` deep, `extractAllText` gives the non-empty strings
of the value, depth first and left to right. -/
theorem extractAllTextFuel_Marshal : ∀ (v : GoValue) (t : Bytes), Marshal v = some t →
    validStrings v = true → v.depth ≤ maxNestingDepth →
    extractAllTextFuel (t.length + 1) t = some (texts v)
  | .nil, t, h, _, _ => by
    simp only [Marshal, Option.some.injEq] at h
    subst h
    rfl
  | .bool b, t, h, _, _ => by
    simp only [Marshal, Option.some.injEq] at h
    subst h
    cases b <;> rfl
  | .int n, t, h, _, _ => by
    simp only [Marshal, Option.some.injEq] at h
    subst h
    obtain ⟨a, hf, h34, h91, h110⟩ := appendInt_firstByte n
    have hs : UnmarshalString (appendInt n) [] = .error .typeError := by
      simp [UnmarshalString, checkValid_appendInt, hf, h34, h110]
    have hr : ParseRawArray (appendInt n) = ([], some .typeError) := by
      simp [ParseRawArray, UnmarshalRawSlice, checkValid_appendInt, hf, h91, h110]
    rw [extractAllTextFuel_succ, hs]
    simp only [hr]
    rfl
  | .string s, t, h, hv, _ => by
    simp only [Marshal, Option.some.injEq] at h
    subst h
    simp only [validStrings] at hv
    have hs : UnmarshalString (appendString s) [] = .ok s :=
      UnmarshalString_of_stringOf _ s [] (stringOf_appendString s hv)
    rw [extractAllTextFuel_succ, hs]
    by_cases he : s = []
    · subst he
      rfl
    · simp only [ne_eq, he, not_false_eq_true, if_true, texts, if_false]
  | .slice xs, t, h, hv, hd => by
    obtain ⟨body, hb, ht⟩ : ∃ body, MarshalElems xs = some body ∧ t = 91 :: body ++ [93] := by
      simp only [Marshal, Option.map_eq_some'] at h
      obtain ⟨body, hb, rfl⟩ := h
      exact ⟨body, hb, rfl⟩
    obtain ⟨ts, hts⟩ := marshalAll_of_MarshalElems xs body hb
    have hu := UnmarshalRawSlice_Marshal xs t ts h hts hd
    have hp := ParseRawArray_ok t ts hu
    have hvalid : checkValid t = true := by
      by_contra hc
      simp [UnmarshalRawSlice, hc] at hu
    have hfirst : firstByte t = some 91 := by
      rw [ht]
      simp [firstByte, isSpace]
    have hs : UnmarshalString t [] = .error .typeError := by
      simp [UnmarshalString, hvalid, hfirst]
    simp only [validStrings] at hv
    simp only [GoValue.depth] at hd
    have hlist := extractItems_marshalAll xs ts hts hv (by omega)
    have hc : extractItems (extractAllTextFuel t.length) ts =
        extractItems (fun item => extractAllTextFuel (item.length + 1) item) ts := by
      apply extractItems_congr
      intro item hitem
      have hl : item.length < t.length := ParseRawArray_length t item (by rw [hp]; exact hitem)
      exact (extractAllTextFuel_total (item.length + 1) item (by omega)).2 t.length hl
    rw [extractAllTextFuel_succ, hs]
    simp only [hp]
    rw [hc, hlist]
    simp only [texts]
  | .unsupported, t, h, _, _ => by
    simp [Marshal] at h
/-- The loop over the texts of the elements of a marshalled slice. -/
theorem extractItems_marshalAll : ∀ (xs : List GoValue) (ts : List Bytes),
    marshalAll xs = some ts → validStringsList xs = true → depthList xs ≤ maxNestingDepth →
    extractItems (fun item => extractAllTextFuel (item.length + 1) item) ts =
      some (textsList xs)
  | [], ts, h, _, _ => by
    simp only [marshalAll, Option.some.injEq] at h
    subst h
    rfl
  | x :: rest, ts, h, hv, hd => by
    simp only [marshalAll] at h
    cases hx : Marshal x with
    | none => simp [hx] at h
    | some a =>
      cases hr : marshalAll rest with
      | none => simp [hx, hr] at h
      | some b =>
        simp only [hx, hr, Option.some.injEq] at h
        subst h
        simp only [validStringsList, Bool.and_eq_true] at hv
        simp only [depthList] at hd
        have h1 := extractAllTextFuel_Marshal x a hx hv.1 (by omega)
        have h2 := extractItems_marshalAll rest b hr hv.2 (by omega)
        simp only [extractItems, h1, h2, textsList]
end

theorem textsList_eq (xs : List GoValue) : textsList xs = (xs.map texts).flatten := by
  induction xs with
  | nil => rfl
  | cons x xs ih => simp only [textsList, List.map_cons, List.flatten_cons, ih]

set_option maxRecDepth 100000 in
/-- The counterexample to C26: for the string `""` the result is empty, not
the string itself, and the empty string inside `["a","",["b"]]` is not among
the strings returned. -/
theorem C26_counterexample :
    extractAllText (ascii "\"\"") = [] ∧
    extractAllText (ascii "[\"a\",\"\",[\"b\"]]") = [ascii "a", ascii "b"] :=
  ⟨rfl, rfl⟩

/-- C26, amended. `extractAllText` terminates on every input (with more fuel
than the input has bytes the recursion bound is not reached, and the result is
the same for every such fuel); for the JSON text of a value built from nested
arrays (at most `maxNestingDepth` deep, the strings well-formed) it returns
every string that is not empty, found at any depth, depth first and left to
right: the result for an array is the results for its elements appended in
order, the result for a non-empty string `s` is `[s]`, and the result is empty
for the empty string, numbers, booleans and null. -/
theorem C26_extractAllText (data : Bytes) (v : GoValue) (t : Bytes) :
    (∃ r, extractAllText data = r ∧
      ∀ fuel, data.length < fuel → extractAllTextFuel fuel data = some r) ∧
    (Marshal v = some t → validStrings v = true → v.depth ≤ maxNestingDepth →
      extractAllText t = texts v) ∧
    (∀ s, s ≠ [] → texts (.string s) = [s]) ∧ texts (.string []) = [] ∧
    (∀ xs, texts (.slice xs) = (xs.map texts).flatten) ∧
    texts .nil = [] ∧ (∀ b, texts (.bool b) = []) ∧ (∀ n, texts (.int n) = []) := by
  refine ⟨?_, ?_, ?_, rfl, ?_, rfl, fun _ => rfl, fun _ => rfl⟩
  · obtain ⟨⟨r, hr⟩, hfuel⟩ := extractAllTextFuel_total (data.length + 1) data (by omega)
    refine ⟨r, ?_, ?_⟩
    · unfold extractAllText
      rw [hr]
      rfl
    · intro fuel hf
      rw [hfuel fuel hf, hr]
  · intro h hv hd
    unfold extractAllText
    rw [extractAllTextFuel_Marshal v t h hv hd]
    rfl
  · intro s hs
    simp only [texts, hs, if_false]
  · intro xs
    simp only [texts]
    exact textsList_eq xs

set_option maxRecDepth 100000 in
/-- The witness of C26: the value `["a",[1,"b",null],true,""]`. -/
theorem C26_extractAllText_witness :
    extractAllText (ascii "[\"a\",[1,\"b\",null],true,\"\"]") = [ascii "a", ascii "b"] :=
  (C26_extractAllText []
    (.slice [.string (ascii "a"), .slice [.int 1, .string (ascii "b"), .nil], .bool true,
      .string []])
    (ascii "[\"a\",[1,\"b\",null],true,\"\"]")).2.1 rfl (by decide) (by decide)

/-! ## The error for a status other than 200, 401 and 403 -/

theorem preview_length (body : Bytes) : (preview body).length ≤ 503 := by
  unfold preview
  split
  · simp only [List.length_append, List.length_take]
    have : (ascii "...").length = 3 := rfl
    omega
  · omega

/-- C28. Bounded error preview: when the POST of `Execute` is answered with a
status other than 200, 401 and 403 (and the body is read), `Execute` returns
no payload but the error `API returned HTTP <status>: <preview>`, where the
preview is the whole body when the body has at most 500 bytes and otherwise
its first 500 bytes followed by `...`; the preview has at most 503 bytes. -/
theorem C28_error_preview (c : Client) (w : World) (rpcID : Bytes)
    (params : GoValue) (sourcePath : Bytes) (st : Store) (w1 : World) (pj : Bytes)
    (status : Int) (body : Bytes)
    (hens : c.auth.EnsureTokens w = (none, st, w1))
    (hpj : Marshal params = some pj)
    (hresp : w1.respond w1.sent
        (executeRequest { c with auth := st } rpcID sourcePath (envelopeText rpcID pj)
          (wrapInt64 (c.reqID + 100000))) = .response status (.ok body))
    (h200 : status ≠ 200) (h401 : status ≠ 401) (h403 : status ≠ 403) :
    (c.Execute w rpcID params sourcePath).1 = .error (.httpStatus status (preview body)) ∧
    (Api.Error.httpStatus status (preview body)).message =
      ascii "API returned HTTP " ++ appendInt status ++ ascii ": " ++ preview body ∧
    (body.length ≤ 500 → preview body = body) ∧
    (500 < body.length → preview body = body.take 500 ++ ascii "...") ∧
    (preview body).length ≤ 503 ∧
    (∀ payload, (c.Execute w rpcID params sourcePath).1 ≠ .ok payload) := by
  have hex : (c.Execute w rpcID params sourcePath).1 =
      .error (.httpStatus status (preview body)) := by
    unfold Client.Execute
    simp only [hens, hpj, Marshal_fReqOuter, World.send, hresp]
    simp [h200, h401, h403]
  refine ⟨hex, rfl, ?_, ?_, preview_length body, ?_⟩
  · intro h
    unfold preview
    rw [if_neg (by omega)]
  · intro h
    unfold preview
    rw [if_pos h]
  · intro payload
    rw [hex]
    simp

set_option maxRecDepth 100000 in
/-- The witness of C28: a POST answered with 500 and a short body; and the
preview of a body of 501 bytes. -/
theorem C28_error_preview_witness :
    preview (List.replicate 501 97) = List.replicate 500 97 ++ ascii "..." ∧
    (Client.Execute ⟨⟨ascii "SID=1", ascii "tok", []⟩, DefaultBuildLabel, 0⟩
      ⟨[], fun _ _ => .response 500 (.ok (ascii "oops"))⟩
      (ascii "R1") (.slice [.nil]) []).1 = .error (.httpStatus 500 (ascii "oops")) :=
  ⟨rfl, (C28_error_preview ⟨⟨ascii "SID=1", ascii "tok", []⟩, DefaultBuildLabel, 0⟩
    ⟨[], fun _ _ => .response 500 (.ok (ascii "oops"))⟩ (ascii "R1") (.slice [.nil]) []
    ⟨ascii "SID=1", ascii "tok", []⟩ ⟨[], fun _ _ => .response 500 (.ok (ascii "oops"))⟩
    (ascii "[null]") 500 (ascii "oops") rfl rfl rfl (by decide) (by decide) (by decide)).1⟩

/-! ## The identifier of a new conversation -/

set_option maxRecDepth 100000 in
theorem version_bits : ∀ b, b < 256 →
    ((b &&& 0x0f) ||| 0x40) / 16 = 4 ∧ ((b &&& 0x0f) ||| 0x40) % 16 = b % 16 := by
  decide

set_option maxRecDepth 100000 in
theorem variant_bits : ∀ b, b < 256 →
    ((b &&& 0x3f) ||| 0x80) / 16 = 8 + (b / 16) % 4 ∧ ((b &&& 0x3f) ||| 0x80) % 16 = b % 16 := by
  decide

/-- A lower-case hexadecimal digit. -/
theorem hexDigit_lower (n : Nat) (h : n < 16) :
    (48 ≤ hexDigit n ∧ hexDigit n ≤ 57) ∨ (97 ≤ hexDigit n ∧ hexDigit n ≤ 102) := by
  unfold hexDigit
  split <;> omega

/-- The identifier written out, digit by digit. -/
theorem generateUUID_eq (b0 b1 b2 b3 b4 b5 b6 b7 b8 b9 b10 b11 b12 b13 b14 b15 : Nat)
    (h6 : b6 < 256) (h8 : b8 < 256) :
    generateUUID [b0, b1, b2, b3, b4, b5, b6, b7, b8, b9, b10, b11, b12, b13, b14, b15] =
      [hexDigit (b0 / 16), hexDigit (b0 % 16), hexDigit (b1 / 16), hexDigit (b1 % 16),
       hexDigit (b2 / 16), hexDigit (b2 % 16), hexDigit (b3 / 16), hexDigit (b3 % 16), 45,
       hexDigit (b4 / 16), hexDigit (b4 % 16), hexDigit (b5 / 16), hexDigit (b5 % 16), 45,
       52, hexDigit (b6 % 16), hexDigit (b7 / 16), hexDigit (b7 % 16), 45,
       hexDigit (8 + (b8 / 16) % 4), hexDigit (b8 % 16), hexDigit (b9 / 16),
       hexDigit (b9 % 16), 45,
       hexDigit (b10 / 16), hexDigit (b10 % 16), hexDigit (b11 / 16), hexDigit (b11 % 16),
       hexDigit (b12 / 16), hexDigit (b12 % 16), hexDigit (b13 / 16), hexDigit (b13 % 16),
       hexDigit (b14 / 16), hexDigit (b14 % 16), hexDigit (b15 / 16), hexDigit (b15 % 16)] := by
  obtain ⟨v1, v2⟩ := version_bits b6 h6
  obtain ⟨w1, w2⟩ := variant_bits b8 h8
  simp only [generateUUID, List.getD_cons_succ, List.getD_cons_zero, List.set_cons_succ,
    List.set_cons_zero, List.take, List.drop, hexBytes, List.cons_append, List.nil_append,
    v1, v2, w1, w2]
  rfl

/-- A list of 16 bytes, byte by byte. -/
theorem length_sixteen (l : Bytes) (h : l.length = 16) :
    ∃ b0 b1 b2 b3 b4 b5 b6 b7 b8 b9 b10 b11 b12 b13 b14 b15,
      l = [b0, b1, b2, b3, b4, b5, b6, b7, b8, b9, b10, b11, b12, b13, b14, b15] := by
  cases l with
  | nil => simp at h
  | cons b0 l =>
    cases l with
    | nil => simp at h
    | cons b1 l =>
      cases l with
      | nil => simp at h
      | cons b2 l =>
        cases l with
        | nil => simp at h
        | cons b3 l =>
          cases l with
          | nil => simp at h
          | cons b4 l =>
            cases l with
            | nil => simp at h
            | cons b5 l =>
              cases l with
              | nil => simp at h
              | cons b6 l =>
                cases l with
                | nil => simp at h
                | cons b7 l =>
                  cases l with
                  | nil => simp at h
                  | cons b8 l =>
                    cases l with
                    | nil => simp at h
                    | cons b9 l =>
                      cases l with
                      | nil => simp at h
                      | cons b10 l =>
                        cases l with
                        | nil => simp at h
                        | cons b11 l =>
                          cases l with
                          | nil => simp at h
                          | cons b12 l =>
                            cases l with
                            | nil => simp at h
                            | cons b13 l =>
                              cases l with
                              | nil => simp at h
                              | cons b14 l =>
                                cases l with
                                | nil => simp at h
                                | cons b15 l =>
                                  cases l with
                                  | nil => exact ⟨b0, b1, b2, b3, b4, b5, b6, b7, b8, b9, b10, b11, b12, b13, b14, b15, rfl⟩
                                  | cons x l => simp at h

/-- C30. `generateUUID` gives a version-4 UUID for every 16 random bytes: the
result has 36 characters; the characters at the indices 8, 13, 18 and 23 are
`-` and all others are lower-case hexadecimal digits, in groups of 8, 4, 4, 4
and 12; the first digit of the third group is `4` and the first digit of the
fourth group is one of `8`, `9`, `a`, `b`; every other digit is the
corresponding half of a random byte. -/
theorem C30_generateUUID (rnd : Bytes) (hlen : rnd.length = 16) (hb : ∀ x ∈ rnd, x < 256) :
    (generateUUID rnd).length = 36 ∧
    (∀ i, i < 36 → (i = 8 ∨ i = 13 ∨ i = 18 ∨ i = 23) → (generateUUID rnd).getD i 0 = 45) ∧
    (∀ i, i < 36 → ¬ (i = 8 ∨ i = 13 ∨ i = 18 ∨ i = 23) →
      (48 ≤ (generateUUID rnd).getD i 0 ∧ (generateUUID rnd).getD i 0 ≤ 57) ∨
      (97 ≤ (generateUUID rnd).getD i 0 ∧ (generateUUID rnd).getD i 0 ≤ 102)) ∧
    (generateUUID rnd).getD 14 0 = 52 ∧
    ((generateUUID rnd).getD 19 0 = 56 ∨ (generateUUID rnd).getD 19 0 = 57 ∨
      (generateUUID rnd).getD 19 0 = 97 ∨ (generateUUID rnd).getD 19 0 = 98) ∧
    generateUUID rnd =
      hexBytes (rnd.take 4) ++ [45] ++ hexBytes ((rnd.drop 4).take 2) ++ [45] ++
      [52, hexDigit (rnd.getD 6 0 % 16)] ++ hexBytes ((rnd.drop 7).take 1) ++ [45] ++
      [hexDigit (8 + (rnd.getD 8 0 / 16) % 4), hexDigit (rnd.getD 8 0 % 16)] ++
      hexBytes ((rnd.drop 9).take 1) ++ [45] ++ hexBytes (rnd.drop 10) := by
  obtain ⟨b0, b1, b2, b3, b4, b5, b6, b7, b8, b9, b10, b11, b12, b13, b14, b15, rfl⟩ :=
    length_sixteen rnd hlen
  have h0 : b0 < 256 := hb b0 (by simp)
  have h1 : b1 < 256 := hb b1 (by simp)
  have h2 : b2 < 256 := hb b2 (by simp)
  have h3 : b3 < 256 := hb b3 (by simp)
  have h4 : b4 < 256 := hb b4 (by simp)
  have h5 : b5 < 256 := hb b5 (by simp)
  have h6 : b6 < 256 := hb b6 (by simp)
  have h7 : b7 < 256 := hb b7 (by simp)
  have h8 : b8 < 256 := hb b8 (by simp)
  have h9 : b9 < 256 := hb b9 (by simp)
  have h10 : b10 < 256 := hb b10 (by simp)
  have h11 : b11 < 256 := hb b11 (by simp)
  have h12 : b12 < 256 := hb b12 (by simp)
  have h13 : b13 < 256 := hb b13 (by simp)
  have h14 : b14 < 256 := hb b14 (by simp)
  have h15 : b15 < 256 := hb b15 (by simp)
  rw [generateUUID_eq b0 b1 b2 b3 b4 b5 b6 b7 b8 b9 b10 b11 b12 b13 b14 b15 h6 h8]
  have hv : hexDigit (8 + b8 / 16 % 4) = 56 ∨ hexDigit (8 + b8 / 16 % 4) = 57 ∨
      hexDigit (8 + b8 / 16 % 4) = 97 ∨ hexDigit (8 + b8 / 16 % 4) = 98 := by
    have : b8 / 16 % 4 = 0 ∨ b8 / 16 % 4 = 1 ∨ b8 / 16 % 4 = 2 ∨ b8 / 16 % 4 = 3 := by omega
    rcases this with h | h | h | h <;> rw [h] <;> simp [hexDigit]
  refine ⟨rfl, ?_, ?_, rfl, hv, rfl⟩
  · intro i _ hi
    rcases hi with h | h | h | h <;> subst h <;> rfl
  · intro i hi hnd
    interval_cases i <;>
      first
      | (exfalso; apply hnd; omega)
      | (simp only [List.getD_cons_succ, List.getD_cons_zero]
         first
         | exact hexDigit_lower _ (by omega)
         | (left; constructor <;> omega))

/-- The witness of C30: the bytes 0, 1, ..., 15. -/
theorem C30_generateUUID_witness :
    generateUUID [0, 1, 2, 3, 4, 5, 6, 7, 8, 9, 10, 11, 12, 13, 14, 15] =
      ascii "00010203-0405-4607-8809-0a0b0c0d0e0f" :=
  (C30_generateUUID [0, 1, 2, 3, 4, 5, 6, 7, 8, 9, 10, 11, 12, 13, 14, 15] rfl
    (by decide)).2.2.2.2.2

/-! ## `Query` -/

/-- A slice is marshalled when every element is. -/
theorem MarshalElems_isSome : ∀ xs : List GoValue, (∀ x ∈ xs, (Marshal x).isSome = true) →
    (MarshalElems xs).isSome = true
  | [], _ => rfl
  | [x], h => by
    simp only [MarshalElems]
    exact h x (by simp)
  | x :: y :: rest, h => by
    have h1 := h x (by simp)
    have h2 := MarshalElems_isSome (y :: rest) (fun z hz => h z (by simp [hz]))
    simp only [MarshalElems]
    cases hx : Marshal x with
    | none => rw [hx] at h1; cases h1
    | some a =>
      cases hy : MarshalElems (y :: rest) with
      | none => rw [hy] at h2; cases h2
      | some b => rfl

theorem Marshal_slice_isSome (xs : List GoValue) (h : ∀ x ∈ xs, (Marshal x).isSome = true) :
    (Marshal (.slice xs)).isSome = true := by
  have := MarshalElems_isSome xs h
  simp only [Marshal]
  cases hm : MarshalElems xs with
  | none => rw [hm] at this; cases this
  | some b => rfl

/-- The parameters of `Query` are always marshalled. -/
theorem Marshal_queryParams (ids : List Bytes) (q conv : Bytes) :
    ∃ pj, Marshal (queryParams ids q conv) = some pj := by
  have h : (Marshal (queryParams ids q conv)).isSome = true := by
    unfold queryParams
    apply Marshal_slice_isSome
    intro x hx
    simp only [List.mem_cons, List.mem_singleton, List.not_mem_nil, or_false] at hx
    rcases hx with h | h | h | h | h
    · subst h
      apply Marshal_slice_isSome
      intro y hy
      obtain ⟨sid, _, rfl⟩ := List.mem_map.mp hy
      rfl
    · subst h; rfl
    · subst h; rfl
    · subst h; rfl
    · subst h; rfl
  cases hm : Marshal (queryParams ids q conv) with
  | none => rw [hm] at h; cases h
  | some pj => exact ⟨pj, rfl⟩

/-- The request `sendQuery` sends. -/
theorem sendQuery_sent (c : Client) (w : World) (rnd q : Bytes) (ids : List Bytes)
    (conv : Bytes) :
    (c.sendQuery w rnd q ids conv).2.1 = { c with reqID := wrapInt64 (c.reqID + 100000) } ∧
    (c.sendQuery w rnd q ids conv).2.2 = { w with sent := w.sent ++
      [queryRequest c
        ((Marshal (.slice [.nil, .string
          ((Marshal (queryParams ids q
            (if conv = [] then generateUUID rnd else conv))).getD [])])).getD [])
        (wrapInt64 (c.reqID + 100000))] } := by
  unfold Client.sendQuery World.send
  simp only [decide_eq_true_eq]
  split
  · exact ⟨rfl, rfl⟩
  · split
    · exact ⟨rfl, rfl⟩
    · split <;> exact ⟨rfl, rfl⟩

/-- The result of a `sendQuery` that succeeds. -/
theorem sendQuery_ok (c : Client) (w : World) (rnd q : Bytes) (ids : List Bytes)
    (conv : Bytes) (res : QueryResult)
    (h : (c.sendQuery w rnd q ids conv).1 = .ok res) :
    ∃ respBody, res = ⟨parseQueryResponse respBody,
      if conv = [] then generateUUID rnd else conv, !decide (conv = [])⟩ := by
  unfold Client.sendQuery World.send at h
  simp only [decide_eq_true_eq] at h
  split at h
  · cases h
  · split at h
    · cases h
    · split at h
      · cases h
      · rename_i respBody _
        simp only [Except.ok.injEq] at h
        exact ⟨respBody, h.symm⟩

/-- A `Query` that succeeds ends with a `sendQuery` that succeeds. -/
theorem Query_ok (c : Client) (w : World) (rnd nb q : Bytes) (sids : Option (List Bytes))
    (conv : Bytes) (res : QueryResult)
    (h : (c.Query w rnd nb q sids conv).1 = .ok res) :
    ∃ (ids : List Bytes) (c2 : Client) (w2 : World),
      c.Query w rnd nb q sids conv = c2.sendQuery w2 rnd q ids conv := by
  unfold Client.Query at h ⊢
  cases hens : c.auth.EnsureTokens w with
  | mk err rest =>
    obtain ⟨st, w1⟩ := rest
    cases err with
    | some e => simp [hens] at h
    | none =>
      simp only [hens] at h ⊢
      cases sids with
      | some ids => exact ⟨ids, _, _, rfl⟩
      | none =>
        simp only at h ⊢
        cases hg : Client.getNotebookSourceIDs { c with auth := st } w1 nb with
        | mk r rest2 =>
          obtain ⟨c2, w2⟩ := rest2
          cases r with
          | error e => simp [hg] at h
          | ok ids => exact ⟨ids, c2, w2, rfl⟩

/-- C29. Conversation identity in `Query`: when `Query` succeeds, with a
non-empty `conversationID` the result carries this identifier and
`is_follow_up` is true; with the empty string the result carries the
identifier `generateUUID` makes and `is_follow_up` is false; in both cases the
identifier of the result is the one at index 4 of the parameters whose JSON
text is the string in the `f.req` field of the POST that was sent last. -/
theorem C29_conversation_identity (c : Client) (w : World) (rnd nb q : Bytes)
    (sids : Option (List Bytes)) (conv : Bytes) (res : QueryResult)
    (h : (c.Query w rnd nb q sids conv).1 = .ok res) :
    (conv ≠ [] → res.conversation_id = conv ∧ res.is_follow_up = true) ∧
    (conv = [] → res.conversation_id = generateUUID rnd ∧ res.is_follow_up = false) ∧
    (∃ (ids : List Bytes) (c2 : Client) (pj fReq : Bytes),
      Marshal (queryParams ids q res.conversation_id) = some pj ∧
      Marshal (.slice [.nil, .string pj]) = some fReq ∧
      (c.Query w rnd nb q sids conv).2.2.sent.getLast? =
        some (queryRequest c2 fReq (c.Query w rnd nb q sids conv).2.1.reqID) ∧
      formValue (queryRequest c2 fReq (c.Query w rnd nb q sids conv).2.1.reqID)
        (ascii "f.req") = some fReq) ∧
    (∀ ids : List Bytes, ∃ L, queryParams ids q res.conversation_id = .slice L ∧
      L.get? 4 = some (.string res.conversation_id)) := by
  obtain ⟨ids, c2, w2, hq⟩ := Query_ok c w rnd nb q sids conv res h
  rw [hq] at h ⊢
  obtain ⟨respBody, hres⟩ := sendQuery_ok c2 w2 rnd q ids conv res h
  obtain ⟨hc, hw⟩ := sendQuery_sent c2 w2 rnd q ids conv
  have hid : res.conversation_id = if conv = [] then generateUUID rnd else conv := by
    rw [hres]
  refine ⟨?_, ?_, ?_, ?_⟩
  · intro hne
    rw [hres]
    simp [hne]
  · intro he
    rw [hres]
    simp [he]
  · obtain ⟨pj, hpj⟩ := Marshal_queryParams ids q res.conversation_id
    refine ⟨ids, c2, pj, 91 :: (ascii "null" ++ 44 :: appendString pj) ++ [93], hpj, rfl, ?_, ?_⟩
    · rw [hw, hc]
      have hl : ∀ (l : List Request) (r : Request), (l ++ [r]).getLast? = some r := by
        intro l r; simp
      rw [hl, ← hid, hpj]
      rfl
    · simp [formValue, queryRequest]
  · intro ids'
    exact ⟨_, rfl, rfl⟩

set_option maxRecDepth 100000 in
/-- The witness of C29: a new conversation; the identifier is made from the
random bytes 0, 1, ..., 15. -/
theorem C29_conversation_identity_witness :
    (Client.Query ⟨⟨ascii "SID=1", ascii "tok", []⟩, DefaultBuildLabel, 0⟩
      ⟨[], fun _ _ => .response 200 (.ok (ascii "oops"))⟩
      [0, 1, 2, 3, 4, 5, 6, 7, 8, 9, 10, 11, 12, 13, 14, 15] (ascii "nb") (ascii "q")
      (some [ascii "s1"]) []).1
      = .ok ⟨[], ascii "00010203-0405-4607-8809-0a0b0c0d0e0f", false⟩ ∧
    ascii "00010203-0405-4607-8809-0a0b0c0d0e0f"
      = generateUUID [0, 1, 2, 3, 4, 5, 6, 7, 8, 9, 10, 11, 12, 13, 14, 15] :=
  ⟨rfl, ((C29_conversation_identity ⟨⟨ascii "SID=1", ascii "tok", []⟩, DefaultBuildLabel, 0⟩
    ⟨[], fun _ _ => .response 200 (.ok (ascii "oops"))⟩
    [0, 1, 2, 3, 4, 5, 6, 7, 8, 9, 10, 11, 12, 13, 14, 15] (ascii "nb") (ascii "q")
    (some [ascii "s1"]) [] ⟨[], ascii "00010203-0405-4607-8809-0a0b0c0d0e0f", false⟩
    rfl).2.1 rfl).1⟩

/-! ## The request counter -/

theorem reqidOf_pageRequest (cookies : Bytes) : reqidOf (pageRequest cookies) = none := rfl

theorem reqidOf_executeRequest (c : Client) (rpcID sp fReq : Bytes) (reqID : Int) :
    reqidOf (executeRequest c rpcID sp fReq reqID) = some (appendInt reqID) := by
  have k1 : ¬ (ascii "rpcids" = ascii "_reqid") := by decide
  have k2 : ¬ (ascii "bl" = ascii "_reqid") := by decide
  have k3 : ¬ (ascii "hl" = ascii "_reqid") := by decide
  have k4 : ¬ (ascii "rt" = ascii "_reqid") := by decide
  have k5 : ¬ (ascii "source-path" = ascii "_reqid") := by decide
  have k6 : ¬ (ascii "f.sid" = ascii "_reqid") := by decide
  unfold reqidOf executeRequest executeQuery
  by_cases h1 : sp = [] <;> by_cases h2 : c.auth.SessionID = [] <;>
    simp [h1, h2, List.find?_cons, k1, k2, k3, k4, k5, k6]

theorem reqidOf_queryRequest (c : Client) (fReq : Bytes) (reqID : Int) :
    reqidOf (queryRequest c fReq reqID) = some (appendInt reqID) := by
  have k2 : ¬ (ascii "bl" = ascii "_reqid") := by decide
  have k3 : ¬ (ascii "hl" = ascii "_reqid") := by decide
  unfold reqidOf queryRequest
  simp [List.find?_cons, k2, k3]

theorem reqids_append (a b : List Request) : reqids (a ++ b) = reqids a ++ reqids b := by
  simp [reqids, List.filterMap_append]

/-- The token calls send no request with a `_reqid`. -/
theorem extractTokensLocked_reqids (s : Store) (w : World) :
    reqids (s.extractTokensLocked w).2.2.sent = reqids w.sent := by
  rw [extractTokensLocked_world]
  simp [reqids_append, reqids, reqidOf_pageRequest]

theorem EnsureTokens_reqids (s : Store) (w : World) :
    reqids (s.EnsureTokens w).2.2.sent = reqids w.sent := by
  unfold Store.EnsureTokens
  split
  · rfl
  · split
    · rfl
    · exact extractTokensLocked_reqids s w

theorem RefreshTokens_reqids (s : Store) (w : World) :
    reqids (s.RefreshTokens w).2.2.sent = reqids w.sent := by
  unfold Store.RefreshTokens
  split
  · rfl
  · exact extractTokensLocked_reqids _ w

/-- `Execute` takes at most one value from the counter, and sends it as the
`_reqid` of its POST. -/
theorem Execute_reqids (c : Client) (w : World) (rpcID : Bytes) (params : GoValue)
    (sp : Bytes) :
    ((c.Execute w rpcID params sp).2.1.reqID = c.reqID ∧
      reqids (c.Execute w rpcID params sp).2.2.sent = reqids w.sent) ∨
    ((c.Execute w rpcID params sp).2.1.reqID = wrapInt64 (c.reqID + 100000) ∧
      reqids (c.Execute w rpcID params sp).2.2.sent =
        reqids w.sent ++ [appendInt (wrapInt64 (c.reqID + 100000))]) := by
  have hens := EnsureTokens_reqids c.auth w
  unfold Client.Execute
  cases he : c.auth.EnsureTokens w with
  | mk err rest =>
    obtain ⟨st, w1⟩ := rest
    rw [he] at hens
    simp only at hens
    cases err with
    | some e => left; exact ⟨rfl, hens⟩
    | none =>
      simp only
      cases hp : Marshal params with
      | none => left; exact ⟨rfl, hens⟩
      | some pj =>
        simp only [Marshal_fReqOuter, World.send]
        right
        have hsent : reqids (w1.sent ++ [executeRequest { c with auth := st } rpcID sp
            (envelopeText rpcID pj) (wrapInt64 (c.reqID + 100000))]) =
            reqids w.sent ++ [appendInt (wrapInt64 (c.reqID + 100000))] := by
          rw [reqids_append, hens]
          simp [reqids, reqidOf_executeRequest]
        split
        · exact ⟨rfl, hsent⟩
        · exact ⟨rfl, hsent⟩
        · rename_i status body _
          by_cases h4 : status = 401 ∨ status = 403
          · simp only [h4, if_true]
            have hr := RefreshTokens_reqids st { w1 with sent := w1.sent ++
              [executeRequest { c with auth := st } rpcID sp (envelopeText rpcID pj)
                (wrapInt64 (c.reqID + 100000))] }
            simp only at hr
            split <;> rename_i hrt <;> rw [hrt] at hr <;> simp only at hr <;>
              exact ⟨rfl, by rw [hr]; exact hsent⟩
          · simp only [h4, if_false]
            split
            · exact ⟨rfl, hsent⟩
            · split <;> exact ⟨rfl, hsent⟩

theorem getNotebookSourceIDs_reqids (c : Client) (w : World) (nb : Bytes) :
    ((c.getNotebookSourceIDs w nb).2.1.reqID = c.reqID ∧
      reqids (c.getNotebookSourceIDs w nb).2.2.sent = reqids w.sent) ∨
    ((c.getNotebookSourceIDs w nb).2.1.reqID = nextReqID c.reqID ∧
      reqids (c.getNotebookSourceIDs w nb).2.2.sent =
        reqids w.sent ++ [appendInt (nextReqID c.reqID)]) := by
  have h := Execute_reqids c w RPCGetNotebook
    (.slice [.string nb, .nil, .slice [.int 2], .nil, .int 0]) (NotebookPath nb)
  unfold Client.getNotebookSourceIDs nextReqID
  cases hx : c.Execute w RPCGetNotebook
    (.slice [.string nb, .nil, .slice [.int 2], .nil, .int 0]) (NotebookPath nb) with
  | mk r rest =>
    obtain ⟨c1, w1⟩ := rest
    rw [hx] at h
    cases r <;> exact h

theorem sendQuery_reqids (c : Client) (w : World) (rnd q : Bytes) (ids : List Bytes)
    (conv : Bytes) :
    (c.sendQuery w rnd q ids conv).2.1.reqID = nextReqID c.reqID ∧
    reqids (c.sendQuery w rnd q ids conv).2.2.sent =
      reqids w.sent ++ [appendInt (nextReqID c.reqID)] := by
  obtain ⟨hc, hw⟩ := sendQuery_sent c w rnd q ids conv
  rw [hc, hw]
  refine ⟨rfl, ?_⟩
  rw [reqids_append]
  simp [reqids, reqidOf_queryRequest, nextReqID]

/-- `Query` takes at most two values from the counter, one after the other
(one for the fetch of the source ids, one for its own POST), and sends each as
a `_reqid`. -/
theorem Query_reqids (c : Client) (w : World) (rnd nb q : Bytes)
    (sids : Option (List Bytes)) (conv : Bytes) :
    ∃ k, k ≤ 2 ∧
      (c.Query w rnd nb q sids conv).2.1.reqID = nextReqID^[k] c.reqID ∧
      reqids (c.Query w rnd nb q sids conv).2.2.sent =
        reqids w.sent ++ (List.range k).map fun i => appendInt (nextReqID^[i + 1] c.reqID) := by
  have hens := EnsureTokens_reqids c.auth w
  unfold Client.Query
  cases he : c.auth.EnsureTokens w with
  | mk err rest =>
    obtain ⟨st, w1⟩ := rest
    rw [he] at hens
    simp only at hens
    cases err with
    | some e => exact ⟨0, by omega, rfl, by simpa using hens⟩
    | none =>
      simp only
      cases sids with
      | some ids =>
        obtain ⟨h1, h2⟩ := sendQuery_reqids { c with auth := st } w1 rnd q ids conv
        refine ⟨1, by omega, h1, ?_⟩
        rw [h2, hens]
        rfl
      | none =>
        simp only
        have hg := getNotebookSourceIDs_reqids { c with auth := st } w1 nb
        cases hx : Client.getNotebookSourceIDs { c with auth := st } w1 nb with
        | mk r rest2 =>
          obtain ⟨c2, w2⟩ := rest2
          rw [hx] at hg
          simp only at hg
          cases r with
          | error e =>
            rcases hg with ⟨g1, g2⟩ | ⟨g1, g2⟩
            · exact ⟨0, by omega, g1, by rw [g2, hens]; simp⟩
            · exact ⟨1, by omega, g1, by rw [g2, hens]; rfl⟩
          | ok ids =>
            obtain ⟨h1, h2⟩ := sendQuery_reqids c2 w2 rnd q ids conv
            simp only
            rcases hg with ⟨g1, g2⟩ | ⟨g1, g2⟩
            · refine ⟨1, by omega, ?_, ?_⟩
              · rw [h1, g1]; rfl
              · rw [h2, g2, hens, g1]; rfl
            · refine ⟨2, by omega, ?_, ?_⟩
              · rw [h1, g1]; rfl
              · rw [h2, g2, hens, g1]
                simp [List.range_succ]

/-- The same for `Execute`. -/
theorem Execute_reqids_iter (c : Client) (w : World) (rpcID : Bytes) (params : GoValue)
    (sp : Bytes) :
    ∃ k, k ≤ 2 ∧
      (c.Execute w rpcID params sp).2.1.reqID = nextReqID^[k] c.reqID ∧
      reqids (c.Execute w rpcID params sp).2.2.sent =
        reqids w.sent ++ (List.range k).map fun i => appendInt (nextReqID^[i + 1] c.reqID) := by
  rcases Execute_reqids c w rpcID params sp with ⟨h1, h2⟩ | ⟨h1, h2⟩
  · exact ⟨0, by omega, h1, by simpa using h2⟩
  · exact ⟨1, by omega, h1, by rw [h2]; rfl⟩

/-- A sequence of calls takes its values from the one counter, one after the
other, and sends each as a `_reqid`, in this order. -/
theorem run_reqids : ∀ (calls : List Call) (c : Client) (w : World),
    ∃ k, k ≤ 2 * calls.length ∧
      (c.run w calls).1.reqID = nextReqID^[k] c.reqID ∧
      reqids (c.run w calls).2.sent =
        reqids w.sent ++ (List.range k).map fun i => appendInt (nextReqID^[i + 1] c.reqID) := by
  intro calls
  induction calls with
  | nil => intro c w; exact ⟨0, by simp, rfl, by simp [Client.run]⟩
  | cons call rest ih =>
    intro c w
    have hstep : ∀ (c1 : Client) (w1 : World) (k1 : Nat), k1 ≤ 2 →
        c1.reqID = nextReqID^[k1] c.reqID →
        reqids w1.sent = reqids w.sent ++
          (List.range k1).map (fun i => appendInt (nextReqID^[i + 1] c.reqID)) →
        ∃ k, k ≤ 2 * (call :: rest).length ∧
          (c1.run w1 rest).1.reqID = nextReqID^[k] c.reqID ∧
          reqids (c1.run w1 rest).2.sent = reqids w.sent ++
            (List.range k).map fun i => appendInt (nextReqID^[i + 1] c.reqID) := by
      intro c1 w1 k1 hk1 hc1 hw1
      obtain ⟨k2, hk2, hc2, hw2⟩ := ih c1 w1
      refine ⟨k1 + k2, by simp only [List.length_cons]; omega, ?_, ?_⟩
      · rw [hc2, hc1, ← Function.iterate_add_apply, Nat.add_comm]
      · rw [hw2, hw1, hc1, List.append_assoc, List.range_add, List.map_append, List.map_map]
        congr 2
        apply List.map_congr_left
        intro i _
        simp only [Function.comp]
        rw [← Function.iterate_add_apply]
        congr 2
        omega
    cases call with
    | execute rpcID params sp =>
      obtain ⟨k1, hk1, hc1, hw1⟩ := Execute_reqids_iter c w rpcID params sp
      exact hstep _ _ k1 hk1 hc1 hw1
    | query rnd nb q sids conv =>
      obtain ⟨k1, hk1, hc1, hw1⟩ := Query_reqids c w rnd nb q sids conv
      exact hstep _ _ k1 hk1 hc1 hw1

/-- Within the `int64` range nothing wraps. -/
theorem wrapInt64_id (x : Int) (h1 : -(2 : Int) ^ 63 ≤ x) (h2 : x < (2 : Int) ^ 63) :
    wrapInt64 x = x := by
  unfold wrapInt64
  have e1 : (2 : Int) ^ 63 = 9223372036854775808 := by norm_num
  have e2 : (2 : Int) ^ 64 = 18446744073709551616 := by norm_num
  rw [e1] at h1 h2 ⊢
  rw [e2]
  omega

/-- The counter after `k` additions, as long as it stays in the `int64`
range. -/
theorem nextReqID_iter (r : Int) (h0 : 0 ≤ r) : ∀ k : Nat,
    r + 100000 * (k : Int) < (2 : Int) ^ 63 → nextReqID^[k] r = r + 100000 * (k : Int) := by
  intro k
  induction k with
  | zero => intro _; simp
  | succ k ih =>
    intro h
    have e1 : (2 : Int) ^ 63 = 9223372036854775808 := by norm_num
    rw [e1] at h ih
    push_cast at h
    rw [Function.iterate_succ_apply', ih (by omega)]
    unfold nextReqID
    rw [wrapInt64_id _ (by rw [e1]; omega) (by rw [e1]; omega)]
    push_cast
    ring

/-- The bound of C27 is the range of the counter: an `atomic.Int64` that has
been raised 92233720368547 times holds 9223372036854700000, and the next
addition of 100000 wraps around. -/
theorem nextReqID_wraps :
    nextReqID^[92233720368547] 0 = 9223372036854700000 ∧
    nextReqID 9223372036854700000 = -9223372036854751616 := by
  refine ⟨?_, by decide⟩
  rw [nextReqID_iter 0 (Int.le_refl 0) 92233720368547 (by norm_num)]
  norm_num

/-- C27. Request counter: for every sequence of `Execute` and `Query` calls on
a client made by `NewClient` (its counter starts at 0), with k the number of
requests built (at most two for a call): the `_reqid` values sent are 100000,
200000, ..., 100000·k in this order, so the n-th value assigned is 100000·n;
they are strictly increasing and pairwise distinct, the counter ends at
100000·k, and `Execute` and `Query` take their values from the same counter.
The number of requests is taken within the range of the `int64` counter: at
most 92233720368547 requests on the one client. -/
theorem C27_request_counter (c : Client) (w : World) (calls : List Call)
    (h0 : c.reqID = 0) (hlen : 2 * calls.length ≤ 92233720368547) :
    ∃ k, k ≤ 2 * calls.length ∧
      (c.run w calls).1.reqID = 100000 * (k : Int) ∧
      reqids (c.run w calls).2.sent = reqids w.sent ++
        (List.range k).map (fun (i : Nat) => appendInt (100000 * ((i : Int) + 1))) ∧
      ((List.range k).map (fun (i : Nat) => 100000 * ((i : Int) + 1))).Pairwise (· < ·) ∧
      ((List.range k).map
        (fun (i : Nat) => appendInt (100000 * ((i : Int) + 1)))).Nodup := by
  obtain ⟨k, hk, hc, hw⟩ := run_reqids calls c w
  refine ⟨k, hk, ?_⟩
  have e1 : (2 : Int) ^ 63 = 9223372036854775808 := by norm_num
  have hkb : 100000 * (k : Int) < 9223372036854775808 := by
    have : (k : Int) ≤ 92233720368547 := by exact_mod_cast le_trans hk hlen
    omega
  have hiter : ∀ j : Nat, j ≤ k → nextReqID^[j] c.reqID = 100000 * (j : Int) := by
    intro j hj
    rw [h0, nextReqID_iter 0 (Int.le_refl 0) j]
    · simp
    · rw [e1]
      have : (j : Int) ≤ (k : Int) := by exact_mod_cast hj
      omega
  refine ⟨?_, ?_, ?_, ?_⟩
  · rw [hc, hiter k (Nat.le_refl k)]
  · rw [hw]
    congr 1
    apply List.map_congr_left
    intro i hi
    have hik : i + 1 ≤ k := by
      have := List.mem_range.mp hi
      omega
    rw [hiter (i + 1) hik]
    push_cast
    rfl
  · rw [List.pairwise_map]
    exact List.Pairwise.imp (fun {a b} (h : a < b) => by
      have : (a : Int) < (b : Int) := by exact_mod_cast h
      omega) (List.pairwise_lt_range k)
  · apply List.Nodup.map_on _ (List.nodup_range k)
    intro x hx y hy hxy
    have hxk : (x : Int) < k := by exact_mod_cast List.mem_range.mp hx
    have hyk : (y : Int) < k := by exact_mod_cast List.mem_range.mp hy
    have hx0 : (0 : Int) ≤ x := Int.ofNat_nonneg x
    have hy0 : (0 : Int) ≤ y := Int.ofNat_nonneg y
    have px := parseInt64_appendInt (100000 * ((x : Int) + 1)) (by rw [e1]; omega)
      (by rw [e1]; omega)
    have py := parseInt64_appendInt (100000 * ((y : Int) + 1)) (by rw [e1]; omega)
      (by rw [e1]; omega)
    rw [hxy, py] at px
    have : 100000 * ((y : Int) + 1) = 100000 * ((x : Int) + 1) := Option.some.inj px
    omega

set_option maxRecDepth 100000 in
/-- The witness of C27: an `Execute` and then a `Query` that fetches the
source ids itself send the values 100000, 200000 and 300000. -/
theorem C27_request_counter_witness :
    reqids ((NewClient ⟨ascii "SID=1", ascii "tok", []⟩ []).run
        ⟨[], fun _ _ => .response 200 (.ok (ascii ")]\x7d'\n[[\"wrb.fr\",\"rLM1Ne\",\"[]\"]]"))⟩
        [.execute (ascii "rLM1Ne") (.slice []) [],
         .query [] (ascii "nb") (ascii "q") none (ascii "conv")]).2.sent
      = [ascii "100000", ascii "200000", ascii "300000"] ∧
    ∃ k : Nat, k ≤ 2 * 2 ∧
      ((NewClient ⟨ascii "SID=1", ascii "tok", []⟩ []).run
        ⟨[], fun _ _ => .response 200 (.ok (ascii ")]\x7d'\n[[\"wrb.fr\",\"rLM1Ne\",\"[]\"]]"))⟩
        [.execute (ascii "rLM1Ne") (.slice []) [],
         .query [] (ascii "nb") (ascii "q") none (ascii "conv")]).1.reqID
        = 100000 * (k : Int) :=
  ⟨by rfl,
    (C27_request_counter (NewClient ⟨ascii "SID=1", ascii "tok", []⟩ [])
      ⟨[], fun _ _ => .response 200 (.ok (ascii ")]\x7d'\n[[\"wrb.fr\",\"rLM1Ne\",\"[]\"]]"))⟩
      [.execute (ascii "rLM1Ne") (.slice []) [],
       .query [] (ascii "nb") (ascii "q") none (ascii "conv")] rfl (by decide)).imp
      fun k h => ⟨h.1, h.2.1⟩⟩

/-! ## The tokens after a successful `EnsureTokens` -/

/-- The group of a match of `"KEY":"([^"]+)"` holds no double quote. -/
theorem FindSubmatch_no_quote (key body v : Bytes) (h : FindSubmatch key body = some v) :
    34 ∉ v := by
  obtain ⟨n, ⟨_, _, _, hq⟩, _⟩ := (FindSubmatch_some_iff key body v).mp h
  exact hq

/-- A successful extraction leaves a CSRF token without double quote. -/
theorem extractTokensLocked_ok_no_quote (s : Store) (w : World)
    (h : (s.extractTokensLocked w).1 = none) :
    34 ∉ (s.extractTokensLocked w).2.1.csrfToken := by
  unfold Store.extractTokensLocked at h ⊢
  simp only at h ⊢
  split
  · rename_i heq; simp [heq] at h
  · rename_i status body heq
    simp only [heq] at h
    split
    · rename_i hs; simp [hs] at h
    · rename_i hs
      simp only [hs, if_false] at h
      split
      · simp at h
      · rename_i page
        simp only at h
        split
        · rename_i hf; simp [hf] at h
        · rename_i csrf hf
          split <;> exact FindSubmatch_no_quote _ _ _ hf

/-- The state after a successful `EnsureTokens`: cookie and token are there,
and a token extracted by the call holds no double quote. -/
theorem EnsureTokens_ok_state (s st : Store) (w w1 : World)
    (h : s.EnsureTokens w = (none, st, w1)) :
    st.cookies ≠ [] ∧ st.csrfToken ≠ [] ∧ (34 ∉ s.csrfToken → 34 ∉ st.csrfToken) := by
  refine ⟨EnsureTokens_ok_cookies s st w w1 h, ?_⟩
  unfold Store.EnsureTokens at h
  split at h
  · cases h
  · split at h
    · rename_i hc ht
      injection h with _ h
      injection h with h _
      subst h
      exact ⟨ht, fun hq => hq⟩
    · have h1 : (s.extractTokensLocked w).1 = none := by rw [h]
      have h2 := extractTokensLocked_ok_csrf s w h1
      have h3 := extractTokensLocked_ok_no_quote s w h1
      rw [h] at h2 h3
      exact ⟨h2, fun _ => h3⟩

/-- The counterexample to C40: a store whose token was set by `SetTokens` to
the text `a"b`: `EnsureTokens` returns nil without looking at the token, and
`CSRFToken()` holds a double quote afterwards. -/
theorem C40_counterexample :
    (((New (ascii "SID=1")).SetTokens (ascii "a\"b") []).EnsureTokens
        ⟨[], fun _ _ => .failed []⟩).1 = none ∧
    34 ∈ (((New (ascii "SID=1")).SetTokens (ascii "a\"b") []).EnsureTokens
        ⟨[], fun _ _ => .failed []⟩).2.1.CSRFToken :=
  ⟨rfl, by decide⟩

/-- C40, amended. Tokens are present after a successful `EnsureTokens`: for
every store state and every network, if `EnsureTokens` returns nil then right
afterwards the cookie is not empty, `CSRFToken()` is not empty and `Status()`
is `authenticated`; the token holds no double quote provided the token the
store held before the call held none (in particular when the store held no
token and the call extracted it from the page); and the POST that `Execute`
sends after this `EnsureTokens`, for parameters that serialize, carries in its
`at` field that non-empty token. -/
theorem C40_tokens_present (s st : Store) (w w1 : World)
    (h : s.EnsureTokens w = (none, st, w1)) :
    st.Cookies ≠ [] ∧ st.CSRFToken ≠ [] ∧ st.Status = ascii "authenticated" ∧
    (34 ∉ s.CSRFToken → 34 ∉ st.CSRFToken) ∧
    ∀ (c : Client) (rpcID : Bytes) (params : GoValue) (sourcePath pj : Bytes),
      c.auth = s → Marshal params = some pj →
      ∃ r : Request, (w1.sent ++ [r]) <+: (c.Execute w rpcID params sourcePath).2.2.sent ∧
        isPost r = true ∧ formValue r (ascii "at") = some st.CSRFToken ∧
        formValue r (ascii "at") ≠ some [] := by
  obtain ⟨hc, ht, hq⟩ := EnsureTokens_ok_state s st w w1 h
  refine ⟨hc, ht, ?_, hq, ?_⟩
  · unfold Store.Status
    simp [hc, ht]
  · intro c rpcID params sourcePath pj hcs hpj
    subst hcs
    refine ⟨_, Execute_sent c w rpcID params sourcePath st w1 pj h hpj, ?_, ?_, ?_⟩
    · simp [isPost, executeRequest]
    · simp [formValue, executeRequest, ascii, Store.CSRFToken]
    · simp only [formValue, executeRequest, ascii, Store.CSRFToken]
      simp
      exact ht

/-- The witness of C40: a store with the cookie `SID=1` and no token, and a
page that carries the token `tok`. -/
theorem C40_tokens_present_witness :
    (⟨ascii "SID=1", ascii "tok", []⟩ : Store).CSRFToken ≠ [] ∧
    (⟨ascii "SID=1", ascii "tok", []⟩ : Store).Status = ascii "authenticated" :=
  ⟨(C40_tokens_present ⟨ascii "SID=1", [], []⟩ ⟨ascii "SID=1", ascii "tok", []⟩
      ⟨[], fun _ _ => .response 200 (.ok (ascii "x\"SNlM0e\":\"tok\"y"))⟩
      ⟨[pageRequest (ascii "SID=1")], fun _ _ => .response 200 (.ok (ascii "x\"SNlM0e\":\"tok\"y"))⟩
      (by rfl)).2.1,
   (C40_tokens_present ⟨ascii "SID=1", [], []⟩ ⟨ascii "SID=1", ascii "tok", []⟩
      ⟨[], fun _ _ => .response 200 (.ok (ascii "x\"SNlM0e\":\"tok\"y"))⟩
      ⟨[pageRequest (ascii "SID=1")], fun _ _ => .response 200 (.ok (ascii "x\"SNlM0e\":\"tok\"y"))⟩
      (by rfl)).2.2.1⟩

/-! ## `extractParam` -/

section ExtractParam

open Mcp

/-- A slice within the bounds. -/
theorem sliceOf_nat (s : Bytes) (i n : Nat) (h : i + n ≤ s.length) :
    sliceOf s (i : Int) ((i : Int) + (n : Int)) = some ((s.drop i).take n) := by
  unfold sliceOf
  have h1 : (0 : Int) ≤ (i : Int) ∧ (i : Int) ≤ (i : Int) + (n : Int) ∧
      (i : Int) + (n : Int) ≤ (s.length : Int) := by omega
  rw [if_pos h1]
  have h2 : ((i : Int) + (n : Int) - (i : Int)).toNat = n := by omega
  rw [h2, Int.toNat_ofNat]

/-- The slice to the end. -/
theorem sliceOf_tail (s : Bytes) (i : Nat) (h : i ≤ s.length) :
    sliceOf s (i : Int) (s.length : Int) = some (s.drop i) := by
  unfold sliceOf
  have h1 : (0 : Int) ≤ (i : Int) ∧ (i : Int) ≤ (s.length : Int) ∧
      (s.length : Int) ≤ (s.length : Int) := by omega
  rw [if_pos h1, Int.toNat_ofNat]
  congr 1
  apply List.take_of_length_le
  rw [List.length_drop]
  omega

/-- `strings.Index` for one byte and `takeWhile`. -/
theorem IndexByte_spec (c : Nat) : ∀ s : Bytes,
    match IndexByte c s with
    | some n => n ≤ s.length ∧ s.take n = s.takeWhile (· ≠ c)
    | none => s = s.takeWhile (· ≠ c) := by
  intro s
  induction s with
  | nil => simp [IndexByte]
  | cons d rest ih =>
    unfold IndexByte
    by_cases hd : d = c
    · simp [hd]
    · rw [if_neg hd]
      cases hr : IndexByte c rest with
      | none =>
        rw [hr] at ih
        simp only [Option.map_none']
        simp only at ih
        rw [List.takeWhile_cons_of_pos (by simpa using hd), ← ih]
      | some n =>
        rw [hr] at ih
        simp only [Option.map_some'] 
        simp only at ih
        refine ⟨by simp; exact ih.1, ?_⟩
        rw [List.takeWhile_cons_of_pos (by simpa using hd), List.take_succ_cons, ih.2]

/-- The value cut at the first `&`. -/
theorem cut_amp (val : Bytes) :
    (match IndexByte 38 val with
      | some amp => (sliceOf val 0 amp).map some
      | none => some (some val)) = some (some (val.takeWhile (· ≠ 38))) := by
  have h := IndexByte_spec 38 val
  cases hr : IndexByte 38 val with
  | none =>
    rw [hr] at h
    simp only at h ⊢
    rw [← h]
  | some n =>
    rw [hr] at h
    simp only at h ⊢
    have := sliceOf_nat val 0 n (by omega)
    simp only [Nat.cast_zero, zero_add, List.drop_zero] at this
    rw [this, h.2]
    rfl

/-- One turn of the loop, within the bounds: it returns the value when the
parameter stands at `i`, and goes on otherwise; it does not panic. -/
theorem extractParamStep_spec (s key : Bytes) (i : Nat)
    (h : i + (key ++ [61]).length ≤ s.length) :
    extractParamStep s (key ++ [61]) (i : Int) =
      if paramAt s key i then
        some (some ((s.drop (i + (key ++ [61]).length)).takeWhile (· ≠ 38)))
      else some none := by
  unfold extractParamStep
  rw [sliceOf_nat s i _ h]
  simp only
  have hfound : (match sliceOf s ((i : Int) + ((key ++ [61]).length : Int)) (s.length : Int) with
      | none => none
      | some val =>
        match IndexByte 38 val with
        | some amp => (sliceOf val 0 amp).map some
        | none => some (some val)) =
      some (some ((s.drop (i + (key ++ [61]).length)).takeWhile (· ≠ 38))) := by
    have := sliceOf_tail s (i + (key ++ [61]).length) h
    rw [Nat.cast_add] at this
    rw [this]
    exact cut_amp _
  rw [hfound]
  have hpre : (key ++ [61]) <+: s.drop i ↔ (s.drop i).take (key ++ [61]).length = key ++ [61] := by
    rw [List.prefix_iff_eq_take]
    exact eq_comm
  by_cases hw : (s.drop i).take (key ++ [61]).length = key ++ [61]
  · rw [if_neg (by simpa using hw)]
    by_cases h0 : i = 0
    · subst h0
      rw [if_pos (by simp), if_pos]
      exact ⟨hpre.mpr hw, Or.inl rfl⟩
    · rw [if_neg (by omega)]
      have hb : byteAt s ((i : Int) - 1) = s.get? (i - 1) := by
        unfold byteAt
        rw [if_pos (by omega)]
        congr 1
        omega
      rw [hb]
      have hlt : i - 1 < s.length := by omega
      rw [List.get?_eq_get hlt]
      simp only
      by_cases h38 : s.get ⟨i - 1, hlt⟩ = 38
      · rw [if_pos h38, if_pos]
        exact ⟨hpre.mpr hw, Or.inr (Or.inl (by rw [List.get?_eq_get hlt, h38]))⟩
      · rw [if_neg h38]
        by_cases h63 : s.get ⟨i - 1, hlt⟩ = 63
        · rw [if_pos h63, if_pos]
          exact ⟨hpre.mpr hw, Or.inr (Or.inr (by rw [List.get?_eq_get hlt, h63]))⟩
        · rw [if_neg h63, if_neg]
          rintro ⟨_, h1 | h1 | h1⟩
          · exact h0 h1
          · rw [List.get?_eq_get hlt] at h1
            exact h38 (Option.some.inj h1)
          · rw [List.get?_eq_get hlt] at h1
            exact h63 (Option.some.inj h1)
  · rw [if_pos (by simpa using hw), if_neg]
    rintro ⟨h1, _⟩
    exact hw (hpre.mp h1)

/-- No parameter stands where the rest of `s` is shorter than `key=`. -/
theorem paramAt_bound (s key : Bytes) (i : Nat) (h : paramAt s key i) :
    i + (key ++ [61]).length ≤ s.length := by
  have := h.1.length_le
  rw [List.length_drop] at this
  have h2 : 1 ≤ (key ++ [61]).length := by simp
  omega

/-- The loop of `extractParam` with enough fuel. -/
theorem extractParamLoop_spec (s key : Bytes) : ∀ (fuel i : Nat),
    0 < fuel → s.length + 2 ≤ fuel + i →
    ∃ r, extractParamLoop s (key ++ [61]) fuel (i : Int) = some r ∧ 38 ∉ r ∧
      (∀ j, i ≤ j → paramAt s key j → (∀ m, i ≤ m → m < j → ¬ paramAt s key m) →
        r = (s.drop (j + key.length + 1)).takeWhile (· ≠ 38)) ∧
      ((∀ j, i ≤ j → ¬ paramAt s key j) → r = []) := by
  intro fuel
  induction fuel with
  | zero =>
    intro i h0 _
    omega
  | succ fuel ih =>
    intro i _ h
    unfold extractParamLoop
    by_cases hi : (i : Int) ≤ (s.length : Int) - ((key ++ [61]).length : Int)
    · rw [if_pos hi]
      have hb : i + (key ++ [61]).length ≤ s.length := by omega
      rw [extractParamStep_spec s key i hb]
      by_cases hp : paramAt s key i
      · rw [if_pos hp]
        refine ⟨_, rfl, ?_, ?_, ?_⟩
        · intro hm
          have := List.mem_takeWhile_imp hm
          simp at this
        · intro j hij hj hfirst
          have : j = i := by
            by_contra hne
            exact hfirst i (le_refl _) (by omega) hp
          subst this
          simp only [List.length_append, List.length_singleton, Nat.add_assoc]
        · intro hno
          exact absurd hp (hno i (le_refl _))
      · rw [if_neg hp]
        obtain ⟨r, hr, hamp, hfirst, hnone⟩ := ih (i + 1) (by omega) (by omega)
        refine ⟨r, ?_, hamp, ?_, ?_⟩
        · rw [← hr]; rfl
        · intro j hij hj hf
          have hne : j ≠ i := by rintro rfl; exact hp hj
          exact hfirst j (by omega) hj (fun m hm1 hm2 => hf m (by omega) hm2)
        · intro hno
          apply hnone
          intro j hj
          exact hno j (by omega)
    · rw [if_neg hi]
      refine ⟨[], rfl, by simp, ?_, fun _ => rfl⟩
      intro j hij hj _
      have := paramAt_bound s key j hj
      omega

/-- C36. Token extraction from a captured request: for every string `s` and
key `k`, `extractParam(s, k)` returns without panic; its result holds no `&`;
when `k=` stands in `s` at the start or directly after `&` or `?`, the result
is the text after the first such occurrence up to but not including the next
`&` (or to the end of `s`); when there is no such occurrence the result is the
empty string. An occurrence of `k=` inside a longer parameter name is not
one: `extractParam("format=x", "at")` is empty, and
`extractParam("f.req=x&at=TOKEN&", "at")` is `TOKEN`. -/
theorem C36_extractParam (s k : Bytes) :
    ∃ r, extractParam s k = some r ∧ 38 ∉ r ∧
      (∀ i, paramAt s k i → (∀ m, m < i → ¬ paramAt s k m) →
        r = (s.drop (i + k.length + 1)).takeWhile (· ≠ 38)) ∧
      ((∀ i, ¬ paramAt s k i) → r = []) ∧
      extractParam (ascii "f.req=x&at=TOKEN&") (ascii "at") = some (ascii "TOKEN") ∧
      extractParam (ascii "format=x") (ascii "at") = some [] ∧
      ¬ paramAt (ascii "format=x") (ascii "at") 3 := by
  obtain ⟨r, hr, hamp, hfirst, hnone⟩ :=
    extractParamLoop_spec s k (s.length + 2) 0 (by omega) (by omega)
  refine ⟨r, hr, hamp, ?_, ?_, by rfl, by rfl, by decide⟩
  · intro i hi hf
    exact hfirst i (Nat.zero_le _) hi (fun m _ hm => hf m hm)
  · intro hno
    exact hnone (fun j _ => hno j)

end ExtractParam

/-- The witness of C36: the parameter `at` after another parameter. -/
theorem C36_extractParam_witness :
    ∃ r, Mcp.extractParam (ascii "a=1&at=T&b=2") (ascii "at") = some r ∧ 38 ∉ r ∧
      r = ascii "T" :=
  let ⟨r, h1, h2, h3, _⟩ := C36_extractParam (ascii "a=1&at=T&b=2") (ascii "at")
  ⟨r, h1, h2, h3 4 (by decide) (by decide)⟩

/-! ## The length of a line that holds an entry -/

theorem DecodeRune_size_pos (a : Nat) (rest : Bytes) :
    1 ≤ (Utf8.DecodeRune (a :: rest)).2 := by
  unfold Utf8.DecodeRune
  dsimp only
  split_ifs <;> (try simp) <;> (split <;> (try simp); (split_ifs <;> simp))

/-- An encoding made of ASCII bytes is one byte long. -/
theorem EncodeRune_ascii_length (r : Nat) (h : ∀ b ∈ Utf8.EncodeRune r, b < 128) :
    (Utf8.EncodeRune r).length ≤ 1 := by
  unfold Utf8.EncodeRune at h ⊢
  split_ifs at h ⊢
  · simp
  · have := h (0xC0 + r / 64) (by simp); omega
  · have := h 0xEF (by simp); omega
  · have := h (0xE0 + r / 4096) (by simp); omega
  · have := h (0xF0 + r / 262144) (by simp); omega

/-- One round of `unquoteBytes` consumes at least one byte, and writes at
most one byte when what it writes is ASCII. -/
theorem unquoteStep_ascii (s o left : Bytes) (h : unquoteStep s = some (o, left)) :
    left.length + 1 ≤ s.length ∧ ((∀ b ∈ o, b < 128) → o.length ≤ 1) := by
  cases s with
  | nil => simp [unquoteStep] at h
  | cons c rest =>
    by_cases hc : c = 92
    · cases rest with
      | nil => simp [unquoteStep, hc] at h
      | cons e rest1 =>
        rw [unquoteStep, if_pos hc] at h
        by_cases h1 : e = 34 ∨ e = 92 ∨ e = 47 ∨ e = 39
        · rw [if_pos h1] at h
          obtain ⟨rfl, rfl⟩ := Prod.mk.inj (Option.some.inj h)
          exact ⟨by simp, fun _ => by simp⟩
        rw [if_neg h1] at h
        by_cases h2 : e = 98
        · rw [if_pos h2] at h
          obtain ⟨rfl, rfl⟩ := Prod.mk.inj (Option.some.inj h)
          exact ⟨by simp, fun _ => by simp⟩
        rw [if_neg h2] at h
        by_cases h3 : e = 102
        · rw [if_pos h3] at h
          obtain ⟨rfl, rfl⟩ := Prod.mk.inj (Option.some.inj h)
          exact ⟨by simp, fun _ => by simp⟩
        rw [if_neg h3] at h
        by_cases h4 : e = 110
        · rw [if_pos h4] at h
          obtain ⟨rfl, rfl⟩ := Prod.mk.inj (Option.some.inj h)
          exact ⟨by simp, fun _ => by simp⟩
        rw [if_neg h4] at h
        by_cases h5 : e = 114
        · rw [if_pos h5] at h
          obtain ⟨rfl, rfl⟩ := Prod.mk.inj (Option.some.inj h)
          exact ⟨by simp, fun _ => by simp⟩
        rw [if_neg h5] at h
        by_cases h6 : e = 116
        · rw [if_pos h6] at h
          obtain ⟨rfl, rfl⟩ := Prod.mk.inj (Option.some.inj h)
          exact ⟨by simp, fun _ => by simp⟩
        rw [if_neg h6] at h
        by_cases h7 : e = 117
        · rw [if_pos h7] at h
          cases hg : getu4 (c :: e :: rest1) with
          | none => rw [hg] at h; cases h
          | some rr =>
            rw [hg] at h
            dsimp only at h
            by_cases hs : Utf8.IsSurrogate rr = true
            · rw [if_pos hs] at h
              by_cases hd : Utf8.DecodeSurrogates rr (getu4 (List.drop 5 (e :: rest1))) ≠
                  Utf8.RuneError
              · rw [if_pos hd] at h
                obtain ⟨rfl, rfl⟩ := Prod.mk.inj (Option.some.inj h)
                refine ⟨by simp only [List.length_drop, List.length_cons]; omega,
                  fun hb => EncodeRune_ascii_length _ hb⟩
              · rw [if_neg hd] at h
                obtain ⟨rfl, rfl⟩ := Prod.mk.inj (Option.some.inj h)
                refine ⟨by simp only [List.length_drop, List.length_cons]; omega,
                  fun hb => EncodeRune_ascii_length _ hb⟩
            · rw [if_neg hs] at h
              obtain ⟨rfl, rfl⟩ := Prod.mk.inj (Option.some.inj h)
              refine ⟨by simp only [List.length_drop, List.length_cons]; omega,
                fun hb => EncodeRune_ascii_length _ hb⟩
        · rw [if_neg h7] at h
          cases h
    · rw [unquoteStep.eq_def] at h
      dsimp only at h
      rw [if_neg hc] at h
      by_cases h1 : c = 34 ∨ c < 32
      · rw [if_pos h1] at h; cases h
      rw [if_neg h1] at h
      by_cases h2 : c < 128
      · rw [if_pos h2] at h
        obtain ⟨rfl, rfl⟩ := Prod.mk.inj (Option.some.inj h)
        exact ⟨by simp, fun _ => by simp⟩
      · rw [if_neg h2] at h
        obtain ⟨rfl, rfl⟩ := Prod.mk.inj (Option.some.inj h)
        refine ⟨?_, fun hb => EncodeRune_ascii_length _ hb⟩
        have := DecodeRune_size_pos c rest
        simp only [List.length_drop, List.length_cons]
        omega

/-- An ASCII string is at most as long as the text between the quotes of a
literal that stands for it. -/
theorem unquoteLoop_ascii_length : ∀ (fuel : Nat) (s out : Bytes),
    unquoteLoop fuel s = some out → (∀ b ∈ out, b < 128) → out.length ≤ s.length := by
  intro fuel
  induction fuel with
  | zero =>
    intro s out h _
    cases s with
    | nil => simp [unquoteLoop] at h; subst h; simp
    | cons c rest => simp [unquoteLoop] at h
  | succ fuel ih =>
    intro s out h hb
    cases s with
    | nil => simp [unquoteLoop] at h; subst h; simp
    | cons c rest =>
      unfold unquoteLoop at h
      split at h
      · cases h
      · rename_i o left hs
        cases hl : unquoteLoop fuel left with
        | none => rw [hl] at h; cases h
        | some t =>
          rw [hl] at h
          simp only [Option.map_some', Option.some.injEq] at h
          subst h
          obtain ⟨h1, h2⟩ := unquoteStep_ascii _ _ _ hs
          have h3 := ih left t hl (fun b hbt => hb b (by simp [hbt]))
          have h4 := h2 (fun b hbo => hb b (by simp [hbo]))
          simp only [List.length_append]
          omega

theorem unquoteBytes_ascii_length (s out : Bytes) (h : unquoteBytes s = some out)
    (hb : ∀ b ∈ out, b < 128) : out.length + 2 ≤ s.length := by
  unfold unquoteBytes at h
  split_ifs at h with h1
  have := unquoteLoop_ascii_length _ _ _ h hb
  simp only [List.length_dropLast, List.length_drop] at this
  omega

theorem trimValue_length (d : Bytes) : (trimValue d).length ≤ d.length := by
  unfold trimValue
  rw [List.length_reverse]
  have h1 := (List.dropWhile_sublist isSpace (l := (d.dropWhile isSpace).reverse)).length_le
  have h2 := (List.dropWhile_sublist isSpace (l := d)).length_le
  rw [List.length_reverse] at h1
  omega

/-- A raw value that reads as the string `wrb.fr` has at least 8 bytes. -/
theorem UnmarshalString_wrbFr_length (m : Bytes) (h : UnmarshalString m [] = .ok wrbFr) :
    8 ≤ m.length := by
  rcases UnmarshalString_ok m wrbFr h with h1 | h1
  · unfold stringOf at h1
    have h2 : unquoteBytes (trimValue m) = some wrbFr := by
      revert h1
      split_ifs <;> simp
    have := unquoteBytes_ascii_length _ _ h2 (by decide)
    have := trimValue_length m
    have : wrbFr.length = 6 := rfl
    omega
  · exact absurd h1.2 (by decide)

/-- The raw elements of an array, one more byte counted for each, fit into
the text of the array. -/
theorem UnmarshalRawSlice_measure (data : Bytes) (elems : List Bytes)
    (h : UnmarshalRawSlice data = .ok elems) :
    (elems.map (·.length + 1)).sum ≤ data.length := by
  unfold UnmarshalRawSlice at h
  split_ifs at h
  · have : rawElements data = elems := by simpa using h
    subst this
    unfold rawElements
    have hm := Split_foldl_measure data ⟨Scanner.reset, [], []⟩
    simp only [List.length_nil, List.map_nil, List.sum_nil, Nat.zero_add] at hm
    rw [List.map_reverse, List.sum_reverse]
    omega
  · have : [] = elems := by simpa using h
    subst this
    simp

/-- An entry for `rpcID`, usable or not, has at least 11 bytes. -/
theorem entryMatches_length (rpcID item : Bytes) (h : entryMatches rpcID item) :
    11 ≤ item.length := by
  obtain ⟨m, i, p, rest, hu, hm, _⟩ := h
  have h1 := UnmarshalRawSlice_measure item _ hu
  have h2 := UnmarshalString_wrbFr_length m hm
  simp only [List.map_cons, List.sum_cons] at h1
  omega

theorem TrimSpace_length (s : Bytes) : (TrimSpace s).length ≤ s.length := by
  obtain ⟨a, b, h, _⟩ := TrimSpace_spec s
  have := congrArg List.length h
  simp only [List.length_append] at this
  omega

/-- An entry of a line is shorter than the line. -/
theorem lineEntries_length (line item : Bytes) (h : item ∈ lineEntries line) :
    item.length < line.length := by
  unfold lineEntries at h
  split_ifs at h
  · split at h
    · rename_i outer hu
      have h1 := UnmarshalRawSlice_measure _ _ hu
      have hle : item.length + 1 ≤ (outer.map (·.length + 1)).sum :=
        List.single_le_sum (by intro x _; exact Nat.zero_le x) _
          (List.mem_map.mpr ⟨item, h, rfl⟩)
      have := TrimSpace_length line
      omega
    · simp at h
  · simp at h

/-- A line that holds an entry for `rpcID`, usable or not, is longer than 10
bytes. -/
theorem entry_line_length (rpcID line item : Bytes) (h : item ∈ lineEntries line)
    (he : entryMatches rpcID item) : 10 < line.length := by
  have := lineEntries_length line item h
  have := entryMatches_length rpcID item he
  omega

/-- A line of at most 10 bytes gives nothing to the scan. -/
theorem short_line_none (rpcID line : Bytes) (h : line.length ≤ 10) :
    (lineEntries line).findSome? (matchItem rpcID) = none := by
  apply List.findSome?_eq_none_iff.mpr
  intro item hi
  apply matchItem_of_not_matches
  intro he
  have := entry_line_length rpcID line item hi he
  omega

theorem IndexNewline_some (s : Bytes) : ∀ idx, IndexNewline s = some idx →
    ∃ pre t, s = pre ++ 10 :: t ∧ 10 ∉ pre ∧ pre.length = idx := by
  induction s with
  | nil => intro idx h; simp [IndexNewline] at h
  | cons c rest ih =>
    intro idx h
    unfold IndexNewline at h
    split_ifs at h with hc
    · subst hc
      have : idx = 0 := by simpa using h.symm
      subst this
      exact ⟨[], rest, rfl, by simp, rfl⟩
    · cases hr : IndexNewline rest with
      | none => rw [hr] at h; cases h
      | some n =>
        rw [hr] at h
        obtain ⟨pre, t, h1, h2, h3⟩ := ih n hr
        have : idx = n + 1 := by simpa using h.symm
        subst this
        refine ⟨c :: pre, t, by simp [h1], ?_, by simp [h3]⟩
        intro hm
        rcases List.mem_cons.mp hm with h4 | h4
        · exact hc h4.symm
        · exact h2 h4

/-- The scan of the lines of the remainder is the scan of the lines of the
whole body: the dropped first line gives nothing. -/
theorem scanLines_stripPrefix (rpcID body : Bytes) :
    scanLines rpcID (SplitNewline (stripPrefix body)) =
      scanLines rpcID (SplitNewline body) := by
  unfold stripPrefix
  cases hi : IndexNewline body with
  | none => rfl
  | some idx =>
    simp only
    split_ifs with hlt
    · obtain ⟨pre, t, h1, h2, h3⟩ := IndexNewline_some body idx hi
      subst h1
      rw [SplitNewline_append pre t h2, scanLines_eq_findSome, scanLines_eq_findSome,
        List.findSome?_cons, short_line_none rpcID pre (by omega)]
      congr 1
      rw [h3.symm]
      simp
    · rfl
/-- A line from which `extractRPCPayload` returns a payload has at least 12
bytes. -/
theorem extractRPCPayload_length (line rpcID p : Bytes)
    (h : extractRPCPayload line rpcID = some p) : 12 ≤ line.length := by
  unfold extractRPCPayload at h
  split at h
  · rename_i outer hu
    obtain ⟨item, hi, hm⟩ := List.exists_of_findSome?_eq_some h
    have he : entryMatches rpcID item := by
      by_contra hn
      rw [matchItem_of_not_matches rpcID item hn] at hm
      cases hm
    have h1 := UnmarshalRawSlice_measure _ _ hu
    have hle : item.length + 1 ≤ (outer.map (·.length + 1)).sum :=
      List.single_le_sum (by intro x _; exact Nat.zero_le x) _
        (List.mem_map.mpr ⟨item, hi, rfl⟩)
    have := entryMatches_length rpcID item he
    omega
  · cases h

set_option maxRecDepth 100000 in
/-- C35. Prefix stripping rule: for every body, `ParseBatchResponse` works on
the body without everything up to and including its first newline exactly
when that newline lies at a byte index below 10, and on the unchanged body
otherwise (also when there is no newline). The dropped text is not compared
with the anti-hijacking marker: the first line `junk` is dropped like the
marker. A line that holds an entry for `rpcID`, usable or not, is longer than
10 bytes, and a line from which `extractRPCPayload` returns a payload has at
least 12 bytes, while a dropped line has at most 9; so the search over the
lines of the remainder is the search over the lines of the whole body:
stripping never removes a line with a matching entry. -/
theorem C35_prefix_stripping (body rpcID : Bytes) :
    (∀ pre t, body = pre ++ 10 :: t → 10 ∉ pre →
      stripPrefix body = if pre.length < 10 then t else body) ∧
    (10 ∉ body → stripPrefix body = body) ∧
    ParseBatchResponse body rpcID =
      (if TrimSpace (stripPrefix body) = [] then .error (.emptyBody rpcID)
       else if looksLikeHTML (TrimSpace (stripPrefix body)) then .error .html
       else match scanLines rpcID (SplitNewline body) with
         | some payload => .ok payload
         | none => .error (.notFound rpcID)) ∧
    (∀ line item, item ∈ lineEntries line → entryMatches rpcID item → 10 < line.length) ∧
    (∀ line p, extractRPCPayload (TrimSpace line) rpcID = some p → 12 ≤ line.length) ∧
    stripPrefix (ascii "junk\n[[\"wrb.fr\",\"R1\",\"[1]\"]]") =
      ascii "[[\"wrb.fr\",\"R1\",\"[1]\"]]" ∧
    ParseBatchResponse (ascii "junk\n[[\"wrb.fr\",\"R1\",\"[1]\"]]") (ascii "R1") =
      .ok (ascii "[1]") := by
  refine ⟨?_, ?_, ?_, ?_, ?_, by rfl, by rfl⟩
  · intro pre t hb hpre
    subst hb
    unfold stripPrefix
    rw [IndexNewline_append pre t hpre]
    simp
  · intro h
    unfold stripPrefix
    rw [IndexNewline_none body h]
  · unfold ParseBatchResponse
    simp only [scanLines_stripPrefix]
  · intro line item hi he
    exact entry_line_length rpcID line item hi he
  · intro line p h
    have := extractRPCPayload_length _ _ _ h
    have := TrimSpace_length line
    omega

/-- The witness of C35: a body whose first newline is at index 4. -/
theorem C35_prefix_stripping_witness :
    stripPrefix (ascii ")]\x7d'\n[1]") = ascii "[1]" :=
  (C35_prefix_stripping (ascii ")]\x7d'\n[1]") []).1 (ascii ")]\x7d'") (ascii "[1]")
    (by rfl) (by decide)

/-! ## An entry with an unusable payload -/

/-- The loop of `extractRPCPayload` passes over an entry for `rpcID` whose
third element is neither a string nor `null`. -/
theorem matchItem_unusable (rpcID item : Bytes) (h : unusableEntry rpcID item) :
    matchItem rpcID item = none := by
  obtain ⟨m, i, p, rest, hu, hm, hi, hv, h34, h110⟩ := h
  have hp : ∀ cur, UnmarshalString p cur = .error .typeError := by
    intro cur
    simp [UnmarshalString, hv, h34, h110]
  have hn : UnmarshalsToNil p = false := by
    simp [UnmarshalsToNil, hv, h110]
  simp [matchItem, hu, hm, hi, hp, hn]

/-- An item that is not a usable entry gives nothing. -/
theorem matchItem_not_usable (rpcID item : Bytes) (h : ¬ usableEntry rpcID item) :
    matchItem rpcID item = none := by
  cases hm : matchItem rpcID item with
  | none => rfl
  | some payload =>
    exact absurd ((matchItem_isSome_iff rpcID item).mp (by simp [hm])) h

/-- An entry with an unusable payload is not a usable entry. -/
theorem unusable_not_usable (rpcID item : Bytes) (h : unusableEntry rpcID item) :
    ¬ usableEntry rpcID item := by
  intro hu
  have h1 := matchItem_unusable rpcID item h
  have h2 := (matchItem_isSome_iff rpcID item).mpr hu
  simp [h1] at h2

/-- C37. A matching entry with an unusable payload is skipped, not returned:
an entry with marker `wrb.fr` and identifier `rpcID` whose third element is a
JSON value other than a string and `null` makes the loop of
`extractRPCPayload` continue, and it is not a usable entry. For a body whose
remainder is not blank and not detected as HTML: when the entry `e` on line
`l` is usable (third element a string standing for `payload`, or `null`, which
reads as the empty string) and no item before it, on the lines before `l` and
before `e` on `l`, is usable (entries with an unusable payload included),
`ParseBatchResponse` returns the payload of `e`; and when no item of any line
is usable, the call fails with the not-found error, however many entries with
an unusable payload there are. -/
theorem C37_unusable_payload_skipped (body rpcID : Bytes)
    (hblank : TrimSpace (stripPrefix body) ≠ [])
    (hhtml : looksLikeHTML (TrimSpace (stripPrefix body)) = false) :
    (∀ item, unusableEntry rpcID item →
      matchItem rpcID item = none ∧ entryMatches rpcID item ∧ ¬ usableEntry rpcID item) ∧
    (∀ (pre post : List Bytes) (l : Bytes) (epre epost : List Bytes) (e m i p payload : Bytes)
        (rest : List Bytes),
      SplitNewline (stripPrefix body) = pre ++ l :: post →
      (∀ x ∈ pre, ∀ item ∈ lineEntries x, ¬ usableEntry rpcID item) →
      lineEntries l = epre ++ e :: epost →
      (∀ item ∈ epre, ¬ usableEntry rpcID item) →
      UnmarshalRawSlice e = .ok (m :: i :: p :: rest) →
      UnmarshalString m [] = .ok wrbFr → UnmarshalString i [] = .ok rpcID →
      (stringOf p = some payload ∨ (UnmarshalsToNil p = true ∧ payload = [])) →
      ParseBatchResponse body rpcID = .ok payload) ∧
    ((∀ x ∈ SplitNewline (stripPrefix body), ∀ item ∈ lineEntries x,
        ¬ usableEntry rpcID item) →
      ParseBatchResponse body rpcID = .error (.notFound rpcID)) := by
  rw [ParseBatchResponse_remainder body rpcID hblank hhtml]
  refine ⟨?_, ?_, ?_⟩
  · intro item h
    refine ⟨matchItem_unusable rpcID item h, ?_, unusable_not_usable rpcID item h⟩
    obtain ⟨m, i, p, rest, hu, hm, hi, _⟩ := h
    exact ⟨m, i, p, rest, hu, hm, hi⟩
  · intro pre post l epre epost e m i p payload rest hlines hpre hl hepre he hm hi hp
    have h1 : pre.findSome? (fun l => (lineEntries l).findSome? (matchItem rpcID)) = none :=
      List.findSome?_eq_none_iff.mpr fun x hx =>
        List.findSome?_eq_none_iff.mpr fun item hitem =>
          matchItem_not_usable rpcID item (hpre x hx item hitem)
    have h2 : epre.findSome? (matchItem rpcID) = none :=
      List.findSome?_eq_none_iff.mpr fun item hitem =>
        matchItem_not_usable rpcID item (hepre item hitem)
    have h3 : UnmarshalString p [] = .ok payload := by
      rcases hp with hp | ⟨hp, rfl⟩
      · exact UnmarshalString_of_stringOf p payload [] hp
      · unfold UnmarshalsToNil at hp
        simp only [decide_eq_true_eq] at hp
        simp [UnmarshalString, hp.1, hp.2]
    have h4 := matchItem_of_payload rpcID e m i p payload rest he hm hi h3
    rw [hlines]
    simp [List.findSome?_append, h1, List.findSome?_cons, hl, h2, h4]
  · intro hno
    have : (SplitNewline (stripPrefix body)).findSome?
        (fun l => (lineEntries l).findSome? (matchItem rpcID)) = none :=
      List.findSome?_eq_none_iff.mpr fun x hx =>
        List.findSome?_eq_none_iff.mpr fun item hitem =>
          matchItem_not_usable rpcID item (hno x hx item hitem)
    rw [this]

set_option maxRecDepth 100000 in
/-- The witness of C37: a line whose first entry for `R1` carries the number
5 and whose second entry for `R1` carries the string `[1]`. -/
theorem C37_unusable_payload_skipped_witness :
    ParseBatchResponse (ascii ")]\x7d'\n[[\"wrb.fr\",\"R1\",5],[\"wrb.fr\",\"R1\",\"[1]\"]]")
      (ascii "R1") = .ok (ascii "[1]") :=
  (C37_unusable_payload_skipped
    (ascii ")]\x7d'\n[[\"wrb.fr\",\"R1\",5],[\"wrb.fr\",\"R1\",\"[1]\"]]") (ascii "R1")
    (by decide!) (by rfl)).2.1
    [] [] (ascii "[[\"wrb.fr\",\"R1\",5],[\"wrb.fr\",\"R1\",\"[1]\"]]")
    [ascii "[\"wrb.fr\",\"R1\",5]"] [] (ascii "[\"wrb.fr\",\"R1\",\"[1]\"]")
    (ascii "\"wrb.fr\"") (ascii "\"R1\"") (ascii "\"[1]\"") (ascii "[1]") []
    (by rfl) (by intro x hx; cases hx) (by rfl)
    (by
      intro item hitem
      have : item = ascii "[\"wrb.fr\",\"R1\",5]" := by simpa using hitem
      subst this
      exact unusable_not_usable _ _
        ⟨ascii "\"wrb.fr\"", ascii "\"R1\"", ascii "5", [], by rfl, by rfl, by rfl, by rfl,
          by decide, by decide⟩)
    (by rfl) (by rfl) (by rfl) (Or.inl (by rfl))

/-! ## White space around a JSON value -/

theorem ScannerInv_reset : ScannerInv Scanner.reset := by
  intro h; cases h

theorem inv_flag (s : Scanner) (h : s.endTop = false) : ScannerInv s := by
  intro h2; rw [h] at h2; cases h2

theorem inv_fail (s : Scanner) (h : ScannerInv s) : ScannerInv s.fail.1 := by
  intro hf; exact ⟨Or.inr rfl, (h hf).2⟩

theorem inv_goto (s : Scanner) (st : Step) (op : Op) (h : s.endTop = false) :
    ScannerInv (s.goto st op).1 := inv_flag _ h

theorem inv_push (s : Scanner) (st : Step) (k : ParseKind) (op : Op) (h : s.endTop = false) :
    ScannerInv (s.pushParseState st k op).1 := by
  unfold Scanner.pushParseState
  split_ifs <;> exact inv_flag _ h

theorem inv_pop (s : Scanner) (h : s.endTop = false) : ScannerInv s.popParseState := by
  unfold Scanner.popParseState
  split
  · intro _; exact ⟨Or.inl rfl, rfl⟩
  · exact inv_flag _ h

theorem inv_endTop (s : Scanner) (c : Nat) (h : ScannerInv s) :
    ScannerInv (stateEndTop s c).1 := by
  unfold stateEndTop
  split_ifs
  · exact h
  · intro hf; exact ⟨Or.inr rfl, (h hf).2⟩

theorem inv_endValue (s : Scanner) (c : Nat) (h : s.endTop = false) :
    ScannerInv (stateEndValue s c).1 := by
  unfold stateEndValue
  split
  · rename_i hps
    apply inv_endTop
    intro _; exact ⟨Or.inl rfl, hps⟩
  · rename_i ps rest hps
    by_cases hsp : isSpace c = true
    · rw [if_pos hsp]; exact inv_goto _ _ _ h
    · rw [if_neg hsp]
      cases ps
      · dsimp only
        split_ifs
        · exact inv_flag _ h
        · exact inv_fail _ (inv_flag _ h)
      · dsimp only
        split_ifs
        · exact inv_flag _ h
        · exact inv_pop _ h
        · exact inv_fail _ (inv_flag _ h)
      · dsimp only
        split_ifs
        · exact inv_goto _ _ _ h
        · exact inv_pop _ h
        · exact inv_fail _ (inv_flag _ h)

theorem inv_beginValue (s : Scanner) (c : Nat) (h : s.endTop = false) :
    ScannerInv (stateBeginValue s c).1 := by
  unfold stateBeginValue
  by_cases h1 : isSpace c = true
  · rw [if_pos h1]; exact inv_flag _ h
  rw [if_neg h1]
  by_cases h2 : c = 123
  · rw [if_pos h2]; exact inv_push _ _ _ _ h
  rw [if_neg h2]
  by_cases h3 : c = 91
  · rw [if_pos h3]; exact inv_push _ _ _ _ h
  rw [if_neg h3]
  split_ifs
  all_goals exact inv_goto _ _ _ h

theorem inv_beginString (s : Scanner) (c : Nat) (h : s.endTop = false) :
    ScannerInv (stateBeginString s c).1 := by
  unfold stateBeginString
  split_ifs <;> exact inv_flag _ h

theorem inv_state0 (s : Scanner) (c : Nat) (h : s.endTop = false) :
    ScannerInv (state0 s c).1 := by
  unfold state0
  split_ifs <;>
    first
    | exact inv_goto _ _ _ h
    | exact inv_endValue _ _ h

theorem inv_lit (s : Scanner) (c w : Nat) (st : Step) (h : s.endTop = false) :
    ScannerInv (stateLit s c w st).1 := by
  unfold stateLit
  split_ifs <;> exact inv_goto _ _ _ h

/-- Every step of the scanner keeps the invariant. -/
theorem ScannerInv_next (s : Scanner) (c : Nat) (h : ScannerInv s) :
    ScannerInv (s.next c).1 := by
  by_cases hf : s.endTop = true
  · obtain ⟨h1 | h1, _⟩ := h hf
    · unfold Scanner.next
      rw [h1]
      exact inv_endTop s c h
    · unfold Scanner.next
      rw [h1]
      exact h
  · have hf : s.endTop = false := by simpa using hf
    unfold Scanner.next
    split
    · unfold stateBeginValueOrEmpty
      split_ifs
      · exact h
      · exact inv_endValue _ _ hf
      · exact inv_beginValue _ _ hf
    · exact inv_beginValue _ _ hf
    · unfold stateBeginStringOrEmpty
      split_ifs
      · exact h
      · exact inv_endValue _ _ hf
      · exact inv_beginString _ _ hf
    · exact inv_beginString _ _ hf
    · exact inv_endValue _ _ hf
    · exact inv_endTop _ _ h
    · unfold stateInString
      split_ifs <;>
        first
        | exact h
        | exact inv_goto _ _ _ hf
    · unfold stateInStringEsc
      split_ifs <;> exact inv_goto _ _ _ hf
    all_goals first
      | exact inv_state0 _ _ hf
      | exact inv_lit _ _ _ _ hf
      | exact h
      | (split_ifs <;>
          first
          | exact h
          | exact inv_goto _ _ _ hf
          | exact inv_state0 _ _ hf
          | exact inv_endValue _ _ hf)
      | (unfold stateESign
         split_ifs <;> exact inv_goto _ _ _ hf)

theorem ScannerInv_run (data : Bytes) : ∀ s : Scanner, ScannerInv s →
    ScannerInv (s.run data) := by
  induction data with
  | nil => intro s h; exact h
  | cons c rest ih =>
    intro s h
    exact ih _ (ScannerInv_next s c h)

set_option maxHeartbeats 1000000 in
/-- A white space byte does not change whether the text read so far is a
complete value; after a complete value it leaves the scanner at the top level
and closes no array. -/
theorem Scanner_next_space (s : Scanner) (c : Nat) (h : ScannerInv s)
    (hc : isSpace c = true) :
    (s.next c).1.eof = s.eof ∧
      (s.eof = true → (s.next c).1.parseState = [] ∧ (s.next c).2 ≠ .scanEndArray) := by
  have hc2 : c = 32 ∨ c = 9 ∨ c = 13 ∨ c = 10 := by simpa [isSpace] using hc
  obtain ⟨step, ps, flag⟩ := s
  cases flag with
  | true =>
    obtain ⟨h1 | h1, h2⟩ := h rfl
    all_goals
      simp only at h1 h2
      subst h1; subst h2
      rcases hc2 with rfl | rfl | rfl | rfl <;>
        simp [Scanner.eof, Scanner.next, stateEndTop, isSpace]
  | false =>
    rcases hc2 with rfl | rfl | rfl | rfl <;> cases step <;> cases ps <;>
      simp [Scanner.eof, Scanner.next, stateBeginValueOrEmpty, stateBeginValue,
        stateBeginStringOrEmpty, stateBeginString, stateEndValue, stateEndTop, stateInString,
        stateInStringEsc, state0, stateESign, stateLit, Scanner.goto, Scanner.fail, isSpace,
        isDigit, isHex]

theorem Scanner_run_spaces_eof (b : Bytes) (hb : ∀ c ∈ b, isSpace c = true) :
    ∀ s : Scanner, ScannerInv s → (s.run b).eof = s.eof := by
  induction b with
  | nil => intro s _; rfl
  | cons c rest ih =>
    intro s h
    have h1 := Scanner_next_space s c h (hb c (by simp))
    have h2 := ih (fun x hx => hb x (by simp [hx])) (s.next c).1 (ScannerInv_next s c h)
    show ((s.next c).1.run rest).eof = s.eof
    rw [h2, h1.1]

/-- White space after a complete value adds no element. -/
theorem Split_feed_spaces_tail (b : Bytes) (hb : ∀ c ∈ b, isSpace c = true) :
    ∀ st : Split, ScannerInv st.scan → st.scan.eof = true →
      (b.foldl Split.next st).elems = st.elems := by
  induction b with
  | nil => intro st _ _; rfl
  | cons c rest ih =>
    intro st h he
    have h1 := Scanner_next_space st.scan c h (hb c (by simp))
    obtain ⟨hps, hop⟩ := h1.2 he
    have hnext : Split.next st c = { st with scan := (st.scan.next c).1 } := by
      unfold Split.next
      simp only [hps, List.length_nil, if_true, hop, if_false]
    rw [List.foldl_cons, hnext]
    have := ih (fun x hx => hb x (by simp [hx])) { st with scan := (st.scan.next c).1 }
      (ScannerInv_next st.scan c h) (by rw [h1.1]; exact he)
    rw [this]

/-- White space before a value leaves the walk at its start. -/
theorem Split_feed_spaces_head (a : Bytes) (ha : ∀ c ∈ a, isSpace c = true) :
    a.foldl Split.next ⟨Scanner.reset, [], []⟩ = ⟨Scanner.reset, [], []⟩ := by
  induction a with
  | nil => rfl
  | cons c rest ih =>
    have hc : isSpace c = true := ha c (by simp)
    have h1 : Split.next ⟨Scanner.reset, [], []⟩ c = ⟨Scanner.reset, [], []⟩ := by
      simp [Split.next, Scanner.next, Scanner.reset, stateBeginValue, hc]
    rw [List.foldl_cons, h1]
    exact ih (fun x hx => ha x (by simp [hx]))

theorem firstByte_spaces_head (a x : Bytes) (ha : ∀ c ∈ a, isSpace c = true) :
    firstByte (a ++ x) = firstByte x := by
  unfold firstByte
  induction a with
  | nil => rfl
  | cons c rest ih =>
    rw [List.cons_append, List.dropWhile_cons_of_pos (ha c (by simp))]
    exact ih (fun y hy => ha y (by simp [hy]))

theorem firstByte_spaces_tail (x b : Bytes) (hb : ∀ c ∈ b, isSpace c = true) :
    firstByte (x ++ b) = firstByte x := by
  unfold firstByte
  induction x with
  | nil =>
    have : b.dropWhile isSpace = [] := List.dropWhile_eq_nil_iff.mpr hb
    simp [this]
  | cons c rest ih =>
    by_cases hc : isSpace c = true
    · rw [List.cons_append, List.dropWhile_cons_of_pos hc, List.dropWhile_cons_of_pos hc]
      exact ih
    · rw [List.cons_append, List.dropWhile_cons_of_neg hc, List.dropWhile_cons_of_neg hc]
      rfl

/-- `json.Unmarshal` into a slice of raw values does not see the white space
around the text. -/
theorem UnmarshalRawSlice_spaces (a x b : Bytes) (ha : ∀ c ∈ a, isSpace c = true)
    (hb : ∀ c ∈ b, isSpace c = true) :
    UnmarshalRawSlice (a ++ x ++ b) = UnmarshalRawSlice x := by
  have hinv : ScannerInv (Scanner.reset.run x) := ScannerInv_run x _ ScannerInv_reset
  have hrun : Scanner.reset.run (a ++ x ++ b) = (Scanner.reset.run x).run b := by
    rw [Scanner_run_append, Scanner_run_append, Scanner_run_spaces a ha]
  have hv : checkValid (a ++ x ++ b) = checkValid x := by
    unfold checkValid
    rw [hrun, Scanner_run_spaces_eof b hb _ hinv]
  have hf : firstByte (a ++ x ++ b) = firstByte x := by
    rw [List.append_assoc, firstByte_spaces_head a _ ha, firstByte_spaces_tail x b hb]
  unfold UnmarshalRawSlice
  rw [hv, hf]
  by_cases hx : checkValid x = true
  · have hr : rawElements (a ++ x ++ b) = rawElements x := by
      unfold rawElements
      rw [List.foldl_append, List.foldl_append, Split_feed_spaces_head a ha,
        Split_feed_spaces_tail b hb]
      · rw [Split_feed_scan]; exact hinv
      · rw [Split_feed_scan]; exact hx
    rw [hr]
  · simp [hx]

theorem extractAnswerFromChunk_spaces (a x b : Bytes) (ha : ∀ c ∈ a, isSpace c = true)
    (hb : ∀ c ∈ b, isSpace c = true) :
    extractAnswerFromChunk (a ++ x ++ b) = extractAnswerFromChunk x := by
  unfold extractAnswerFromChunk
  rw [UnmarshalRawSlice_spaces a x b ha hb]

/-- A line is handed over trimmed or as it is, with the same outcome. -/
theorem extractAnswerFromChunk_TrimSpace (l : Bytes) (h : plainSpaced l) :
    extractAnswerFromChunk (TrimSpace l) = extractAnswerFromChunk l := by
  obtain ⟨a, b, hl, ha, hb⟩ := h
  have := extractAnswerFromChunk_spaces a (TrimSpace l) b
    (fun c hc => by rcases ha c hc with h | h | h <;> simp [isSpace, h])
    (fun c hc => by rcases hb c hc with h | h | h <;> simp [isSpace, h])
  rw [← hl] at this
  exact this.symm

theorem firstByte_mem (l : Bytes) (c : Nat) (h : firstByte l = some c) : c ∈ l := by
  unfold firstByte at h
  have h1 : c ∈ l.dropWhile isSpace := by
    cases hd : l.dropWhile isSpace with
    | nil => rw [hd] at h; cases h
    | cons d rest =>
      rw [hd] at h
      simp only [List.head?_cons, Option.some.injEq] at h
      simp [h]
  exact (List.dropWhile_sublist isSpace).subset h1

/-- A text without `[` gives no candidate. -/
theorem extractAnswerFromChunk_no_bracket (l : Bytes) (h : 91 ∉ l) :
    extractAnswerFromChunk l = ([], false) := by
  have hf : firstByte l ≠ some 91 := fun hc => h (firstByte_mem l 91 hc)
  unfold extractAnswerFromChunk UnmarshalRawSlice
  split_ifs <;> simp

/-- A line that is blank once trimmed gives no candidate. -/
theorem extractAnswerFromChunk_blank (l : Bytes) (h : TrimSpace l = []) :
    extractAnswerFromChunk l = ([], false) := by
  apply extractAnswerFromChunk_no_bracket
  intro hm
  exact TrimSpace_ne_nil l 91 hm (by decide) (by decide) h

/-- A line of digits gives no candidate. -/
theorem extractAnswerFromChunk_digits (l : Bytes) (h : isNumber (TrimSpace l) = true) :
    extractAnswerFromChunk l = ([], false) := by
  apply extractAnswerFromChunk_no_bracket
  intro hm
  obtain ⟨a, b, hl, ha, hb⟩ := TrimSpace_spec l
  rw [hl] at hm
  simp only [List.mem_append] at hm
  rcases hm with (hm | hm) | hm
  · rcases ha 91 hm with h1 | h1
    · exact absurd h1 (by decide)
    · omega
  · unfold isNumber at h
    have := List.all_eq_true.mp h 91 hm
    simp at this
  · rcases hb 91 hm with h1 | h1
    · exact absurd h1 (by decide)
    · omega

theorem update_nothing (acc : Longest) : acc.update ([], false) = acc := by
  simp [Longest.update]

/-- The loop of `parseQueryResponse` is the fold over all the lines. -/
theorem queryLoop_all_lines : ∀ (n : Nat) (lines : List Bytes) (acc : Longest),
    lines.length ≤ n → (∀ l ∈ lines, plainSpaced l) →
    queryLoop lines acc = (lines.map extractAnswerFromChunk).foldl Longest.update acc := by
  intro n
  induction n with
  | zero =>
    intro lines acc h _
    cases lines with
    | nil => rfl
    | cons _ _ => simp at h
  | succ n ih =>
    intro lines acc h hp
    match lines, h, hp with
    | [], _, _ => rfl
    | [l], _, hp =>
      unfold queryLoop
      by_cases hl : TrimSpace l = []
      · simp [hl, extractAnswerFromChunk_blank l hl, update_nothing]
      · simp [hl, extractAnswerFromChunk_TrimSpace l (hp l (by simp))]
    | l :: next :: rest, h, hp =>
      have h1 : (next :: rest).length ≤ n := by simp at h ⊢; omega
      have h2 : rest.length ≤ n := by simp at h ⊢; omega
      have hp1 : ∀ x ∈ next :: rest, plainSpaced x := fun x hx => hp x (by simp [hx])
      have hp2 : ∀ x ∈ rest, plainSpaced x := fun x hx => hp x (by simp [hx])
      unfold queryLoop
      by_cases hl : TrimSpace l = []
      · simp only [hl, if_true]
        rw [ih _ _ h1 hp1]
        simp [extractAnswerFromChunk_blank l hl, update_nothing]
      · simp only [hl, if_false]
        by_cases hn : isNumber (TrimSpace l) = true
        · simp only [hn, if_true]
          rw [ih _ _ h2 hp2]
          simp [extractAnswerFromChunk_digits l hn, update_nothing]
        · simp only [hn, if_false]
          rw [ih _ _ h1 hp1]
          simp [extractAnswerFromChunk_TrimSpace l (hp l (by simp))]

/-- C38. The byte-count framing logic does not affect the result of the
streaming scanner: for every response text whose lines (those of the text
without the prefix and trimmed) carry no white space around their text other
than blank, tab and carriage return, `parseQueryResponse(text)` is the result
of applying `extractAnswerFromChunk` to every line in order and folding the
longest-answer / longest-thinking update over the outcomes. A line of digits
gives no candidate (`extractAnswerFromChunk` returns the empty text for it,
and the update with the empty text changes nothing), and the line after a
line of digits is handed to `extractAnswerFromChunk` like any other line. -/
theorem C38_framing_is_transparent (text : Bytes)
    (h : ∀ l ∈ queryLines text, plainSpaced l) :
    parseQueryResponse text = foldAllLines text ∧
    (∀ l, isNumber (TrimSpace l) = true →
      extractAnswerFromChunk l = ([], false) ∧
      ∀ acc : Longest, acc.update (extractAnswerFromChunk l) = acc) ∧
    (∀ (l next : Bytes) (rest : List Bytes) (acc : Longest),
      TrimSpace l ≠ [] → isNumber (TrimSpace l) = true →
      queryLoop (l :: next :: rest) acc =
        queryLoop rest (acc.update (extractAnswerFromChunk next))) := by
  refine ⟨?_, ?_, ?_⟩
  · unfold parseQueryResponse foldAllLines
    have := queryLoop_all_lines (queryLines text).length (queryLines text) ⟨[], []⟩
      (Nat.le_refl _) h
    unfold queryLines at this
    simp only [this]
    rfl
  · intro l hl
    have := extractAnswerFromChunk_digits l hl
    exact ⟨this, fun acc => by rw [this, update_nothing]⟩
  · intro l next rest acc hl hn
    rw [queryLoop]
    simp [hl, hn]

set_option maxRecDepth 100000 in
/-- The witness of C38: a response with the line ends `\r\n`, a byte-count
line and a chunk with an answer. -/
theorem C38_framing_is_transparent_witness :
    parseQueryResponse (ascii (")]\x7d'\n\n120\r\n"
      ++ "[[\"wrb.fr\",null,\"[[\\\"The answer is forty-two..\\\",null,null,null,[1]]]\"]]\r\n"))
    = foldAllLines (ascii (")]\x7d'\n\n120\r\n"
      ++ "[[\"wrb.fr\",null,\"[[\\\"The answer is forty-two..\\\",null,null,null,[1]]]\"]]\r\n")) ∧
    foldAllLines (ascii (")]\x7d'\n\n120\r\n"
      ++ "[[\"wrb.fr\",null,\"[[\\\"The answer is forty-two..\\\",null,null,null,[1]]]\"]]\r\n"))
    = ascii "The answer is forty-two.." :=
  ⟨(C38_framing_is_transparent (ascii (")]\x7d'\n\n120\r\n"
      ++ "[[\"wrb.fr\",null,\"[[\\\"The answer is forty-two..\\\",null,null,null,[1]]]\"]]\r\n"))
    (by
      intro l hl
      have hq : queryLines (ascii (")]\x7d'\n\n120\r\n"
          ++ "[[\"wrb.fr\",null,\"[[\\\"The answer is forty-two..\\\",null,null,null,[1]]]\"]]\r\n"))
          = [ascii "120\r",
             ascii "[[\"wrb.fr\",null,\"[[\\\"The answer is forty-two..\\\",null,null,null,[1]]]\"]]"] := by
        rfl
      rw [hq] at hl
      simp only [List.mem_cons, List.mem_singleton, List.not_mem_nil, or_false] at hl
      rcases hl with rfl | rfl
      · exact ⟨[], [13], by rfl, by simp, by simp⟩
      · exact ⟨[], [], by rfl, by simp, by simp⟩)).1,
   by rfl⟩

/-! ## The index field of research sources -/

theorem researchSource_none_iff (idx : Nat) (item : Bytes) :
    researchSource idx item = none ↔ malformed item = true := by
  unfold researchSource
  split_ifs with h <;> simp [h]

theorem researchSource_index (idx : Nat) (item : Bytes) (s : ResearchSource)
    (h : researchSource idx item = some s) : s.index = idx := by
  unfold researchSource at h
  split_ifs at h
  simp only [Option.some.injEq] at h
  rw [← h]

/-- A source of the loop started at `idx` comes from an item of the input and
carries the position of that item. -/
theorem parseResearchSourcesFrom_mem : ∀ (data : List Bytes) (idx : Nat) (s : ResearchSource),
    s ∈ parseResearchSourcesFrom idx data →
    ∃ i, ∃ h : i < data.length, s.index = ((idx + i : Nat) : Int) ∧
      researchSource (idx + i) (data.get ⟨i, h⟩) = some s := by
  intro data
  induction data with
  | nil => intro idx s h; simp [parseResearchSourcesFrom] at h
  | cons item rest ih =>
    intro idx s h
    unfold parseResearchSourcesFrom at h
    have hrest : s ∈ parseResearchSourcesFrom (idx + 1) rest →
        ∃ i, ∃ h : i < (item :: rest).length, s.index = ((idx + i : Nat) : Int) ∧
          researchSource (idx + i) ((item :: rest).get ⟨i, h⟩) = some s := by
      intro hm
      obtain ⟨i, hi, h1, h2⟩ := ih (idx + 1) s hm
      refine ⟨i + 1, by simp; omega, ?_, ?_⟩
      · rw [h1]; congr 1; omega
      · have : idx + (i + 1) = idx + 1 + i := by omega
        rw [this]
        simpa using h2
    cases hr : researchSource idx item with
    | none =>
      rw [hr] at h
      exact hrest h
    | some s0 =>
      rw [hr] at h
      rcases List.mem_cons.mp h with h1 | h1
      · subst h1
        exact ⟨0, by simp, researchSource_index idx item s hr, by simpa using hr⟩
      · exact hrest h1

/-- The source at list position `k` carries an index of at least `idx + k`. -/
theorem parseResearchSourcesFrom_ge : ∀ (data : List Bytes) (idx k : Nat) (s : ResearchSource),
    (parseResearchSourcesFrom idx data).get? k = some s →
    ((idx + k : Nat) : Int) ≤ s.index := by
  intro data
  induction data with
  | nil => intro idx k s h; simp [parseResearchSourcesFrom] at h
  | cons item rest ih =>
    intro idx k s h
    unfold parseResearchSourcesFrom at h
    cases hr : researchSource idx item with
    | none =>
      rw [hr] at h
      have := ih (idx + 1) k s h
      omega
    | some s0 =>
      rw [hr] at h
      cases k with
      | zero =>
        simp only [List.get?_cons_zero, Option.some.injEq] at h
        subst h
        rw [researchSource_index idx item s0 hr]
        simp
      | succ k =>
        simp only [List.get?_cons_succ] at h
        have := ih (idx + 1) k s h
        have hle : ((idx + (k + 1) : Nat) : Int) = ((idx + 1 + k : Nat) : Int) := by
          congr 1; omega
        rw [hle]
        exact this

/-- The index fields are strictly increasing. -/
theorem parseResearchSourcesFrom_sorted : ∀ (data : List Bytes) (idx : Nat),
    ((parseResearchSourcesFrom idx data).map (·.index)).Pairwise (· < ·) := by
  intro data
  induction data with
  | nil => intro idx; simp [parseResearchSourcesFrom]
  | cons item rest ih =>
    intro idx
    unfold parseResearchSourcesFrom
    cases hr : researchSource idx item with
    | none => exact ih (idx + 1)
    | some s0 =>
      simp only [List.map_cons, List.pairwise_cons]
      refine ⟨?_, ih (idx + 1)⟩
      intro x hx
      obtain ⟨s, hs, rfl⟩ := List.mem_map.mp hx
      obtain ⟨i, _, h1, _⟩ := parseResearchSourcesFrom_mem rest (idx + 1) s hs
      rw [researchSource_index idx item s0 hr, h1]
      omega

/-- The loop returns nothing exactly when every item is passed over. -/
theorem parseResearchSourcesFrom_nil_iff : ∀ (data : List Bytes) (idx : Nat),
    parseResearchSourcesFrom idx data = [] ↔ ∀ x ∈ data, malformed x = true := by
  intro data
  induction data with
  | nil => intro idx; simp [parseResearchSourcesFrom]
  | cons item rest ih =>
    intro idx
    unfold parseResearchSourcesFrom
    cases hr : researchSource idx item with
    | none =>
      have := (researchSource_none_iff idx item).mp hr
      simp [ih (idx + 1), this]
    | some s0 =>
      have : ¬ malformed item = true := fun hm => by
        rw [(researchSource_none_iff idx item).mpr hm] at hr; cases hr
      simp [this]

/-- The index fields are the list positions exactly when no item passed over
stands before a kept one. -/
theorem parseResearchSourcesFrom_positions : ∀ (data : List Bytes) (idx : Nat),
    (∀ (k : Nat) (s : ResearchSource), (parseResearchSourcesFrom idx data).get? k = some s →
      s.index = ((idx + k : Nat) : Int)) ↔
    ∃ good bad, data = good ++ bad ∧ (∀ x ∈ good, malformed x = false) ∧
      (∀ x ∈ bad, malformed x = true) := by
  intro data
  induction data with
  | nil =>
    intro idx
    constructor
    · intro _; exact ⟨[], [], rfl, by simp, by simp⟩
    · intro _ k s h; simp [parseResearchSourcesFrom] at h
  | cons item rest ih =>
    intro idx
    cases hr : researchSource idx item with
    | none =>
      have hm := (researchSource_none_iff idx item).mp hr
      have e : parseResearchSourcesFrom idx (item :: rest) =
          parseResearchSourcesFrom (idx + 1) rest := by
        rw [parseResearchSourcesFrom, hr]
      rw [e]
      constructor
      · intro hall
        have hnil : parseResearchSourcesFrom (idx + 1) rest = [] := by
          cases hl : parseResearchSourcesFrom (idx + 1) rest with
          | nil => rfl
          | cons s0 tl =>
            exfalso
            have h0 : (parseResearchSourcesFrom (idx + 1) rest).get? 0 = some s0 := by
              rw [hl]; rfl
            have h1 := hall 0 s0 h0
            have h2 := parseResearchSourcesFrom_ge rest (idx + 1) 0 s0 h0
            rw [h1] at h2
            omega
        have hbad := (parseResearchSourcesFrom_nil_iff rest (idx + 1)).mp hnil
        refine ⟨[], item :: rest, rfl, by simp, ?_⟩
        intro x hx
        rcases List.mem_cons.mp hx with h | h
        · rw [h]; exact hm
        · exact hbad x h
      · rintro ⟨good, bad, hd, hg, hb⟩
        have hgood : good = [] := by
          cases good with
          | nil => rfl
          | cons g gs =>
            exfalso
            have : item = g := by
              have := congrArg List.head? hd
              simpa using this
            have h2 := hg g (by simp)
            rw [← this, hm] at h2
            cases h2
        subst hgood
        have hnil : parseResearchSourcesFrom (idx + 1) rest = [] := by
          apply (parseResearchSourcesFrom_nil_iff rest (idx + 1)).mpr
          intro x hx
          exact hb x (by rw [List.nil_append] at hd; rw [← hd]; simp [hx])
        intro k s h
        rw [hnil] at h
        simp at h
    | some s0 =>
      have hm : malformed item = false := by
        cases hmm : malformed item with
        | false => rfl
        | true => rw [(researchSource_none_iff idx item).mpr hmm] at hr; cases hr
      have e : parseResearchSourcesFrom idx (item :: rest) =
          s0 :: parseResearchSourcesFrom (idx + 1) rest := by
        rw [parseResearchSourcesFrom, hr]
      rw [e]
      have hidx := researchSource_index idx item s0 hr
      constructor
      · intro hall
        have hrest : ∀ (k : Nat) (s : ResearchSource),
            (parseResearchSourcesFrom (idx + 1) rest).get? k = some s →
            s.index = ((idx + 1 + k : Nat) : Int) := by
          intro k s h
          have := hall (k + 1) s (by simpa using h)
          rw [this]
          congr 1
          omega
        obtain ⟨good, bad, hd, hg, hb⟩ := (ih (idx + 1)).mp hrest
        refine ⟨item :: good, bad, by simp [hd], ?_, hb⟩
        intro x hx
        rcases List.mem_cons.mp hx with h | h
        · rw [h]; exact hm
        · exact hg x h
      · rintro ⟨good, bad, hd, hg, hb⟩
        have hrest : ∃ good2 bad2, rest = good2 ++ bad2 ∧ (∀ x ∈ good2, malformed x = false) ∧
            (∀ x ∈ bad2, malformed x = true) := by
          cases good with
          | nil =>
            exfalso
            rw [List.nil_append] at hd
            have h2 := hb item (by rw [← hd]; simp)
            rw [hm] at h2
            cases h2
          | cons g gs =>
            refine ⟨gs, bad, ?_, fun x hx => hg x (by simp [hx]), hb⟩
            have := congrArg List.tail hd
            simpa using this
        have hall := (ih (idx + 1)).mpr hrest
        intro k s h
        cases k with
        | zero =>
          simp only [List.get?_cons_zero, Option.some.injEq] at h
          subst h
          rw [hidx]; simp
        | succ k =>
          simp only [List.get?_cons_succ] at h
          rw [hall k s h]
          congr 1
          omega

set_option maxRecDepth 100000 in
/-- The counterexample to C39: the second of two items is passed over as
malformed, and the index field of the one source returned is its list
position all the same. -/
theorem C39_counterexample :
    parseResearchSources [ascii "[\"u\",\"t\"]", ascii "5"] =
      [⟨0, ascii "u", ascii "t", [], 1⟩] ∧
    malformed (ascii "5") = true ∧
    (∀ (k : Nat) (s : ResearchSource),
      (parseResearchSources [ascii "[\"u\",\"t\"]", ascii "5"]).get? k = some s →
      s.index = (k : Int)) := by
  have h : parseResearchSources [ascii "[\"u\",\"t\"]", ascii "5"] =
      [⟨0, ascii "u", ascii "t", [], 1⟩] := by rfl
  refine ⟨h, by rfl, ?_⟩
  intro k s hk
  rw [h] at hk
  cases k with
  | zero =>
    simp only [List.get?_cons_zero, Option.some.injEq] at hk
    subst hk
    rfl
  | succ k => simp at hk

/-- C39, amended. Index field of research sources: for every array of raw
research items, each source returned by `parseResearchSources` comes from an
item of the input and carries in its `index` field the position of that item
in the input array; the index fields of the returned list are strictly
increasing, and the index of the source at list position `k` is at least `k`.
When no input item is passed over as malformed, the index fields are the list
positions. In general the index fields are the list positions if and only if
no item passed over stands before a kept one: the input is a run of kept items
followed by a run of items passed over. The `research_import` tool selects by
list position: for the one index `k` it takes the source at list position
`k`. -/
theorem C39_index_field (data : List Bytes) :
    (∀ s ∈ parseResearchSources data, ∃ i, ∃ h : i < data.length,
      s.index = (i : Int) ∧ researchSource i (data.get ⟨i, h⟩) = some s) ∧
    ((parseResearchSources data).map (·.index)).Pairwise (· < ·) ∧
    (∀ (k : Nat) (s : ResearchSource), (parseResearchSources data).get? k = some s →
      (k : Int) ≤ s.index) ∧
    ((∀ x ∈ data, malformed x = false) →
      ∀ (k : Nat) (s : ResearchSource), (parseResearchSources data).get? k = some s →
        s.index = (k : Int)) ∧
    ((∀ (k : Nat) (s : ResearchSource), (parseResearchSources data).get? k = some s →
        s.index = (k : Int)) ↔
      ∃ good bad, data = good ++ bad ∧ (∀ x ∈ good, malformed x = false) ∧
        (∀ x ∈ bad, malformed x = true)) ∧
    (∀ k : Nat, Mcp.selectSources [(k : Int)] (parseResearchSources data) =
      ((parseResearchSources data).get? k).toList) := by
  have hpos := parseResearchSourcesFrom_positions data 0
  simp only [Nat.zero_add] at hpos
  refine ⟨?_, parseResearchSourcesFrom_sorted data 0, ?_, ?_, hpos, ?_⟩
  · intro s hs
    obtain ⟨i, hi, h1, h2⟩ := parseResearchSourcesFrom_mem data 0 s hs
    simp only [Nat.zero_add] at h1 h2
    exact ⟨i, hi, h1, h2⟩
  · intro k s h
    have := parseResearchSourcesFrom_ge data 0 k s h
    simpa using this
  · intro hall
    exact hpos.mpr ⟨data, [], by simp, hall, by simp⟩
  · intro k
    unfold Mcp.selectSources
    by_cases hk : k < (parseResearchSources data).length
    · simp [hk]
    · have : (parseResearchSources data)[k]? = none := by
        apply List.getElem?_eq_none
        omega
      simp [hk, this]

set_option maxRecDepth 100000 in
/-- The witness of C39: two well-formed items; the second source carries the
index 1. -/
theorem C39_index_field_witness :
    ∃ s, (parseResearchSources [ascii "[\"u\",\"t\"]", ascii "[\"v\",\"w\",\"d\",2]"]).get? 1
        = some s ∧ s.index = 1 ∧ s.url = ascii "v" :=
  ⟨⟨1, ascii "v", ascii "w", ascii "d", 2⟩, by rfl,
    (C39_index_field [ascii "[\"u\",\"t\"]", ascii "[\"v\",\"w\",\"d\",2]"]).2.2.2.1
      (by
        intro x hx
        simp only [List.mem_cons, List.mem_singleton, List.not_mem_nil, or_false] at hx
        rcases hx with rfl | rfl <;> rfl)
      1 ⟨1, ascii "v", ascii "w", ascii "d", 2⟩ (by rfl),
    rfl⟩

/-! ## The code maps -/

section CodeMaps

open Constants

theorem find_filter_ne {κ ν : Type} [DecidableEq κ] (k k2 : κ) (h : ¬ k2 = k) :
    ∀ m : List (κ × ν), (m.filter (fun kv => kv.1 ≠ k)).find? (fun kv => kv.1 = k2) =
      m.find? (fun kv => kv.1 = k2) := by
  intro m
  induction m with
  | nil => rfl
  | cons a m ih =>
    by_cases ha : a.1 = k
    · have hb : ¬ a.1 = k2 := by rw [ha]; exact fun e => h e.symm
      rw [List.filter_cons_of_neg (by simpa using ha), List.find?_cons_of_neg _ (by simpa using hb)]
      exact ih
    · rw [List.filter_cons_of_pos (by simpa using ha)]
      by_cases hb : a.1 = k2
      · rw [List.find?_cons_of_pos _ (by simpa using hb),
          List.find?_cons_of_pos _ (by simpa using hb)]
      · rw [List.find?_cons_of_neg _ (by simpa using hb),
          List.find?_cons_of_neg _ (by simpa using hb)]
        exact ih

theorem mapGet_mapSet {κ ν : Type} [DecidableEq κ] (m : List (κ × ν)) (k k2 : κ) (v : ν) :
    mapGet (mapSet m k v) k2 = if k2 = k then some v else mapGet m k2 := by
  unfold mapGet mapSet
  by_cases h : k2 = k
  · subst h
    simp
  · have h2 : ¬ k = k2 := fun e => h e.symm
    rw [if_neg h, List.find?_cons_of_neg _ (by simpa using h2), find_filter_ne k k2 h]

/-- The lookup in a map filled by a loop of assignments, when no key is
assigned twice. -/
theorem foldl_mapSet_get {κ ν ε : Type} [DecidableEq κ] (key : ε → κ) (val : ε → ν) :
    ∀ (entries : List ε) (m : List (κ × ν)) (k : κ), (entries.map key).Nodup →
      mapGet (entries.foldl (fun a e => mapSet a (key e) (val e)) m) k =
        match entries.find? (fun e => key e = k) with
        | some e => some (val e)
        | none => mapGet m k := by
  intro entries
  induction entries with
  | nil => intro m k _; rfl
  | cons e rest ih =>
    intro m k hnd
    have hnd2 : (rest.map key).Nodup := (List.nodup_cons.mp hnd).2
    have hnot : key e ∉ rest.map key := (List.nodup_cons.mp hnd).1
    rw [List.foldl_cons, ih _ _ hnd2]
    by_cases hk : key e = k
    · have hfind : rest.find? (fun x => key x = k) = none := by
        apply List.find?_eq_none.mpr
        intro x hx hxk
        apply hnot
        rw [hk]
        exact List.mem_map.mpr ⟨x, hx, by simpa using hxk⟩
      simp [hfind, List.find?_cons, hk, mapGet_mapSet]
    · have hk2 : ¬ k = key e := fun h => hk h.symm
      simp only [List.find?_cons, hk, decide_False]
      cases rest.find? (fun x => key x = k) with
      | some x => rfl
      | none => simp [mapGet_mapSet, hk2]

theorem find_congr_mem {ε : Type} (p q : ε → Bool) : ∀ l : List ε,
    (∀ x ∈ l, p x = q x) → l.find? p = l.find? q := by
  intro l
  induction l with
  | nil => intro _; rfl
  | cons a l ih =>
    intro h
    have ha := h a (by simp)
    have hl := ih (fun x hx => h x (by simp [hx]))
    simp only [List.find?_cons, ha, hl]

theorem find_of_nodup {κ ε : Type} [DecidableEq κ] (key : ε → κ) :
    ∀ (entries : List ε) (e : ε), (entries.map key).Nodup → e ∈ entries →
      entries.find? (fun x => key x = key e) = some e := by
  intro entries
  induction entries with
  | nil => intro e _ h; cases h
  | cons a rest ih =>
    intro e hnd he
    have hnd2 : (rest.map key).Nodup := (List.nodup_cons.mp hnd).2
    have hnot : key a ∉ rest.map key := (List.nodup_cons.mp hnd).1
    rcases List.mem_cons.mp he with h | h
    · subst h; simp [List.find?_cons]
    · have hne : ¬ key a = key e := by
        intro hk
        apply hnot
        rw [hk]
        exact List.mem_map.mpr ⟨e, h, rfl⟩
      simp [List.find?_cons, hne, ih e hnd2 h]

theorem NewCodeMap_nameToCode (mapLower : Bytes → Bytes) (entries : List (Bytes × Int)) :
    ∀ m : CodeMap,
      (entries.foldl
        (fun m e =>
          ({ nameToCode := mapSet m.nameToCode (ToLower mapLower e.1) e.2
             codeToName := mapSet m.codeToName e.2 e.1 } : CodeMap)) m).nameToCode =
      entries.foldl (fun a e => mapSet a (ToLower mapLower e.1) e.2) m.nameToCode := by
  induction entries with
  | nil => intro m; rfl
  | cons e rest ih => intro m; rw [List.foldl_cons, ih]; rfl

theorem NewCodeMap_codeToName (mapLower : Bytes → Bytes) (entries : List (Bytes × Int)) :
    ∀ m : CodeMap,
      (entries.foldl
        (fun m e =>
          ({ nameToCode := mapSet m.nameToCode (ToLower mapLower e.1) e.2
             codeToName := mapSet m.codeToName e.2 e.1 } : CodeMap)) m).codeToName =
      entries.foldl (fun a e => mapSet a e.2 e.1) m.codeToName := by
  induction entries with
  | nil => intro m; rfl
  | cons e rest ih => intro m; rw [List.foldl_cons, ih]; rfl

/-- A string of ASCII bytes without the letters `A`..`Z` is its own lower
case. -/
theorem ToLower_plain (mapLower : Bytes → Bytes) (s : Bytes)
    (h : s.all (fun c => c < 128 ∧ ¬ (65 ≤ c ∧ c ≤ 90)) = true) : ToLower mapLower s = s := by
  have h1 : s.all (· < 128) = true := by
    apply List.all_eq_true.mpr
    intro x hx
    have := List.all_eq_true.mp h x hx
    simp only [decide_eq_true_eq] at this ⊢
    exact this.1
  have h2 : s.any (fun c => 65 ≤ c ∧ c ≤ 90) = false := by
    apply List.any_eq_false.mpr
    intro x hx
    have := List.all_eq_true.mp h x hx
    simp only [decide_eq_true_eq] at this ⊢
    exact this.2
  unfold ToLower
  rw [if_pos h1, h2]
  rfl

/-- The lower case of a string of ASCII bytes. -/
theorem ToLower_ascii (mapLower : Bytes → Bytes) (s : Bytes) (h : ∀ b ∈ s, b < 128) :
    ToLower mapLower s = s.map toLowerByte := by
  have h1 : s.all (· < 128) = true := by
    apply List.all_eq_true.mpr
    intro x hx
    simpa using h x hx
  unfold ToLower
  rw [if_pos h1]
  split_ifs with h2
  · rfl
  · symm
    have h3 : ∀ x ∈ s, ¬ (65 ≤ x ∧ x ≤ 90) := by
      intro x hx hc
      apply h2
      apply List.any_eq_true.mpr
      exact ⟨x, hx, by simpa using hc⟩
    calc s.map toLowerByte = s.map id := by
          apply List.map_congr_left
          intro x hx
          simp [toLowerByte, h3 x hx]
      _ = s := List.map_id s

/-- The two lookups of a code map made from a plain table, whatever the order
of the entries. -/
theorem NewCodeMap_gets (mapLower : Bytes → Bytes) (table order : List (Bytes × Int))
    (hp : plainTable table = true) (ho : order.Perm table) :
    (∀ k : Bytes, mapGet (NewCodeMap mapLower order).nameToCode k =
      (table.find? (fun e => e.1 = k)).map (·.2)) ∧
    (∀ c : Int, mapGet (NewCodeMap mapLower order).codeToName c =
      (table.find? (fun e => e.2 = c)).map (·.1)) := by
  unfold plainTable at hp
  simp only [Bool.and_eq_true, decide_eq_true_eq, Bool.decide_and] at hp
  obtain ⟨hplain, hn, hc⟩ := hp
  have hlow : ∀ e ∈ order, ToLower mapLower e.1 = e.1 := by
    intro e he
    apply ToLower_plain
    have := List.all_eq_true.mp hplain e (ho.mem_iff.mp he)
    simpa using this
  have hn2 : (order.map (·.1)).Nodup := (ho.map _).nodup_iff.mpr hn
  have hc2 : (order.map (·.2)).Nodup := (ho.map _).nodup_iff.mpr hc
  have hn3 : (order.map (fun e => ToLower mapLower e.1)).Nodup := by
    have : order.map (fun e => ToLower mapLower e.1) = order.map (·.1) :=
      List.map_congr_left hlow
    rw [this]; exact hn2
  -- a lookup by a key that is unique gives the same entry in both orders
  have hfind : ∀ {κ : Type} [DecidableEq κ] (key : Bytes × Int → κ) (k : κ),
      (table.map key).Nodup → order.find? (fun e => key e = k) = table.find? (fun e => key e = k) := by
    intro κ _ key k hnd
    have hnd2 : (order.map key).Nodup := (ho.map _).nodup_iff.mpr hnd
    cases ht : table.find? (fun e => key e = k) with
    | none =>
      apply List.find?_eq_none.mpr
      intro x hx
      exact List.find?_eq_none.mp ht x (ho.mem_iff.mp hx)
    | some e =>
      have he : e ∈ table := List.mem_of_find?_eq_some ht
      have hk : key e = k := by simpa using List.find?_some ht
      rw [← hk]
      exact find_of_nodup key order e hnd2 (ho.mem_iff.mpr he)
  constructor
  · intro k
    unfold NewCodeMap
    rw [NewCodeMap_nameToCode, foldl_mapSet_get (fun e => ToLower mapLower e.1) (·.2) order _ k hn3]
    have h1 : order.find? (fun e => ToLower mapLower e.1 = k) =
        order.find? (fun e => e.1 = k) := by
      apply find_congr_mem
      intro x hx
      rw [hlow x hx]
    rw [h1, hfind (·.1) k hn]
    cases table.find? (fun e => e.1 = k) <;> rfl
  · intro c
    unfold NewCodeMap
    rw [NewCodeMap_codeToName, foldl_mapSet_get (·.2) (·.1) order _ c hc2, hfind (·.2) c hc]
    cases table.find? (fun e => e.2 = c) <;> rfl

end CodeMaps

section CodeMapsClaim

open Constants

set_option maxRecDepth 100000 in
/-- Each of the eighteen predefined tables has lower-case ASCII names, no
name twice and no code twice. -/
theorem predefinedTables_plain : ∀ t ∈ predefinedTables, plainTable t = true := by
  decide

/-- C31. `CodeMap` is a bidirectional, case-insensitive mapping: for each of
the eighteen predefined tables, in whatever order `NewCodeMap` visits the
entries of the map literal, and for each entry (name, code) of the table:
`Code(name) = (code, true)` and `Name(code) = (name, true)`, and `Code` gives
`(code, true)` for every upper/lower-case variant of name; a name whose lower
case is in no entry gives `ok = false`, and so does a code that is in no
entry; whenever `Code(name)` is `(code, true)`, `Name(code)` is the lower case
of `name`, and whenever `Name(code)` is `(name, true)`, `Code(name)` is
`(code, true)`: the two are mutually inverse on the table. -/
theorem C31_code_maps (mapLower : Bytes → Bytes) (table order : List (Bytes × Int))
    (ht : table ∈ predefinedTables) (ho : order.Perm table) :
    (∀ e ∈ table,
      (NewCodeMap mapLower order).Code mapLower e.1 = (e.2, true) ∧
      (NewCodeMap mapLower order).Name e.2 = (e.1, true) ∧
      ∀ v, caseVariant v e.1 → (NewCodeMap mapLower order).Code mapLower v = (e.2, true)) ∧
    (∀ name, (∀ e ∈ table, e.1 ≠ ToLower mapLower name) →
      (NewCodeMap mapLower order).Code mapLower name = (0, false)) ∧
    (∀ code, (∀ e ∈ table, e.2 ≠ code) →
      (NewCodeMap mapLower order).Name code = ([], false)) ∧
    (∀ name code, (NewCodeMap mapLower order).Code mapLower name = (code, true) →
      (NewCodeMap mapLower order).Name code = (ToLower mapLower name, true)) ∧
    (∀ code name, (NewCodeMap mapLower order).Name code = (name, true) →
      (NewCodeMap mapLower order).Code mapLower name = (code, true)) := by
  have hp := predefinedTables_plain table ht
  obtain ⟨hgn, hgc⟩ := NewCodeMap_gets mapLower table order hp ho
  unfold plainTable at hp
  simp only [Bool.and_eq_true, decide_eq_true_eq, Bool.decide_and] at hp
  obtain ⟨hplain, hn, hc⟩ := hp
  have hlow : ∀ e ∈ table, ToLower mapLower e.1 = e.1 := by
    intro e he
    apply ToLower_plain
    have := List.all_eq_true.mp hplain e he
    simpa using this
  have hfn : ∀ e ∈ table, table.find? (fun x => x.1 = e.1) = some e := fun e he => by
    have := find_of_nodup (fun x : Bytes × Int => x.1) table e hn he
    simpa using this
  have hfc : ∀ e ∈ table, table.find? (fun x => x.2 = e.2) = some e := fun e he => by
    have := find_of_nodup (fun x : Bytes × Int => x.2) table e hc he
    simpa using this
  have hcode : ∀ e ∈ table, ∀ v, ToLower mapLower v = e.1 →
      (NewCodeMap mapLower order).Code mapLower v = (e.2, true) := by
    intro e he v hv
    unfold CodeMap.Code
    rw [hgn, hv, hfn e he]
    rfl
  have hname : ∀ e ∈ table, (NewCodeMap mapLower order).Name e.2 = (e.1, true) := by
    intro e he
    unfold CodeMap.Name
    rw [hgc, hfc e he]
    rfl
  refine ⟨?_, ?_, ?_, ?_, ?_⟩
  · intro e he
    refine ⟨hcode e he e.1 (hlow e he), hname e he, ?_⟩
    intro v hv
    apply hcode e he
    rw [ToLower_ascii mapLower v hv.1]
    exact hv.2
  · intro name hno
    unfold CodeMap.Code
    rw [hgn]
    have : table.find? (fun x => x.1 = ToLower mapLower name) = none := by
      apply List.find?_eq_none.mpr
      intro x hx
      simpa using hno x hx
    rw [this]
    rfl
  · intro code hno
    unfold CodeMap.Name
    rw [hgc]
    have : table.find? (fun x => x.2 = code) = none := by
      apply List.find?_eq_none.mpr
      intro x hx
      simpa using hno x hx
    rw [this]
    rfl
  · intro name code h
    unfold CodeMap.Code at h
    rw [hgn] at h
    cases hf : table.find? (fun x => x.1 = ToLower mapLower name) with
    | none => rw [hf] at h; simp at h
    | some e =>
      rw [hf] at h
      have he : e ∈ table := List.mem_of_find?_eq_some hf
      have hk : e.1 = ToLower mapLower name := by simpa using List.find?_some hf
      have hcd : e.2 = code := by simpa using h
      rw [← hcd, ← hk]
      exact hname e he
  · intro code name h
    unfold CodeMap.Name at h
    rw [hgc] at h
    cases hf : table.find? (fun x => x.2 = code) with
    | none => rw [hf] at h; simp at h
    | some e =>
      rw [hf] at h
      have he : e ∈ table := List.mem_of_find?_eq_some hf
      have hk : e.2 = code := by simpa using List.find?_some hf
      have hnm : e.1 = name := by simpa using h
      rw [← hk, ← hnm]
      exact hcode e he e.1 (hlow e he)

set_option maxRecDepth 100000 in
/-- The witness of C31: the table `VideoStyles` with its entries visited from
the last to the first; the name `Kawaii` has the code 5, and the code 5 has
the name `kawaii`. -/
theorem C31_code_maps_witness :
    (NewCodeMap (fun s => s) VideoStylesEntries.reverse).Code (fun s => s) (ascii "Kawaii")
      = (5, true) ∧
    (NewCodeMap (fun s => s) VideoStylesEntries.reverse).Name 5 = (ascii "kawaii", true) :=
  ⟨((C31_code_maps (fun s => s) VideoStylesEntries VideoStylesEntries.reverse
      (by decide) (List.reverse_perm _)).1 (ascii "kawaii", 5) (by decide)).2.2
      (ascii "Kawaii") ⟨by decide, by rfl⟩,
   ((C31_code_maps (fun s => s) VideoStylesEntries VideoStylesEntries.reverse
      (by decide) (List.reverse_perm _)).1 (ascii "kawaii", 5) (by decide)).2.1⟩

end CodeMapsClaim

/-! ## `strconv.ParseFloat` on integers -/

section ParseFloatInt

theorem log2Loop_spec : ∀ (fuel n : Nat), 0 < n → n ≤ fuel →
    2 ^ log2Loop fuel n ≤ n ∧ n < 2 ^ (log2Loop fuel n + 1) := by
  intro fuel
  induction fuel with
  | zero => intro n h1 h2; omega
  | succ fuel ih =>
    intro n h1 h2
    unfold log2Loop
    by_cases h : n < 2
    · rw [if_pos h]
      constructor
      · simpa using h1
      · simpa using h
    · rw [if_neg h]
      obtain ⟨ha, hb⟩ := ih (n / 2) (by omega) (by omega)
      constructor
      · rw [pow_succ]
        omega
      · rw [pow_succ]
        omega

/-- `log2 n` is the position of the highest bit of `n`. -/
theorem log2_spec (n : Nat) (h : 0 < n) : 2 ^ log2 n ≤ n ∧ n < 2 ^ (log2 n + 1) :=
  log2Loop_spec n n h (Nat.le_refl n)

/-- The decimal of a literal that is made of digits only, with or without a
minus sign in front. -/
theorem readNumber_digits (ds : Bytes) (hne : ds ≠ []) (hall : ∀ d ∈ ds, isDigit d = true) :
    readNumber ds = some (false, digitsValue ds, 0) ∧
    readNumber (45 :: ds) = some (true, digitsValue ds, 0) := by
  have htake : ds.takeWhile isDigit = ds := List.takeWhile_eq_self_iff.mpr hall
  have hdrop : ds.dropWhile isDigit = [] := List.dropWhile_eq_nil_iff.mpr hall
  have hhead : ¬ ds.head? = some 45 := by
    cases ds with
    | nil => exact absurd rfl hne
    | cons d r =>
      have : 48 ≤ d ∧ d ≤ 57 := by simpa [isDigit] using hall d (by simp)
      simp only [List.head?_cons, Option.some.injEq]
      omega
  constructor
  · unfold readNumber
    simp only [hhead, decide_False, Bool.false_eq_true, if_false, htake, hdrop, List.head?_nil,
      List.append_nil, hne, false_and, or_self, List.length_nil]
    simp
  · unfold readNumber
    simp only [List.head?_cons, decide_True, if_true, List.drop_one, List.tail_cons, htake, hdrop,
      List.head?_nil, Bool.false_eq_true, if_false, List.append_nil, hne, false_and, or_self,
      List.length_nil]
    simp

theorem log2_one : log2 1 = 0 := rfl

theorem floorLog2_one (n : Nat) (h : 0 < n) : floorLog2 n 1 = (log2 n : Int) := by
  obtain ⟨h1, _⟩ := log2_spec n h
  unfold floorLog2
  simp only [log2_one, Nat.cast_zero, sub_zero, Int.natCast_nonneg, if_true, Int.toNat_ofNat,
    Nat.one_mul, h1, decide_True]

theorem roundHalfEven_one (x : Nat) : roundHalfEven x 1 = x := by
  unfold roundHalfEven
  simp only [Nat.div_one, Nat.mod_one, Nat.mul_zero]
  rw [if_pos (by decide)]

/-- The bits of a number between `2^e` and `2^(e+1)`, `e ≤ 52`, that is an
integer. -/
theorem nearestFloat64_exact (n e : Nat) (he : e ≤ 52) (h1 : 2 ^ e ≤ n) (h2 : n < 2 ^ (e + 1))
    (hlog : log2 n = e) :
    nearestFloat64 n 1 = some ((e + 1022) * 2 ^ 52 + n * 2 ^ (52 - e)) := by
  have hn : 0 < n := lt_of_lt_of_le (Nat.pow_pos (by decide)) h1
  have ht : 2 ^ e * 2 ^ (52 - e) = 2 ^ 52 := by
    rw [← pow_add]
    congr 1
    omega
  have hq1 : 2 ^ 52 ≤ n * 2 ^ (52 - e) := by
    rw [← ht]
    exact Nat.mul_le_mul_right _ h1
  have hq2 : n * 2 ^ (52 - e) < 2 * 2 ^ 52 := by
    rw [← ht, ← mul_assoc, ← pow_succ']
    exact Nat.mul_lt_mul_of_pos_right h2 (Nat.pow_pos (by decide))
  unfold nearestFloat64
  rw [floorLog2_one n hn, hlog]
  have hk : ¬ ((e : Int) < -1022) := by omega
  have hk2 : (e : Int) - 52 ≤ 0 := by omega
  have hk3 : (-((e : Int) - 52)).toNat = 52 - e := by omega
  have hk4 : ((e : Int) + 1022).toNat = e + 1022 := by omega
  simp only [hk, if_false, hk2, if_true, hk3, roundHalfEven_one, hk4]
  have e52 : (2 : Nat) ^ 52 = 4503599627370496 := by norm_num
  rw [e52] at hq1 hq2 ⊢
  rw [if_pos (by omega)]

/-- The integer the bits of `nearestFloat64_exact` stand for. -/
theorem float64Int_exact (n e : Nat) (he : e ≤ 52) (h1 : 2 ^ e ≤ n) (h2 : n < 2 ^ (e + 1))
    (neg : Bool) :
    float64Int ((if neg then 2 ^ 63 else 0) + ((e + 1022) * 2 ^ 52 + n * 2 ^ (52 - e))) =
      some (if neg then -(n : Int) else (n : Int)) := by
  have ht : 2 ^ e * 2 ^ (52 - e) = 2 ^ 52 := by
    rw [← pow_add]
    congr 1
    omega
  have hq1 : 2 ^ 52 ≤ n * 2 ^ (52 - e) := by
    rw [← ht]
    exact Nat.mul_le_mul_right _ h1
  have hq2 : n * 2 ^ (52 - e) < 2 * 2 ^ 52 := by
    rw [← ht, ← mul_assoc, ← pow_succ']
    exact Nat.mul_lt_mul_of_pos_right h2 (Nat.pow_pos (by decide))
  have htpos : 0 < 2 ^ (52 - e) := Nat.pow_pos (by decide)
  have hmod : n * 2 ^ (52 - e) % 2 ^ (52 - e) = 0 := Nat.mul_mod_left _ _
  have hdiv : n * 2 ^ (52 - e) / 2 ^ (52 - e) = n := Nat.mul_div_cancel _ htpos
  generalize hq : n * 2 ^ (52 - e) = q at hq1 hq2 hmod hdiv ⊢
  have e52 : (2 : Nat) ^ 52 = 4503599627370496 := by norm_num
  have e63 : (2 : Nat) ^ 63 = 9223372036854775808 := by norm_num
  have hfrac : ((if neg then 2 ^ 63 else 0) + ((e + 1022) * 2 ^ 52 + q)) % 2 ^ 52 = q - 2 ^ 52 := by
    rw [e52, e63] at *
    cases neg <;> simp only [Bool.false_eq_true, if_false, if_true] <;> omega
  have hex : ((if neg then 2 ^ 63 else 0) + ((e + 1022) * 2 ^ 52 + q)) / 2 ^ 52 % 2048 =
      e + 1023 := by
    rw [e52, e63] at *
    cases neg <;> simp only [Bool.false_eq_true, if_false, if_true] <;> omega
  have hsg : ((if neg then 2 ^ 63 else 0) + ((e + 1022) * 2 ^ 52 + q)) / 2 ^ 63 % 2 =
      if neg then 1 else 0 := by
    rw [e52, e63] at *
    cases neg <;> simp only [Bool.false_eq_true, if_false, if_true] <;> omega
  have hm : 2 ^ 52 + (q - 2 ^ 52) = q := by omega
  unfold float64Int
  simp only [hfrac, hex, hsg]
  have hne0 : ¬ e + 1023 = 0 := by omega
  have hne1 : ¬ e + 1023 = 2047 := by omega
  have hq0 : ¬ q = 0 := by rw [e52] at hq1; omega
  rw [if_neg hne0, if_neg hne0, if_neg hne1, hm, if_neg hq0]
  by_cases h52 : e = 52
  · subst h52
    have hq' : q = n := by simpa using hdiv
    subst hq'
    cases neg <;> simp
  · have hsh : ¬ (0 : Int) ≤ ((e + 1023 : Nat) : Int) - 1075 := by omega
    have hsh2 : (-(((e + 1023 : Nat) : Int) - 1075)).toNat = 52 - e := by omega
    rw [if_neg hsh, hsh2, if_pos hmod, hdiv]
    cases neg <;> simp

/-- `strconv.ParseFloat` on a literal made of digits, with or without a minus
sign, that denotes an integer other than 0 of magnitude below 2^53: the
`float64` stands for that integer. -/
theorem ParseFloat_digits (ds : Bytes) (hne : ds ≠ []) (hall : ∀ d ∈ ds, isDigit d = true)
    (hpos : 0 < digitsValue ds) (h53 : digitsValue ds < 2 ^ 53) (neg : Bool) :
    ∃ b, ParseFloat (if neg then 45 :: ds else ds) = some b ∧
      float64Int b = some (if neg then -(digitsValue ds : Int) else (digitsValue ds : Int)) := by
  obtain ⟨hr1, hr2⟩ := readNumber_digits ds hne hall
  obtain ⟨hl1, hl2⟩ := log2_spec (digitsValue ds) hpos
  have he : log2 (digitsValue ds) ≤ 52 := by
    by_contra hc
    have : 2 ^ 53 ≤ 2 ^ log2 (digitsValue ds) := Nat.pow_le_pow_right (by decide) (by omega)
    omega
  have hbits := nearestFloat64_exact (digitsValue ds) (log2 (digitsValue ds)) he hl1 hl2 rfl
  have hval := float64Int_exact (digitsValue ds) (log2 (digitsValue ds)) he hl1 hl2 neg
  have hm : ¬ digitsValue ds = 0 := by omega
  refine ⟨_, ?_, hval⟩
  cases neg with
  | false =>
    simp only [Bool.false_eq_true, if_false]
    unfold ParseFloat
    rw [hr1]
    simp only [Bool.false_eq_true, if_false, hm, le_refl, if_true, Int.toNat_zero, pow_zero,
      Nat.mul_one, hbits, Option.map_some']
  | true =>
    simp only [if_true]
    unfold ParseFloat
    rw [hr2]
    simp only [if_true, hm, if_false, le_refl, Int.toNat_zero, pow_zero, Nat.mul_one, hbits,
      Option.map_some']

set_option maxRecDepth 100000 in
/-- `strconv.ParseFloat` is exact on the integers of magnitude at most 2^53:
the `float64` read from the decimal text of such an integer stands for the
integer. -/
theorem ParseFloat_appendInt (n : Int) (h1 : -(2 : Int) ^ 53 ≤ n) (h2 : n ≤ (2 : Int) ^ 53) :
    ∃ b, ParseFloat (appendInt n) = some b ∧ float64Int b = some n := by
  have e53 : (2 : Int) ^ 53 = 9007199254740992 := by norm_num
  have e53n : (2 : Nat) ^ 53 = 9007199254740992 := by norm_num
  rw [e53] at h1 h2
  cases n with
  | ofNat k =>
    by_cases hk0 : k = 0
    · subst hk0
      exact ⟨0, by rfl, by decide⟩
    by_cases hk : k = 9007199254740992
    · subst hk
      exact ⟨0x4340000000000000, by rfl, by rfl⟩
    obtain ⟨ds, hds, hne, hall, hval, _⟩ := decimalDigits_spec (k + 1) k [] (by omega)
    rw [List.append_nil] at hds
    have hv : digitsValue ds = k := hval
    have hk2 : (k : Int) ≤ 9007199254740992 := h2
    obtain ⟨b, hb1, hb2⟩ := ParseFloat_digits ds hne hall (by omega) (by rw [e53n]; omega) false
    refine ⟨b, ?_, ?_⟩
    · simp only [appendInt]
      rw [hds]
      simpa using hb1
    · rw [hb2, hv]
      rfl
  | negSucc k =>
    by_cases hk : k + 1 = 9007199254740992
    · have : k = 9007199254740991 := by omega
      subst this
      exact ⟨0xC340000000000000, by rfl, by rfl⟩
    obtain ⟨ds, hds, hne, hall, hval, _⟩ := decimalDigits_spec (k + 2) (k + 1) [] (by omega)
    rw [List.append_nil] at hds
    have hv : digitsValue ds = k + 1 := hval
    have hk2 : -9007199254740992 ≤ Int.negSucc k := h1
    have hk3 : k + 1 ≤ 9007199254740992 := by
      have := Int.negSucc_eq k
      omega
    obtain ⟨b, hb1, hb2⟩ := ParseFloat_digits ds hne hall (by omega) (by rw [e53n]; omega) true
    refine ⟨b, ?_, ?_⟩
    · simp only [appendInt]
      rw [hds]
      simpa using hb1
    · rw [hb2, hv, Int.negSucc_eq]
      simp

end ParseFloatInt

/-! ## Decoding into a Go `any` -/

section DecodeAny

open Mcp Constants

theorem Members_next_measure (st : Members) (c : Nat) :
    (Members.next st c).cur.length + ((Members.next st c).members.map (·.2.length + 1)).sum ≤
      st.cur.length + (st.members.map (·.2.length + 1)).sum + 1 := by
  have hflush : ∀ s : Scanner,
      (st.flush s).cur.length + ((st.flush s).members.map (·.2.length + 1)).sum ≤
        st.cur.length + (st.members.map (·.2.length + 1)).sum + 1 := by
    intro s
    unfold Members.flush
    split
    · simp
    · simp only [List.length_nil, List.map_cons, List.sum_cons, List.length_reverse]
      omega
  unfold Members.next
  simp only
  split
  · split
    · exact hflush _
    · simp
  · split
    · simp
    · split
      · simp only [List.length_nil]
        omega
      · split
        · exact hflush _
        · simp only [List.length_cons]
          omega

theorem Members_foldl_measure (data : Bytes) : ∀ st : Members,
    (data.foldl Members.next st).cur.length +
        ((data.foldl Members.next st).members.map (·.2.length + 1)).sum ≤
      st.cur.length + (st.members.map (·.2.length + 1)).sum + data.length := by
  induction data with
  | nil => intro st; simp
  | cons c rest ih =>
    intro st
    have h1 := ih (Members.next st c)
    have h2 := Members_next_measure st c
    simp only [List.foldl_cons, List.length_cons]
    omega

/-- The value of a member of an object is shorter than the text of the
object. -/
theorem rawMembers_length (data : Bytes) (m : Bytes × Bytes) (h : m ∈ rawMembers data) :
    m.2.length < data.length := by
  unfold rawMembers at h
  have hm := Members_foldl_measure data ⟨Scanner.reset, [], [], []⟩
  simp only [List.length_nil, List.map_nil, List.sum_nil, Nat.zero_add] at hm
  have hmem : m ∈ (data.foldl Members.next ⟨Scanner.reset, [], [], []⟩).members :=
    List.mem_reverse.mp h
  have hle : m.2.length + 1 ≤
      ((data.foldl Members.next ⟨Scanner.reset, [], [], []⟩).members.map (·.2.length + 1)).sum :=
    List.single_le_sum (by intro x _; exact Nat.zero_le x) _ (List.mem_map.mpr ⟨m, hmem, rfl⟩)
  omega

theorem any_congr_mem {α : Type} (f g : α → Bool) : ∀ l : List α,
    (∀ x ∈ l, f x = g x) → l.any f = l.any g := by
  intro l
  induction l with
  | nil => intro _; rfl
  | cons a rest ih =>
    intro h
    rw [List.any_cons, List.any_cons, h a (by simp), ih (fun x hx => h x (by simp [hx]))]

/-- The members of an object are decoded with the decoding of their values
only. -/
theorem foldl_objectMember_congr (f g : Bytes → Option Any × Bool) :
    ∀ (ms : List (Bytes × Bytes)) (st : List (Bytes × Option Any) × Bool),
    (∀ m ∈ ms, f m.2 = g m.2) →
    ms.foldl (objectMember f) st = ms.foldl (objectMember g) st := by
  intro ms
  induction ms with
  | nil => intro st _; rfl
  | cons m rest ih =>
    intro st h
    have hm : objectMember f st m = objectMember g st m := by
      unfold objectMember
      rw [h m (by simp)]
    rw [List.foldl_cons, List.foldl_cons, hm]
    exact ih _ (fun x hx => h x (by simp [hx]))

/-- One round of `valueInterface`. -/
theorem valueInterface_succ (parseFloat : Bytes → Option Float64) (fuel : Nat) (v : Bytes) :
    valueInterface parseFloat (fuel + 1) v =
      if v.head? = some 110 then (none, false)
      else if v.head? = some 116 then (some (.bool true), false)
      else if v.head? = some 102 then (some (.bool false), false)
      else if v.head? = some 34 then
        match unquoteBytes v with
        | some s => (some (.string s), false)
        | none => (none, true)
      else if v.head? = some 91 then
        (some (.slice ((rawElements v).map fun x => (valueInterface parseFloat fuel x).1)),
          (rawElements v).any fun x => (valueInterface parseFloat fuel x).2)
      else if v.head? = some 123 then
        (some (.map ((rawMembers v).foldl (objectMember (valueInterface parseFloat fuel))
            ([], false)).1),
          ((rawMembers v).foldl (objectMember (valueInterface parseFloat fuel)) ([], false)).2)
      else
        match parseFloat v with
        | some f => (some (.number f), false)
        | none => (none, true) := by
  rfl

/-- The decoding into an `any` terminates: with more fuel than the text has
bytes the bound on the depth is not reached, and the result is the same for
every such fuel. -/
theorem valueInterface_fuel (parseFloat : Bytes → Option Float64) : ∀ (n : Nat) (v : Bytes),
    v.length < n → ∀ fuel, v.length < fuel →
      valueInterface parseFloat fuel v = storeAny parseFloat v := by
  intro n
  induction n with
  | zero => intro v h; omega
  | succ n ih =>
    intro v hlen fuel hf
    cases fuel with
    | zero => omega
    | succ fuel =>
      have hel : ∀ g, v.length ≤ g → ∀ x ∈ rawElements v,
          valueInterface parseFloat g x = storeAny parseFloat x := by
        intro g hg x hx
        have hl := rawElements_length v x hx
        exact ih x (by omega) g (by omega)
      have hmem : ∀ g, v.length ≤ g → ∀ m ∈ rawMembers v,
          valueInterface parseFloat g m.2 = storeAny parseFloat m.2 := by
        intro g hg m hm
        have hl := rawMembers_length v m hm
        exact ih m.2 (by omega) g (by omega)
      have h1 : ((rawElements v).map fun x => (valueInterface parseFloat fuel x).1) =
          ((rawElements v).map fun x => (valueInterface parseFloat v.length x).1) := by
        apply List.map_congr_left
        intro x hx
        rw [hel fuel (by omega) x hx, hel v.length (Nat.le_refl _) x hx]
      have h2 : ((rawElements v).any fun x => (valueInterface parseFloat fuel x).2) =
          ((rawElements v).any fun x => (valueInterface parseFloat v.length x).2) := by
        apply any_congr_mem
        intro x hx
        rw [hel fuel (by omega) x hx, hel v.length (Nat.le_refl _) x hx]
      have h3 : (rawMembers v).foldl (objectMember (valueInterface parseFloat fuel)) ([], false) =
          (rawMembers v).foldl (objectMember (valueInterface parseFloat v.length)) ([], false) := by
        apply foldl_objectMember_congr
        intro m hm
        rw [hmem fuel (by omega) m hm, hmem v.length (Nat.le_refl _) m hm]
      rw [storeAny, valueInterface_succ, valueInterface_succ, h1, h2, h3]

/-- The decoding of `null`, of the booleans, of a string and of a number. -/
theorem storeAny_literal (parseFloat : Bytes → Option Float64) (v : Bytes) :
    (v.head? = some 110 → storeAny parseFloat v = (none, false)) ∧
    (v.head? = some 116 → storeAny parseFloat v = (some (.bool true), false)) ∧
    (v.head? = some 102 → storeAny parseFloat v = (some (.bool false), false)) ∧
    (∀ t, v.head? = some 34 → unquoteBytes v = some t →
      storeAny parseFloat v = (some (.string t), false)) ∧
    (∀ f, v.head? ≠ some 110 → v.head? ≠ some 116 → v.head? ≠ some 102 → v.head? ≠ some 34 →
      v.head? ≠ some 91 → v.head? ≠ some 123 → parseFloat v = some f →
      storeAny parseFloat v = (some (.number f), false)) ∧
    (v.head? ≠ some 110 → v.head? ≠ some 116 → v.head? ≠ some 102 → v.head? ≠ some 34 →
      v.head? ≠ some 91 → v.head? ≠ some 123 → parseFloat v = none →
      storeAny parseFloat v = (none, true)) := by
  refine ⟨?_, ?_, ?_, ?_, ?_, ?_⟩
  · intro h
    rw [storeAny, valueInterface_succ, if_pos h]
  · intro h
    have h1 : ¬ v.head? = some 110 := by rw [h]; decide
    rw [storeAny, valueInterface_succ, if_neg h1, if_pos h]
  · intro h
    have h1 : ¬ v.head? = some 110 := by rw [h]; decide
    have h2 : ¬ v.head? = some 116 := by rw [h]; decide
    rw [storeAny, valueInterface_succ, if_neg h1, if_neg h2, if_pos h]
  · intro t h ht
    have h1 : ¬ v.head? = some 110 := by rw [h]; decide
    have h2 : ¬ v.head? = some 116 := by rw [h]; decide
    have h3 : ¬ v.head? = some 102 := by rw [h]; decide
    rw [storeAny, valueInterface_succ, if_neg h1, if_neg h2, if_neg h3, if_pos h, ht]
  · intro f h1 h2 h3 h4 h5 h6 hf
    rw [storeAny, valueInterface_succ, if_neg h1, if_neg h2, if_neg h3, if_neg h4, if_neg h5,
      if_neg h6, hf]
  · intro h1 h2 h3 h4 h5 h6 hf
    rw [storeAny, valueInterface_succ, if_neg h1, if_neg h2, if_neg h3, if_neg h4, if_neg h5,
      if_neg h6, hf]

/-- The decoding of an array: the `[]any` of the decoded elements. -/
theorem storeAny_array (parseFloat : Bytes → Option Float64) (v : Bytes)
    (h : v.head? = some 91) :
    storeAny parseFloat v =
      (some (.slice ((rawElements v).map fun x => (storeAny parseFloat x).1)),
        (rawElements v).any fun x => (storeAny parseFloat x).2) := by
  have h1 : ¬ v.head? = some 110 := by rw [h]; decide
  have h2 : ¬ v.head? = some 116 := by rw [h]; decide
  have h3 : ¬ v.head? = some 102 := by rw [h]; decide
  have h4 : ¬ v.head? = some 34 := by rw [h]; decide
  have hel : ∀ x ∈ rawElements v,
      valueInterface parseFloat v.length x = storeAny parseFloat x := by
    intro x hx
    have hl := rawElements_length v x hx
    exact valueInterface_fuel parseFloat (x.length + 1) x (by omega) v.length hl
  rw [storeAny, valueInterface_succ, if_neg h1, if_neg h2, if_neg h3, if_neg h4, if_pos h]
  congr 1
  · congr 2
    apply List.map_congr_left
    intro x hx
    rw [hel x hx]
  · apply any_congr_mem
    intro x hx
    rw [hel x hx]

/-- The decoding of an object: the `map[string]any` of its members, the value
of a key being the decoded value of the last member with that key. -/
theorem storeAny_object (parseFloat : Bytes → Option Float64) (v : Bytes)
    (h : v.head? = some 123) :
    storeAny parseFloat v =
      (some (.map ((rawMembers v).foldl (objectMember (storeAny parseFloat)) ([], false)).1),
        ((rawMembers v).foldl (objectMember (storeAny parseFloat)) ([], false)).2) := by
  have h1 : ¬ v.head? = some 110 := by rw [h]; decide
  have h2 : ¬ v.head? = some 116 := by rw [h]; decide
  have h3 : ¬ v.head? = some 102 := by rw [h]; decide
  have h4 : ¬ v.head? = some 34 := by rw [h]; decide
  have h5 : ¬ v.head? = some 91 := by rw [h]; decide
  have hc : (rawMembers v).foldl (objectMember (valueInterface parseFloat v.length)) ([], false) =
      (rawMembers v).foldl (objectMember (storeAny parseFloat)) ([], false) := by
    apply foldl_objectMember_congr
    intro m hm
    have hl := rawMembers_length v m hm
    exact valueInterface_fuel parseFloat (m.2.length + 1) m.2 (by omega) v.length hl
  rw [storeAny, valueInterface_succ, if_neg h1, if_neg h2, if_neg h3, if_neg h4, if_neg h5,
    if_pos h, hc]

/-- A value is decoded into the boolean `true` exactly when it is the literal
`true` (the text that starts with `t`). -/
theorem storeAny_true_iff (parseFloat : Bytes → Option Float64) (v : Bytes) :
    (storeAny parseFloat v).1 = some (.bool true) ↔ v.head? = some 116 := by
  constructor
  · intro h
    by_contra h2
    rw [storeAny, valueInterface_succ] at h
    by_cases h1 : v.head? = some 110
    · rw [if_pos h1] at h; cases h
    · rw [if_neg h1, if_neg h2] at h
      by_cases h3 : v.head? = some 102
      · rw [if_pos h3] at h; cases h
      · rw [if_neg h3] at h
        by_cases h4 : v.head? = some 34
        · rw [if_pos h4] at h
          cases hu : unquoteBytes v with
          | none => rw [hu] at h; cases h
          | some t => rw [hu] at h; cases h
        · rw [if_neg h4] at h
          by_cases h5 : v.head? = some 91
          · rw [if_pos h5] at h; cases h
          · rw [if_neg h5] at h
            by_cases h6 : v.head? = some 123
            · rw [if_pos h6] at h; cases h
            · rw [if_neg h6] at h
              cases hf : parseFloat v with
              | none => rw [hf] at h; cases h
              | some f => rw [hf] at h; cases h
  · intro h
    rw [(storeAny_literal parseFloat v).2.1 h]

end DecodeAny

/-! ## The server: requests, notifications and errors -/

section McpServer

open Mcp Constants

theorem NewServer_wf (σ : Type) : (NewServer σ).WellFormed := by
  intro name idx h
  simp [NewServer, mapGet] at h

theorem AddTool_wf {σ : Type} (s : Server σ) (tooldef : ToolDef) (handler : HandlerFunc σ)
    (h : s.WellFormed) : (s.AddTool tooldef handler).WellFormed := by
  intro name idx hget
  unfold Server.AddTool at hget ⊢
  simp only [List.length_append, List.length_singleton] at hget ⊢
  rw [mapGet_mapSet] at hget
  split_ifs at hget with hn
  · have : s.tools.length = idx := by simpa using hget
    omega
  · have := h name idx hget
    omega

/-- The field `ID` after one member. -/
theorem setMember_ID (parseFloat : Bytes → Option Float64)
    (st : Mcp.Request × Bool) (m : Bytes × Bytes) :
    (Request.setMember parseFloat st m).1.ID =
      if fieldOf m.1 = some (ascii "ID") then (storeAny parseFloat m.2).1 else st.1.ID := by
  unfold Request.setMember
  cases hf : fieldOf m.1 with
  | none => simp
  | some f =>
    simp only [Option.some.injEq]
    by_cases h1 : f = ascii "JSONRPC"
    · have h2 : ¬ f = ascii "ID" := by rw [h1]; decide
      rw [if_pos h1, if_neg h2]
    · rw [if_neg h1]
      by_cases h2 : f = ascii "ID"
      · rw [if_pos h2, if_pos h2]
      · rw [if_neg h2, if_neg h2]
        by_cases h3 : f = ascii "METHOD"
        · rw [if_pos h3]
        · rw [if_neg h3]
          by_cases h4 : f = ascii "PARAMS"
          · rw [if_pos h4]
          · rw [if_neg h4]

/-- The field `ID` after the members of an object. -/
theorem foldl_setMember_ID (parseFloat : Bytes → Option Float64) : ∀ (ms : List (Bytes × Bytes))
    (st : Mcp.Request × Bool),
    (ms.foldl (Request.setMember parseFloat) st).1.ID = idOf parseFloat ms st.1.ID := by
  intro ms
  induction ms with
  | nil => intro st; rfl
  | cons m rest ih =>
    intro st
    rw [List.foldl_cons, ih, setMember_ID]
    rfl

/-- Without a member that selects `ID`, the field keeps its value. -/
theorem idOf_none (parseFloat : Bytes → Option Float64)
    : ∀ (ms : List (Bytes × Bytes)) (init : Option Any),
    (∀ m ∈ ms, fieldOf m.1 ≠ some (ascii "ID")) → idOf parseFloat ms init = init := by
  intro ms
  induction ms with
  | nil => intro init _; rfl
  | cons m rest ih =>
    intro init h
    unfold idOf
    rw [List.foldl_cons, if_neg (h m (by simp))]
    exact ih init (fun x hx => h x (by simp [hx]))

/-- The field `ID` is the value of the last member that selects it. -/
theorem idOf_last (parseFloat : Bytes → Option Float64)
    (pre post : List (Bytes × Bytes)) (m : Bytes × Bytes)
    (init : Option Any) (hm : fieldOf m.1 = some (ascii "ID"))
    (hpost : ∀ x ∈ post, fieldOf x.1 ≠ some (ascii "ID")) :
    idOf parseFloat (pre ++ m :: post) init = (storeAny parseFloat m.2).1 := by
  unfold idOf
  rw [List.foldl_append, List.foldl_cons, if_pos hm]
  exact idOf_none parseFloat post _ hpost

/-- What a successful decoding of a request says about the message. -/
theorem UnmarshalRequest_ok (parseFloat : Bytes → Option Float64) (msg : Bytes) (req : Mcp.Request)
    (h : UnmarshalRequest parseFloat msg = .ok req) :
    checkValid msg = true ∧
    req.ID = if firstByte msg = some 123 then idOf parseFloat (rawMembers msg) none else none := by
  unfold UnmarshalRequest at h
  by_cases hv : checkValid msg = true
  · refine ⟨hv, ?_⟩
    rw [if_pos hv] at h
    by_cases ho : firstByte msg = some 123
    · rw [if_pos ho] at h ⊢
      simp only at h
      split_ifs at h
      have : req = ((rawMembers msg).foldl (Request.setMember parseFloat)
          (⟨[], none, [], none⟩, false)).1 := by
        injection h with h
        exact h.symm
      rw [this, foldl_setMember_ID]
    · rw [if_neg ho] at h ⊢
      split_ifs at h
      injection h with h
      rw [← h]
  · rw [if_neg hv] at h
    cases h

/-- The message that is not valid JSON. -/
theorem HandleMessage_invalid {σ : Type} (parseFloat : Bytes → Option Float64)
    (s : Server σ) (st : σ)
    (msg : Bytes) (h : checkValid msg = false) :
    s.HandleMessage parseFloat st msg =
      some (some ⟨ascii "2.0", none, none, some ⟨ErrCodeParse, ascii "parse error: "⟩⟩, s, st) := by
  unfold Server.HandleMessage UnmarshalRequest
  simp [h]

/-- The notification. -/
theorem HandleMessage_notification {σ : Type} (parseFloat : Bytes → Option Float64)
    (s : Server σ) (st : σ)
    (msg : Bytes) (req : Mcp.Request) (h : UnmarshalRequest parseFloat msg = .ok req)
    (hid : req.ID = none) :
    s.HandleMessage parseFloat st msg = some (none, s.handleNotification req, st) := by
  unfold Server.HandleMessage
  rw [h]
  simp only [hid]

/-- The request: the response is that of `dispatch`. -/
theorem HandleMessage_request {σ : Type} (parseFloat : Bytes → Option Float64)
    (s : Server σ) (st : σ)
    (msg : Bytes) (req : Mcp.Request) (id : Any) (h : UnmarshalRequest parseFloat msg = .ok req)
    (hid : req.ID = some id) :
    s.HandleMessage parseFloat st msg =
      (s.dispatch parseFloat st req).map fun r => (some r.1, s, r.2) := by
  unfold Server.HandleMessage
  rw [h]
  simp only [hid]

/-- The response of `handleToolsCall` in a well-formed server: it carries the
identifier of the request and no error other than the one for the
parameters. -/
theorem handleToolsCall_spec {σ : Type} (parseFloat : Bytes → Option Float64)
    (s : Server σ) (st : σ)
    (req : Mcp.Request) (hwf : s.WellFormed) :
    ∃ resp st1, s.handleToolsCall parseFloat st req = some (resp, st1) ∧
      resp.ID = req.ID ∧ resp.JSONRPC = ascii "2.0" ∧
      (∀ e, resp.Error = some e → e.Code = ErrCodeInvalidParams) ∧
      (∀ cp, callParamsOf parseFloat req = .ok cp → mapGet s.index cp.Name = none →
        st1 = st ∧ resp.Error = none ∧
        resp.Result = some (.toolCall (ErrorResult (ascii "unknown tool: " ++ cp.Name)))) := by
  unfold Server.handleToolsCall
  cases hcp : callParamsOf parseFloat req with
  | error e =>
    refine ⟨_, _, rfl, rfl, rfl, ?_, ?_⟩
    · intro e2 he
      injection he with he
      rw [← he]
    · intro cp h
      cases h
  | ok cp =>
    simp only
    cases hidx : mapGet s.index cp.Name with
    | none =>
      refine ⟨_, _, rfl, rfl, rfl, ?_, ?_⟩
      · intro e he; cases he
      · intro cp2 h _
        injection h with h
        subst h
        exact ⟨rfl, rfl, rfl⟩
    | some idx =>
      have hlt := hwf cp.Name idx hidx
      simp only
      rw [List.get?_eq_get hlt]
      simp only
      cases hh : (s.tools.get ⟨idx, hlt⟩).handler (cp.Arguments.getD []) st with
      | mk r st1 =>
        cases r with
        | error err =>
          refine ⟨_, _, rfl, rfl, rfl, ?_, ?_⟩
          · intro e he; cases he
          · intro cp2 h hn
            injection h with h
            subst h
            rw [hidx] at hn
            cases hn
        | ok result =>
          refine ⟨_, _, rfl, rfl, rfl, ?_, ?_⟩
          · intro e he; cases he
          · intro cp2 h hn
            injection h with h
            subst h
            rw [hidx] at hn
            cases hn

/-- The response of `dispatch` in a well-formed server. -/
theorem dispatch_spec {σ : Type} (parseFloat : Bytes → Option Float64) (s : Server σ) (st : σ)
    (req : Mcp.Request) (hwf : s.WellFormed) :
    ∃ resp st1, s.dispatch parseFloat st req = some (resp, st1) ∧
      resp.ID = req.ID ∧ resp.JSONRPC = ascii "2.0" ∧
      ((∃ e, resp.Error = some e ∧ e.Code = ErrCodeMethodNotFound) ↔
        (req.Method ≠ ascii "initialize" ∧ req.Method ≠ ascii "tools/list" ∧
          req.Method ≠ ascii "tools/call" ∧ req.Method ≠ ascii "ping")) ∧
      (req.Method = ascii "tools/call" → ∀ cp, callParamsOf parseFloat req = .ok cp →
        mapGet s.index cp.Name = none →
        st1 = st ∧ resp.Error = none ∧
        resp.Result = some (.toolCall (ErrorResult (ascii "unknown tool: " ++ cp.Name)))) := by
  unfold Server.dispatch
  by_cases h1 : req.Method = ascii "initialize"
  · rw [if_pos h1]
    refine ⟨_, _, rfl, rfl, rfl, ?_, ?_⟩
    · constructor
      · rintro ⟨e, he, _⟩; cases he
      · rintro ⟨h, _⟩; exact absurd h1 h
    · intro h; rw [h1] at h; exact absurd h (by decide)
  rw [if_neg h1]
  by_cases h2 : req.Method = ascii "tools/list"
  · rw [if_pos h2]
    refine ⟨_, _, rfl, rfl, rfl, ?_, ?_⟩
    · constructor
      · rintro ⟨e, he, _⟩; cases he
      · rintro ⟨_, h, _⟩; exact absurd h2 h
    · intro h; rw [h2] at h; exact absurd h (by decide)
  rw [if_neg h2]
  by_cases h3 : req.Method = ascii "tools/call"
  · rw [if_pos h3]
    obtain ⟨resp, st1, hr, hid, hv, herr, hunk⟩ := handleToolsCall_spec parseFloat s st req hwf
    refine ⟨resp, st1, hr, hid, hv, ?_, fun _ => hunk⟩
    constructor
    · rintro ⟨e, he, hc⟩
      have := herr e he
      rw [this] at hc
      exact absurd hc (by decide)
    · rintro ⟨_, _, h, _⟩; exact absurd h3 h
  rw [if_neg h3]
  by_cases h4 : req.Method = ascii "ping"
  · rw [if_pos h4]
    refine ⟨_, _, rfl, rfl, rfl, ?_, ?_⟩
    · constructor
      · rintro ⟨e, he, _⟩; cases he
      · rintro ⟨_, _, _, h⟩; exact absurd h4 h
    · intro h; exact absurd h h3
  rw [if_neg h4]
  refine ⟨_, _, rfl, rfl, rfl, ?_, ?_⟩
  · constructor
    · intro _; exact ⟨h1, h2, h3, h4⟩
    · intro _; exact ⟨_, rfl, rfl⟩
  · intro h; exact absurd h h3

/-- The error flag after one member: without an error afterwards there was
none before, and the value of a member that selects `ID` was decoded without
error. -/
theorem setMember_flag (parseFloat : Bytes → Option Float64) (st : Mcp.Request × Bool)
    (m : Bytes × Bytes) (h : (Request.setMember parseFloat st m).2 = false) :
    st.2 = false ∧ (fieldOf m.1 = some (ascii "ID") → (storeAny parseFloat m.2).2 = false) := by
  unfold Request.setMember at h
  cases hf : fieldOf m.1 with
  | none => rw [hf] at h; simp at h
  | some f =>
    rw [hf] at h
    simp only at h
    by_cases h1 : f = ascii "JSONRPC"
    · have h2 : ¬ f = ascii "ID" := by rw [h1]; decide
      rw [if_pos h1] at h
      simp only [Bool.or_eq_false_iff] at h
      exact ⟨h.1, fun e => absurd (Option.some.inj e) h2⟩
    · rw [if_neg h1] at h
      by_cases h2 : f = ascii "ID"
      · rw [if_pos h2] at h
        simp only [Bool.or_eq_false_iff] at h
        exact ⟨h.1, fun _ => h.2⟩
      · rw [if_neg h2] at h
        refine ⟨?_, fun e => absurd (Option.some.inj e) h2⟩
        by_cases h3 : f = ascii "METHOD"
        · rw [if_pos h3] at h
          simp only [Bool.or_eq_false_iff] at h
          exact h.1
        · rw [if_neg h3] at h
          by_cases h4 : f = ascii "PARAMS"
          · rw [if_pos h4] at h
            exact h
          · rw [if_neg h4] at h
            exact h

theorem foldl_setMember_flag (parseFloat : Bytes → Option Float64) :
    ∀ (l : List (Bytes × Bytes)) (st : Mcp.Request × Bool),
    (l.foldl (Request.setMember parseFloat) st).2 = false →
    st.2 = false ∧
      ∀ m ∈ l, fieldOf m.1 = some (ascii "ID") → (storeAny parseFloat m.2).2 = false := by
  intro l
  induction l with
  | nil => intro st h; exact ⟨h, by simp⟩
  | cons x rest ih =>
    intro st h
    rw [List.foldl_cons] at h
    obtain ⟨h1, h2⟩ := ih _ h
    obtain ⟨h3, h4⟩ := setMember_flag parseFloat st x h1
    refine ⟨h3, ?_⟩
    intro m hm
    rcases List.mem_cons.mp hm with e | e
    · rw [e]; exact h4
    · exact h2 m e

/-- A message that is accepted as a `Request` has been decoded without
error. -/
theorem UnmarshalRequest_flag (parseFloat : Bytes → Option Float64) (msg : Bytes)
    (req : Mcp.Request) (h : UnmarshalRequest parseFloat msg = .ok req)
    (h123 : firstByte msg = some 123) :
    ((rawMembers msg).foldl (Request.setMember parseFloat) (⟨[], none, [], none⟩, false)).2
      = false := by
  unfold UnmarshalRequest at h
  by_cases hv : checkValid msg = true
  · rw [if_pos hv, if_pos h123] at h
    simp only at h
    cases hb : ((rawMembers msg).foldl (Request.setMember parseFloat)
        (⟨[], none, [], none⟩, false)).2 with
    | false => rfl
    | true => rw [hb] at h; simp at h
  · rw [if_neg hv] at h
    cases h

end McpServer

section McpClaims

open Mcp Constants

set_option maxRecDepth 100000 in
/-- The counterexample to C32.  A well-formed message whose member `id` has
the value `null`: the decoder leaves `req.ID` nil, the message is taken for a
notification, and `HandleMessage` returns nil: there is no response with the
id of the request.  A request with the id 9007199254740993: the decoder stores
the nearest `float64`, which is 9007199254740992 (the bits
`0x4340000000000000`), and the response carries that value, the same as the
response to a request with the id 9007199254740992.  In the other direction, a
message without a member `id` but with a member `ID` is answered: the decoder
finds the field by the folded name of the key. -/
theorem C32_counterexample :
    rawMembers (ascii "\x7b\"jsonrpc\":\"2.0\",\"id\":null,\"method\":\"ping\"\x7d") =
      [(ascii "\"jsonrpc\"", ascii "\"2.0\""), (ascii "\"id\"", ascii "null"),
       (ascii "\"method\"", ascii "\"ping\"")] ∧
    UnmarshalRequest ParseFloat
        (ascii "\x7b\"jsonrpc\":\"2.0\",\"id\":null,\"method\":\"ping\"\x7d") =
      .ok ⟨ascii "2.0", none, ascii "ping", none⟩ ∧
    ((NewServer Unit).HandleMessage ParseFloat ()
        (ascii "\x7b\"jsonrpc\":\"2.0\",\"id\":null,\"method\":\"ping\"\x7d")).map (·.1) =
      some none ∧
    ((NewServer Unit).HandleMessage ParseFloat ()
        (ascii "\x7b\"jsonrpc\":\"2.0\",\"id\":9007199254740993,\"method\":\"ping\"\x7d")).map
          (·.1) =
      some (some ⟨ascii "2.0", some (.number 0x4340000000000000), some .emptyMap, none⟩) ∧
    ((NewServer Unit).HandleMessage ParseFloat ()
        (ascii "\x7b\"jsonrpc\":\"2.0\",\"id\":9007199254740992,\"method\":\"ping\"\x7d")).map
          (·.1) =
      some (some ⟨ascii "2.0", some (.number 0x4340000000000000), some .emptyMap, none⟩) ∧
    ParseFloat (ascii "9007199254740993") = some 0x4340000000000000 ∧
    ParseFloat (ascii "9007199254740992") = some 0x4340000000000000 ∧
    float64Int 0x4340000000000000 = some 9007199254740992 ∧
    ((NewServer Unit).HandleMessage ParseFloat ()
        (ascii "\x7b\"jsonrpc\":\"2.0\",\"ID\":7,\"method\":\"ping\"\x7d")).map (·.1) =
      some (some ⟨ascii "2.0", some (.number 0x401C000000000000), some .emptyMap, none⟩) :=
  ⟨by rfl, by rfl, by rfl, by rfl, by rfl, by rfl, by rfl, by rfl, by rfl⟩

/-- C32, amended. Notifications get no response and requests get their id
back as `json.Unmarshal` has decoded it, where a message whose id is `null`
counts as a notification: for every message that `json.Unmarshal` accepts as a
`Request`, the field `ID` is the Go value decoded from the last member of the
object whose key selects it (nil for `null`, the string a string literal
stands for, the `float64` that `strconv.ParseFloat` reads from a number, which
stands for the number itself when the number is an integer of magnitude at
most 2^53 in decimal digits), and nil when there is no such member or when the
message is the text `null`; when
`ID` is nil, whatever the method, `HandleMessage` returns nil (and only notes a
`notifications/initialized`); when `ID` is not nil, `HandleMessage` returns
one response, whose id is that value and whose `jsonrpc` field is `2.0`, and
leaves the server as it is. -/
theorem C32_id_echo {σ : Type} (parseFloat : Bytes → Option Float64) (s : Server σ) (st : σ)
    (msg : Bytes) (req : Mcp.Request) (hwf : s.WellFormed)
    (hreq : UnmarshalRequest parseFloat msg = .ok req) :
    (firstByte msg ≠ some 123 → req.ID = none) ∧
    (firstByte msg = some 123 →
      (∀ m ∈ rawMembers msg, fieldOf m.1 ≠ some (ascii "ID")) → req.ID = none) ∧
    (∀ (pre post : List (Bytes × Bytes)) (m : Bytes × Bytes),
      firstByte msg = some 123 → rawMembers msg = pre ++ m :: post →
      fieldOf m.1 = some (ascii "ID") →
      (∀ x ∈ post, fieldOf x.1 ≠ some (ascii "ID")) →
      storeAny parseFloat m.2 = (req.ID, false) ∧
      (m.2.head? = some 110 → req.ID = none) ∧
      (∀ t, m.2.head? = some 34 → unquoteBytes m.2 = some t → req.ID = some (.string t)) ∧
      (m.2.head? ≠ some 110 → m.2.head? ≠ some 116 → m.2.head? ≠ some 102 →
        m.2.head? ≠ some 34 → m.2.head? ≠ some 91 → m.2.head? ≠ some 123 →
        ∃ f, parseFloat m.2 = some f ∧ req.ID = some (.number f)) ∧
      (∀ n : Int, parseFloat = ParseFloat → m.2 = appendInt n →
        -(2 : Int) ^ 53 ≤ n → n ≤ (2 : Int) ^ 53 →
        ∃ f, req.ID = some (.number f) ∧ float64Int f = some n)) ∧
    (req.ID = none →
      s.HandleMessage parseFloat st msg = some (none, s.handleNotification req, st)) ∧
    (∀ id, req.ID = some id →
      ∃ resp st1, s.HandleMessage parseFloat st msg = some (some resp, s, st1) ∧
        resp.ID = some id ∧ resp.JSONRPC = ascii "2.0") := by
  obtain ⟨_, hid⟩ := UnmarshalRequest_ok parseFloat msg req hreq
  refine ⟨?_, ?_, ?_, ?_, ?_⟩
  · intro h
    rw [hid, if_neg h]
  · intro h hno
    rw [hid, if_pos h]
    exact idOf_none parseFloat _ _ hno
  · intro pre post m h hms hm hpost
    have hval : req.ID = (storeAny parseFloat m.2).1 := by
      rw [hid, if_pos h, hms, idOf_last parseFloat pre post m none hm hpost]
    have hflag : (storeAny parseFloat m.2).2 = false :=
      (foldl_setMember_flag parseFloat _ _ (UnmarshalRequest_flag parseFloat msg req hreq h)).2
        m (by rw [hms]; simp) hm
    have hpair : storeAny parseFloat m.2 = (req.ID, false) := by
      rw [hval, ← hflag]
    obtain ⟨l1, _, _, l4, l5, l6⟩ := storeAny_literal parseFloat m.2
    have hnum : m.2.head? ≠ some 110 → m.2.head? ≠ some 116 → m.2.head? ≠ some 102 →
        m.2.head? ≠ some 34 → m.2.head? ≠ some 91 → m.2.head? ≠ some 123 →
        ∃ f, parseFloat m.2 = some f ∧ req.ID = some (.number f) := by
      intro h1 h2 h3 h4 h5 h6
      cases hf : parseFloat m.2 with
      | none =>
        rw [l6 h1 h2 h3 h4 h5 h6 hf] at hpair
        have hc : true = false := congrArg Prod.snd hpair
        cases hc
      | some f =>
        rw [l5 f h1 h2 h3 h4 h5 h6 hf] at hpair
        exact ⟨f, rfl, (congrArg Prod.fst hpair).symm⟩
    refine ⟨hpair, ?_, ?_, hnum, ?_⟩
    · intro hn
      rw [l1 hn] at hpair
      exact (congrArg Prod.fst hpair).symm
    · intro t hq ht
      rw [l4 t hq ht] at hpair
      exact (congrArg Prod.fst hpair).symm
    · intro n hpf hm2 hn1 hn2
      obtain ⟨a, mid, b, hshape, _, _, hfirst⟩ := appendInt_ends n
      have hhead : m.2.head? = some a := by
        rw [hm2]
        rcases hshape with e | e <;> rw [e] <;> rfl
      have hdig : a = 45 ∨ (48 ≤ a ∧ a ≤ 57) := by
        rcases hfirst with e | e
        · exact Or.inl e
        · exact Or.inr (by simpa [isDigit] using e)
      have hne : ∀ c : Nat, c ≠ 45 → ¬ (48 ≤ c ∧ c ≤ 57) → m.2.head? ≠ some c := by
        intro c hc1 hc2 e
        rw [hhead] at e
        have : a = c := Option.some.inj e
        omega
      obtain ⟨f, hf, hidf⟩ := hnum (hne 110 (by decide) (by omega)) (hne 116 (by decide) (by omega))
        (hne 102 (by decide) (by omega)) (hne 34 (by decide) (by omega))
        (hne 91 (by decide) (by omega)) (hne 123 (by decide) (by omega))
      obtain ⟨b2, hb1, hb2⟩ := ParseFloat_appendInt n hn1 hn2
      rw [hpf, hm2, hb1] at hf
      have : b2 = f := Option.some.inj hf
      subst this
      exact ⟨b2, hidf, hb2⟩
  · intro h
    exact HandleMessage_notification parseFloat s st msg req hreq h
  · intro id h
    obtain ⟨resp, st1, hd, hrid, hv, _, _⟩ := dispatch_spec parseFloat s st req hwf
    refine ⟨resp, st1, ?_, by rw [hrid, h], hv⟩
    rw [HandleMessage_request parseFloat s st msg req id hreq h, hd]
    rfl

set_option maxRecDepth 100000 in
/-- The witness of C32: a `ping` with the id 7, which is decoded into the
`float64` 7 (the bits `0x401C000000000000`), and a `ping` with the id `"a"`. -/
theorem C32_id_echo_witness :
    float64Int 0x401C000000000000 = some 7 ∧
    (∃ resp st1, (NewServer Unit).HandleMessage ParseFloat ()
        (ascii "\x7b\"jsonrpc\":\"2.0\",\"id\":7,\"method\":\"ping\"\x7d") =
          some (some resp, NewServer Unit, st1) ∧
      resp.ID = some (.number 0x401C000000000000) ∧ resp.JSONRPC = ascii "2.0") ∧
    (∃ resp st1, (NewServer Unit).HandleMessage ParseFloat ()
        (ascii "\x7b\"jsonrpc\":\"2.0\",\"id\":\"a\",\"method\":\"ping\"\x7d") =
          some (some resp, NewServer Unit, st1) ∧
      resp.ID = some (.string (ascii "a")) ∧ resp.JSONRPC = ascii "2.0") :=
  ⟨by rfl,
   (C32_id_echo ParseFloat (NewServer Unit) ()
      (ascii "\x7b\"jsonrpc\":\"2.0\",\"id\":7,\"method\":\"ping\"\x7d")
      ⟨ascii "2.0", some (.number 0x401C000000000000), ascii "ping", none⟩ (NewServer_wf Unit)
      (by rfl)).2.2.2.2 (.number 0x401C000000000000) rfl,
   (C32_id_echo ParseFloat (NewServer Unit) ()
      (ascii "\x7b\"jsonrpc\":\"2.0\",\"id\":\"a\",\"method\":\"ping\"\x7d")
      ⟨ascii "2.0", some (.string (ascii "a")), ascii "ping", none⟩ (NewServer_wf Unit)
      (by rfl)).2.2.2.2 (.string (ascii "a")) rfl⟩

set_option maxRecDepth 100000 in
/-- The counterexample to C33: a request for the unknown method `nope` whose
id is `null`: `HandleMessage` returns nil, so that no response carries the
code -32601. -/
theorem C33_counterexample :
    UnmarshalRequest ParseFloat
        (ascii "\x7b\"jsonrpc\":\"2.0\",\"id\":null,\"method\":\"nope\"\x7d") =
      .ok ⟨ascii "2.0", none, ascii "nope", none⟩ ∧
    (ascii "\"id\"", ascii "null") ∈
      rawMembers (ascii "\x7b\"jsonrpc\":\"2.0\",\"id\":null,\"method\":\"nope\"\x7d") ∧
    ((NewServer Unit).HandleMessage ParseFloat ()
        (ascii "\x7b\"jsonrpc\":\"2.0\",\"id\":null,\"method\":\"nope\"\x7d")).map (·.1) =
      some none :=
  ⟨by rfl, by decide, by rfl⟩

/-- C33, amended. Method dispatch errors: for every request that
`json.Unmarshal` accepts and whose id is not nil (an id `null` makes the
message a notification), `HandleMessage` returns a response, and the response
carries the error code -32601 (method not found) if and only if the method is
not one of `initialize`, `tools/list`, `tools/call`, `ping`; a message that is
not valid JSON yields the response with the error code -32700 and the id nil;
a `tools/call` whose parameters decode and name a tool that is not in the
index of the server yields no JSON-RPC error but a result with
`isError = true` and the text `unknown tool: ` followed by the name, and calls
no handler. -/
theorem C33_dispatch_errors {σ : Type} (parseFloat : Bytes → Option Float64) (s : Server σ) (st : σ)
    (msg : Bytes) (hwf : s.WellFormed) :
    (checkValid msg = false →
      s.HandleMessage parseFloat st msg =
        some (some ⟨ascii "2.0", none, none, some ⟨-32700, ascii "parse error: "⟩⟩, s, st)) ∧
    (∀ (req : Mcp.Request) (id : Any), UnmarshalRequest parseFloat msg = .ok req →
      req.ID = some id →
      ∃ resp st1, s.HandleMessage parseFloat st msg = some (some resp, s, st1) ∧
        ((∃ e, resp.Error = some e ∧ e.Code = -32601) ↔
          (req.Method ≠ ascii "initialize" ∧ req.Method ≠ ascii "tools/list" ∧
            req.Method ≠ ascii "tools/call" ∧ req.Method ≠ ascii "ping")) ∧
        (req.Method = ascii "tools/call" → ∀ cp, callParamsOf parseFloat req = .ok cp →
          mapGet s.index cp.Name = none →
          st1 = st ∧ resp.Error = none ∧
          resp.Result = some (.toolCall (ErrorResult (ascii "unknown tool: " ++ cp.Name))) ∧
          (ErrorResult (ascii "unknown tool: " ++ cp.Name)).IsError = true ∧
          (ErrorResult (ascii "unknown tool: " ++ cp.Name)).Content =
            [⟨ascii "text", ascii "unknown tool: " ++ cp.Name⟩])) := by
  refine ⟨fun h => HandleMessage_invalid parseFloat s st msg h, ?_⟩
  intro req id hreq hid
  obtain ⟨resp, st1, hd, _, _, hcode, hunk⟩ := dispatch_spec parseFloat s st req hwf
  refine ⟨resp, st1, ?_, hcode, ?_⟩
  · rw [HandleMessage_request parseFloat s st msg req id hreq hid, hd]
    rfl
  · intro hm cp hcp hn
    obtain ⟨h1, h2, h3⟩ := hunk hm cp hcp hn
    exact ⟨h1, h2, h3, rfl, rfl⟩

set_option maxRecDepth 100000 in
/-- The witness of C33: a text that is not JSON, and a call of the tool `nope`
on a server without tools. -/
theorem C33_dispatch_errors_witness :
    (NewServer Unit).HandleMessage ParseFloat () (ascii "\x7b\"jsonrpc\":") =
      some (some ⟨ascii "2.0", none, none, some ⟨-32700, ascii "parse error: "⟩⟩,
        NewServer Unit, ()) ∧
    ∃ resp st1, (NewServer Unit).HandleMessage ParseFloat ()
        (ascii "\x7b\"jsonrpc\":\"2.0\",\"id\":\"a\",\"method\":\"tools/call\",\"params\":\x7b\"name\":\"nope\"\x7d\x7d")
          = some (some resp, NewServer Unit, st1) ∧
      resp.Result = some (.toolCall (ErrorResult (ascii "unknown tool: nope"))) :=
  ⟨(C33_dispatch_errors ParseFloat (NewServer Unit) () (ascii "\x7b\"jsonrpc\":")
      (NewServer_wf Unit)).1 (by rfl),
   let ⟨resp, st1, h1, _, h3⟩ :=
     (C33_dispatch_errors ParseFloat (NewServer Unit) ()
      (ascii "\x7b\"jsonrpc\":\"2.0\",\"id\":\"a\",\"method\":\"tools/call\",\"params\":\x7b\"name\":\"nope\"\x7d\x7d")
      (NewServer_wf Unit)).2
      ⟨ascii "2.0", some (.string (ascii "a")), ascii "tools/call",
        some (ascii "\x7b\"name\":\"nope\"\x7d")⟩
      (.string (ascii "a")) (by rfl) rfl
   ⟨resp, st1, h1, (h3 rfl ⟨ascii "nope", none⟩ (by rfl) (by rfl)).2.2.1⟩⟩

end McpClaims
/-! ## The tools that need a confirmation -/

section McpConfirm

open Mcp Constants

/-- `boolean` is true for the JSON value `true` only. -/
theorem boolean_eq_true_iff (p : Args) (key : Bytes) :
    boolean p key = true ↔ mapGet p key = some (some (.bool true)) := by
  unfold boolean
  cases h : mapGet p key with
  | none => simp
  | some v =>
    cases v with
    | none => simp
    | some a => cases a <;> simp

/-- C34. Irreversible tools require confirm=true: for each of the tools
`notebook_delete`, `source_delete`, `studio_delete`, `source_sync_drive`,
`studio_create` and `note` with the action `delete`, and for every argument
map in which `confirm` is not the JSON value `true` (it is absent, `null`,
`false`, or a value that is not a boolean, such as the string `"true"`), the
handler returns a result with `isError = true` and leaves the state of the
client and of the network as it is, whatever the operations of the client
are; with the client that logs the operations invoked, the log is unchanged:
no operation of the API client is invoked, and so no RPC is sent. -/
theorem C34_confirm_required {σ : Type} (mapLower : Bytes → Bytes) (api : ApiOps σ) (p : Args)
    (st : σ) (h : mapGet p (ascii "confirm") ≠ some (some (.bool true))) :
    boolean p (ascii "confirm") = false ∧
    (∀ text, (ErrorResult text).IsError = true) ∧
    notebookDelete api p st =
      (.ok (ErrorResult (ascii "Set confirm=true to delete. This is IRREVERSIBLE.")), st) ∧
    sourceDelete api p st = (.ok (ErrorResult (ascii "Set confirm=true. IRREVERSIBLE.")), st) ∧
    studioDelete api p st = (.ok (ErrorResult (ascii "Set confirm=true. IRREVERSIBLE.")), st) ∧
    sourceSyncDrive api p st = (.ok (ErrorResult (ascii "Set confirm=true to sync.")), st) ∧
    studioCreate mapLower api p st =
      (.ok (ErrorResult (ascii "Set confirm=true to create.")), st) ∧
    (str p (ascii "action") = ascii "delete" →
      note api p st = (.ok (ErrorResult (ascii "Set confirm=true. IRREVERSIBLE.")), st)) ∧
    (∀ log : List Bytes,
      (notebookDelete api.logged p (st, log)).2 = (st, log) ∧
      (sourceDelete api.logged p (st, log)).2 = (st, log) ∧
      (studioDelete api.logged p (st, log)).2 = (st, log) ∧
      (sourceSyncDrive api.logged p (st, log)).2 = (st, log) ∧
      (studioCreate mapLower api.logged p (st, log)).2 = (st, log) ∧
      (str p (ascii "action") = ascii "delete" →
        (note api.logged p (st, log)).2 = (st, log))) := by
  have hb : boolean p (ascii "confirm") = false := by
    cases hv : boolean p (ascii "confirm") with
    | false => rfl
    | true => exact absurd ((boolean_eq_true_iff p _).mp hv) h
  have h1 : ∀ {τ : Type} (a : ApiOps τ) (s0 : τ), notebookDelete a p s0 =
      (.ok (ErrorResult (ascii "Set confirm=true to delete. This is IRREVERSIBLE.")), s0) := by
    intro τ a s0; simp [notebookDelete, hb]
  have h2 : ∀ {τ : Type} (a : ApiOps τ) (s0 : τ), sourceDelete a p s0 =
      (.ok (ErrorResult (ascii "Set confirm=true. IRREVERSIBLE.")), s0) := by
    intro τ a s0; simp [sourceDelete, hb]
  have h3 : ∀ {τ : Type} (a : ApiOps τ) (s0 : τ), studioDelete a p s0 =
      (.ok (ErrorResult (ascii "Set confirm=true. IRREVERSIBLE.")), s0) := by
    intro τ a s0; simp [studioDelete, hb]
  have h4 : ∀ {τ : Type} (a : ApiOps τ) (s0 : τ), sourceSyncDrive a p s0 =
      (.ok (ErrorResult (ascii "Set confirm=true to sync.")), s0) := by
    intro τ a s0; simp [sourceSyncDrive, hb]
  have h5 : ∀ {τ : Type} (a : ApiOps τ) (s0 : τ), studioCreate mapLower a p s0 =
      (.ok (ErrorResult (ascii "Set confirm=true to create.")), s0) := by
    intro τ a s0; simp [studioCreate, hb]
  have h6 : ∀ {τ : Type} (a : ApiOps τ) (s0 : τ), str p (ascii "action") = ascii "delete" →
      note a p s0 = (.ok (ErrorResult (ascii "Set confirm=true. IRREVERSIBLE.")), s0) := by
    intro τ a s0 ha
    unfold note
    simp only [ha]
    rw [if_neg (by decide), if_neg (by decide), if_neg (by decide), if_pos trivial]
    simp [hb]
  refine ⟨hb, fun _ => rfl, h1 api st, h2 api st, h3 api st, h4 api st, h5 api st,
    h6 api st, ?_⟩
  intro log
  refine ⟨?_, ?_, ?_, ?_, ?_, ?_⟩
  · rw [h1]
  · rw [h2]
  · rw [h3]
  · rw [h4]
  · rw [h5]
  · intro ha; rw [h6 _ _ ha]

set_option maxRecDepth 100000 in
/-- The witness of C34: the arguments are decoded from a call whose `confirm`
is the string `"true"`; the handler of `notebook_delete` answers with the
error result and the log of the client stays empty, while with the boolean
`true` the operation `DeleteNotebook` is invoked. -/
theorem C34_confirm_required_witness :
    UnmarshalToolCallParams ParseFloat
        (ascii "\x7b\"name\":\"notebook_delete\",\"arguments\":\x7b\"notebook_id\":\"n1\",\"confirm\":\"true\"\x7d\x7d")
      = .ok ⟨ascii "notebook_delete",
          some [(ascii "confirm", some (.string (ascii "true"))),
                (ascii "notebook_id", some (.string (ascii "n1")))]⟩ ∧
    notebookDelete ApiOps.idle.logged
        [(ascii "confirm", some (.string (ascii "true"))),
         (ascii "notebook_id", some (.string (ascii "n1")))]
        ((), []) =
      (.ok (ErrorResult (ascii "Set confirm=true to delete. This is IRREVERSIBLE.")), ((), [])) ∧
    (notebookDelete ApiOps.idle.logged
        [(ascii "confirm", some (.bool true)), (ascii "notebook_id", some (.string (ascii "n1")))]
        ((), [])).2 = ((), [ascii "DeleteNotebook"]) :=
  ⟨by rfl,
   (C34_confirm_required (fun s => s) ApiOps.idle.logged
      [(ascii "confirm", some (.string (ascii "true"))),
       (ascii "notebook_id", some (.string (ascii "n1")))]
      ((), []) (fun h => by cases h)).2.2.1,
   by rfl⟩

end McpConfirm

/-! ## The arguments of a tool call -/

section McpArgs

open Mcp Constants

/-- An argument of a call is the value of the last member of the arguments
object with that key. -/
theorem foldl_setMember_get (parseFloat : Bytes → Option Float64) (key : Bytes) :
    ∀ (ms : List (Bytes × Bytes)) (st : Args × Bool),
    mapGet (ms.foldl (Args.setMember parseFloat) st).1 key =
      argOf parseFloat ms key (mapGet st.1 key) := by
  intro ms
  induction ms with
  | nil => intro st; rfl
  | cons m rest ih =>
    intro st
    unfold argOf
    rw [List.foldl_cons, List.foldl_cons, ih]
    unfold argOf
    congr 1
    unfold Args.setMember objectMember
    cases hu : unquoteBytes m.1 with
    | none => simp
    | some k =>
      simp only [mapGet_mapSet, Option.some.injEq]
      by_cases hk : key = k
      · rw [if_pos hk, if_pos hk.symm]
      · rw [if_neg hk, if_neg (fun e => hk e.symm)]

/-- The argument `confirm` of a call decoded from an arguments object is true
exactly when the last member `confirm` of the object is the literal `true`. -/
theorem storeArgs_confirm (parseFloat : Bytes → Option Float64) (v : Bytes) (p : Args)
    (hv : v.head? = some 123) (hp : (storeArgs parseFloat v none).1 = some p) :
    boolean p (ascii "confirm") = true ↔
      argOf parseFloat (rawMembers v) (ascii "confirm") none = some (some (.bool true)) := by
  unfold storeArgs at hp
  rw [if_pos hv] at hp
  simp only [Option.getD_none, Option.some.injEq] at hp
  rw [boolean_eq_true_iff, ← hp, foldl_setMember_get]
  rfl

end McpArgs

/-! ## The double encoding of the parameters of `Execute` -/

theorem readInt_appendInt (n : Int) : readInt (appendInt n) = some n := by
  cases n with
  | ofNat k =>
    obtain ⟨ds, hds, hne, hall, hval, _⟩ := decimalDigits_spec (k + 1) k [] (by omega)
    rw [List.append_nil] at hds
    have hhead : (appendInt (Int.ofNat k)).head? ≠ some 45 := by
      simp only [appendInt]
      rw [hds]
      cases ds with
      | nil => exact absurd rfl hne
      | cons d r =>
        have : 48 ≤ d ∧ d ≤ 57 := by simpa [isDigit] using hall d (by simp)
        simp only [List.head?_cons, ne_eq, Option.some.injEq]
        omega
    have hall' : ds.all isDigit = true := List.all_eq_true.mpr hall
    unfold readInt
    simp only [hhead, decide_False, Bool.false_eq_true, if_false]
    simp only [appendInt]
    rw [hds, hval, if_pos ⟨hne, hall'⟩]
    rfl
  | negSucc k =>
    obtain ⟨ds, hds, hne, hall, hval, _⟩ := decimalDigits_spec (k + 2) (k + 1) [] (by omega)
    rw [List.append_nil] at hds
    have hhead : (appendInt (Int.negSucc k)).head? = some 45 := rfl
    have hall' : ds.all isDigit = true := List.all_eq_true.mpr hall
    have e : -((k + 1 : Nat) : Int) = Int.negSucc k := by
      rw [Int.negSucc_eq]; push_cast; ring
    unfold readInt
    simp only [hhead, decide_True, if_true]
    simp only [appendInt, List.drop_one, List.tail_cons]
    rw [hds, hval, if_pos ⟨hne, hall'⟩, e]

/-- One round of `readValueFuel`. -/
theorem readValueFuel_succ (fuel : Nat) (data : Bytes) :
    readValueFuel (fuel + 1) data =
      if checkValid data then
        if firstByte data = some 110 then some .nil
        else if firstByte data = some 116 then some (.bool true)
        else if firstByte data = some 102 then some (.bool false)
        else if firstByte data = some 34 then (unquoteBytes (trimValue data)).map .string
        else if firstByte data = some 91 then
          (readItems (readValueFuel fuel) (rawElements data)).map .slice
        else if firstByte data = some 123 then none
        else (readInt (trimValue data)).map .int
      else none := by
  rw [readValueFuel]

mutual
/-- The text `json.Marshal` writes for a value with well-formed strings, at
most `maxNestingDepth` deep, denotes the value. -/
theorem readValueFuel_Marshal : ∀ (v : GoValue) (t : Bytes) (fuel : Nat), Marshal v = some t →
    validStrings v = true → v.depth ≤ maxNestingDepth → v.depth < fuel →
    readValueFuel fuel t = some v
  | .nil, t, fuel, h, _, _, hf => by
    simp only [Marshal, Option.some.injEq] at h
    subst h
    cases fuel with
    | zero => simp [GoValue.depth] at hf
    | succ fuel => rfl
  | .bool b, t, fuel, h, _, _, hf => by
    simp only [Marshal, Option.some.injEq] at h
    subst h
    cases fuel with
    | zero => simp [GoValue.depth] at hf
    | succ fuel => cases b <;> rfl
  | .int n, t, fuel, h, _, _, hf => by
    simp only [Marshal, Option.some.injEq] at h
    subst h
    cases fuel with
    | zero => simp [GoValue.depth] at hf
    | succ fuel =>
      obtain ⟨a, mid, b, hshape, ha, hb, hfirst⟩ := appendInt_ends n
      obtain ⟨ht, hfb⟩ := trimValue_id (appendInt n) a b mid hshape ha hb
      have hdig : a = 45 ∨ (48 ≤ a ∧ a ≤ 57) := by
        rcases hfirst with h | h
        · exact Or.inl h
        · exact Or.inr (by simpa [isDigit] using h)
      rw [readValueFuel_succ, checkValid_appendInt, hfb, ht, readInt_appendInt]
      have h1 : ¬ a = 110 := by omega
      have h2 : ¬ a = 116 := by omega
      have h3 : ¬ a = 102 := by omega
      have h4 : ¬ a = 34 := by omega
      have h5 : ¬ a = 91 := by omega
      have h6 : ¬ a = 123 := by omega
      simp [h1, h2, h3, h4, h5, h6]
  | .string s, t, fuel, h, hv, _, hf => by
    simp only [Marshal, Option.some.injEq] at h
    subst h
    cases fuel with
    | zero => simp [GoValue.depth] at hf
    | succ fuel =>
      simp only [validStrings] at hv
      have hs := stringOf_appendString s hv
      have hfb : firstByte (appendString s) = some 34 := by
        simp [firstByte, appendString, isSpace]
      unfold stringOf at hs
      rw [if_pos ⟨checkValid_appendString s, hfb⟩] at hs
      rw [readValueFuel_succ, checkValid_appendString, hfb, hs]
      simp
  | .slice xs, t, fuel, h, hv, hd, hf => by
    obtain ⟨body, hb, ht⟩ : ∃ body, MarshalElems xs = some body ∧ t = 91 :: body ++ [93] := by
      simp only [Marshal, Option.map_eq_some'] at h
      obtain ⟨body, hb, rfl⟩ := h
      exact ⟨body, hb, rfl⟩
    obtain ⟨ts, hts⟩ := marshalAll_of_MarshalElems xs body hb
    have hu := UnmarshalRawSlice_Marshal xs t ts h hts hd
    have hvalid : checkValid t = true := by
      by_contra hc
      simp [UnmarshalRawSlice, hc] at hu
    have hfirst : firstByte t = some 91 := by
      rw [ht]
      simp [firstByte, isSpace]
    have hraw : rawElements t = ts := by
      unfold UnmarshalRawSlice at hu
      rw [hvalid, hfirst] at hu
      simpa using hu
    simp only [validStrings] at hv
    simp only [GoValue.depth] at hd hf
    cases fuel with
    | zero => omega
    | succ fuel =>
      have hlist := readItems_marshalAll xs ts fuel hts hv (by omega) (by omega)
      rw [readValueFuel_succ, hvalid, hfirst, hraw, hlist]
      simp
  | .unsupported, t, _, h, _, _, _ => by
    simp [Marshal] at h
/-- The loop over the texts of the elements of a marshalled slice. -/
theorem readItems_marshalAll : ∀ (xs : List GoValue) (ts : List Bytes) (fuel : Nat),
    marshalAll xs = some ts → validStringsList xs = true → depthList xs ≤ maxNestingDepth →
    (xs ≠ [] → depthList xs < fuel) →
    readItems (readValueFuel fuel) ts = some xs
  | [], ts, _, h, _, _, _ => by
    simp only [marshalAll, Option.some.injEq] at h
    subst h
    rfl
  | x :: rest, ts, fuel, h, hv, hd, hf => by
    simp only [marshalAll] at h
    cases hx : Marshal x with
    | none => simp [hx] at h
    | some a =>
      cases hr : marshalAll rest with
      | none => simp [hx, hr] at h
      | some b =>
        simp only [hx, hr, Option.some.injEq] at h
        subst h
        simp only [validStringsList, Bool.and_eq_true] at hv
        simp only [depthList] at hd
        have hf' := hf (by simp)
        simp only [depthList] at hf'
        have h1 := readValueFuel_Marshal x a fuel hx hv.1 (by omega) (by omega)
        have h2 := readItems_marshalAll rest b fuel hr hv.2 (by omega) (fun _ => by omega)
        simp only [readItems, h1, h2]
end

/-- Reading back what `json.Marshal` writes. -/
theorem readValue_Marshal (v : GoValue) (t : Bytes) (h : Marshal v = some t)
    (hv : validStrings v = true) (hd : v.depth ≤ maxNestingDepth) : readValue t = some v :=
  readValueFuel_Marshal v t (maxNestingDepth + 1) h hv hd (by omega)

set_option maxRecDepth 100000 in
/-- The counterexample to C2: the parameter is the Go string of the one byte
`0xFF`, which is not UTF-8.  `json.Marshal` accepts it and `Execute` sends the
envelope with the text written for it; that text, read back from the string
at `[0][0][1]` of the envelope, is a string literal that stands for the three
bytes of the replacement character U+FFFD: decoding it does not yield the
parameter again. -/
theorem C2_counterexample :
    ∃ pj : Bytes, Marshal (.string [255]) = some pj ∧
      (Client.Execute ⟨⟨ascii "SID=1", ascii "tok", []⟩, DefaultBuildLabel, 0⟩
          ⟨[], fun _ _ => .response 200 (.ok [])⟩ (ascii "R1") (.string [255]) []).2.2.sent.map
        (fun r => formValue r (ascii "f.req")) = [some (envelopeText (ascii "R1") pj)] ∧
      UnmarshalRawSlice (envelopeText (ascii "R1") pj) =
        .ok [[91] ++ envelopeRow (ascii "R1") pj ++ [93]] ∧
      UnmarshalRawSlice ([91] ++ envelopeRow (ascii "R1") pj ++ [93]) =
        .ok [envelopeRow (ascii "R1") pj] ∧
      UnmarshalRawSlice (envelopeRow (ascii "R1") pj) =
        .ok [appendString (ascii "R1"), appendString pj, ascii "null",
          appendString (ascii "generic")] ∧
      UnmarshalString (appendString pj) [] = .ok pj ∧
      UnmarshalString pj [] = .ok [239, 191, 189] ∧
      readValue pj = some (.string [239, 191, 189]) ∧
      ([239, 191, 189] : Bytes) ≠ [255] :=
  ⟨ascii "\"\\ufffd\"", by rfl, by rfl, by rfl, by rfl, by rfl, by rfl, by rfl, by rfl,
    by decide⟩

/-- C2, amended. Double encoding of the request envelope: for every identifier
and every parameter value built from nil, booleans, integers, strings and
slices that `json.Marshal` accepts, once the tokens are available `Execute`
sends a POST whose form field `f.req` is the JSON text of
`[[[rpcID, S, null, "generic"]]]`, the serialization of the three-level array
`fReqOuter`; decoding it level by level gives the one middle array, the one
innermost array and its four elements, the second of which is the JSON string
literal `S` for the text `json.Marshal(params)`; `S` read as a string is
exactly that text: the parameters are encoded twice, and unquoting once gives
back their JSON encoding.  Decoding that text yields the parameters again when
every string in them is well-formed UTF-8 and they are nested at most
`maxNestingDepth` deep. -/
theorem C2_double_encoding (c : Client) (w : World) (rpcID : Bytes) (params : GoValue)
    (sourcePath : Bytes) (st : Store) (w1 : World) (pj : Bytes)
    (hens : c.auth.EnsureTokens w = (none, st, w1)) (hpj : Marshal params = some pj) :
    (w1.sent ++ [executeRequest { c with auth := st } rpcID sourcePath
        (envelopeText rpcID pj) (wrapInt64 (c.reqID + 100000))]) <+:
      (c.Execute w rpcID params sourcePath).2.2.sent ∧
    formValue (executeRequest { c with auth := st } rpcID sourcePath
        (envelopeText rpcID pj) (wrapInt64 (c.reqID + 100000))) (ascii "f.req")
      = some (envelopeText rpcID pj) ∧
    Marshal (fReqOuter rpcID pj) = some (envelopeText rpcID pj) ∧
    UnmarshalRawSlice (envelopeText rpcID pj) = .ok [[91] ++ envelopeRow rpcID pj ++ [93]] ∧
    UnmarshalRawSlice ([91] ++ envelopeRow rpcID pj ++ [93]) = .ok [envelopeRow rpcID pj] ∧
    UnmarshalRawSlice (envelopeRow rpcID pj) =
      .ok [appendString rpcID, appendString pj, ascii "null",
        appendString (ascii "generic")] ∧
    firstByte (appendString pj) = some 34 ∧
    stringOf (appendString pj) = some pj ∧
    UnmarshalString (appendString pj) [] = .ok pj ∧
    (validStrings params = true → params.depth ≤ maxNestingDepth →
      readValue pj = some params) := by
  have hval := Marshal_valid params pj hpj
  refine ⟨Execute_sent c w rpcID params sourcePath st w1 pj hens hpj, ?_,
    Marshal_fReqOuter rpcID pj, UnmarshalRawSlice_envelopeText rpcID pj,
    UnmarshalRawSlice_envelopeMiddle rpcID pj, UnmarshalRawSlice_envelopeRow rpcID pj, ?_,
    stringOf_appendString pj hval,
    UnmarshalString_of_stringOf _ _ _ (stringOf_appendString pj hval),
    fun hv hd => readValue_Marshal params pj hpj hv hd⟩
  · simp [formValue, executeRequest, ascii]
  · simp [firstByte, appendString, isSpace]

set_option maxRecDepth 100000 in
/-- The witness of C2: a call with the parameters `["a\"b", null, 5]`. -/
theorem C2_double_encoding_witness :
    Marshal (.slice [.string (ascii "a\"b"), .nil, .int 5]) = some (ascii "[\"a\\\"b\",null,5]") ∧
    stringOf (appendString (ascii "[\"a\\\"b\",null,5]")) = some (ascii "[\"a\\\"b\",null,5]") ∧
    readValue (ascii "[\"a\\\"b\",null,5]") =
      some (.slice [.string (ascii "a\"b"), .nil, .int 5]) :=
  ⟨rfl,
   (C2_double_encoding ⟨⟨ascii "SID=1", ascii "tok", []⟩, DefaultBuildLabel, 0⟩
      ⟨[], fun _ _ => .response 200 (.ok [])⟩ (ascii "R1")
      (.slice [.string (ascii "a\"b"), .nil, .int 5]) []
      ⟨ascii "SID=1", ascii "tok", []⟩ ⟨[], fun _ _ => .response 200 (.ok [])⟩
      (ascii "[\"a\\\"b\",null,5]") (by rfl) (by rfl)).2.2.2.2.2.2.2.1,
   (C2_double_encoding ⟨⟨ascii "SID=1", ascii "tok", []⟩, DefaultBuildLabel, 0⟩
      ⟨[], fun _ _ => .response 200 (.ok [])⟩ (ascii "R1")
      (.slice [.string (ascii "a\"b"), .nil, .int 5]) []
      ⟨ascii "SID=1", ascii "tok", []⟩ ⟨[], fun _ _ => .response 200 (.ok [])⟩
      (ascii "[\"a\\\"b\",null,5]") (by rfl) (by rfl)).2.2.2.2.2.2.2.2.2 (by decide) (by decide)⟩

end NotebookLM
